import Mathlib

/-!
Advancing-front hole filling (`js/AdvancingFront.js`)

A shallow embedding of the `AdvancingFront` object: the front and the filling are
`THREE.Geometry` values passed explicitly, the `Angle` objects live in an object
store indexed by natural numbers (their identity), and a JavaScript exception is an
`Except.error`.  The geometry kernel (`THREE.Vector3` arithmetic, `Plane`, `Utils`)
is not part of the sources; the functions the algorithm calls are fields of `Env`.
Numbers are rationals.
-/

namespace AdvancingFront

/-! ## Data model -/

/-- A `THREE.Vector3` object.  `ref` is the identity of the object (two objects
with equal coordinates are still two objects); `x`, `y`, `z` are its coordinates. -/
structure Vector3 where
  ref : Nat
  x : ℚ
  y : ℚ
  z : ℚ
deriving DecidableEq

instance : Inhabited Vector3 := ⟨⟨0, 0, 0, 0⟩⟩

/-- The method `Vector3.equals` of THREE: exact equality of the three coordinates. -/
def Vector3.equals (a b : Vector3) : Bool :=
  decide (a.x = b.x) && decide (a.y = b.y) && decide (a.z = b.z)

/-- A `THREE.Face3`: three indices into a vertex list.  An index is a JavaScript
number, so it may be `-1` (the result of a failed `indexOf`). -/
structure Face3 where
  a : Int
  b : Int
  c : Int
deriving DecidableEq

/-- A `THREE.Geometry`, reduced to the two fields the algorithm uses. -/
structure Geometry where
  vertices : List Vector3
  faces : List Face3
deriving DecidableEq

/-- The errors the code can raise. -/
inductive Err where
  /-- "No rule could be applied. Stopping before entering endless loop." -/
  | noRule
  /-- "Vertex not found in front." -/
  | vertexNotFound
  /-- "Situation that shouldn't be possible. Neither previous nor next angle
  contain the new vertex." -/
  | impossibleSituation
  /-- A `TypeError`: a property of `undefined` or `null` is read. -/
  | typeError
deriving DecidableEq

/-! ## JavaScript arrays -/

/-- The call `xs.indexOf( x )`: the first position of `x`, or `-1`. -/
def arrIndexOf {α : Type} [DecidableEq α] (xs : List α) (x : α) : Int :=
  if x ∈ xs then (List.indexOf x xs : Int) else -1

/-- The read `xs[i]`: `none` stands for `undefined`. -/
def arrGet {α : Type} (xs : List α) (i : Int) : Option α :=
  if 0 ≤ i then xs.get? i.toNat else none

/-- The start position `splice` computes from its first argument. -/
def spliceStart (len : Nat) (i : Int) : Nat :=
  if i < 0 then (len + i).toNat else min i.toNat len

/-- The call `xs.splice( i, 1 )`: one element is removed at the start position. -/
def arrSplice1 {α : Type} (xs : List α) (i : Int) : List α :=
  xs.eraseIdx (spliceStart xs.length i)

/-- The call `xs.splice( i, 0, x )`: `x` is inserted at the start position. -/
def arrSpliceIns {α : Type} (xs : List α) (i : Int) (x : α) : List α :=
  xs.insertIdx (spliceStart xs.length i) x

/-- The assignment `xs[i] = x` for an index that `indexOf` returned: a negative
index sets a property of the array object and leaves its elements alone. -/
def arrSet {α : Type} (xs : List α) (i : Int) (x : α) : List α :=
  if 0 ≤ i then xs.set i.toNat x else xs

/-- A read that raises a `TypeError` when the value is `undefined` or `null`. -/
def deref {α : Type} (o : Option α) : Except Err α :=
  match o with
  | some a => Except.ok a
  | none => Except.error Err.typeError

/-! ## The environment: geometry kernel, configuration, globals -/

/-- The result of `Utils.calculateVariances`: the variance of each coordinate and
the average point. -/
structure Variances where
  x : ℚ
  y : ℚ
  z : ℚ
  average : Vector3

/-- What the algorithm reads from outside `AdvancingFront.js`. -/
structure Env where
  /-- The degree an `Angle` computes for its triple `(vp, v, vn)`. -/
  calculateAngle : Vector3 → Vector3 → Vector3 → ℚ
  /-- The oracle `Utils.checkIntersectionOfTriangles3D( a, b, c, p, q, r )`; the
  last three arguments may be `undefined`. -/
  checkIntersectionOfTriangles3D :
    Vector3 → Vector3 → Vector3 → Option Vector3 → Option Vector3 → Option Vector3 → Bool
  /-- The method `Vector3.distanceTo`. -/
  distanceTo : Vector3 → Vector3 → ℚ
  /-- The point `afRule2` constructs from `vp`, `v`, `vn` (its coordinates). -/
  rule2Point : Vector3 → Vector3 → Vector3 → Vector3
  /-- The point `afRule3` constructs from `vp`, `v`, `vn` and the angle, before
  `keepNearPlane` (its coordinates). -/
  rule3Point : Vector3 → Vector3 → Vector3 → ℚ → Vector3
  /-- The function `Utils.calculateVariances( [v, vn] )`. -/
  calculateVariances : Vector3 → Vector3 → Variances
  /-- The key by which `THREE.Geometry.mergeVertices` identifies vertices. -/
  mergeKey : Vector3 → Int × Int × Int
  /-- The value `CONFIG.DEBUG.AFM_STOP_AFTER_ITER`: `none` is `false`. -/
  AFM_STOP_AFTER_ITER : Option Nat
  /-- The value `CONFIG.HF.FILLING.COLLISION_TEST`. -/
  COLLISION_TEST : String
  /-- The value `CONFIG.HF.FILLING.THRESHOLD_MERGE`. -/
  THRESHOLD_MERGE : ℚ
  /-- The geometry `GLOBAL.MODEL.geometry`. -/
  MODEL : Geometry

/-- The method `THREE.Geometry.mergeVertices` on the vertex list: of the vertices
with one key only the first is kept. -/
def mergeVerticesAux (E : Env) : List Vector3 → List (Int × Int × Int) → List Vector3
  | [], _ => []
  | v :: vs, seen =>
    if E.mergeKey v ∈ seen then mergeVerticesAux E vs seen
    else v :: mergeVerticesAux E vs (E.mergeKey v :: seen)

/-- The call `g.mergeVertices()` for a geometry without faces. -/
def mergeVertices (E : Env) (vs : List Vector3) : List Vector3 :=
  mergeVerticesAux E vs []

/-! ## Angles and queues -/

/-- Modelled from the spec: the Angle record (the class `Angle` is not among the
sources): "an ordered triple (previous, current, next) of Vertex references plus a
derived degree value, and ownership links previous/next to the Angle objects
representing the boundary's neighboring corners".  A link is the position of the
neighbour in the object store, `none` while it is `null`. -/
structure Angle where
  vertices : Vector3 × Vector3 × Vector3
  degree : ℚ
  previous : Option Nat
  next : Option Nat
deriving DecidableEq

/-- Modelled from the spec: `angle.calculateAngle()` of the missing class `Angle`
recomputes the derived degree from the triple. -/
def Angle.calculateAngle (E : Env) (a : Angle) : Angle :=
  { a with degree := E.calculateAngle a.vertices.1 a.vertices.2.1 a.vertices.2.2 }

/-- Modelled from the spec: `angle.setVertices( vs )` of the missing class `Angle`
("the interior angle is computed once at initialization and on every mutation"). -/
def Angle.setVertices (E : Env) (a : Angle) (vs : Vector3 × Vector3 × Vector3) : Angle :=
  Angle.calculateAngle E { a with vertices := vs }

/-- Modelled from the spec: `new Angle( vs )` of the missing class `Angle`. -/
def Angle.create (E : Env) (vs : Vector3 × Vector3 × Vector3) : Angle :=
  Angle.calculateAngle E { vertices := vs, degree := 0, previous := none, next := none }

/-- An entry of a queue: an Angle (its position in the object store) under the
degree it was inserted with. -/
structure HeapEntry where
  degree : ℚ
  angle : Nat
deriving DecidableEq

/-- Modelled from the spec: the Priority Bucket Queue (the class `Heap` is not among
the sources): "a priority collection ordered by ascending angle degree, supporting
insertion, removal of a specific entry, removal of the smallest entry, and size
query".  `values` is kept in ascending order of degree; `pops` counts the calls of
`removeFirst` (a ghost field, to tell which queue was popped). -/
structure Heap where
  name : String
  values : List HeapEntry
  pops : Nat
deriving DecidableEq

/-- Modelled from the spec: `new Heap( name )`, an empty queue. -/
def Heap.create (name : String) : Heap :=
  { name := name, values := [], pops := 0 }

/-- Insertion into a list in ascending order of degree, after the entries of the
same degree. -/
def insertEntry (e : HeapEntry) : List HeapEntry → List HeapEntry
  | [] => [e]
  | x :: xs => if e.degree < x.degree then e :: x :: xs else x :: insertEntry e xs

/-- Modelled from the spec: `heap.insert( angle )`. -/
def Heap.insert (h : Heap) (degree : ℚ) (angle : Nat) : Heap :=
  { h with values := insertEntry ⟨degree, angle⟩ h.values }

/-- The entries without the first one of the given Angle. -/
def removeEntry (angle : Nat) : List HeapEntry → List HeapEntry
  | [] => []
  | x :: xs => if x.angle = angle then xs else x :: removeEntry angle xs

/-- Modelled from the spec: `heap.remove( angle )`, "removal of a specific entry
(no-op if absent)". -/
def Heap.remove (h : Heap) (angle : Nat) : Heap :=
  { h with values := removeEntry angle h.values }

/-- Modelled from the spec: `heap.removeFirst()`, "remove and return the Angle of
least degree; undefined result if empty". -/
def Heap.removeFirst (h : Heap) : Option Nat × Heap :=
  match h.values with
  | [] => (none, { h with pops := h.pops + 1 })
  | e :: rest => (some e.angle, { h with values := rest, pops := h.pops + 1 })

/-- Modelled from the spec: `heap.length()`, the size query. -/
def Heap.length (h : Heap) : Nat :=
  h.values.length

/-- Modelled from the spec: `heap.sort()`; the queue is kept in ascending order by
`insert`, so there is nothing to do. -/
def Heap.sort (h : Heap) : Heap :=
  h

/-- The mutable state of the `AdvancingFront` object during one fill: the four
queues, the debug flag, and the store of the `Angle` objects created so far.
`alloc` is the identity the next `THREE.Vector3` created by a rule gets. -/
structure AFState where
  LAST_ITERATION : Bool
  HEAP_RULE_1 : Heap
  HEAP_RULE_2 : Heap
  HEAP_RULE_3 : Heap
  HEAP_RULE_R : Heap
  angles : List Angle
  alloc : Nat
deriving DecidableEq

/-- The Angle object at a position of the store; reading through a dangling or
`null` link is a `TypeError`. -/
def AFState.angle (af : AFState) (r : Nat) : Except Err Angle :=
  deref (af.angles.get? r)

/-- An in-place update of the Angle object at position `r`. -/
def AFState.modify (af : AFState) (r : Nat) (f : Angle → Angle) : AFState :=
  { af with angles := af.angles.modify f r }

/-- The four queues of the `AdvancingFront` object. -/
inductive HeapId where
  | rule1
  | rule2
  | rule3
  | ruleR
deriving DecidableEq

/-- The queue of the given name. -/
def AFState.heap (af : AFState) : HeapId → Heap
  | HeapId.rule1 => af.HEAP_RULE_1
  | HeapId.rule2 => af.HEAP_RULE_2
  | HeapId.rule3 => af.HEAP_RULE_3
  | HeapId.ruleR => af.HEAP_RULE_R

/-- The method `heapInsert( angle )`; `r` is the Angle object. -/
def heapInsert (af : AFState) (r : Nat) : Except Err AFState :=
  match af.angle r with
  | Except.error e => Except.error e
  | Except.ok angle =>
    if angle.degree ≤ 75 then
      Except.ok { af with HEAP_RULE_1 := af.HEAP_RULE_1.insert angle.degree r }
    else if angle.degree ≤ 135 then
      Except.ok { af with HEAP_RULE_2 := af.HEAP_RULE_2.insert angle.degree r }
    else if angle.degree < 180 then
      Except.ok { af with HEAP_RULE_3 := af.HEAP_RULE_3.insert angle.degree r }
    else
      Except.ok { af with HEAP_RULE_R := af.HEAP_RULE_R.insert angle.degree r }

/-- The method `heapRemove( angle )`; `r` is the Angle object. -/
def heapRemove (af : AFState) (r : Nat) : Except Err AFState :=
  match af.angle r with
  | Except.error e => Except.error e
  | Except.ok angle =>
    if angle.degree ≤ 75 then
      Except.ok { af with HEAP_RULE_1 := af.HEAP_RULE_1.remove r }
    else if angle.degree ≤ 135 then
      Except.ok { af with HEAP_RULE_2 := af.HEAP_RULE_2.remove r }
    else if angle.degree < 180 then
      Except.ok { af with HEAP_RULE_3 := af.HEAP_RULE_3.remove r }
    else
      Except.ok { af with HEAP_RULE_R := af.HEAP_RULE_R.remove r }

/-- The initialisation loop of `afmStart` ("Initialize heaps"): the Angles
`ca.angles[i]`, `i = 0, 1, ...`, are put into the queues. -/
def initHeaps (af : AFState) : List Nat → Except Err AFState
  | [] => Except.ok af
  | r :: rest =>
    match af.angle r with
    | Except.error e => Except.error e
    | Except.ok angle =>
      if angle.degree ≤ 75 then
        initHeaps { af with HEAP_RULE_1 := af.HEAP_RULE_1.insert angle.degree r } rest
      else if angle.degree ≤ 135 then
        initHeaps { af with HEAP_RULE_2 := af.HEAP_RULE_2.insert angle.degree r } rest
      else if angle.degree < 180 then
        initHeaps { af with HEAP_RULE_3 := af.HEAP_RULE_3.insert angle.degree r } rest
      else
        initHeaps { af with HEAP_RULE_R := af.HEAP_RULE_R.insert angle.degree r } rest

/-! ## The validity predicate -/

/-- Whether one of the corners `a`, `b`, `c` of a face has the coordinates of `p`. -/
def touches (a b c p : Vector3) : Bool :=
  a.equals p || b.equals p || c.equals p

/-- The test `a.equals( p ) || b.equals( p ) || c.equals( p )` on the corners of a
face as `isInHole` reads them from the vertex list: a corner is evaluated only if
no corner before it has the coordinates of `p`, and raises a `TypeError` if it is
`undefined`. -/
def touchesAt (vertices : List Vector3) (face : Face3) (p : Vector3) : Except Err Bool :=
  match arrGet vertices face.a with
  | none => Except.error Err.typeError
  | some a =>
    if a.equals p then Except.ok true
    else
      match arrGet vertices face.b with
      | none => Except.error Err.typeError
      | some b =>
        if b.equals p then Except.ok true
        else
          match arrGet vertices face.c with
          | none => Except.error Err.typeError
          | some c => Except.ok (c.equals p)

/-- The first loop of `isInHole`, over the faces of the filling.  When the test
against `fromA` has returned `false`, it has read all three corners, so that none
of them is `undefined` in the tests that follow. -/
def isInHoleFilling (E : Env) (vertices : List Vector3) (v fromA : Vector3)
    (fromB : Option Vector3) : List Face3 → Except Err Bool
  | [] => Except.ok true
  | face :: rest =>
    match touchesAt vertices face fromA with
    | Except.error e => Except.error e
    | Except.ok true => isInHoleFilling E vertices v fromA fromB rest
    | Except.ok false =>
      match arrGet vertices face.a, arrGet vertices face.b, arrGet vertices face.c with
      | some a, some b, some c =>
        if (match fromB with
            | some fB => touches a b c fB
            | none => touches a b c v) then
          isInHoleFilling E vertices v fromA fromB rest
        else if E.checkIntersectionOfTriangles3D a b c (some v) (some fromA) fromB then
          Except.ok false
        else isInHoleFilling E vertices v fromA fromB rest
      | _, _, _ => Except.error Err.typeError

/-- The second loop of `isInHole`, over the faces of the whole model. -/
def isInHoleModel (E : Env) (vertices : List Vector3) (v fromA : Vector3)
    (fromB : Option Vector3) : List Face3 → Except Err Bool
  | [] => Except.ok true
  | face :: rest =>
    match touchesAt vertices face fromA with
    | Except.error e => Except.error e
    | Except.ok true => isInHoleModel E vertices v fromA fromB rest
    | Except.ok false =>
      match arrGet vertices face.a, arrGet vertices face.b, arrGet vertices face.c with
      | some a, some b, some c =>
        if (match fromB with
            | some fB => touches a b c fB
            | none => false) then
          isInHoleModel E vertices v fromA fromB rest
        else if E.checkIntersectionOfTriangles3D a b c (some fromA) fromB (some v) then
          Except.ok false
        else isInHoleModel E vertices v fromA fromB rest
      | _, _, _ => Except.error Err.typeError

/-- The method `isInHole( front, filling, v, fromA, fromB )`; `fromB = none` is a
call with four arguments. -/
def isInHole (E : Env) (_front filling : Geometry) (v fromA : Vector3)
    (fromB : Option Vector3) : Except Err Bool :=
  match isInHoleFilling E filling.vertices v fromA fromB filling.faces with
  | Except.error e => Except.error e
  | Except.ok false => Except.ok false
  | Except.ok true =>
    if E.COLLISION_TEST = "all" then
      isInHoleModel E E.MODEL.vertices v fromA fromB E.MODEL.faces
    else Except.ok true

/-! ## The rules -/

/-- What `afRule1` hands back: its boolean result, the front and the filling. -/
structure Rule1Result where
  ok : Bool
  front : Geometry
  filling : Geometry
deriving DecidableEq

/-- What `afRule2` and `afRule3` hand back: the new vertex (`none` is the result
`false`), the front and the filling. -/
structure RuleResult where
  vNew : Option Vector3
  front : Geometry
  filling : Geometry
deriving DecidableEq

/-- The method `afRule1( front, filling, vp, v, vn )`. -/
def afRule1 (E : Env) (front filling : Geometry) (vp v vn : Vector3) :
    Except Err Rule1Result :=
  let vIndex := arrIndexOf filling.vertices v
  let vnIndex := arrIndexOf filling.vertices vn
  let vpIndex := arrIndexOf filling.vertices vp
  match isInHole E front filling vp vn none with
  | Except.error e => Except.error e
  | Except.ok false => Except.ok { ok := false, front := front, filling := filling }
  | Except.ok true =>
    Except.ok {
      ok := true
      front := { front with
        vertices := arrSplice1 front.vertices (arrIndexOf front.vertices v) }
      filling := { filling with faces := filling.faces ++ [⟨vIndex, vpIndex, vnIndex⟩] } }

/-- The method `afRule2( front, filling, vp, v, vn )`; `ref` is the identity of
the `THREE.Vector3` the rule creates. -/
def afRule2 (E : Env) (front filling : Geometry) (vp v vn : Vector3) (ref : Nat) :
    Except Err RuleResult :=
  let vNew : Vector3 := { E.rule2Point vp v vn with ref := ref }
  match isInHole E front filling vNew vp (some vn) with
  | Except.error e => Except.error e
  | Except.ok false => Except.ok { vNew := none, front := front, filling := filling }
  | Except.ok true =>
    let vertices := filling.vertices ++ [vNew]
    let len : Int := vertices.length
    let vpIndex := arrIndexOf vertices vp
    let vIndex := arrIndexOf vertices v
    let vnIndex := arrIndexOf vertices vn
    let ix := arrIndexOf front.vertices v
    Except.ok {
      vNew := some vNew
      front := { front with vertices := arrSet front.vertices ix vNew }
      filling := {
        vertices := vertices
        faces := filling.faces ++ [⟨vIndex, vpIndex, len - 1⟩, ⟨vIndex, len - 1, vnIndex⟩] } }

/-- The method `keepNearPlane( v, vn, vNew )`. -/
def keepNearPlane (E : Env) (v vn vNew : Vector3) : Vector3 :=
  let variance := E.calculateVariances v vn
  if variance.x < variance.y then
    if variance.x < variance.z then { vNew with x := variance.average.x }
    else { vNew with z := variance.average.z }
  else
    if variance.y < variance.z then { vNew with y := variance.average.y }
    else { vNew with z := variance.average.z }

/-- The method `afRule3( front, filling, vp, v, vn, angle )`; `ref` is the
identity of the `THREE.Vector3` the rule creates. -/
def afRule3 (E : Env) (front filling : Geometry) (vp v vn : Vector3) (angle : ℚ)
    (ref : Nat) : Except Err RuleResult :=
  let vNew : Vector3 := keepNearPlane E v vn { E.rule3Point vp v vn angle with ref := ref }
  match isInHole E front filling vNew vp (some vn) with
  | Except.error e => Except.error e
  | Except.ok false => Except.ok { vNew := none, front := front, filling := filling }
  | Except.ok true =>
    let vertices := filling.vertices ++ [vNew]
    let len : Int := vertices.length
    let vnIndex := arrIndexOf vertices vn
    let vIndex := arrIndexOf vertices v
    let ix := arrIndexOf front.vertices v
    Except.ok {
      vNew := some vNew
      front := { front with vertices := arrSpliceIns front.vertices (ix + 1) vNew }
      filling := {
        vertices := vertices
        faces := filling.faces ++ [⟨vnIndex, vIndex, len - 1⟩] } }

/-- The method `closeHole3( front, filling )`. -/
def closeHole3 (front filling : Geometry) : Geometry :=
  let ix := fun (i : Int) =>
    match arrGet front.vertices i with
    | some u => arrIndexOf filling.vertices u
    | none => -1
  { filling with faces := filling.faces ++ [⟨ix 1, ix 0, ix 2⟩] }

/-- The method `closeHole4( front, filling )`. -/
def closeHole4 (front filling : Geometry) : Geometry :=
  let ix := fun (i : Int) =>
    match arrGet front.vertices i with
    | some u => arrIndexOf filling.vertices u
    | none => -1
  { filling with faces := filling.faces ++ [⟨ix 3, ix 2, ix 0⟩, ⟨ix 1, ix 0, ix 2⟩] }

/-! ## Applying a rule and keeping the queues -/

/-- What `applyRule1`, `applyRule2`, `applyRule3` leave behind: the returned value
(`none` is `false`), the state of the object, the front and the filling. -/
structure ApplyResult where
  vNew : Option Vector3
  af : AFState
  front : Geometry
  filling : Geometry
deriving DecidableEq

/-- The method `applyRule1( front, filling )`. -/
def applyRule1 (E : Env) (af : AFState) (front filling : Geometry) :
    Except Err ApplyResult := do
  let popped := af.HEAP_RULE_1.removeFirst
  let af := { af with HEAP_RULE_1 := popped.2 }
  let r ← deref popped.1
  let angle ← af.angle r
  let res ← afRule1 E front filling angle.vertices.1 angle.vertices.2.1 angle.vertices.2.2
  if res.ok then do
    let p ← deref angle.previous
    let af ← heapRemove af p
    let af := af.modify p (fun a =>
      a.setVertices E (a.vertices.1, a.vertices.2.1, angle.vertices.2.2))
    let af := af.modify p (fun a => { a with next := angle.next })
    let af ← heapInsert af p
    let n ← deref angle.next
    let af ← heapRemove af n
    let af := af.modify n (fun a =>
      a.setVertices E (angle.vertices.1, a.vertices.2.1, a.vertices.2.2))
    let af := af.modify n (fun a => { a with previous := angle.previous })
    let af ← heapInsert af n
    pure { vNew := none, af := af, front := res.front, filling := res.filling }
  else
    pure {
      vNew := none
      af := { af with HEAP_RULE_1 := af.HEAP_RULE_1.insert angle.degree r }
      front := res.front
      filling := res.filling }

/-- The method `applyRule2( front, filling )`. -/
def applyRule2 (E : Env) (af : AFState) (front filling : Geometry) :
    Except Err ApplyResult := do
  let popped := af.HEAP_RULE_2.removeFirst
  let af := { af with HEAP_RULE_2 := popped.2 }
  let r ← deref popped.1
  let angle ← af.angle r
  let res ← afRule2 E front filling angle.vertices.1 angle.vertices.2.1 angle.vertices.2.2
    af.alloc
  let af := { af with alloc := af.alloc + 1 }
  match res.vNew with
  | some vNew => do
    let af := af.modify r (fun a =>
      a.setVertices E (a.vertices.1, vNew, a.vertices.2.2))
    let af ← heapInsert af r
    let p ← deref angle.previous
    let af ← heapRemove af p
    let af := af.modify p (fun a =>
      a.setVertices E (a.vertices.1, a.vertices.2.1, vNew))
    let af ← heapInsert af p
    let n ← deref angle.next
    let af ← heapRemove af n
    let af := af.modify n (fun a =>
      a.setVertices E (vNew, a.vertices.2.1, a.vertices.2.2))
    let af ← heapInsert af n
    pure { vNew := some vNew, af := af, front := res.front, filling := res.filling }
  | none =>
    pure {
      vNew := none
      af := { af with HEAP_RULE_2 := af.HEAP_RULE_2.insert angle.degree r }
      front := res.front
      filling := res.filling }

/-- The method `applyRule3( front, filling )`. -/
def applyRule3 (E : Env) (af : AFState) (front filling : Geometry) :
    Except Err ApplyResult := do
  let popped := af.HEAP_RULE_3.removeFirst
  let af := { af with HEAP_RULE_3 := popped.2 }
  let r ← deref popped.1
  let angle ← af.angle r
  let res ← afRule3 E front filling angle.vertices.1 angle.vertices.2.1 angle.vertices.2.2
    angle.degree af.alloc
  let af := { af with alloc := af.alloc + 1 }
  match res.vNew with
  | some vNew => do
    let newAngle := af.angles.length
    let af := { af with angles := af.angles ++ [
      { Angle.create E (angle.vertices.2.1, vNew, angle.vertices.2.2) with
        previous := some r, next := angle.next }] }
    let af ← heapInsert af newAngle
    let n ← deref angle.next
    let af ← heapRemove af n
    let af := af.modify n (fun a =>
      a.setVertices E (vNew, a.vertices.2.1, a.vertices.2.2))
    let af := af.modify n (fun a => { a with previous := some newAngle })
    let af ← heapInsert af n
    let af := af.modify r (fun a =>
      a.setVertices E (a.vertices.1, a.vertices.2.1, vNew))
    let af := af.modify r (fun a => { a with next := some newAngle })
    let af ← heapInsert af r
    pure { vNew := some vNew, af := af, front := res.front, filling := res.filling }
  | none =>
    pure {
      vNew := none
      af := { af with HEAP_RULE_3 := af.HEAP_RULE_3.insert angle.degree r }
      front := res.front
      filling := res.filling }

/-! ## The Angle ring of a front -/

/-- One round of the loop of `computeAngles`, for the index `i`. -/
def computeAnglesStep (E : Env) (front : List Vector3) (angles : List Angle) (i : Nat) :
    List Angle :=
  let len := front.length
  let vp := front.getD (if i = 0 then len - 1 else i - 1) default
  let v := front.getD i default
  let vn := front.getD ((i + 1) % len) default
  let prev : Option Nat := if i = 0 then none else some (angles.length - 1)
  let angle : Angle := { Angle.create E (vp, v, vn) with previous := prev }
  let angles := angles ++ [angle]
  if 0 < i then
    angles.modify (fun a => { a with next := some (angles.length - 1) }) (angles.length - 2)
  else angles

/-- The method `computeAngles( front )`: the list `angles` of its result, as the
content of a fresh object store (the entry `smallest` of the result is not used by
`afmStart`).  On an empty front `angles[0]` is `undefined`. -/
def computeAngles (E : Env) (front : List Vector3) : Except Err (List Angle) :=
  let angles := (List.range front.length).foldl (computeAnglesStep E front) []
  if angles.length = 0 then Except.error Err.typeError
  else
    let angles := angles.modify (fun a => { a with previous := some (angles.length - 1) }) 0
    Except.ok
      (angles.modify (fun a => { a with next := some 0 }) (angles.length - 1))

/-! ## Merging vertices -/

/-- Modelled from the spec: `Utils.decreaseHigherFaceIndexes( faces, i, cmpIndex )`
(the object `Utils` is not among the sources): the indices of face `i` greater than
`cmpIndex` are decremented, and face `i` is dropped if it is degenerate, "i.e.
references the same vertex twice". -/
def decreaseHigherFaceIndexes (faces : List Face3) (i : Nat) (cmpIndex : Int) :
    List Face3 :=
  match faces.get? i with
  | none => faces
  | some face =>
    let face : Face3 := {
      a := if face.a > cmpIndex then face.a - 1 else face.a
      b := if face.b > cmpIndex then face.b - 1 else face.b
      c := if face.c > cmpIndex then face.c - 1 else face.c }
    if face.a = face.b ∨ face.a = face.c ∨ face.b = face.c then faces.eraseIdx i
    else faces.set i face

/-- The loop of `updateFaces`: the faces `n - 1`, ..., `0` are visited in this order. -/
def updateFacesLoop (oldIndex newIndex : Int) : Nat → List Face3 → List Face3
  | 0, faces => faces
  | i + 1, faces =>
    match faces.get? i with
    | none => updateFacesLoop oldIndex newIndex i faces
    | some face =>
      let face : Face3 := {
        a := if face.a = oldIndex then newIndex else face.a
        b := if face.b = oldIndex then newIndex else face.b
        c := if face.c = oldIndex then newIndex else face.c }
      updateFacesLoop oldIndex newIndex i
        (decreaseHigherFaceIndexes (faces.set i face) i oldIndex)

/-- The method `updateFaces( filling, oldIndex, newIndex )`. -/
def updateFaces (filling : Geometry) (oldIndex newIndex : Int) : Geometry :=
  { filling with
    faces := updateFacesLoop oldIndex newIndex filling.faces.length filling.faces }

/-- The method `mergeUpdateFront( front, vOld, vNew )`. -/
def mergeUpdateFront (front : Geometry) (vOld vNew : Vector3) : Except Err Geometry :=
  let ixFrom := arrIndexOf front.vertices vOld
  let ixTo := arrIndexOf front.vertices vNew
  if ixFrom < 0 ∨ ixTo < 0 then Except.error Err.vertexNotFound
  else Except.ok { front with vertices := arrSplice1 front.vertices ixFrom }

/-- The replacement of the queue of the given name. -/
def AFState.setHeap (af : AFState) (id : HeapId) (h : Heap) : AFState :=
  match id with
  | HeapId.rule1 => { af with HEAP_RULE_1 := h }
  | HeapId.rule2 => { af with HEAP_RULE_2 := h }
  | HeapId.rule3 => { af with HEAP_RULE_3 := h }
  | HeapId.ruleR => { af with HEAP_RULE_R := h }

/-- The search of `heapMergeVertex` in one queue: the first queued Angle whose
middle vertex is the object `vOld`. -/
def findMiddle (af : AFState) (vOld : Vector3) : List HeapEntry → Except Err (Option Nat)
  | [] => Except.ok none
  | e :: rest =>
    match af.angle e.angle with
    | Except.error err => Except.error err
    | Except.ok angle =>
      if angle.vertices.2.1 = vOld then Except.ok (some e.angle)
      else findMiddle af vOld rest

/-- The search of `heapMergeVertex` through the queues in the order of `search`. -/
def findMiddleIn (af : AFState) (vOld : Vector3) :
    List HeapId → Except Err (Option (HeapId × Nat))
  | [] => Except.ok none
  | id :: rest =>
    match findMiddle af vOld (af.heap id).values with
    | Except.error err => Except.error err
    | Except.ok (some r) => Except.ok (some (id, r))
    | Except.ok none => findMiddleIn af vOld rest

/-- The part of `heapMergeVertex` that rewrites the triples of the two neighbours of
the matched Angle (`p` its `previous`, `n` its `next`), or throws. -/
def mergeTriples (af : AFState) (angle : Angle) (p n : Nat) (vNew : Vector3) :
    Except Err AFState :=
  match af.angle p with
  | Except.error e => Except.error e
  | Except.ok pa =>
    if pa.vertices.2.1 = vNew then
      let af := af.modify p (fun a =>
        { a with vertices := (a.vertices.1, a.vertices.2.1, angle.vertices.2.2) })
      Except.ok (af.modify n (fun a =>
        { a with vertices := (vNew, a.vertices.2.1, a.vertices.2.2) }))
    else
      match af.angle n with
      | Except.error e => Except.error e
      | Except.ok na =>
        if na.vertices.2.1 = vNew then
          let af := af.modify p (fun a =>
            { a with vertices := (a.vertices.1, a.vertices.2.1, vNew) })
          Except.ok (af.modify n (fun a =>
            { a with vertices := (angle.vertices.1, a.vertices.2.1, a.vertices.2.2) }))
        else Except.error Err.impossibleSituation

/-- The method `heapMergeVertex( vOld, vNew )`, with its boolean result. -/
def heapMergeVertex (E : Env) (af : AFState) (vOld vNew : Vector3) :
    Except Err (Bool × AFState) := do
  let found ← findMiddleIn af vOld [HeapId.rule1, HeapId.rule2, HeapId.rule3, HeapId.ruleR]
  match found with
  | none => pure (false, af)
  | some (id, r) => do
    let angle ← af.angle r
    let p ← deref angle.previous
    let n ← deref angle.next
    let af ← mergeTriples af angle p n vNew
    let af := af.modify p (fun a => { a with next := angle.next })
    let af := af.modify n (fun a => { a with previous := angle.previous })
    let af ← heapRemove af p
    let af := af.modify p (Angle.calculateAngle E)
    let af ← heapInsert af p
    let af ← heapRemove af n
    let af := af.modify n (Angle.calculateAngle E)
    let af ← heapInsert af n
    pure (true, af.setHeap id ((af.heap id).remove r))

/-- The state the merge pass works on. -/
structure MergeState where
  af : AFState
  front : Geometry
  filling : Geometry
deriving DecidableEq

/-- One round of the loop of `mergeByDistance`, for the neighbour `t = compare[i]`
(`none` is `undefined`). -/
def mergeNeighbour (E : Env) (v : Vector3) (ignore : List Vector3) (s : MergeState)
    (t : Option Vector3) : Except Err MergeState :=
  match t with
  | none => Except.error Err.typeError
  | some t =>
    if arrIndexOf ignore t ≥ 0 then Except.ok s
    else if E.distanceTo v t ≤ E.THRESHOLD_MERGE then do
      let tIndex := arrIndexOf s.filling.vertices t
      let vIndex := arrIndexOf s.filling.vertices v
      let filling := { s.filling with vertices := arrSplice1 s.filling.vertices tIndex }
      let filling := updateFaces filling tIndex vIndex
      let front ← mergeUpdateFront s.front t v
      let merged ← heapMergeVertex E s.af t v
      pure { af := merged.2, front := front, filling := filling }
    else Except.ok s

/-- The array `compare` of `mergeByDistance`: the entries of the front before and
after the position `vIndexFront` of `v`, cyclically (`none` is `undefined`). -/
def compareNeighbours (front : List Vector3) (vIndexFront : Int) : List (Option Vector3) :=
  let len : Int := front.length
  let vIndexBefore := vIndexFront - 1
  let vIndexAfter := vIndexFront + 1
  let vIndexBefore := if vIndexBefore < 0 then len - 1 else vIndexBefore
  let vIndexAfter := if vIndexAfter > len - 1 then 0 else vIndexAfter
  [arrGet front vIndexBefore, arrGet front vIndexAfter]

/-- The method `mergeByDistance( front, filling, v, ignore )`; `v = none` is the
value `false`. -/
def mergeByDistance (E : Env) (s : MergeState) (v : Option Vector3)
    (ignore : List Vector3) : Except Err MergeState :=
  match v with
  | none => Except.ok s
  | some v =>
    let vIndex := arrIndexOf s.filling.vertices v
    let vIndexFront := arrIndexOf s.front.vertices v
    if vIndex < 0 then Except.ok s
    else
      (compareNeighbours s.front.vertices vIndexFront).foldlM (mergeNeighbour E v ignore) s

/-! ## The main loop -/

/-- The local variables of `afmStart` at the head of the `while` loop, with the
state of the object. -/
structure LoopState where
  af : AFState
  front : Geometry
  filling : Geometry
  count : Nat
deriving DecidableEq

/-- How one round of the `while` loop ends: with the next round, or with `break`. -/
inductive Outcome where
  | next (s : LoopState)
  | finished (s : LoopState)
deriving DecidableEq

/-- The rule-selection part of the loop body (lines "Rule 1" to the `throw`). -/
def applyRules (E : Env) (s : LoopState) : Except Err ApplyResult :=
  if s.af.HEAP_RULE_1.length > 0 then applyRule1 E s.af s.front s.filling
  else if s.af.HEAP_RULE_2.length > 0 then applyRule2 E s.af s.front s.filling
  else if s.af.HEAP_RULE_3.length > 0 then applyRule3 E s.af s.front s.filling
  else Except.error Err.noRule

/-- The merge part of the loop body, after a rule returned `vNew`. -/
def mergeStep (E : Env) (hole : List Vector3) (count : Nat) (res : ApplyResult) :
    Except Err Outcome :=
  if res.vNew.isNone ∨ res.front.vertices.length ≠ 3 then
    match mergeByDistance E ⟨res.af, res.front, res.filling⟩ res.vNew hole with
    | Except.error e => Except.error e
    | Except.ok m => Except.ok (Outcome.next ⟨m.af, m.front, m.filling, count⟩)
  else Except.ok (Outcome.next ⟨res.af, res.front, res.filling, count⟩)

/-- The head of a round that the debug cap does not end: `count++`, and the flag
`LAST_ITERATION` when the cap is reached with this round. -/
def enterRound (E : Env) (s : LoopState) : LoopState :=
  if E.AFM_STOP_AFTER_ITER.any (fun stopIter => s.count + 1 = stopIter) then
    { s with count := s.count + 1, af := { s.af with LAST_ITERATION := true } }
  else { s with count := s.count + 1 }

/-- One round of the `while( true )` loop of `afmStart`. -/
def loopBody (E : Env) (hole : List Vector3) (s : LoopState) : Except Err Outcome :=
  if E.AFM_STOP_AFTER_ITER.any (fun stopIter => s.count + 1 > stopIter) then
    Except.ok (Outcome.finished { s with count := s.count + 1 })
  else
    let s := enterRound E s
    if s.front.vertices.length = 4 then
      Except.ok (Outcome.finished { s with filling := closeHole4 s.front s.filling })
    else if s.front.vertices.length = 3 then
      Except.ok (Outcome.finished { s with filling := closeHole3 s.front s.filling })
    else if s.front.vertices.length = 1 then
      Except.ok (Outcome.finished s)
    else
      match applyRules E s with
      | Except.error e => Except.error e
      | Except.ok res => mergeStep E hole s.count res

/-- The `while` loop, run for at most `fuel` rounds; `none` when the rounds do not
suffice. -/
def afmLoop (E : Env) (hole : List Vector3) : Nat → LoopState → Except Err (Option LoopState)
  | 0, _ => Except.ok none
  | fuel + 1, s =>
    match loopBody E hole s with
    | Except.error e => Except.error e
    | Except.ok (Outcome.finished s1) => Except.ok (some s1)
    | Except.ok (Outcome.next s1) => afmLoop E hole fuel s1

/-- The identity for the first `THREE.Vector3` a rule creates: one that no vertex
of the hole or of the model has. -/
def firstFree (vs : List Vector3) : Nat :=
  (vs.map (fun v => v.ref + 1)).foldl max 0

/-- The part of `afmStart` before the `while` loop. -/
def afmInit (E : Env) (hole : List Vector3) : Except Err LoopState := do
  let front : Geometry := { vertices := mergeVertices E hole, faces := [] }
  let filling : Geometry := { vertices := mergeVertices E hole, faces := [] }
  let angles ← computeAngles E front.vertices
  let af : AFState := {
    LAST_ITERATION := false
    HEAP_RULE_1 := Heap.create "1"
    HEAP_RULE_2 := Heap.create "2"
    HEAP_RULE_3 := Heap.create "3"
    HEAP_RULE_R := Heap.create "R"
    angles := angles
    alloc := firstFree (hole ++ E.MODEL.vertices) }
  let af ← initHeaps af (List.range angles.length)
  let af := { af with
    HEAP_RULE_1 := af.HEAP_RULE_1.sort
    HEAP_RULE_2 := af.HEAP_RULE_2.sort
    HEAP_RULE_3 := af.HEAP_RULE_3.sort }
  pure { af := af, front := front, filling := filling, count := 0 }

/-- The method `afmStart( model, hole )`, its loop run for at most `fuel` rounds:
the final state, whose `filling` is the value returned. -/
def afmStart (E : Env) (hole : List Vector3) (fuel : Nat) : Except Err (Option LoopState) :=
  match afmInit E hole with
  | Except.error e => Except.error e
  | Except.ok s => afmLoop E hole fuel s

/-! ## Concrete data for the examples -/

/-- A vertex in the plane `z = 0`. -/
def vtx (n : Nat) (x y : ℚ) : Vector3 :=
  ⟨n, x, y, 0⟩

/-- An environment in which every corner measures 60 degrees, no two triangles
intersect, and only the faces of the filling are tested. -/
def envSixty : Env := {
  calculateAngle := fun _ _ _ => 60
  checkIntersectionOfTriangles3D := fun _ _ _ _ _ _ => false
  distanceTo := fun _ _ => 10
  rule2Point := fun _ v _ => v
  rule3Point := fun _ v _ _ => v
  calculateVariances := fun v _ => ⟨0, 0, 0, v⟩
  mergeKey := fun v => (v.ref, 0, 0)
  AFM_STOP_AFTER_ITER := none
  COLLISION_TEST := "filling"
  THRESHOLD_MERGE := 1
  MODEL := ⟨[], []⟩ }

/-- A loop of five vertices. -/
def hole5 : List Vector3 :=
  [vtx 0 0 0, vtx 1 2 0, vtx 2 3 1, vtx 3 1 3, vtx 4 (-1) 1]

/-- The state of the object with the given queues and Angle store. -/
def mkAF (h1 h2 h3 hR : List HeapEntry) (angles : List Angle) : AFState := {
  LAST_ITERATION := false
  HEAP_RULE_1 := { name := "1", values := h1, pops := 0 }
  HEAP_RULE_2 := { name := "2", values := h2, pops := 0 }
  HEAP_RULE_3 := { name := "3", values := h3, pops := 0 }
  HEAP_RULE_R := { name := "R", values := hR, pops := 0 }
  angles := angles
  alloc := 100 }

/-- The numbers of `removeFirst` calls the four queues have seen. -/
def popCounts (af : AFState) : Nat × Nat × Nat × Nat :=
  (af.HEAP_RULE_1.pops, af.HEAP_RULE_2.pops, af.HEAP_RULE_3.pops, af.HEAP_RULE_R.pops)

/-- The computation does not end with the error "No rule could be applied". -/
def NotStuck {α : Type} (x : Except Err α) : Prop :=
  x ≠ Except.error Err.noRule

/-- The environment `envSixty` with the debug cap `AFM_STOP_AFTER_ITER` set to 0. -/
def envCapped : Env :=
  { envSixty with AFM_STOP_AFTER_ITER := some 0 }

/-- An environment in which every corner measures 60 degrees, the collision test
is "all", and the one face of the model intersects every candidate triangle. -/
def envReject : Env :=
  { envSixty with
    checkIntersectionOfTriangles3D := fun _ _ _ _ _ _ => true
    COLLISION_TEST := "all"
    MODEL := ⟨[⟨10, 7, 7, 7⟩, ⟨11, 8, 7, 7⟩, ⟨12, 7, 8, 7⟩], [⟨0, 1, 2⟩]⟩ }

/-- The Angle objects `computeAngles` builds for `hole5` when every corner
measures 60 degrees. -/
def angles5 : List Angle :=
  [⟨(vtx 4 (-1) 1, vtx 0 0 0, vtx 1 2 0), 60, some 4, some 1⟩,
   ⟨(vtx 0 0 0, vtx 1 2 0, vtx 2 3 1), 60, some 0, some 2⟩,
   ⟨(vtx 1 2 0, vtx 2 3 1, vtx 3 1 3), 60, some 1, some 3⟩,
   ⟨(vtx 2 3 1, vtx 3 1 3, vtx 4 (-1) 1), 60, some 2, some 4⟩,
   ⟨(vtx 3 1 3, vtx 4 (-1) 1, vtx 0 0 0), 60, some 3, some 0⟩]

/-- The state of the object after the initialisation of `afmStart` on `hole5`
when every corner measures 60 degrees: the five Angles are in the Rule-1 queue. -/
def af5 : AFState :=
  { mkAF [⟨60, 0⟩, ⟨60, 1⟩, ⟨60, 2⟩, ⟨60, 3⟩, ⟨60, 4⟩] [] [] [] angles5 with alloc := 13 }

/-- The state at the head of the loop in which `hole5` is both the front and the
vertex list of the filling, no face is committed, and the Angles of `angles5` are
queued for Rule 1 in the order of `values`. -/
def loop5 (values : List HeapEntry) (pops count : Nat) : LoopState := {
  af := { af5 with HEAP_RULE_1 := { name := "1", values := values, pops := pops } }
  front := ⟨hole5, []⟩
  filling := ⟨hole5, []⟩
  count := count }

/-- The Angle of the corner at position `i` of a front, as `computeAngles` leaves
it: the triple of the cyclic neighbours and the links to the Angles of the
positions before and after. -/
def ringAngle (E : Env) (front : List Vector3) (i : Nat) : Angle :=
  { Angle.create E
      (front.getD (if i = 0 then front.length - 1 else i - 1) default, front.getD i default,
        front.getD ((i + 1) % front.length) default) with
    previous := some (if i = 0 then front.length - 1 else i - 1)
    next := some (if i + 1 < front.length then i + 1 else 0) }

/-- Every Angle object of the store has both links set, to objects of the store. -/
def LinksOk (af : AFState) : Prop :=
  ∀ (r : Nat) (a : Angle), af.angles[r]? = some a →
    ∃ p n, a.previous = some p ∧ a.next = some n ∧ p < af.angles.length ∧
      n < af.angles.length

/-- The state at the head of the loop after `k` further rounds, if none of them
leaves the loop or throws. -/
def stateAfter (E : Env) (hole : List Vector3) : Nat → LoopState → Option LoopState
  | 0, s => some s
  | k + 1, s =>
    match loopBody E hole s with
    | Except.ok (Outcome.next s1) => stateAfter E hole k s1
    | _ => none

/-- The Rule-1 queue is non-empty and the Angle `removeFirst` would pop passes the
test `isInHole( front, filling, vp, vn )` of `afRule1`. -/
def ruleOneReady (E : Env) (s : LoopState) : Bool :=
  match s.af.HEAP_RULE_1.values with
  | [] => false
  | e :: _ =>
    match s.af.angle e.angle with
    | Except.ok angle =>
      (match isInHole E s.front s.filling angle.vertices.1 angle.vertices.2.2 none with
        | Except.ok true => true
        | _ => false)
    | Except.error _ => false

/-- An environment in which any two vertices are within the merge threshold. -/
def envNear : Env :=
  { envSixty with distanceTo := fun _ _ => 0 }

/-- The three indices of a face are pairwise distinct. -/
def Face3.Distinct (f : Face3) : Prop :=
  f.a ≠ f.b ∧ f.a ≠ f.c ∧ f.b ≠ f.c

/-- The three indices of a face are pairwise distinct positions of a vertex list
of length `n`. -/
def Face3.Valid (n : Nat) (f : Face3) : Prop :=
  f.Distinct ∧ (0 ≤ f.a ∧ f.a < n) ∧ (0 ≤ f.b ∧ f.b < n) ∧ (0 ≤ f.c ∧ f.c < n)

/-- The triple `(vp, v, vn)` is a corner of the front: `v` is its entry at some
position `i`, `vp` and `vn` the entries cyclically before and after it, as
`computeAngles` reads them. -/
def IsCorner (front : List Vector3) (vp v vn : Vector3) : Prop :=
  ∃ i, i < front.length ∧ front[i]? = some v ∧
    front[if i = 0 then front.length - 1 else i - 1]? = some vp ∧
    front[(i + 1) % front.length]? = some vn

/-- The face has the two indices `i` and `j` among its three: the undirected edge
between them is an edge of the face. -/
def Face3.hasEdge (f : Face3) (i j : Int) : Bool :=
  (decide (f.a = i) || decide (f.b = i) || decide (f.c = i)) &&
    (decide (f.a = j) || decide (f.b = j) || decide (f.c = j))

/-- The number of faces the undirected edge between the indices `i ≠ j` belongs to. -/
def edgeCount (faces : List Face3) (i j : Int) : Nat :=
  (faces.filter (fun f => f.hasEdge i j)).length

/-- The queue the if-chain of `heapInsert` and of `heapRemove` selects for a degree. -/
def queueOf (d : ℚ) : HeapId :=
  if d ≤ 75 then HeapId.rule1
  else if d ≤ 135 then HeapId.rule2
  else if d < 180 then HeapId.rule3
  else HeapId.ruleR

/-- The Angle objects in the queue of the given name, in the order of the queue. -/
def queued (af : AFState) (id : HeapId) : List Nat :=
  (af.heap id).values.map (fun e => e.angle)

/-- The three indices of a face are positions of a vertex list of length `n`. -/
def Face3.InRange (n : Nat) (f : Face3) : Prop :=
  (0 ≤ f.a ∧ f.a < n) ∧ (0 ≤ f.b ∧ f.b < n) ∧ (0 ≤ f.c ∧ f.c < n)

/-- The environment `envSixty` with an intersection test that reports an
intersection for every pair of triangles. -/
def envHit : Env :=
  { envSixty with checkIntersectionOfTriangles3D := fun _ _ _ _ _ _ => true }

/-- The environment `envSixty` with an intersection test that reports an
intersection exactly for the candidates that have the vertex `w` among the three
points passed. -/
def envCorner (w : Vector3) : Env :=
  { envSixty with
    checkIntersectionOfTriangles3D := fun _ _ _ p q r =>
      decide (p = some w ∨ q = some w ∨ r = some w) }

/-- What `updateFaces( filling, oldIndex, newIndex )` makes of one index of a face:
`oldIndex` is replaced by `newIndex`, and then `Utils.decreaseHigherFaceIndexes`
decrements an index greater than `oldIndex`. -/
def reindex (oldIndex newIndex k : Int) : Int :=
  let k := if k = oldIndex then newIndex else k
  if k > oldIndex then k - 1 else k

/-- The three indices of a face after `reindex`. -/
def reindexFace (oldIndex newIndex : Int) (f : Face3) : Face3 :=
  ⟨reindex oldIndex newIndex f.a, reindex oldIndex newIndex f.b, reindex oldIndex newIndex f.c⟩

instance (f : Face3) : Decidable f.Distinct := by
  unfold Face3.Distinct
  infer_instance

/-- A state for the merge pass: the front `[h0, t, v, h1]` with the new vertices
`t` and `v` between two vertices of the hole loop, empty queues, and the given
filling. -/
def mergeEx (vertices : List Vector3) (faces : List Face3) : MergeState :=
  ⟨mkAF [] [] [] [] [], ⟨[vtx 0 0 0, vtx 5 1 0, vtx 6 1 1, vtx 1 0 1], []⟩, ⟨vertices, faces⟩⟩

/-- The position cyclically before `i` in a front of `n` entries, as `computeAngles`
computes it. -/
def cycPrev (n i : Nat) : Nat :=
  if i = 0 then n - 1 else i - 1

/-- The position cyclically after `i` in a front of `n` entries. -/
def cycNext (n i : Nat) : Nat :=
  if i + 1 < n then i + 1 else 0

/-- The Angle with the front entries at the positions `a`, `b`, `c` as its triple,
the degree of this triple, and the links to the Angle objects that `ring` lists at
`a` and `c`. -/
def mkCorner (E : Env) (front : List Vector3) (ring : List Nat) (a b c : Nat) : Angle :=
  { Angle.create E (front.getD a default, front.getD b default, front.getD c default) with
    previous := some (ring.getD a 0)
    next := some (ring.getD c 0) }

/-- The Angle of the corner at position `i` of the front, when `ring` lists the
Angle objects of the corners in the order of the front: the triple of the entries
cyclically before, at and after `i`, and the links to the Angle objects of the
positions cyclically before and after `i`. -/
def cornerAngle (E : Env) (front : List Vector3) (ring : List Nat) (i : Nat) : Angle :=
  mkCorner E front ring (cycPrev front.length i) i (cycNext front.length i)

/-- The Angles form a circular doubly-linked list isomorphic to the front: `ring`
lists one Angle object per front entry, no object twice, and the object listed at
position `i` is the Angle of the corner at position `i`. -/
def RingOk (E : Env) (af : AFState) (front : List Vector3) (ring : List Nat) : Prop :=
  ring.length = front.length ∧ ring.Nodup ∧
    ∀ i, i < front.length → af.angles[ring.getD i 0]? = some (cornerAngle E front ring i)

/-- Queue membership is exclusive and degree-consistent for the Angle objects in
`live`: an object of `live` is exactly once in the queue `heapInsert` selects for
its degree and in no other queue, and an object outside `live` is in no queue. -/
def QueuesOk (af : AFState) (live : List Nat) : Prop :=
  ∀ (id : HeapId) (r : Nat), (queued af id).count r =
    if r ∈ live ∧ (af.angles[r]?).map (fun a => queueOf a.degree) = some id then 1 else 0

/-- The Angle with the given triple, the degree of the triple, and the given links. -/
def mkAngle (E : Env) (vp v vn : Vector3) (p n : Nat) : Angle :=
  { Angle.create E (vp, v, vn) with previous := some p, next := some n }

instance (E : Env) (af : AFState) (front : List Vector3) (ring : List Nat) :
    Decidable (RingOk E af front ring) := by
  unfold RingOk
  infer_instance

/-- The environment `envSixty` with the variances 1, 1, 2 for x, y, z (a tie between
x and y below z) and the average point (7, 8, 9). -/
def envTie : Env :=
  { envSixty with calculateVariances := fun _ _ => ⟨1, 1, 2, ⟨0, 7, 8, 9⟩⟩ }

/-- The environment `envSixty` with three equal variances and the average point
(7, 8, 9). -/
def envEqual : Env :=
  { envSixty with calculateVariances := fun _ _ => ⟨1, 1, 1, ⟨0, 7, 8, 9⟩⟩ }

/-! ## Loading a model (`js/Loader.js`, `js/config.js`) -/

/-- The loaders of THREE that `Loader.getLoader` creates. -/
inductive LoaderKind where
  | OBJLoader
  | PLYLoader
  | STLLoader
deriving DecidableEq

/-- The error of `Loader.getLoader`: "No loader available for extension ...". -/
inductive LoaderErr where
  | noLoader (extension : String)
deriving DecidableEq

/-- The value `CONFIG.ALLOWED_FILE_EXTENSIONS` of `js/config.js`. -/
def ALLOWED_FILE_EXTENSIONS : List String :=
  ["obj", "ply", "stl"]

/-- The method `Loader.getLoader( extension )`: the `switch` compares with `===`. -/
def Loader.getLoader (extension : String) : Except LoaderErr LoaderKind :=
  if extension = "obj" then Except.ok LoaderKind.OBJLoader
  else if extension = "ply" then Except.ok LoaderKind.PLYLoader
  else if extension = "stl" then Except.ok LoaderKind.STLLoader
  else Except.error (LoaderErr.noLoader extension)

/-- The method `Loader.validateFileExtension( extension )`. -/
def Loader.validateFileExtension (extension : String) : Bool :=
  decide (arrIndexOf ALLOWED_FILE_EXTENSIONS extension ≥ 0)

/-- How a call of `Loader.loadFile` ends. -/
inductive LoadResult where
  /-- "No file selected.", the result `false`. -/
  | noFile
  /-- The extension is not supported; an error is logged. -/
  | unsupported
  /-- The file is read and `loadModel` runs: what its call of `getLoader` gives. -/
  | model (loader : Except LoaderErr LoaderKind)

/-- The method `Loader.loadFile( e )` up to the call of `getLoader` that `loadModel`
makes once `readFile` has read the file.  `files` are the names of `e.target.files`;
`getFileExtension` stands for the method of this name (`split` and `toLowerCase` of
JavaScript). -/
def Loader.loadFile (getFileExtension : String → String) (files : List String) :
    LoadResult :=
  match files with
  | [] => LoadResult.noFile
  | name :: _ =>
    let extension := getFileExtension name
    if Loader.validateFileExtension extension then
      LoadResult.model (Loader.getLoader extension)
    else LoadResult.unsupported

/-- A state at the head of the loop on `hole5` in which the Angle of the second
corner is the only one queued, for Rule 3. -/
def loopRule3 : LoopState := {
  af := { af5 with
    HEAP_RULE_1 := { name := "1", values := [], pops := 0 }
    HEAP_RULE_3 := { name := "3", values := [⟨60, 1⟩], pops := 0 } }
  front := ⟨hole5, []⟩
  filling := ⟨hole5, []⟩
  count := 0 }

/-- The pairs of cyclically consecutive entries of a list of vertex indices: the
edges of the closed loop through them, each in the direction of the list. -/
def cycEdges (l : List Int) : List (Int × Int) :=
  l.zip (l.rotate 1)

/-- The undirected edge between the indices `a` and `b` is an edge of the closed
loop through the indices of `l`. -/
def loopEdge (l : List Int) (a b : Int) : Prop :=
  (a, b) ∈ cycEdges l ∨ (b, a) ∈ cycEdges l

instance (l : List Int) (a b : Int) : Decidable (loopEdge l a b) := by
  unfold loopEdge
  infer_instance

/-- The indices in `filling.vertices` of the vertices of a list (`-1` for a vertex
that is not there). -/
def indicesOf (filling : Geometry) (vs : List Vector3) : List Int :=
  vs.map (arrIndexOf filling.vertices)

/-- The equation of the edge parity: an undirected edge lies in an odd number of
faces of the filling exactly if it is in the symmetric difference of the edge set
of the hole loop and the cyclic edge set of the front. -/
def EdgeParity (hole : List Vector3) (front filling : Geometry) : Prop :=
  ∀ a b : Int, a ≠ b →
    (edgeCount filling.faces a b % 2 = 1 ↔
      Xor' (loopEdge (indicesOf filling hole) a b)
        (loopEdge (indicesOf filling front.vertices) a b))

/-- The equation of a closed hole: an undirected edge lies in an odd number of
faces of the filling exactly if it is an edge of the hole loop. -/
def HoleParity (hole : List Vector3) (filling : Geometry) : Prop :=
  ∀ a b : Int, a ≠ b →
    (edgeCount filling.faces a b % 2 = 1 ↔ loopEdge (indicesOf filling hole) a b)

/-- A loop of three vertices. -/
def hole3 : List Vector3 :=
  [vtx 0 0 0, vtx 1 2 0, vtx 2 3 1]

/-- The key of `THREE.Geometry.mergeVertices` for one coordinate,
`Math.round( x * 10000 )`, computed from the numerator and the denominator of `x`. -/
def roundKey (x : ℚ) : Int :=
  (20000 * x.num + x.den) / (2 * x.den)

/-- The environment `envSixty` with the key of `THREE.Geometry.mergeVertices`: the
three coordinates rounded to 4 decimals. -/
def envKeys : Env :=
  { envSixty with mergeKey := fun v => (roundKey v.x, roundKey v.y, roundKey v.z) }

/-- A loop of three vertices at (0, 0, 0), (0.00001, 0, 0) and (1, 0, 0). -/
def holeNear3 : List Vector3 :=
  [⟨0, 0, 0, 0⟩, ⟨1, mkRat 1 100000, 0, 0⟩, ⟨2, 1, 0, 0⟩]

/-- A loop of four vertices at (0, 0, 0), (0.00001, 0, 0), (1, 0, 0) and (1, 1, 0). -/
def holeNear4 : List Vector3 :=
  [⟨0, 0, 0, 0⟩, ⟨1, mkRat 1 100000, 0, 0⟩, ⟨2, 1, 0, 0⟩, ⟨3, 1, 1, 0⟩]

/-- The state the rules and the merge pass keep during a fill: the front has no
entry twice and all its entries are vertices of the filling, the filling has no
vertex twice and every vertex of it was created before the next one a rule creates,
the Angle objects of `ring` form the ring of the front and are queued by their
degrees, and every face of the filling has three pairwise distinct indices, each
a position of `filling.vertices`. -/
def FillOk (E : Env) (af : AFState) (front filling : Geometry) (ring : List Nat) : Prop :=
  front.vertices.Nodup ∧ (∀ u ∈ front.vertices, u ∈ filling.vertices) ∧
  filling.vertices.Nodup ∧ (∀ u ∈ filling.vertices, u.ref < af.alloc) ∧
  RingOk E af front.vertices ring ∧ QueuesOk af ring ∧
  ∀ f ∈ filling.faces, f.Valid filling.vertices.length

/-! ## Classification of an Angle (C2) -/

theorem Heap.insert_ne (h : Heap) (d : ℚ) (r : Nat) : h.insert d r ≠ h := by
  intro hEq
  have hlen : ∀ (e : HeapEntry) (l : List HeapEntry), (insertEntry e l).length = l.length + 1 := by
    intro e l
    induction l with
    | nil => simp [insertEntry]
    | cons x xs ih =>
      simp only [insertEntry]
      split <;> simp [ih]
  have h2 := congrArg (fun k => k.values.length) hEq
  simp only [Heap.insert] at h2
  rw [hlen] at h2
  omega

/-- C2: for an Angle object `r` of degree `d`, `heapInsert` puts it into the Rule-1
queue iff `d ≤ 75`, into the Rule-2 queue iff `75 < d ≤ 135`, into the Rule-3 queue
iff `135 < d < 180`, into the reflex queue iff `d ≥ 180`; a queue that does not get
it is left as it was, so exactly one queue gets it; and the initialisation loop of
`afmStart`, on this one Angle, does the same as `heapInsert`. -/
theorem heapInsert_classifies (af : AFState) (r : Nat) (angle : Angle)
    (hr : af.angle r = Except.ok angle) :
    ∃ af1, heapInsert af r = Except.ok af1 ∧ initHeaps af [r] = Except.ok af1 ∧
      (af1.HEAP_RULE_1 = af.HEAP_RULE_1.insert angle.degree r ↔ angle.degree ≤ 75) ∧
      (af1.HEAP_RULE_1 = af.HEAP_RULE_1 ↔ ¬ angle.degree ≤ 75) ∧
      (af1.HEAP_RULE_2 = af.HEAP_RULE_2.insert angle.degree r ↔
        75 < angle.degree ∧ angle.degree ≤ 135) ∧
      (af1.HEAP_RULE_2 = af.HEAP_RULE_2 ↔ ¬ (75 < angle.degree ∧ angle.degree ≤ 135)) ∧
      (af1.HEAP_RULE_3 = af.HEAP_RULE_3.insert angle.degree r ↔
        135 < angle.degree ∧ angle.degree < 180) ∧
      (af1.HEAP_RULE_3 = af.HEAP_RULE_3 ↔ ¬ (135 < angle.degree ∧ angle.degree < 180)) ∧
      (af1.HEAP_RULE_R = af.HEAP_RULE_R.insert angle.degree r ↔ 180 ≤ angle.degree) ∧
      (af1.HEAP_RULE_R = af.HEAP_RULE_R ↔ ¬ 180 ≤ angle.degree) ∧
      af1.angles = af.angles := by
  have n1 := Heap.insert_ne af.HEAP_RULE_1 angle.degree r
  have n2 := Heap.insert_ne af.HEAP_RULE_2 angle.degree r
  have n3 := Heap.insert_ne af.HEAP_RULE_3 angle.degree r
  have n4 := Heap.insert_ne af.HEAP_RULE_R angle.degree r
  unfold heapInsert initHeaps initHeaps
  rw [hr]
  by_cases h1 : angle.degree ≤ 75
  · have : ¬ 135 < angle.degree := by intro h; linarith
    have : ¬ 180 ≤ angle.degree := by intro h; linarith
    have : ¬ 75 < angle.degree := by intro h; linarith
    simp [*, Ne.symm n2, Ne.symm n3, Ne.symm n4]
  · by_cases h2 : angle.degree ≤ 135
    · have : ¬ 135 < angle.degree := by intro h; linarith
      have : ¬ 180 ≤ angle.degree := by intro h; linarith
      have : 75 < angle.degree := lt_of_not_ge h1
      simp [*, Ne.symm n1, Ne.symm n3, Ne.symm n4]
    · by_cases h3 : angle.degree < 180
      · have : 135 < angle.degree := lt_of_not_ge h2
        have : ¬ 180 ≤ angle.degree := by intro h; linarith
        simp [*, Ne.symm n1, Ne.symm n2, Ne.symm n4]
      · have : 135 < angle.degree := lt_of_not_ge h2
        have : 180 ≤ angle.degree := le_of_not_lt h3
        simp [*, Ne.symm n1, Ne.symm n2, Ne.symm n3]

/-- An instance of C2: an Angle of 60 degrees goes to the Rule-1 queue. -/
theorem heapInsert_classifies_witness :
    ∃ af1, heapInsert (mkAF [] [] [] []
        [⟨(vtx 0 0 0, vtx 1 2 0, vtx 2 3 1), 60, some 0, some 0⟩]) 0 = Except.ok af1 ∧
      af1.HEAP_RULE_1.values = [⟨60, 0⟩] ∧ af1.HEAP_RULE_2.values = [] ∧
      af1.HEAP_RULE_3.values = [] ∧ af1.HEAP_RULE_R.values = [] := by
  obtain ⟨af1, h1, _, h3, _, _, h6, _, h8, _, h10, _⟩ :=
    heapInsert_classifies (mkAF [] [] [] []
      [⟨(vtx 0 0 0, vtx 1 2 0, vtx 2 3 1), 60, some 0, some 0⟩]) 0
      ⟨(vtx 0 0 0, vtx 1 2 0, vtx 2 3 1), 60, some 0, some 0⟩ rfl
  refine ⟨af1, h1, ?_, ?_, ?_, ?_⟩
  · rw [h3.2 (by norm_num)]; rfl
  · rw [h6.2 (by norm_num)]; rfl
  · rw [h8.2 (by norm_num)]; rfl
  · rw [h10.2 (by norm_num)]; rfl

/-! ## The front length under the rules (C3) -/

theorem spliceStart_le (len : Nat) (i : Int) : spliceStart len i ≤ len := by
  unfold spliceStart
  split <;> omega

theorem arrIndexOf_lt {α : Type} [DecidableEq α] (xs : List α) (x : α) :
    arrIndexOf xs x < xs.length := by
  unfold arrIndexOf
  split
  · rename_i h
    exact_mod_cast List.indexOf_lt_length.2 h
  · have : (0 : Int) ≤ xs.length := Int.ofNat_nonneg _
    omega

theorem arrIndexOf_ge {α : Type} [DecidableEq α] (xs : List α) (x : α) :
    -1 ≤ arrIndexOf xs x := by
  unfold arrIndexOf
  split
  · have : (0 : Int) ≤ (List.indexOf x xs : Int) := Int.ofNat_nonneg _
    omega
  · exact le_refl _

theorem arrIndexOf_mem {α : Type} [DecidableEq α] (xs : List α) (x : α) (h : x ∈ xs) :
    arrIndexOf xs x = (List.indexOf x xs : Int) := by
  simp [arrIndexOf, h]

theorem arrIndexOf_not_mem {α : Type} [DecidableEq α] (xs : List α) (x : α) (h : x ∉ xs) :
    arrIndexOf xs x = -1 := by
  simp [arrIndexOf, h]

theorem spliceStart_indexOf_lt {α : Type} [DecidableEq α] (xs : List α) (x : α)
    (h : xs ≠ []) : spliceStart xs.length (arrIndexOf xs x) < xs.length := by
  have hpos : 0 < xs.length := List.length_pos.2 h
  have h1 := arrIndexOf_lt xs x
  have h2 := arrIndexOf_ge xs x
  unfold spliceStart
  split <;> omega

theorem arrSplice1_indexOf_length {α : Type} [DecidableEq α] (xs : List α) (x : α)
    (h : xs ≠ []) : (arrSplice1 xs (arrIndexOf xs x)).length + 1 = xs.length := by
  have h1 := spliceStart_indexOf_lt xs x h
  unfold arrSplice1
  rw [List.length_eraseIdx]
  simp only [h1, if_true]
  omega

theorem arrSet_length {α : Type} (xs : List α) (i : Int) (x : α) :
    (arrSet xs i x).length = xs.length := by
  unfold arrSet
  split <;> simp

theorem arrSpliceIns_length {α : Type} (xs : List α) (i : Int) (x : α) :
    (arrSpliceIns xs i x).length = xs.length + 1 := by
  unfold arrSpliceIns
  exact List.length_insertIdx _ _ (spliceStart_le _ _)

/-- C3: for a corner `(vp, v, vn)` with `v` in the front, a successful `afRule1`
(result `true`) shortens `front.vertices` by exactly one, a successful `afRule2`
(result a vertex) leaves its length as it was, and a successful `afRule3` lengthens
it by exactly one. -/
theorem rules_change_front_length (E : Env) (front filling : Geometry) (vp v vn : Vector3)
    (hv : v ∈ front.vertices) :
    (∀ res, afRule1 E front filling vp v vn = Except.ok res → res.ok = true →
      res.front.vertices.length + 1 = front.vertices.length) ∧
    (∀ ref res, afRule2 E front filling vp v vn ref = Except.ok res → res.vNew.isSome →
      res.front.vertices.length = front.vertices.length) ∧
    (∀ angle ref res, afRule3 E front filling vp v vn angle ref = Except.ok res →
      res.vNew.isSome → res.front.vertices.length = front.vertices.length + 1) := by
  have hne : front.vertices ≠ [] := List.ne_nil_of_mem hv
  refine ⟨?_, ?_, ?_⟩
  · intro res h hok
    unfold afRule1 at h
    simp only at h
    split at h
    · cases h
    · cases h; simp at hok
    · cases h
      exact arrSplice1_indexOf_length front.vertices v hne
  · intro ref res h hsome
    unfold afRule2 at h
    simp only at h
    split at h
    · cases h
    · cases h; simp at hsome
    · cases h
      exact arrSet_length _ _ _
  · intro angle ref res h hsome
    unfold afRule3 at h
    simp only at h
    split at h
    · cases h
    · cases h; simp at hsome
    · cases h
      exact arrSpliceIns_length _ _ _

/-- An instance of C3 on a loop of five vertices: the three rules succeed at the
corner of the second vertex and leave fronts of 4, 5 and 6 vertices. -/
theorem rules_change_front_length_witness :
    (∃ res, afRule1 envSixty ⟨hole5, []⟩ ⟨hole5, []⟩ (vtx 0 0 0) (vtx 1 2 0) (vtx 2 3 1)
        = Except.ok res ∧ res.ok = true ∧ res.front.vertices.length + 1 = 5) ∧
    (∃ res, afRule2 envSixty ⟨hole5, []⟩ ⟨hole5, []⟩ (vtx 0 0 0) (vtx 1 2 0) (vtx 2 3 1) 7
        = Except.ok res ∧ res.vNew.isSome ∧ res.front.vertices.length = 5) ∧
    (∃ res, afRule3 envSixty ⟨hole5, []⟩ ⟨hole5, []⟩ (vtx 0 0 0) (vtx 1 2 0) (vtx 2 3 1)
        150 7 = Except.ok res ∧ res.vNew.isSome ∧ res.front.vertices.length = 5 + 1) := by
  have h := rules_change_front_length envSixty ⟨hole5, []⟩ ⟨hole5, []⟩
    (vtx 0 0 0) (vtx 1 2 0) (vtx 2 3 1) (by decide)
  exact ⟨⟨_, rfl, rfl, h.1 _ rfl rfl⟩, ⟨_, rfl, rfl, h.2.1 7 _ rfl rfl⟩,
    ⟨_, rfl, rfl, h.2.2 150 7 _ rfl rfl⟩⟩

/-! ## The rule selection of the main loop (C1) -/

theorem bind_eq_ok {α β : Type} (x : Except Err α) (f : α → Except Err β) (b : β) :
    (x >>= f) = Except.ok b ↔ ∃ a, x = Except.ok a ∧ f a = Except.ok b := by
  cases x <;> simp [bind, Except.bind]

theorem popCounts_heapInsert (af af1 : AFState) (r : Nat)
    (h : heapInsert af r = Except.ok af1) : popCounts af1 = popCounts af := by
  unfold heapInsert at h
  split at h
  · cases h
  · split_ifs at h <;> cases h <;> rfl

theorem popCounts_heapRemove (af af1 : AFState) (r : Nat)
    (h : heapRemove af r = Except.ok af1) : popCounts af1 = popCounts af := by
  unfold heapRemove at h
  split at h
  · cases h
  · split_ifs at h <;> cases h <;> rfl

theorem popCounts_modify (af : AFState) (r : Nat) (f : Angle → Angle) :
    popCounts (af.modify r f) = popCounts af := rfl

theorem popCounts_applyRule1 (E : Env) (af : AFState) (front filling : Geometry)
    (res : ApplyResult) (h : applyRule1 E af front filling = Except.ok res) :
    popCounts res.af = (af.HEAP_RULE_1.pops + 1, af.HEAP_RULE_2.pops, af.HEAP_RULE_3.pops,
      af.HEAP_RULE_R.pops) := by
  unfold applyRule1 at h
  simp only [bind_eq_ok] at h
  obtain ⟨r, -, angle, -, res1, -, h⟩ := h
  split at h
  · simp only [bind_eq_ok] at h
    obtain ⟨p, -, af1, h1, af2, h2, n, -, af3, h3, af4, h4, h⟩ := h
    cases h
    simp only
    rw [popCounts_heapInsert _ _ _ h4, popCounts_modify, popCounts_modify,
      popCounts_heapRemove _ _ _ h3, popCounts_heapInsert _ _ _ h2, popCounts_modify,
      popCounts_modify, popCounts_heapRemove _ _ _ h1]
    cases hv : af.HEAP_RULE_1.values <;> simp [popCounts, Heap.removeFirst, hv]
  · cases h
    cases hv : af.HEAP_RULE_1.values <;> simp [popCounts, Heap.removeFirst, hv, Heap.insert]

theorem popCounts_applyRule2 (E : Env) (af : AFState) (front filling : Geometry)
    (res : ApplyResult) (h : applyRule2 E af front filling = Except.ok res) :
    popCounts res.af = (af.HEAP_RULE_1.pops, af.HEAP_RULE_2.pops + 1, af.HEAP_RULE_3.pops,
      af.HEAP_RULE_R.pops) := by
  unfold applyRule2 at h
  simp only [bind_eq_ok] at h
  obtain ⟨r, -, angle, -, res1, -, h⟩ := h
  split at h
  · simp only [bind_eq_ok] at h
    obtain ⟨af1, h1, p, -, af2, h2, af3, h3, n, -, af4, h4, af5, h5, h⟩ := h
    cases h
    simp only
    rw [popCounts_heapInsert _ _ _ h5, popCounts_modify, popCounts_heapRemove _ _ _ h4,
      popCounts_heapInsert _ _ _ h3, popCounts_modify, popCounts_heapRemove _ _ _ h2,
      popCounts_heapInsert _ _ _ h1, popCounts_modify]
    cases hv : af.HEAP_RULE_2.values <;> simp [popCounts, Heap.removeFirst, hv]
  · cases h
    cases hv : af.HEAP_RULE_2.values <;> simp [popCounts, Heap.removeFirst, hv, Heap.insert]

theorem popCounts_applyRule3 (E : Env) (af : AFState) (front filling : Geometry)
    (res : ApplyResult) (h : applyRule3 E af front filling = Except.ok res) :
    popCounts res.af = (af.HEAP_RULE_1.pops, af.HEAP_RULE_2.pops, af.HEAP_RULE_3.pops + 1,
      af.HEAP_RULE_R.pops) := by
  unfold applyRule3 at h
  simp only [bind_eq_ok] at h
  obtain ⟨r, -, angle, -, res1, -, h⟩ := h
  split at h
  · simp only [bind_eq_ok] at h
    obtain ⟨af1, h1, n, -, af2, h2, af3, h3, af4, h4, h⟩ := h
    cases h
    simp only
    rw [popCounts_heapInsert _ _ _ h4, popCounts_modify, popCounts_modify,
      popCounts_heapInsert _ _ _ h3, popCounts_modify, popCounts_modify,
      popCounts_heapRemove _ _ _ h2, popCounts_heapInsert _ _ _ h1]
    cases hv : af.HEAP_RULE_3.values <;> simp [popCounts, Heap.removeFirst, hv]
  · cases h
    cases hv : af.HEAP_RULE_3.values <;> simp [popCounts, Heap.removeFirst, hv, Heap.insert]

theorem popCounts_setHeap_remove (af : AFState) (id : HeapId) (r : Nat) :
    popCounts (af.setHeap id ((af.heap id).remove r)) = popCounts af := by
  cases id <;> rfl

theorem popCounts_heapMergeVertex (E : Env) (af : AFState) (vOld vNew : Vector3)
    (res : Bool × AFState) (h : heapMergeVertex E af vOld vNew = Except.ok res) :
    popCounts res.2 = popCounts af := by
  unfold heapMergeVertex at h
  simp only [bind_eq_ok] at h
  obtain ⟨found, -, h⟩ := h
  split at h
  · cases h; rfl
  · simp only [bind_eq_ok] at h
    obtain ⟨angle, -, p, -, n, -, af1, h1, af2, h2, af3, h3, af4, h4, af5, h5, h⟩ := h
    cases h
    simp only
    rw [popCounts_setHeap_remove, popCounts_heapInsert _ _ _ h5, popCounts_modify,
      popCounts_heapRemove _ _ _ h4, popCounts_heapInsert _ _ _ h3, popCounts_modify,
      popCounts_heapRemove _ _ _ h2, popCounts_modify, popCounts_modify]
    unfold mergeTriples at h1
    split at h1
    · cases h1
    · split_ifs at h1
      · cases h1; rfl
      · split at h1
        · cases h1
        · split_ifs at h1
          · cases h1; rfl

theorem popCounts_mergeNeighbour (E : Env) (v : Vector3) (ignore : List Vector3)
    (s s1 : MergeState) (t : Option Vector3)
    (h : mergeNeighbour E v ignore s t = Except.ok s1) :
    popCounts s1.af = popCounts s.af := by
  unfold mergeNeighbour at h
  split at h
  · cases h
  · split_ifs at h
    · cases h; rfl
    · simp only [bind_eq_ok] at h
      obtain ⟨front, -, merged, hm, h⟩ := h
      cases h
      exact popCounts_heapMergeVertex _ _ _ _ _ hm
    · cases h; rfl

theorem popCounts_mergeByDistance (E : Env) (s s1 : MergeState) (v : Option Vector3)
    (ignore : List Vector3) (h : mergeByDistance E s v ignore = Except.ok s1) :
    popCounts s1.af = popCounts s.af := by
  unfold mergeByDistance at h
  split at h
  · cases h; rfl
  · simp only at h
    split at h
    · cases h; rfl
    · simp only [compareNeighbours, List.foldlM, bind_eq_ok] at h
      obtain ⟨a, ha, b, hb, h⟩ := h
      cases h
      rw [popCounts_mergeNeighbour _ _ _ _ _ _ hb, popCounts_mergeNeighbour _ _ _ _ _ _ ha]

theorem notStuck_ok {α : Type} (a : α) : NotStuck (Except.ok a : Except Err α) := by
  intro h; cases h

theorem notStuck_pure {α : Type} (a : α) : NotStuck (pure a : Except Err α) := by
  intro h; cases h

theorem notStuck_bind {α β : Type} (x : Except Err α) (f : α → Except Err β)
    (hx : NotStuck x) (hf : ∀ a, NotStuck (f a)) : NotStuck (x >>= f) := by
  cases x with
  | error e => intro h; apply hx; simpa [bind, Except.bind] using h
  | ok a => exact hf a

theorem notStuck_error {α β : Type} (e : Err)
    (h : NotStuck (Except.error e : Except Err α)) :
    NotStuck (Except.error e : Except Err β) := by
  intro h1
  apply h
  cases h1
  rfl

theorem notStuck_deref {α : Type} (o : Option α) : NotStuck (deref o) := by
  cases o <;> intro h <;> cases h

theorem notStuck_angle (af : AFState) (r : Nat) : NotStuck (af.angle r) :=
  notStuck_deref _

theorem notStuck_heapInsert (af : AFState) (r : Nat) : NotStuck (heapInsert af r) := by
  unfold heapInsert
  have := notStuck_angle af r
  split
  · rename_i h; rw [h] at this; exact notStuck_error _ this
  · split_ifs <;> exact notStuck_ok _

theorem notStuck_heapRemove (af : AFState) (r : Nat) : NotStuck (heapRemove af r) := by
  unfold heapRemove
  have := notStuck_angle af r
  split
  · rename_i h; rw [h] at this; exact notStuck_error _ this
  · split_ifs <;> exact notStuck_ok _

theorem touchesAt_eq (vs : List Vector3) (face : Face3) (p a b c : Vector3)
    (ha : arrGet vs face.a = some a) (hb : arrGet vs face.b = some b)
    (hc : arrGet vs face.c = some c) :
    touchesAt vs face p = Except.ok (touches a b c p) := by
  unfold touchesAt touches
  simp only [ha, hb, hc]
  cases a.equals p <;> cases b.equals p <;> rfl

theorem notStuck_touchesAt (vs : List Vector3) (face : Face3) (p : Vector3) :
    touchesAt vs face p ≠ Except.error Err.noRule := by
  unfold touchesAt
  split
  · intro h; cases h
  · split_ifs
    · intro h; cases h
    · split
      · intro h; cases h
      · split_ifs
        · intro h; cases h
        · split <;> (intro h; cases h)

theorem notStuck_isInHoleFilling (E : Env) (vertices : List Vector3) (v fromA : Vector3)
    (fromB : Option Vector3) (faces : List Face3) :
    NotStuck (isInHoleFilling E vertices v fromA fromB faces) := by
  induction faces with
  | nil => exact notStuck_ok _
  | cons face rest ih =>
    unfold isInHoleFilling
    have ht := notStuck_touchesAt vertices face fromA
    split
    · rename_i e h
      rw [h] at ht
      exact notStuck_error _ ht
    · exact ih
    · split
      · split_ifs
        · exact ih
        · exact notStuck_ok _
        · exact ih
      · intro h; cases h

theorem notStuck_isInHoleModel (E : Env) (vertices : List Vector3) (v fromA : Vector3)
    (fromB : Option Vector3) (faces : List Face3) :
    NotStuck (isInHoleModel E vertices v fromA fromB faces) := by
  induction faces with
  | nil => exact notStuck_ok _
  | cons face rest ih =>
    unfold isInHoleModel
    have ht := notStuck_touchesAt vertices face fromA
    split
    · rename_i e h
      rw [h] at ht
      exact notStuck_error _ ht
    · exact ih
    · split
      · split_ifs
        · exact ih
        · exact notStuck_ok _
        · exact ih
      · intro h; cases h

theorem notStuck_isInHole (E : Env) (front filling : Geometry) (v fromA : Vector3)
    (fromB : Option Vector3) : NotStuck (isInHole E front filling v fromA fromB) := by
  unfold isInHole
  have := notStuck_isInHoleFilling E filling.vertices v fromA fromB filling.faces
  split
  · rename_i h; rw [h] at this; exact notStuck_error _ this
  · exact notStuck_ok _
  · split_ifs
    · exact notStuck_isInHoleModel _ _ _ _ _ _
    · exact notStuck_ok _

theorem notStuck_afRule1 (E : Env) (front filling : Geometry) (vp v vn : Vector3) :
    NotStuck (afRule1 E front filling vp v vn) := by
  unfold afRule1
  have := notStuck_isInHole E front filling vp vn none
  simp only
  split
  · rename_i h; rw [h] at this; exact notStuck_error _ this
  · exact notStuck_ok _
  · exact notStuck_ok _

theorem notStuck_afRule2 (E : Env) (front filling : Geometry) (vp v vn : Vector3)
    (ref : Nat) : NotStuck (afRule2 E front filling vp v vn ref) := by
  unfold afRule2
  have := notStuck_isInHole E front filling { E.rule2Point vp v vn with ref := ref } vp (some vn)
  simp only
  split
  · rename_i h; rw [h] at this; exact notStuck_error _ this
  · exact notStuck_ok _
  · exact notStuck_ok _

theorem notStuck_afRule3 (E : Env) (front filling : Geometry) (vp v vn : Vector3)
    (angle : ℚ) (ref : Nat) : NotStuck (afRule3 E front filling vp v vn angle ref) := by
  unfold afRule3
  have := notStuck_isInHole E front filling
    (keepNearPlane E v vn { E.rule3Point vp v vn angle with ref := ref }) vp (some vn)
  simp only
  split
  · rename_i h; rw [h] at this; exact notStuck_error _ this
  · exact notStuck_ok _
  · exact notStuck_ok _

theorem notStuck_applyRule1 (E : Env) (af : AFState) (front filling : Geometry) :
    NotStuck (applyRule1 E af front filling) := by
  unfold applyRule1
  repeat' first
    | exact notStuck_deref _
    | exact notStuck_angle _ _
    | exact notStuck_afRule1 _ _ _ _ _ _
    | exact notStuck_heapInsert _ _
    | exact notStuck_heapRemove _ _
    | exact notStuck_pure _
    | refine notStuck_bind _ _ ?_ (fun _ => ?_)
    | split

theorem notStuck_applyRule2 (E : Env) (af : AFState) (front filling : Geometry) :
    NotStuck (applyRule2 E af front filling) := by
  unfold applyRule2
  repeat' first
    | exact notStuck_deref _
    | exact notStuck_angle _ _
    | exact notStuck_afRule2 _ _ _ _ _ _ _
    | exact notStuck_heapInsert _ _
    | exact notStuck_heapRemove _ _
    | exact notStuck_pure _
    | refine notStuck_bind _ _ ?_ (fun _ => ?_)
    | split

theorem notStuck_applyRule3 (E : Env) (af : AFState) (front filling : Geometry) :
    NotStuck (applyRule3 E af front filling) := by
  unfold applyRule3
  repeat' first
    | exact notStuck_deref _
    | exact notStuck_angle _ _
    | exact notStuck_afRule3 _ _ _ _ _ _ _ _
    | exact notStuck_heapInsert _ _
    | exact notStuck_heapRemove _ _
    | exact notStuck_pure _
    | refine notStuck_bind _ _ ?_ (fun _ => ?_)
    | split

theorem notStuck_mergeUpdateFront (front : Geometry) (vOld vNew : Vector3) :
    NotStuck (mergeUpdateFront front vOld vNew) := by
  unfold mergeUpdateFront
  simp only
  split
  · intro h; cases h
  · exact notStuck_ok _

theorem notStuck_findMiddle (af : AFState) (vOld : Vector3) (l : List HeapEntry) :
    NotStuck (findMiddle af vOld l) := by
  induction l with
  | nil => exact notStuck_ok _
  | cons e rest ih =>
    unfold findMiddle
    have := notStuck_angle af e.angle
    split
    · rename_i h; rw [h] at this; exact notStuck_error _ this
    · split
      · exact notStuck_ok _
      · exact ih

theorem notStuck_findMiddleIn (af : AFState) (vOld : Vector3) (l : List HeapId) :
    NotStuck (findMiddleIn af vOld l) := by
  induction l with
  | nil => exact notStuck_ok _
  | cons id rest ih =>
    unfold findMiddleIn
    have := notStuck_findMiddle af vOld (af.heap id).values
    split
    · rename_i h; rw [h] at this; exact notStuck_error _ this
    · exact notStuck_ok _
    · exact ih

theorem notStuck_mergeTriples (af : AFState) (angle : Angle) (p n : Nat) (vNew : Vector3) :
    NotStuck (mergeTriples af angle p n vNew) := by
  unfold mergeTriples
  have h1 := notStuck_angle af p
  have h2 := notStuck_angle af n
  split
  · rename_i h; rw [h] at h1; exact notStuck_error _ h1
  · split
    · exact notStuck_ok _
    · split
      · rename_i h; rw [h] at h2; exact notStuck_error _ h2
      · split
        · exact notStuck_ok _
        · intro h; cases h

theorem notStuck_heapMergeVertex (E : Env) (af : AFState) (vOld vNew : Vector3) :
    NotStuck (heapMergeVertex E af vOld vNew) := by
  unfold heapMergeVertex
  repeat' first
    | exact notStuck_deref _
    | exact notStuck_angle _ _
    | exact notStuck_findMiddleIn _ _ _
    | exact notStuck_mergeTriples _ _ _ _ _
    | exact notStuck_heapInsert _ _
    | exact notStuck_heapRemove _ _
    | exact notStuck_pure _
    | refine notStuck_bind _ _ ?_ (fun _ => ?_)
    | split

theorem notStuck_mergeNeighbour (E : Env) (v : Vector3) (ignore : List Vector3)
    (s : MergeState) (t : Option Vector3) : NotStuck (mergeNeighbour E v ignore s t) := by
  unfold mergeNeighbour
  repeat' first
    | exact notStuck_mergeUpdateFront _ _ _
    | exact notStuck_heapMergeVertex _ _ _ _
    | exact notStuck_pure _
    | exact notStuck_ok _
    | exact (fun h => by cases h)
    | refine notStuck_bind _ _ ?_ (fun _ => ?_)
    | split

theorem notStuck_mergeByDistance (E : Env) (s : MergeState) (v : Option Vector3)
    (ignore : List Vector3) : NotStuck (mergeByDistance E s v ignore) := by
  unfold mergeByDistance
  split
  · exact notStuck_ok _
  · simp only
    split
    · exact notStuck_ok _
    · simp only [compareNeighbours, List.foldlM]
      refine notStuck_bind _ _ (notStuck_mergeNeighbour _ _ _ _ _) (fun _ => ?_)
      refine notStuck_bind _ _ (notStuck_mergeNeighbour _ _ _ _ _) (fun _ => ?_)
      exact notStuck_pure _

theorem notStuck_mergeStep (E : Env) (hole : List Vector3) (count : Nat)
    (res : ApplyResult) : NotStuck (mergeStep E hole count res) := by
  unfold mergeStep
  have := notStuck_mergeByDistance E ⟨res.af, res.front, res.filling⟩ res.vNew hole
  split
  · split
    · rename_i h; rw [h] at this; exact notStuck_error _ this
    · exact notStuck_ok _
  · exact notStuck_ok _

theorem enterRound_front (E : Env) (s : LoopState) : (enterRound E s).front = s.front := by
  unfold enterRound; split <;> rfl

theorem enterRound_filling (E : Env) (s : LoopState) :
    (enterRound E s).filling = s.filling := by
  unfold enterRound; split <;> rfl

theorem enterRound_count (E : Env) (s : LoopState) :
    (enterRound E s).count = s.count + 1 := by
  unfold enterRound; split <;> rfl

theorem enterRound_heaps (E : Env) (s : LoopState) :
    (enterRound E s).af.HEAP_RULE_1 = s.af.HEAP_RULE_1 ∧
    (enterRound E s).af.HEAP_RULE_2 = s.af.HEAP_RULE_2 ∧
    (enterRound E s).af.HEAP_RULE_3 = s.af.HEAP_RULE_3 ∧
    (enterRound E s).af.HEAP_RULE_R = s.af.HEAP_RULE_R ∧
    (enterRound E s).af.angles = s.af.angles := by
  unfold enterRound; split <;> simp

theorem loopBody_eq_rules (E : Env) (hole : List Vector3) (s : LoopState)
    (hcap : E.AFM_STOP_AFTER_ITER.any (fun stopIter => s.count + 1 > stopIter) = false)
    (h4 : s.front.vertices.length ≠ 4) (h3 : s.front.vertices.length ≠ 3)
    (h1 : s.front.vertices.length ≠ 1) :
    loopBody E hole s = (applyRules E (enterRound E s) >>= mergeStep E hole (s.count + 1)) := by
  unfold loopBody
  simp only [hcap, enterRound_front, enterRound_count, h4, h3, h1, if_false]
  cases applyRules E (enterRound E s) <;> rfl

theorem loopBody_rule1 (E : Env) (hole : List Vector3) (s : LoopState)
    (hcap : E.AFM_STOP_AFTER_ITER.any (fun stopIter => s.count + 1 > stopIter) = false)
    (h4 : s.front.vertices.length ≠ 4) (h3 : s.front.vertices.length ≠ 3)
    (h1 : s.front.vertices.length ≠ 1) (hq : 0 < s.af.HEAP_RULE_1.length) :
    loopBody E hole s =
      (applyRule1 E (enterRound E s).af s.front s.filling
        >>= mergeStep E hole (s.count + 1)) := by
  rw [loopBody_eq_rules E hole s hcap h4 h3 h1]
  unfold applyRules
  rw [(enterRound_heaps E s).1, enterRound_front, enterRound_filling]
  simp [hq]

theorem mergeStep_ok (E : Env) (hole : List Vector3) (count : Nat) (res : ApplyResult)
    (o : Outcome) (h : mergeStep E hole count res = Except.ok o) :
    ∃ s1, o = Outcome.next s1 ∧ popCounts s1.af = popCounts res.af := by
  unfold mergeStep at h
  split at h
  · split at h
    · cases h
    · rename_i m hm
      cases h
      exact ⟨_, rfl, popCounts_mergeByDistance _ _ _ _ _ hm⟩
  · cases h
    exact ⟨_, rfl, rfl⟩

/-- C1, as the code has it: in a round of the main loop that the debug cap does not
end and in which the front length is not 1, 3 or 4, the loop body is exactly one
`applyRule` call followed by the merge step, namely `applyRule1` if the Rule-1
queue is non-empty, `applyRule2` if only the Rule-1 queue is empty, `applyRule3` if
the Rule-1 and Rule-2 queues are empty and the Rule-3 queue is not; the error "No
rule could be applied" is thrown iff all three queues are empty; and a round that
completes has popped exactly one queue, the first non-empty one, once, and never
the reflex queue. -/
theorem loopBody_selects_rule (E : Env) (hole : List Vector3) (s : LoopState)
    (hcap : E.AFM_STOP_AFTER_ITER.any (fun stopIter => s.count + 1 > stopIter) = false)
    (h4 : s.front.vertices.length ≠ 4) (h3 : s.front.vertices.length ≠ 3)
    (h1 : s.front.vertices.length ≠ 1) :
    (0 < s.af.HEAP_RULE_1.length →
      loopBody E hole s =
        (applyRule1 E (enterRound E s).af s.front s.filling
          >>= mergeStep E hole (s.count + 1))) ∧
    (s.af.HEAP_RULE_1.length = 0 → 0 < s.af.HEAP_RULE_2.length →
      loopBody E hole s =
        (applyRule2 E (enterRound E s).af s.front s.filling
          >>= mergeStep E hole (s.count + 1))) ∧
    (s.af.HEAP_RULE_1.length = 0 → s.af.HEAP_RULE_2.length = 0 →
      0 < s.af.HEAP_RULE_3.length →
      loopBody E hole s =
        (applyRule3 E (enterRound E s).af s.front s.filling
          >>= mergeStep E hole (s.count + 1))) ∧
    (loopBody E hole s = Except.error Err.noRule ↔
      s.af.HEAP_RULE_1.length = 0 ∧ s.af.HEAP_RULE_2.length = 0 ∧
        s.af.HEAP_RULE_3.length = 0) ∧
    (∀ o, loopBody E hole s = Except.ok o → ∃ s1, o = Outcome.next s1 ∧
      s1.af.HEAP_RULE_R.pops = s.af.HEAP_RULE_R.pops ∧
      (s1.af.HEAP_RULE_1.pops, s1.af.HEAP_RULE_2.pops, s1.af.HEAP_RULE_3.pops) =
        (if 0 < s.af.HEAP_RULE_1.length then
          (s.af.HEAP_RULE_1.pops + 1, s.af.HEAP_RULE_2.pops, s.af.HEAP_RULE_3.pops)
        else if 0 < s.af.HEAP_RULE_2.length then
          (s.af.HEAP_RULE_1.pops, s.af.HEAP_RULE_2.pops + 1, s.af.HEAP_RULE_3.pops)
        else
          (s.af.HEAP_RULE_1.pops, s.af.HEAP_RULE_2.pops, s.af.HEAP_RULE_3.pops + 1))) := by
  have hbody := loopBody_eq_rules E hole s hcap h4 h3 h1
  obtain ⟨e1, e2, e3, eR, -⟩ := enterRound_heaps E s
  have hrules : applyRules E (enterRound E s) =
      (if s.af.HEAP_RULE_1.length > 0 then applyRule1 E (enterRound E s).af s.front s.filling
      else if s.af.HEAP_RULE_2.length > 0 then
        applyRule2 E (enterRound E s).af s.front s.filling
      else if s.af.HEAP_RULE_3.length > 0 then
        applyRule3 E (enterRound E s).af s.front s.filling
      else Except.error Err.noRule) := by
    unfold applyRules
    rw [e1, e2, e3, enterRound_front, enterRound_filling]
  rw [hbody, hrules]
  refine ⟨?_, ?_, ?_, ?_, ?_⟩
  · intro h
    simp [h]
  · intro ha hb
    simp [ha, hb]
  · intro ha hb hc
    simp [ha, hb, hc]
  · constructor
    · intro h
      by_contra hne
      have hns : NotStuck
          ((if s.af.HEAP_RULE_1.length > 0 then
              applyRule1 E (enterRound E s).af s.front s.filling
            else if s.af.HEAP_RULE_2.length > 0 then
              applyRule2 E (enterRound E s).af s.front s.filling
            else if s.af.HEAP_RULE_3.length > 0 then
              applyRule3 E (enterRound E s).af s.front s.filling
            else Except.error Err.noRule) >>= mergeStep E hole (s.count + 1)) := by
        refine notStuck_bind _ _ ?_ (fun _ => notStuck_mergeStep _ _ _ _)
        split_ifs with ha hb hc
        · exact notStuck_applyRule1 _ _ _ _
        · exact notStuck_applyRule2 _ _ _ _
        · exact notStuck_applyRule3 _ _ _ _
        · exfalso
          apply hne
          omega
      exact hns h
    · rintro ⟨ha, hb, hc⟩
      simp [ha, hb, hc, bind, Except.bind]
  · intro o ho
    rw [bind_eq_ok] at ho
    obtain ⟨res, hres, hm⟩ := ho
    obtain ⟨s1, hs1, hp⟩ := mergeStep_ok _ _ _ _ _ hm
    refine ⟨s1, hs1, ?_⟩
    split_ifs at hres with ha hb hc
    · have := popCounts_applyRule1 _ _ _ _ _ hres
      rw [← hp, e1, e2, e3, eR] at this
      simp only [popCounts, Prod.mk.injEq] at this
      simp [ha, this]
    · have := popCounts_applyRule2 _ _ _ _ _ hres
      rw [← hp, e1, e2, e3, eR] at this
      simp only [popCounts, Prod.mk.injEq] at this
      simp [ha, hb, this]
    · have := popCounts_applyRule3 _ _ _ _ _ hres
      rw [← hp, e1, e2, e3, eR] at this
      simp only [popCounts, Prod.mk.injEq] at this
      simp [ha, hb, this]

/-- C1 as stated fails in a round that the debug cap ends: with the cap at 0, the
first round on a loop of five vertices (front length 5, five Angles in the Rule-1
queue) attempts no rule, pops no queue and leaves the loop. -/
theorem loopBody_capped_attempts_no_rule :
    ∃ s s1, afmInit envCapped hole5 = Except.ok s ∧ s.front.vertices.length = 5 ∧
      s.af.HEAP_RULE_1.length = 5 ∧
      loopBody envCapped hole5 s = Except.ok (Outcome.finished s1) ∧
      popCounts s1.af = popCounts s.af ∧ s1.filling = s.filling ∧ s1.front = s.front := by
  refine ⟨_, _, rfl, ?_, ?_, rfl, ?_, ?_, ?_⟩ <;> decide

/-- An instance of C1 without the cap: the first round on the loop of five vertices
applies Rule 1. -/
theorem loopBody_selects_rule_witness :
    ∃ s, afmInit envSixty hole5 = Except.ok s ∧
      loopBody envSixty hole5 s =
        (applyRule1 envSixty (enterRound envSixty s).af s.front s.filling
          >>= mergeStep envSixty hole5 (s.count + 1)) :=
  ⟨_, rfl, (loopBody_selects_rule envSixty hole5 _ (by decide) (by decide) (by decide)
    (by decide)).1 (by decide)⟩

/-! ## A rejected rule (C7) -/

theorem insertEntry_perm (e : HeapEntry) (l : List HeapEntry) :
    (insertEntry e l).Perm (e :: l) := by
  induction l with
  | nil => exact List.Perm.refl _
  | cons x xs ih =>
    unfold insertEntry
    split
    · exact List.Perm.refl _
    · exact (List.Perm.cons x ih).trans (List.Perm.swap e x xs)

theorem afRule1_rejected (E : Env) (front filling : Geometry) (vp v vn : Vector3)
    (h : isInHole E front filling vp vn none = Except.ok false) :
    afRule1 E front filling vp v vn =
      Except.ok { ok := false, front := front, filling := filling } := by
  unfold afRule1
  simp only [h]

theorem afRule2_rejected (E : Env) (front filling : Geometry) (vp v vn : Vector3) (ref : Nat)
    (h : isInHole E front filling { E.rule2Point vp v vn with ref := ref } vp (some vn)
      = Except.ok false) :
    afRule2 E front filling vp v vn ref =
      Except.ok { vNew := none, front := front, filling := filling } := by
  unfold afRule2
  simp only [h]

theorem afRule3_rejected (E : Env) (front filling : Geometry) (vp v vn : Vector3)
    (angle : ℚ) (ref : Nat)
    (h : isInHole E front filling
      (keepNearPlane E v vn { E.rule3Point vp v vn angle with ref := ref }) vp (some vn)
      = Except.ok false) :
    afRule3 E front filling vp v vn angle ref =
      Except.ok { vNew := none, front := front, filling := filling } := by
  unfold afRule3
  simp only [h]

theorem angle_eq_ok (af : AFState) (r : Nat) (angle : Angle) :
    af.angle r = Except.ok angle ↔ af.angles[r]? = some angle := by
  unfold AFState.angle deref
  rw [List.get?_eq_getElem?]
  cases af.angles[r]? <;> simp

theorem applyRule1_rejected (E : Env) (af : AFState) (front filling : Geometry)
    (e : HeapEntry) (rest : List HeapEntry) (angle : Angle)
    (hv : af.HEAP_RULE_1.values = e :: rest) (ha : af.angle e.angle = Except.ok angle)
    (h : isInHole E front filling angle.vertices.1 angle.vertices.2.2 none
      = Except.ok false) :
    applyRule1 E af front filling = Except.ok {
      vNew := none
      af := { af with HEAP_RULE_1 := {
        name := af.HEAP_RULE_1.name
        values := insertEntry ⟨angle.degree, e.angle⟩ rest
        pops := af.HEAP_RULE_1.pops + 1 } }
      front := front
      filling := filling } := by
  rw [angle_eq_ok] at ha
  unfold applyRule1
  simp only [Heap.removeFirst, hv, AFState.angle, List.get?_eq_getElem?, ha, deref, bind,
    Except.bind,
    afRule1_rejected E front filling _ angle.vertices.2.1 _ h]
  simp [deref, pure, Except.pure, Heap.insert]

theorem applyRule2_rejected (E : Env) (af : AFState) (front filling : Geometry)
    (e : HeapEntry) (rest : List HeapEntry) (angle : Angle)
    (hv : af.HEAP_RULE_2.values = e :: rest) (ha : af.angle e.angle = Except.ok angle)
    (h : isInHole E front filling
      { E.rule2Point angle.vertices.1 angle.vertices.2.1 angle.vertices.2.2 with
        ref := af.alloc }
      angle.vertices.1 (some angle.vertices.2.2) = Except.ok false) :
    applyRule2 E af front filling = Except.ok {
      vNew := none
      af := { af with
        HEAP_RULE_2 := {
          name := af.HEAP_RULE_2.name
          values := insertEntry ⟨angle.degree, e.angle⟩ rest
          pops := af.HEAP_RULE_2.pops + 1 }
        alloc := af.alloc + 1 }
      front := front
      filling := filling } := by
  rw [angle_eq_ok] at ha
  unfold applyRule2
  simp only [Heap.removeFirst, hv, AFState.angle, List.get?_eq_getElem?, ha, deref, bind,
    Except.bind,
    afRule2_rejected E front filling _ _ _ _ h]
  simp [deref, pure, Except.pure, Heap.insert]

theorem applyRule3_rejected (E : Env) (af : AFState) (front filling : Geometry)
    (e : HeapEntry) (rest : List HeapEntry) (angle : Angle)
    (hv : af.HEAP_RULE_3.values = e :: rest) (ha : af.angle e.angle = Except.ok angle)
    (h : isInHole E front filling
      (keepNearPlane E angle.vertices.2.1 angle.vertices.2.2
        { E.rule3Point angle.vertices.1 angle.vertices.2.1 angle.vertices.2.2 angle.degree
          with ref := af.alloc })
      angle.vertices.1 (some angle.vertices.2.2) = Except.ok false) :
    applyRule3 E af front filling = Except.ok {
      vNew := none
      af := { af with
        HEAP_RULE_3 := {
          name := af.HEAP_RULE_3.name
          values := insertEntry ⟨angle.degree, e.angle⟩ rest
          pops := af.HEAP_RULE_3.pops + 1 }
        alloc := af.alloc + 1 }
      front := front
      filling := filling } := by
  rw [angle_eq_ok] at ha
  unfold applyRule3
  simp only [Heap.removeFirst, hv, AFState.angle, List.get?_eq_getElem?, ha, deref, bind,
    Except.bind,
    afRule3_rejected E front filling _ _ _ _ _ h]
  simp [deref, pure, Except.pure, Heap.insert]

/-- C7: when `isInHole` rejects, `afRule1`, `afRule2` and `afRule3` return `false`
and hand back the front and the filling (vertices and faces) as they were; and
`applyRule1`, `applyRule2`, `applyRule3`, having popped the Angle `e.angle` off
their queue, return `false`, leave front, filling and every Angle object (triples,
degrees, links) as they were, put the Angle back into the queue it was popped
from, so that this queue holds the same Angles as before, and do not touch the
other three queues. -/
theorem rejected_rule_requeues (E : Env) (af : AFState) (front filling : Geometry)
    (e : HeapEntry) (rest : List HeapEntry) (angle : Angle)
    (ha : af.angle e.angle = Except.ok angle) :
    (∀ vp v vn, isInHole E front filling vp vn none = Except.ok false →
      afRule1 E front filling vp v vn =
        Except.ok { ok := false, front := front, filling := filling }) ∧
    (∀ vp v vn ref,
      isInHole E front filling { E.rule2Point vp v vn with ref := ref } vp (some vn)
        = Except.ok false →
      afRule2 E front filling vp v vn ref =
        Except.ok { vNew := none, front := front, filling := filling }) ∧
    (∀ vp v vn d ref,
      isInHole E front filling
        (keepNearPlane E v vn { E.rule3Point vp v vn d with ref := ref }) vp (some vn)
        = Except.ok false →
      afRule3 E front filling vp v vn d ref =
        Except.ok { vNew := none, front := front, filling := filling }) ∧
    (af.HEAP_RULE_1.values = e :: rest →
      isInHole E front filling angle.vertices.1 angle.vertices.2.2 none = Except.ok false →
      ∃ res, applyRule1 E af front filling = Except.ok res ∧ res.vNew = none ∧
        res.front = front ∧ res.filling = filling ∧ res.af.angles = af.angles ∧
        (res.af.HEAP_RULE_1.values.map (fun x => x.angle)).Perm
          (af.HEAP_RULE_1.values.map (fun x => x.angle)) ∧
        (e.degree = angle.degree → res.af.HEAP_RULE_1.values.Perm af.HEAP_RULE_1.values) ∧
        res.af.HEAP_RULE_2 = af.HEAP_RULE_2 ∧ res.af.HEAP_RULE_3 = af.HEAP_RULE_3 ∧
        res.af.HEAP_RULE_R = af.HEAP_RULE_R) ∧
    (af.HEAP_RULE_2.values = e :: rest →
      isInHole E front filling
        { E.rule2Point angle.vertices.1 angle.vertices.2.1 angle.vertices.2.2 with
          ref := af.alloc }
        angle.vertices.1 (some angle.vertices.2.2) = Except.ok false →
      ∃ res, applyRule2 E af front filling = Except.ok res ∧ res.vNew = none ∧
        res.front = front ∧ res.filling = filling ∧ res.af.angles = af.angles ∧
        (res.af.HEAP_RULE_2.values.map (fun x => x.angle)).Perm
          (af.HEAP_RULE_2.values.map (fun x => x.angle)) ∧
        (e.degree = angle.degree → res.af.HEAP_RULE_2.values.Perm af.HEAP_RULE_2.values) ∧
        res.af.HEAP_RULE_1 = af.HEAP_RULE_1 ∧ res.af.HEAP_RULE_3 = af.HEAP_RULE_3 ∧
        res.af.HEAP_RULE_R = af.HEAP_RULE_R) ∧
    (af.HEAP_RULE_3.values = e :: rest →
      isInHole E front filling
        (keepNearPlane E angle.vertices.2.1 angle.vertices.2.2
          { E.rule3Point angle.vertices.1 angle.vertices.2.1 angle.vertices.2.2 angle.degree
            with ref := af.alloc })
        angle.vertices.1 (some angle.vertices.2.2) = Except.ok false →
      ∃ res, applyRule3 E af front filling = Except.ok res ∧ res.vNew = none ∧
        res.front = front ∧ res.filling = filling ∧ res.af.angles = af.angles ∧
        (res.af.HEAP_RULE_3.values.map (fun x => x.angle)).Perm
          (af.HEAP_RULE_3.values.map (fun x => x.angle)) ∧
        (e.degree = angle.degree → res.af.HEAP_RULE_3.values.Perm af.HEAP_RULE_3.values) ∧
        res.af.HEAP_RULE_1 = af.HEAP_RULE_1 ∧ res.af.HEAP_RULE_2 = af.HEAP_RULE_2 ∧
        res.af.HEAP_RULE_R = af.HEAP_RULE_R) := by
  have hperm : (insertEntry ⟨angle.degree, e.angle⟩ rest).Perm (⟨angle.degree, e.angle⟩ :: rest) :=
    insertEntry_perm _ _
  have hmap : ((insertEntry ⟨angle.degree, e.angle⟩ rest).map (fun x => x.angle)).Perm
      ((e :: rest).map (fun x => x.angle)) := by
    simpa using hperm.map (fun x => x.angle)
  have hdeg : e.degree = angle.degree →
      (insertEntry ⟨angle.degree, e.angle⟩ rest).Perm (e :: rest) := by
    intro hd
    have : (⟨angle.degree, e.angle⟩ : HeapEntry) = e := by
      cases e; simp at hd ⊢; exact hd.symm
    rw [this] at hperm ⊢
    exact hperm
  refine ⟨fun vp v vn h => afRule1_rejected E front filling vp v vn h,
    fun vp v vn ref h => afRule2_rejected E front filling vp v vn ref h,
    fun vp v vn d ref h => afRule3_rejected E front filling vp v vn d ref h, ?_, ?_, ?_⟩
  · intro hv h
    refine ⟨_, applyRule1_rejected E af front filling e rest angle hv ha h, rfl, rfl, rfl, rfl,
      ?_, ?_, rfl, rfl, rfl⟩
    · rw [hv]; exact hmap
    · rw [hv]; exact hdeg
  · intro hv h
    refine ⟨_, applyRule2_rejected E af front filling e rest angle hv ha h, rfl, rfl, rfl, rfl,
      ?_, ?_, rfl, rfl, rfl⟩
    · rw [hv]; exact hmap
    · rw [hv]; exact hdeg
  · intro hv h
    refine ⟨_, applyRule3_rejected E af front filling e rest angle hv ha h, rfl, rfl, rfl, rfl,
      ?_, ?_, rfl, rfl, rfl⟩
    · rw [hv]; exact hmap
    · rw [hv]; exact hdeg

/-- An instance of C7: on the loop of five vertices, with a model face that
intersects every candidate triangle, `applyRule1` pops the first Angle, is rejected
and leaves the Rule-1 queue with the same five Angles. -/
theorem rejected_rule_requeues_witness :
    ∃ res, applyRule1 envReject af5 ⟨hole5, []⟩ ⟨hole5, []⟩ = Except.ok res ∧
      res.vNew = none ∧ res.front = ⟨hole5, []⟩ ∧ res.filling = ⟨hole5, []⟩ ∧
      res.af.angles = angles5 ∧
      (res.af.HEAP_RULE_1.values.map (fun x => x.angle)).Perm [0, 1, 2, 3, 4] := by
  obtain ⟨res, h1, h2, h3, h4, h5, h6, -⟩ :=
    (rejected_rule_requeues envReject af5 ⟨hole5, []⟩ ⟨hole5, []⟩ ⟨60, 0⟩
      [⟨60, 1⟩, ⟨60, 2⟩, ⟨60, 3⟩, ⟨60, 4⟩]
      ⟨(vtx 4 (-1) 1, vtx 0 0 0, vtx 1 2 0), 60, some 4, some 1⟩ rfl).2.2.2.1 rfl rfl
  exact ⟨res, h1, h2, h3, h4, h5, h6⟩

/-! ## Rejected rules and the error "No rule could be applied" (C8) -/

theorem insertEntry_ne_nil (e : HeapEntry) (l : List HeapEntry) : insertEntry e l ≠ [] := by
  cases l with
  | nil => simp [insertEntry]
  | cons x xs =>
    unfold insertEntry
    split <;> simp

theorem insertEntry_mem (e x : HeapEntry) (l : List HeapEntry) (h : x ∈ insertEntry e l) :
    x = e ∨ x ∈ l := by
  have := (insertEntry_perm e l).mem_iff.1 h
  simpa using this

theorem afmInit_envReject :
    afmInit envReject hole5 = Except.ok (loop5 [⟨60, 0⟩, ⟨60, 1⟩, ⟨60, 2⟩, ⟨60, 3⟩, ⟨60, 4⟩] 0 0) := by
  rfl

theorem angles5_rejected (r : Nat) (hr : r < 5) :
    ∃ angle, af5.angles[r]? = some angle ∧ angle.degree = 60 ∧
      isInHole envReject ⟨hole5, []⟩ ⟨hole5, []⟩ angle.vertices.1 angle.vertices.2.2 none
        = Except.ok false := by
  interval_cases r
  · exact ⟨_, rfl, rfl, rfl⟩
  · exact ⟨_, rfl, rfl, rfl⟩
  · exact ⟨_, rfl, rfl, rfl⟩
  · exact ⟨_, rfl, rfl, rfl⟩
  · exact ⟨_, rfl, rfl, rfl⟩

theorem loopBody_loop5 (values : List HeapEntry) (pops count : Nat) (hne : values ≠ [])
    (hval : ∀ x ∈ values, x.angle < 5) :
    ∃ values1, loopBody envReject hole5 (loop5 values pops count)
        = Except.ok (Outcome.next (loop5 values1 (pops + 1) (count + 1))) ∧
      values1 ≠ [] ∧ ∀ x ∈ values1, x.angle < 5 := by
  obtain ⟨e, rest, rfl⟩ := List.exists_cons_of_ne_nil hne
  obtain ⟨angle, ha, hdeg, hrej⟩ := angles5_rejected e.angle (hval e (List.mem_cons_self _ _))
  have hbody := loopBody_rule1 envReject hole5 (loop5 (e :: rest) pops count) rfl
    (by simp [loop5, hole5]) (by simp [loop5, hole5]) (by simp [loop5, hole5])
    (by simp [loop5, Heap.length])
  have happly := applyRule1_rejected envReject
    (enterRound envReject (loop5 (e :: rest) pops count)).af ⟨hole5, []⟩ ⟨hole5, []⟩
    e rest angle rfl ((angle_eq_ok _ _ _).2 ha) hrej
  refine ⟨insertEntry ⟨angle.degree, e.angle⟩ rest, ?_, insertEntry_ne_nil _ _, ?_⟩
  · rw [hbody]
    show (applyRule1 envReject (enterRound envReject (loop5 (e :: rest) pops count)).af
      ⟨hole5, []⟩ ⟨hole5, []⟩ >>= _) = _
    rw [happly]
    rfl
  · intro x hx
    rcases insertEntry_mem _ _ _ hx with h | h
    · rw [h]; exact hval e (List.mem_cons_self _ _)
    · exact hval x (List.mem_cons_of_mem _ h)

theorem afmLoop_loop5 (fuel : Nat) : ∀ (values : List HeapEntry) (pops count : Nat),
    values ≠ [] → (∀ x ∈ values, x.angle < 5) →
    afmLoop envReject hole5 fuel (loop5 values pops count) = Except.ok none := by
  induction fuel with
  | zero => intro values pops count _ _; rfl
  | succ n ih =>
    intro values pops count hne hval
    obtain ⟨values1, hbody, hne1, hval1⟩ := loopBody_loop5 values pops count hne hval
    unfold afmLoop
    rw [hbody]
    exact ih values1 (pops + 1) (count + 1) hne1 hval1

/-- C8 fails on the code: on the loop of five vertices whose corners all measure 60
degrees, with the collision test "all" and a model face that intersects every
candidate triangle, the front has 5 vertices, `isInHole` rejects each of the five
queued Angles and the debug cap is off; yet for no number of rounds does
`afmStart` end, neither with the error "No rule could be applied" nor otherwise:
every round pops an Angle, is rejected and puts it back. -/
theorem afmStart_rejected_never_stuck :
    envReject.AFM_STOP_AFTER_ITER = none ∧
    (∃ s, afmInit envReject hole5 = Except.ok s ∧ s.front.vertices.length = 5 ∧
      s.af.HEAP_RULE_1.values.length = 5 ∧ s.af.HEAP_RULE_2.values = [] ∧
      s.af.HEAP_RULE_3.values = [] ∧
      ∀ x ∈ s.af.HEAP_RULE_1.values, ∃ angle, s.af.angle x.angle = Except.ok angle ∧
        isInHole envReject s.front s.filling angle.vertices.1 angle.vertices.2.2 none
          = Except.ok false) ∧
    ¬ ∃ fuel, afmStart envReject hole5 fuel ≠ Except.ok none := by
  refine ⟨rfl, ⟨_, afmInit_envReject, rfl, rfl, rfl, rfl, ?_⟩, ?_⟩
  · intro x hx
    have hx5 : x.angle < 5 := by
      simp only [loop5, List.mem_cons, List.mem_singleton, List.not_mem_nil, or_false] at hx
      rcases hx with h | h | h | h | h <;> rw [h] <;> decide
    obtain ⟨angle, ha, -, hrej⟩ := angles5_rejected x.angle hx5
    exact ⟨angle, (angle_eq_ok _ _ _).2 ha, hrej⟩
  · rintro ⟨fuel, h⟩
    apply h
    unfold afmStart
    rw [afmInit_envReject]
    exact afmLoop_loop5 fuel _ 0 0 (by simp) (by decide)

/-! ## Initialisation -/

theorem mergeVerticesAux_nodup (E : Env) (vs : List Vector3) :
    ∀ seen : List (Int × Int × Int), (∀ v ∈ vs, E.mergeKey v ∉ seen) →
      (vs.map E.mergeKey).Nodup → mergeVerticesAux E vs seen = vs := by
  induction vs with
  | nil => intro _ _ _; rfl
  | cons v rest ih =>
    intro seen hseen hnd
    unfold mergeVerticesAux
    rw [List.map_cons, List.nodup_cons] at hnd
    rw [if_neg (hseen v (List.mem_cons_self _ _))]
    congr 1
    apply ih _ _ hnd.2
    intro u hu
    rw [List.mem_cons]
    rintro (h | h)
    · exact hnd.1 (h ▸ List.mem_map_of_mem _ hu)
    · exact hseen u (List.mem_cons_of_mem _ hu) h

theorem mergeVertices_nodup (E : Env) (vs : List Vector3) (h : (vs.map E.mergeKey).Nodup) :
    mergeVertices E vs = vs :=
  mergeVerticesAux_nodup E vs [] (fun _ _ => List.not_mem_nil _) h

/-- The Angle of position `i` after `k` rounds of the loop of `computeAngles`. -/
theorem computeAngles_loop (E : Env) (front : List Vector3) (k : Nat) :
    ((List.range k).foldl (computeAnglesStep E front) []).length = k ∧
    ∀ i, i < k → ((List.range k).foldl (computeAnglesStep E front) [])[i]? =
      some { ringAngle E front i with
        previous := if i = 0 then none else some (i - 1)
        next := if i + 1 < k then some (i + 1) else none } := by
  induction k with
  | zero => exact ⟨rfl, fun i hi => absurd hi (Nat.not_lt_zero _)⟩
  | succ k ih =>
    obtain ⟨hlen, hget⟩ := ih
    rw [List.range_succ, List.foldl_append, List.foldl_cons, List.foldl_nil]
    generalize (List.range k).foldl (computeAnglesStep E front) [] = acc at hlen hget
    unfold computeAnglesStep
    simp only [List.length_append, List.length_singleton, hlen, Nat.add_sub_cancel]
    constructor
    · split <;> simp [hlen]
    · intro i hi
      by_cases hk : 0 < k
      · rw [if_pos hk, List.getElem?_modify]
        by_cases hik : i = k
        · subst hik
          have h1 : i + 1 - 2 ≠ i := by omega
          rw [List.getElem?_append_right (by omega)]
          simp [hlen, h1, ringAngle, Angle.create, Angle.calculateAngle]
          omega
        · have hi' : i < k := by omega
          rw [List.getElem?_append_left (by omega), hget i hi']
          by_cases hik1 : i = k - 1
          · subst hik1
            have e1 : k + 1 - 2 = k - 1 := by omega
            have e2 : k - 1 + 1 = k := by omega
            simp [e1, e2]
          · have h1 : k + 1 - 2 ≠ i := by omega
            have h2 : i + 1 < k := by omega
            have h3 : i + 1 < k + 1 := by omega
            have h0 : k - 1 ≠ i := by omega
            simp [h1, h2, h3, h0]
      · have hk0 : k = 0 := by omega
        subst hk0
        have hi0 : i = 0 := by omega
        subst hi0
        have hacc : acc = [] := List.length_eq_zero.1 hlen
        subst hacc
        simp [ringAngle, Angle.create, Angle.calculateAngle]

theorem computeAngles_eq (E : Env) (front : List Vector3) (hne : front ≠ []) :
    ∃ angles, computeAngles E front = Except.ok angles ∧ angles.length = front.length ∧
      ∀ i, i < front.length → angles[i]? = some (ringAngle E front i) := by
  obtain ⟨hlen, hget⟩ := computeAngles_loop E front front.length
  have hpos : 0 < front.length := List.length_pos.2 hne
  unfold computeAngles
  generalize (List.range front.length).foldl (computeAnglesStep E front) [] = acc at hlen hget
  simp only [hlen, List.length_modify]
  rw [if_neg (by omega)]
  refine ⟨_, rfl, by simp [hlen], ?_⟩
  intro i hi
  rw [List.getElem?_modify, List.getElem?_modify, hget i hi]
  by_cases h0 : i = 0
  · subst h0
    by_cases h1 : front.length - 1 = 0
    · have : ¬ (0 + 1 < front.length) := by omega
      simp [h1, this, ringAngle]
    · have : 0 + 1 < front.length := by omega
      simp [h1, this, ringAngle]
  · have h00 : ¬ (0 = i) := fun h => h0 h.symm
    by_cases h1 : front.length - 1 = i
    · have : ¬ (i + 1 < front.length) := by omega
      simp [h0, h00, h1, this, ringAngle]
    · have : i + 1 < front.length := by omega
      simp [h0, h00, h1, this, ringAngle]

theorem initHeaps_ok (l : List Nat) : ∀ af : AFState, (∀ r ∈ l, r < af.angles.length) →
    ∃ af1, initHeaps af l = Except.ok af1 ∧ af1.angles = af.angles ∧
      popCounts af1 = popCounts af ∧ af1.alloc = af.alloc ∧
      af1.LAST_ITERATION = af.LAST_ITERATION := by
  induction l with
  | nil => intro af _; exact ⟨af, rfl, rfl, rfl, rfl, rfl⟩
  | cons r rest ih =>
    intro af h
    have hr : r < af.angles.length := h r (List.mem_cons_self _ _)
    have hrest : ∀ x ∈ rest, x < af.angles.length :=
      fun x hx => h x (List.mem_cons_of_mem _ hx)
    have hget : af.angle r = Except.ok af.angles[r] := by
      rw [angle_eq_ok]; exact List.getElem?_eq_getElem hr
    unfold initHeaps
    rw [hget]
    simp only
    split_ifs
    · obtain ⟨af1, h1, h2, h3, h4, h5⟩ := ih
        { af with HEAP_RULE_1 := af.HEAP_RULE_1.insert af.angles[r].degree r } hrest
      exact ⟨af1, h1, h2, h3, h4, h5⟩
    · obtain ⟨af1, h1, h2, h3, h4, h5⟩ := ih
        { af with HEAP_RULE_2 := af.HEAP_RULE_2.insert af.angles[r].degree r } hrest
      exact ⟨af1, h1, h2, h3, h4, h5⟩
    · obtain ⟨af1, h1, h2, h3, h4, h5⟩ := ih
        { af with HEAP_RULE_3 := af.HEAP_RULE_3.insert af.angles[r].degree r } hrest
      exact ⟨af1, h1, h2, h3, h4, h5⟩
    · obtain ⟨af1, h1, h2, h3, h4, h5⟩ := ih
        { af with HEAP_RULE_R := af.HEAP_RULE_R.insert af.angles[r].degree r } hrest
      exact ⟨af1, h1, h2, h3, h4, h5⟩

theorem afmInit_ok (E : Env) (hole : List Vector3) (hne : hole ≠ [])
    (hkeys : (hole.map E.mergeKey).Nodup) :
    ∃ s, afmInit E hole = Except.ok s ∧ s.front = ⟨hole, []⟩ ∧ s.filling = ⟨hole, []⟩ ∧
      s.count = 0 ∧ popCounts s.af = (0, 0, 0, 0) ∧ LinksOk s.af ∧
      s.af.angles.length = hole.length ∧
      ∀ i, i < hole.length → s.af.angles[i]? = some (ringAngle E hole i) := by
  obtain ⟨angles, hca, hlen, hget⟩ := computeAngles_eq E hole hne
  obtain ⟨af1, h1, h2, h3, -, -⟩ := initHeaps_ok (List.range angles.length)
    { LAST_ITERATION := false
      HEAP_RULE_1 := Heap.create "1"
      HEAP_RULE_2 := Heap.create "2"
      HEAP_RULE_3 := Heap.create "3"
      HEAP_RULE_R := Heap.create "R"
      angles := angles
      alloc := firstFree (hole ++ E.MODEL.vertices) }
    (fun r hr => List.mem_range.1 hr)
  unfold afmInit
  simp only [mergeVertices_nodup E hole hkeys, hca, bind, Except.bind, h1, pure, Except.pure]
  refine ⟨_, rfl, rfl, rfl, rfl, ?_, ?_, ?_, ?_⟩
  · simpa [popCounts, Heap.sort] using h3
  · intro r a hra
    simp only [h2] at hra ⊢
    have hr : r < angles.length := by
      rcases Nat.lt_or_ge r angles.length with h | h
      · exact h
      · rw [List.getElem?_eq_none h] at hra; cases hra
    rw [hlen] at hr
    rw [hget r hr] at hra
    cases hra
    refine ⟨_, _, rfl, rfl, ?_, ?_⟩
    · rw [hlen]; split <;> omega
    · rw [hlen]; split <;> omega
  · simp only [h2]; exact hlen
  · simp only [h2]; exact hget

/-! ## A loop of four vertices (C9) -/

theorem arrIndexOf_four (a b c d : Vector3) (h : [a, b, c, d].Nodup) :
    arrIndexOf [a, b, c, d] a = 0 ∧ arrIndexOf [a, b, c, d] b = 1 ∧
    arrIndexOf [a, b, c, d] c = 2 ∧ arrIndexOf [a, b, c, d] d = 3 := by
  simp only [List.nodup_cons, List.mem_cons, List.mem_singleton, not_or, List.not_mem_nil,
    not_false_eq_true, List.nodup_nil, and_true] at h
  obtain ⟨⟨hab, hac, had⟩, ⟨hbc, hbd⟩, hcd⟩ := h
  have hba : ¬ b = a := fun h => hab h.symm
  have hca : ¬ c = a := fun h => hac h.symm
  have hda : ¬ d = a := fun h => had h.symm
  have hcb : ¬ c = b := fun h => hbc h.symm
  have hdb : ¬ d = b := fun h => hbd h.symm
  have hdc : ¬ d = c := fun h => hcd h.symm
  refine ⟨?_, ?_, ?_, ?_⟩ <;>
    simp [arrIndexOf, List.indexOf_cons, hab, hac, had, hbc, hbd, hcd, hba, hca, hda, hcb, hdb, hdc]

/-- C9, with the hypothesis the code needs: for a hole loop of exactly 4 vertices
no two of which share a key of `mergeVertices` (its coordinates rounded to 4
decimals), with the debug cap off or at least 1, `afmStart` ends in its
first round by `closeHole4` without applying a rule (no queue is popped): the
filling it returns has exactly the two faces `(3, 2, 0)` and `(1, 0, 2)` and its
vertex list is the list of the 4 input vertices. -/
theorem afmStart_four_vertices (E : Env) (hole : List Vector3) (fuel : Nat)
    (hlen : hole.length = 4) (hkeys : (hole.map E.mergeKey).Nodup)
    (hcap : ∀ stopIter, E.AFM_STOP_AFTER_ITER = some stopIter → 1 ≤ stopIter) :
    ∃ s, afmStart E hole (fuel + 1) = Except.ok (some s) ∧ s.count = 1 ∧
      popCounts s.af = (0, 0, 0, 0) ∧ s.filling.vertices = hole ∧
      s.filling.faces = [⟨3, 2, 0⟩, ⟨1, 0, 2⟩] ∧ s.filling.faces.length = 2 := by
  have hne : hole ≠ [] := by
    intro h; rw [h] at hlen; cases hlen
  obtain ⟨s0, hinit, hfront, hfill, hcount, hpops, -, -, -⟩ := afmInit_ok E hole hne hkeys
  have hnd : hole.Nodup := List.Nodup.of_map _ hkeys
  have hcap0 : E.AFM_STOP_AFTER_ITER.any (fun stopIter => s0.count + 1 > stopIter) = false := by
    rw [hcount]
    cases h : E.AFM_STOP_AFTER_ITER with
    | none => rfl
    | some n =>
      have := hcap n h
      simp only [Option.any_some, decide_eq_false_iff_not]
      omega
  match hole, hlen with
  | [a, b, c, d], _ =>
    obtain ⟨ia, ib, ic, id⟩ := arrIndexOf_four a b c d hnd
    have hbody : loopBody E [a, b, c, d] s0 = Except.ok (Outcome.finished
        { enterRound E s0 with filling := closeHole4 s0.front s0.filling }) := by
      unfold loopBody
      simp [hcap0, enterRound_front, enterRound_filling, hfront]
    refine ⟨{ enterRound E s0 with filling := closeHole4 s0.front s0.filling },
      ?_, ?_, ?_, ?_, ?_, ?_⟩
    · unfold afmStart
      rw [hinit]
      unfold afmLoop
      rw [hbody]
    · simp only [enterRound_count, hcount]
    · rw [← hpops]
      obtain ⟨e1, e2, e3, e4, -⟩ := enterRound_heaps E s0
      simp [popCounts, e1, e2, e3, e4]
    · simp [closeHole4, hfill]
    · simp [closeHole4, hfill, hfront, arrGet, ia, ib, ic, id]
    · simp [closeHole4, hfill]

/-- An instance of C9: a square of four vertices. -/
theorem afmStart_four_vertices_witness :
    ∃ s, afmStart envSixty [vtx 0 0 0, vtx 1 1 0, vtx 2 1 1, vtx 3 0 1] 1
        = Except.ok (some s) ∧ s.count = 1 ∧ popCounts s.af = (0, 0, 0, 0) ∧
      s.filling.vertices = [vtx 0 0 0, vtx 1 1 0, vtx 2 1 1, vtx 3 0 1] ∧
      s.filling.faces = [⟨3, 2, 0⟩, ⟨1, 0, 2⟩] ∧ s.filling.faces.length = 2 :=
  afmStart_four_vertices envSixty [vtx 0 0 0, vtx 1 1 0, vtx 2 1 1, vtx 3 0 1] 0 rfl
    (by decide) (by intro n h; cases h)

/-! ## A fill by Rule 1 alone (C10) -/

theorem ruleOneReady_spec (E : Env) (s : LoopState) (h : ruleOneReady E s = true) :
    ∃ e rest angle, s.af.HEAP_RULE_1.values = e :: rest ∧
      s.af.angle e.angle = Except.ok angle ∧
      isInHole E s.front s.filling angle.vertices.1 angle.vertices.2.2 none
        = Except.ok true := by
  unfold ruleOneReady at h
  split at h
  · cases h
  · rename_i e rest hv
    split at h
    · rename_i angle ha
      split at h
      · rename_i hin
        exact ⟨e, rest, angle, hv, ha, hin⟩
      · cases h
    · cases h

theorem afRule1_accepted (E : Env) (front filling : Geometry) (vp v vn : Vector3)
    (h : isInHole E front filling vp vn none = Except.ok true) :
    afRule1 E front filling vp v vn = Except.ok {
      ok := true
      front := { front with
        vertices := arrSplice1 front.vertices (arrIndexOf front.vertices v) }
      filling := { filling with faces := filling.faces ++
        [⟨arrIndexOf filling.vertices v, arrIndexOf filling.vertices vp,
          arrIndexOf filling.vertices vn⟩] } } := by
  unfold afRule1
  simp only [h]

theorem heapRemove_ok (af : AFState) (r : Nat) (hr : r < af.angles.length) :
    ∃ af1, heapRemove af r = Except.ok af1 ∧ af1.angles = af.angles := by
  have hget : af.angle r = Except.ok af.angles[r] := by
    rw [angle_eq_ok]; exact List.getElem?_eq_getElem hr
  unfold heapRemove
  rw [hget]
  simp only
  split_ifs <;> exact ⟨_, rfl, rfl⟩

theorem heapInsert_ok (af : AFState) (r : Nat) (hr : r < af.angles.length) :
    ∃ af1, heapInsert af r = Except.ok af1 ∧ af1.angles = af.angles := by
  have hget : af.angle r = Except.ok af.angles[r] := by
    rw [angle_eq_ok]; exact List.getElem?_eq_getElem hr
  unfold heapInsert
  rw [hget]
  simp only
  split_ifs <;> exact ⟨_, rfl, rfl⟩

theorem linksOk_of_angles (af af1 : AFState) (h : af1.angles = af.angles) (hl : LinksOk af) :
    LinksOk af1 := by
  intro r a hra
  rw [h] at hra ⊢
  exact hl r a hra

theorem linksOk_modify (af : AFState) (r : Nat) (f : Angle → Angle) (hl : LinksOk af)
    (hf : ∀ a : Angle, (∃ p n, a.previous = some p ∧ a.next = some n ∧
        p < af.angles.length ∧ n < af.angles.length) →
      ∃ p n, (f a).previous = some p ∧ (f a).next = some n ∧
        p < af.angles.length ∧ n < af.angles.length) :
    LinksOk (af.modify r f) := by
  intro i a hia
  simp only [AFState.modify, List.getElem?_modify, List.length_modify] at hia ⊢
  cases hget : af.angles[i]? with
  | none => rw [hget] at hia; cases hia
  | some b =>
    rw [hget] at hia
    cases hia
    split
    · exact hf b (hl i b hget)
    · exact hl i b hget

theorem modify_length (af : AFState) (r : Nat) (f : Angle → Angle) :
    (af.modify r f).angles.length = af.angles.length := by
  simp [AFState.modify]

theorem applyRule1_accepted (E : Env) (af : AFState) (front filling : Geometry)
    (e : HeapEntry) (rest : List HeapEntry) (angle : Angle)
    (hv : af.HEAP_RULE_1.values = e :: rest) (ha : af.angle e.angle = Except.ok angle)
    (hin : isInHole E front filling angle.vertices.1 angle.vertices.2.2 none
      = Except.ok true)
    (hl : LinksOk af) :
    ∃ res, applyRule1 E af front filling = Except.ok res ∧ res.vNew = none ∧
      res.front = { front with
        vertices := arrSplice1 front.vertices (arrIndexOf front.vertices angle.vertices.2.1) } ∧
      res.filling = { filling with
        faces := filling.faces ++
          [⟨arrIndexOf filling.vertices angle.vertices.2.1,
            arrIndexOf filling.vertices angle.vertices.1,
            arrIndexOf filling.vertices angle.vertices.2.2⟩] } ∧
      LinksOk res.af ∧
      popCounts res.af = (af.HEAP_RULE_1.pops + 1, af.HEAP_RULE_2.pops, af.HEAP_RULE_3.pops,
        af.HEAP_RULE_R.pops) := by
  rw [angle_eq_ok] at ha
  obtain ⟨p, n, hp, hn, hpl, hnl⟩ := hl _ _ ha
  have hl0 : LinksOk { af with
      HEAP_RULE_1 := ⟨af.HEAP_RULE_1.name, rest, af.HEAP_RULE_1.pops + 1⟩ } :=
    linksOk_of_angles af _ rfl hl
  obtain ⟨af1, h1, e1⟩ := heapRemove_ok { af with
      HEAP_RULE_1 := ⟨af.HEAP_RULE_1.name, rest, af.HEAP_RULE_1.pops + 1⟩ } p hpl
  have hl1 : LinksOk af1 := linksOk_of_angles _ _ e1 hl0
  have hlen1 : af1.angles.length = af.angles.length := by rw [e1]
  have hl2 : LinksOk ((af1.modify p (fun a =>
      a.setVertices E (a.vertices.1, a.vertices.2.1, angle.vertices.2.2))).modify p
        (fun a => { a with next := angle.next })) := by
    apply linksOk_modify
    · apply linksOk_modify _ _ _ hl1
      intro a h
      exact h
    · intro a h
      obtain ⟨p1, n1, hp1, -, hp1l, -⟩ := h
      rw [modify_length] at hp1l ⊢
      exact ⟨p1, n, hp1, hn, hp1l, by rw [hlen1]; exact hnl⟩
  obtain ⟨af3, h3, e3⟩ := heapInsert_ok ((af1.modify p (fun a =>
      a.setVertices E (a.vertices.1, a.vertices.2.1, angle.vertices.2.2))).modify p
        (fun a => { a with next := angle.next })) p
    (by rw [modify_length, modify_length, hlen1]; exact hpl)
  have hl3 : LinksOk af3 := linksOk_of_angles _ _ e3 hl2
  have hlen3 : af3.angles.length = af.angles.length := by
    rw [e3, modify_length, modify_length, hlen1]
  obtain ⟨af4, h4, e4⟩ := heapRemove_ok af3 n (by rw [hlen3]; exact hnl)
  have hl4 : LinksOk af4 := linksOk_of_angles _ _ e4 hl3
  have hlen4 : af4.angles.length = af.angles.length := by rw [e4, hlen3]
  have hl5 : LinksOk ((af4.modify n (fun a =>
      a.setVertices E (angle.vertices.1, a.vertices.2.1, a.vertices.2.2))).modify n
        (fun a => { a with previous := angle.previous })) := by
    apply linksOk_modify
    · apply linksOk_modify _ _ _ hl4
      intro a h
      exact h
    · intro a h
      obtain ⟨-, n1, -, hn1, -, hn1l⟩ := h
      rw [modify_length] at hn1l ⊢
      exact ⟨p, n1, hp, hn1, by rw [hlen4]; exact hpl, hn1l⟩
  obtain ⟨af6, h6, e6⟩ := heapInsert_ok ((af4.modify n (fun a =>
      a.setVertices E (angle.vertices.1, a.vertices.2.1, a.vertices.2.2))).modify n
        (fun a => { a with previous := angle.previous })) n
    (by rw [modify_length, modify_length, hlen4]; exact hnl)
  have happly : applyRule1 E af front filling = Except.ok {
      vNew := none
      af := af6
      front := { front with
        vertices := arrSplice1 front.vertices (arrIndexOf front.vertices angle.vertices.2.1) }
      filling := { filling with
        faces := filling.faces ++
          [⟨arrIndexOf filling.vertices angle.vertices.2.1,
            arrIndexOf filling.vertices angle.vertices.1,
            arrIndexOf filling.vertices angle.vertices.2.2⟩] } } := by
    simp only [hn] at h3
    simp only [hp] at h6
    unfold applyRule1
    simp only [Heap.removeFirst, hv, AFState.angle, List.get?_eq_getElem?, ha, deref, bind,
      Except.bind, afRule1_accepted E front filling _ angle.vertices.2.1 _ hin, hp, hn, h1, h3,
      h4, h6, if_true]
    rfl
  exact ⟨_, happly, rfl, rfl, rfl, linksOk_of_angles _ _ e6 hl5,
    popCounts_applyRule1 _ _ _ _ _ happly⟩

theorem enterRound_none (E : Env) (s : LoopState) (hcap : E.AFM_STOP_AFTER_ITER = none) :
    enterRound E s = { s with count := s.count + 1 } := by
  unfold enterRound
  simp [hcap]

theorem mergeStep_none (E : Env) (hole : List Vector3) (count : Nat) (res : ApplyResult)
    (h : res.vNew = none) :
    mergeStep E hole count res
      = Except.ok (Outcome.next ⟨res.af, res.front, res.filling, count⟩) := by
  unfold mergeStep
  simp [h, mergeByDistance]

theorem loopBody_rule1_accepted (E : Env) (hole : List Vector3) (s : LoopState)
    (hcap : E.AFM_STOP_AFTER_ITER = none) (h5 : 5 ≤ s.front.vertices.length)
    (hready : ruleOneReady E s = true) (hl : LinksOk s.af) :
    ∃ s1, loopBody E hole s = Except.ok (Outcome.next s1) ∧
      s1.front.vertices.length + 1 = s.front.vertices.length ∧
      s1.filling.vertices = s.filling.vertices ∧
      s1.filling.faces.length = s.filling.faces.length + 1 ∧ LinksOk s1.af ∧
      popCounts s1.af = (s.af.HEAP_RULE_1.pops + 1, s.af.HEAP_RULE_2.pops,
        s.af.HEAP_RULE_3.pops, s.af.HEAP_RULE_R.pops) := by
  obtain ⟨e, rest, angle, hv, ha, hin⟩ := ruleOneReady_spec E s hready
  have hcap0 : E.AFM_STOP_AFTER_ITER.any (fun stopIter => s.count + 1 > stopIter) = false := by
    rw [hcap]; rfl
  have hbody := loopBody_rule1 E hole s hcap0 (by omega) (by omega) (by omega)
    (by simp [Heap.length, hv])
  rw [enterRound_none E s hcap] at hbody
  obtain ⟨res, happly, hnew, hfront, hfill, hlinks, hpops⟩ :=
    applyRule1_accepted E s.af s.front s.filling e rest angle hv ha hin hl
  have hne : s.front.vertices ≠ [] := by
    intro h; rw [h] at h5; simp at h5
  refine ⟨⟨res.af, res.front, res.filling, s.count + 1⟩, ?_, ?_, ?_, ?_, hlinks, hpops⟩
  · rw [hbody]
    show (applyRule1 E s.af s.front s.filling >>= _) = _
    rw [happly]
    exact mergeStep_none E hole (s.count + 1) res hnew
  · simp only [hfront]
    exact arrSplice1_indexOf_length _ _ hne
  · simp only [hfill]
  · simp only [hfill, List.length_append, List.length_singleton]

theorem afmLoop_rule1_only (E : Env) (hole : List Vector3)
    (hcap : E.AFM_STOP_AFTER_ITER = none) (n : Nat) :
    ∀ s : LoopState, s.front.vertices.length = n + 4 → LinksOk s.af →
      (∀ k s1, stateAfter E hole k s = some s1 → s1.front.vertices.length ≠ 4 →
        s1.front.vertices.length ≠ 3 → s1.front.vertices.length ≠ 1 →
        ruleOneReady E s1 = true) →
      ∃ sf, afmLoop E hole (n + 1) s = Except.ok (some sf) ∧
        sf.filling.vertices = s.filling.vertices ∧
        sf.filling.faces.length = s.filling.faces.length + n + 2 ∧
        popCounts sf.af = (s.af.HEAP_RULE_1.pops + n, s.af.HEAP_RULE_2.pops,
          s.af.HEAP_RULE_3.pops, s.af.HEAP_RULE_R.pops) := by
  induction n with
  | zero =>
    intro s hlen _ _
    have hcap0 : E.AFM_STOP_AFTER_ITER.any (fun stopIter => s.count + 1 > stopIter) = false := by
      rw [hcap]; rfl
    refine ⟨{ enterRound E s with filling := closeHole4 s.front s.filling }, ?_, ?_, ?_, ?_⟩
    · unfold afmLoop loopBody
      simp [hcap0, enterRound_front, enterRound_filling, hlen]
    · simp [closeHole4, enterRound_filling]
    · simp [closeHole4, enterRound_filling]
    · obtain ⟨e1, e2, e3, e4, -⟩ := enterRound_heaps E s
      simp [popCounts, e1, e2, e3, e4]
  | succ n ih =>
    intro s hlen hl hready
    have h0 := hready 0 s rfl (by omega) (by omega) (by omega)
    obtain ⟨s1, hbody, hfront, hverts, hfaces, hl1, hpops⟩ :=
      loopBody_rule1_accepted E hole s hcap (by omega) h0 hl
    obtain ⟨sf, hrun, hv, hf, hp⟩ := ih s1 (by omega) hl1 (by
      intro k s2 hk
      apply hready (k + 1) s2
      simp only [stateAfter, hbody]
      exact hk)
    refine ⟨sf, ?_, ?_, ?_, ?_⟩
    · rw [afmLoop, hbody]
      exact hrun
    · rw [hv, hverts]
    · rw [hf, hfaces]; omega
    · simp only [popCounts, Prod.mk.injEq] at hpops hp ⊢
      obtain ⟨a1, a2, a3, a4⟩ := hpops
      obtain ⟨b1, b2, b3, b4⟩ := hp
      refine ⟨?_, ?_, ?_, ?_⟩ <;> omega

/-- C10, with the hypothesis the code needs: for a hole loop of `N ≥ 3` vertices
no two of which share a key of `mergeVertices` (its coordinates rounded to 4
decimals), with the debug cap off: if at the head of every round that does
not close the hole the Rule-1 queue is non-empty and the Angle it pops passes
`isInHole`, then `afmStart` terminates, no queue but the Rule-1 queue is ever
popped, the vertex list of the returned filling is the list of the `N` input
vertices and the filling has exactly `N - 2` faces. -/
theorem afmStart_rule1_only (E : Env) (hole : List Vector3) (hN : 3 ≤ hole.length)
    (hkeys : (hole.map E.mergeKey).Nodup) (hcap : E.AFM_STOP_AFTER_ITER = none)
    (hready : ∀ s0 k s, afmInit E hole = Except.ok s0 → stateAfter E hole k s0 = some s →
      s.front.vertices.length ≠ 4 → s.front.vertices.length ≠ 3 →
      s.front.vertices.length ≠ 1 → ruleOneReady E s = true) :
    ∃ fuel s, afmStart E hole fuel = Except.ok (some s) ∧ s.filling.vertices = hole ∧
      s.filling.faces.length = hole.length - 2 ∧ s.af.HEAP_RULE_2.pops = 0 ∧
      s.af.HEAP_RULE_3.pops = 0 ∧ s.af.HEAP_RULE_R.pops = 0 := by
  have hne : hole ≠ [] := by
    intro h; rw [h] at hN; simp at hN
  obtain ⟨s0, hinit, hfront, hfill, hcount, hpops, hl, -, -⟩ := afmInit_ok E hole hne hkeys
  simp only [popCounts, Prod.mk.injEq] at hpops
  obtain ⟨p1, p2, p3, p4⟩ := hpops
  have hcap0 : E.AFM_STOP_AFTER_ITER.any (fun stopIter => s0.count + 1 > stopIter) = false := by
    rw [hcap]; rfl
  by_cases h3 : hole.length = 3
  · refine ⟨1, { enterRound E s0 with filling := closeHole3 s0.front s0.filling }, ?_, ?_, ?_, ?_⟩
    · unfold afmStart
      rw [hinit]
      unfold afmLoop loopBody
      simp [hcap0, enterRound_front, enterRound_filling, hfront, h3]
    · simp [closeHole3, hfill]
    · simp [closeHole3, hfill, h3]
    · obtain ⟨-, e2, e3, e4, -⟩ := enterRound_heaps E s0
      simp [e2, e3, e4, p2, p3, p4]
  · obtain ⟨sf, hrun, hv, hf, hp⟩ := afmLoop_rule1_only E hole hcap (hole.length - 4) s0
      (by rw [hfront]; simp only; omega) hl (fun k s1 hk => hready s0 k s1 hinit hk)
    simp only [popCounts, Prod.mk.injEq] at hp
    obtain ⟨-, q2, q3, q4⟩ := hp
    refine ⟨hole.length - 4 + 1, sf, ?_, ?_, ?_, ?_, ?_, ?_⟩
    · unfold afmStart
      rw [hinit]
      exact hrun
    · rw [hv, hfill]
    · rw [hf, hfill]
      simp only [List.length_nil]
      omega
    · rw [q2, p2]
    · rw [q3, p3]
    · rw [q4, p4]

theorem stateAfter_none_succ (E : Env) (hole : List Vector3) (j : Nat) :
    ∀ s : LoopState, stateAfter E hole j s = none → stateAfter E hole (j + 1) s = none := by
  induction j with
  | zero => intro s h; cases h
  | succ j ih =>
    intro s h
    rw [stateAfter] at h ⊢
    split
    · rename_i s1 hb
      rw [hb] at h
      exact ih s1 h
    · rfl

theorem stateAfter_none_add (E : Env) (hole : List Vector3) (j i : Nat) (s : LoopState)
    (h : stateAfter E hole j s = none) : stateAfter E hole (j + i) s = none := by
  induction i with
  | zero => exact h
  | succ i ih => exact stateAfter_none_succ E hole (j + i) s ih

/-- An instance of C10: on the loop of five vertices whose corners all measure 60
degrees and with no intersections, one application of Rule 1 and the 4-vertex
closure give the 5 input vertices and 3 faces. -/
theorem afmStart_rule1_only_witness :
    ∃ fuel s, afmStart envSixty hole5 fuel = Except.ok (some s) ∧
      s.filling.vertices = hole5 ∧ s.filling.faces.length = 5 - 2 ∧
      s.af.HEAP_RULE_2.pops = 0 ∧ s.af.HEAP_RULE_3.pops = 0 ∧ s.af.HEAP_RULE_R.pops = 0 := by
  refine afmStart_rule1_only envSixty hole5 (by decide) (by decide) rfl ?_
  intro s0 k s h0 hk hn4 _ _
  have hs0 : afmInit envSixty hole5 = Except.ok
      ⟨{ af5 with alloc := 5 }, ⟨hole5, []⟩, ⟨hole5, []⟩, 0⟩ := rfl
  rw [hs0] at h0
  cases h0
  match k with
  | 0 =>
    cases hk
    rfl
  | 1 =>
    exfalso
    apply hn4
    have h1 : (stateAfter envSixty hole5 1
        ⟨{ af5 with alloc := 5 }, ⟨hole5, []⟩, ⟨hole5, []⟩, 0⟩).map
          (fun s => s.front.vertices.length) = some 4 := by
      rfl
    rw [hk] at h1
    simpa using h1
  | k + 2 =>
    exfalso
    have h2 : stateAfter envSixty hole5 (2 + k)
        ⟨{ af5 with alloc := 5 }, ⟨hole5, []⟩, ⟨hole5, []⟩, 0⟩ = none :=
      stateAfter_none_add _ _ 2 k _ rfl
    rw [Nat.add_comm] at h2
    rw [h2] at hk
    cases hk


/-! ## The merge pass and the vertices of the hole loop (C6) -/

theorem arrIndexOf_nonneg_iff {α : Type} [DecidableEq α] (xs : List α) (x : α) :
    0 ≤ arrIndexOf xs x ↔ x ∈ xs := by
  unfold arrIndexOf
  split
  · rename_i h
    simp [h]
  · rename_i h
    simp [h]

theorem arrSplice1_indexOf_mem {α : Type} [DecidableEq α] (xs : List α) (x : α)
    (h : x ∈ xs) : arrSplice1 xs (arrIndexOf xs x) = xs.erase x := by
  have hlt : List.indexOf x xs < xs.length := List.indexOf_lt_length.2 h
  unfold arrSplice1 spliceStart
  rw [arrIndexOf_mem xs x h]
  have h1 : ¬ ((List.indexOf x xs : Int) < 0) := by omega
  rw [if_neg h1]
  simp only [Int.toNat_ofNat]
  rw [Nat.min_eq_left (Nat.le_of_lt hlt)]
  exact List.eraseIdx_indexOf_eq_erase x xs

theorem updateFaces_vertices (filling : Geometry) (oldIndex newIndex : Int) :
    (updateFaces filling oldIndex newIndex).vertices = filling.vertices := rfl

theorem mergeNeighbour_step (E : Env) (v : Vector3) (ignore : List Vector3)
    (s s1 : MergeState) (t : Option Vector3)
    (hnd : s.front.vertices.Nodup)
    (hsub : ∀ u ∈ s.front.vertices, u ∈ s.filling.vertices)
    (h : mergeNeighbour E v ignore s t = Except.ok s1) :
    s1.front.vertices.Nodup ∧ (∀ u ∈ s1.front.vertices, u ∈ s1.filling.vertices) ∧
    ((s1.front.vertices = s.front.vertices ∧ s1.filling.vertices = s.filling.vertices) ∨
      ∃ t0, t = some t0 ∧ t0 ∉ ignore ∧ s1.front.vertices = s.front.vertices.erase t0 ∧
        s1.filling.vertices = s.filling.vertices.erase t0) := by
  unfold mergeNeighbour at h
  split at h
  · cases h
  · rename_i t0
    split_ifs at h with hign hnear
    · cases h
      exact ⟨hnd, hsub, Or.inl ⟨rfl, rfl⟩⟩
    · simp only [bind_eq_ok] at h
      obtain ⟨front1, hfront, merged, -, h⟩ := h
      cases h
      have hnot : t0 ∉ ignore := by
        intro hmem
        exact hign ((arrIndexOf_nonneg_iff ignore t0).2 hmem)
      unfold mergeUpdateFront at hfront
      simp only at hfront
      split_ifs at hfront with hix
      cases hfront
      have ht0 : t0 ∈ s.front.vertices := by
        rw [← arrIndexOf_nonneg_iff]
        omega
      have ht1 : t0 ∈ s.filling.vertices := hsub t0 ht0
      simp only [updateFaces_vertices, arrSplice1_indexOf_mem _ _ ht0,
        arrSplice1_indexOf_mem _ _ ht1]
      refine ⟨hnd.erase t0, ?_, Or.inr ⟨t0, rfl, hnot, rfl, rfl⟩⟩
      intro u hu
      rw [hnd.mem_erase_iff] at hu
      exact (List.mem_erase_of_ne hu.1).2 (hsub u hu.2)
    · cases h
      exact ⟨hnd, hsub, Or.inl ⟨rfl, rfl⟩⟩

/-- The merge pass on a duplicate-free front: for a call
`mergeByDistance( front, filling, v, ignore )`
that returns, in a state where the front has no duplicate entry and every front
vertex is in `filling.vertices`: every vertex of `ignore` that was in
`front.vertices` and in `filling.vertices` is in both afterwards, whatever the
distances are; and a vertex that is gone from the front or from the filling was
one of the two front neighbours of `v` in `compare` and is not in `ignore`. -/
theorem mergeByDistance_keeps_ignored (E : Env) (s s1 : MergeState) (v : Option Vector3)
    (ignore : List Vector3)
    (hnd : s.front.vertices.Nodup)
    (hsub : ∀ u ∈ s.front.vertices, u ∈ s.filling.vertices)
    (h : mergeByDistance E s v ignore = Except.ok s1) :
    (∀ u ∈ ignore, u ∈ s.front.vertices → u ∈ s.filling.vertices →
      u ∈ s1.front.vertices ∧ u ∈ s1.filling.vertices) ∧
    (∀ u, (u ∈ s.front.vertices ∧ u ∉ s1.front.vertices) ∨
        (u ∈ s.filling.vertices ∧ u ∉ s1.filling.vertices) →
      u ∉ ignore ∧ ∃ w, v = some w ∧
        some u ∈ compareNeighbours s.front.vertices (arrIndexOf s.front.vertices w)) := by
  unfold mergeByDistance at h
  split at h
  · cases h
    refine ⟨fun u _ h1 h2 => ⟨h1, h2⟩, ?_⟩
    rintro u (⟨h1, h2⟩ | ⟨h1, h2⟩) <;> exact absurd h1 h2
  · rename_i w
    simp only at h
    split at h
    · cases h
      refine ⟨fun u _ h1 h2 => ⟨h1, h2⟩, ?_⟩
      rintro u (⟨h1, h2⟩ | ⟨h1, h2⟩) <;> exact absurd h1 h2
    · generalize hcmp : compareNeighbours s.front.vertices (arrIndexOf s.front.vertices w)
        = cmp at h
      have hc : ∃ c1 c2, cmp = [c1, c2] := by
        rw [← hcmp]; exact ⟨_, _, rfl⟩
      obtain ⟨c1, c2, rfl⟩ := hc
      simp only [List.foldlM, bind_eq_ok] at h
      obtain ⟨sa, ha, sb, hb, h⟩ := h
      cases h
      obtain ⟨hnd1, hsub1, hstep1⟩ := mergeNeighbour_step E w ignore s sa c1 hnd hsub ha
      obtain ⟨-, -, hstep2⟩ := mergeNeighbour_step E w ignore sa s1 c2 hnd1 hsub1 hb
      have keep : ∀ (a b : MergeState) (c : Option Vector3),
          ((b.front.vertices = a.front.vertices ∧ b.filling.vertices = a.filling.vertices) ∨
            ∃ t0, c = some t0 ∧ t0 ∉ ignore ∧ b.front.vertices = a.front.vertices.erase t0 ∧
              b.filling.vertices = a.filling.vertices.erase t0) →
          ∀ u, (u ∈ ignore → u ∈ a.front.vertices → u ∈ b.front.vertices) ∧
            (u ∈ ignore → u ∈ a.filling.vertices → u ∈ b.filling.vertices) ∧
            (u ∈ a.front.vertices → u ∉ b.front.vertices → u ∉ ignore ∧ c = some u) ∧
            (u ∈ a.filling.vertices → u ∉ b.filling.vertices → u ∉ ignore ∧ c = some u) := by
        intro a b c hstep u
        rcases hstep with ⟨e1, e2⟩ | ⟨t0, hc, hn, e1, e2⟩
        · rw [e1, e2]
          exact ⟨fun _ h => h, fun _ h => h, fun h1 h2 => absurd h1 h2,
            fun h1 h2 => absurd h1 h2⟩
        · rw [e1, e2]
          have hne : u ∈ ignore → u ≠ t0 := fun hu heq => hn (heq ▸ hu)
          refine ⟨fun hu h => (List.mem_erase_of_ne (hne hu)).2 h,
            fun hu h => (List.mem_erase_of_ne (hne hu)).2 h, ?_, ?_⟩
          · intro h1 h2
            by_cases hut : u = t0
            · rw [hut]; exact ⟨hn, hc⟩
            · exact absurd ((List.mem_erase_of_ne hut).2 h1) h2
          · intro h1 h2
            by_cases hut : u = t0
            · rw [hut]; exact ⟨hn, hc⟩
            · exact absurd ((List.mem_erase_of_ne hut).2 h1) h2
      have k1 := keep s sa c1 hstep1
      have k2 := keep sa s1 c2 hstep2
      refine ⟨?_, ?_⟩
      · intro u hu h1 h2
        exact ⟨(k2 u).1 hu ((k1 u).1 hu h1), (k2 u).2.1 hu ((k1 u).2.1 hu h2)⟩
      · intro u hu
        have : u ∉ ignore ∧ (c1 = some u ∨ c2 = some u) := by
          rcases hu with ⟨h1, h2⟩ | ⟨h1, h2⟩
          · by_cases hm : u ∈ sa.front.vertices
            · have := (k2 u).2.2.1 hm h2
              exact ⟨this.1, Or.inr this.2⟩
            · have := (k1 u).2.2.1 h1 hm
              exact ⟨this.1, Or.inl this.2⟩
          · by_cases hm : u ∈ sa.filling.vertices
            · have := (k2 u).2.2.2 hm h2
              exact ⟨this.1, Or.inr this.2⟩
            · have := (k1 u).2.2.2 h1 hm
              exact ⟨this.1, Or.inl this.2⟩
        refine ⟨this.1, w, rfl, ?_⟩
        rw [hcmp]
        rcases this.2 with h | h
        · rw [h]; exact List.mem_cons_self _ _
        · rw [h]; exact List.mem_cons_of_mem _ (List.mem_cons_self _ _)

/-- C6 fails in the code for a front that holds one object twice: with front
`[t, v, t, h]`, filling vertices `[t, v, h]` (every front vertex is in the filling)
and `ignore = [h]`, the second round of the loop of `mergeByDistance` looks up `t`
after it was removed from the filling, `indexOf` gives -1 unchecked,
`splice( -1, 1 )` removes the last filling vertex, and the vertex `h` of `ignore`,
which was in the front and in the filling, is no longer in the filling. -/
theorem mergeByDistance_duplicate_front_loses_ignored :
    ∃ s1, mergeByDistance envNear
        ⟨mkAF [] [] [] [] [], ⟨[vtx 5 0 0, vtx 6 1 0, vtx 5 0 0, vtx 0 5 5], []⟩,
          ⟨[vtx 5 0 0, vtx 6 1 0, vtx 0 5 5], []⟩⟩
        (some (vtx 6 1 0)) [vtx 0 5 5] = Except.ok s1 ∧
      (∀ u ∈ [vtx 5 0 0, vtx 6 1 0, vtx 5 0 0, vtx 0 5 5],
        u ∈ [vtx 5 0 0, vtx 6 1 0, vtx 0 5 5]) ∧
      vtx 0 5 5 ∈ [vtx 5 0 0, vtx 6 1 0, vtx 5 0 0, vtx 0 5 5] ∧
      vtx 0 5 5 ∈ [vtx 5 0 0, vtx 6 1 0, vtx 0 5 5] ∧
      s1.filling.vertices = [vtx 6 1 0] ∧ vtx 0 5 5 ∉ s1.filling.vertices := by
  refine ⟨_, rfl, by decide, by decide, by decide, rfl, by decide⟩

/-- An instance of the merge pass on a duplicate-free front: the new vertex `v` has the neighbours `t` (created earlier)
and `h1` (of the hole loop), both within the threshold; `t` is merged away, the
vertices of the hole loop stay. -/
theorem mergeByDistance_keeps_ignored_witness :
    ∃ s1, mergeByDistance envNear
        ⟨mkAF [] [] [] [] [], ⟨[vtx 0 0 0, vtx 5 1 0, vtx 6 1 1, vtx 1 0 1], []⟩,
          ⟨[vtx 0 0 0, vtx 1 0 1, vtx 5 1 0, vtx 6 1 1], []⟩⟩
        (some (vtx 6 1 1)) [vtx 0 0 0, vtx 1 0 1] = Except.ok s1 ∧
      s1.front.vertices = [vtx 0 0 0, vtx 6 1 1, vtx 1 0 1] ∧
      (∀ u ∈ [vtx 0 0 0, vtx 1 0 1],
        u ∈ [vtx 0 0 0, vtx 5 1 0, vtx 6 1 1, vtx 1 0 1] →
        u ∈ [vtx 0 0 0, vtx 1 0 1, vtx 5 1 0, vtx 6 1 1] →
        u ∈ s1.front.vertices ∧ u ∈ s1.filling.vertices) :=
  ⟨_, rfl, rfl, (mergeByDistance_keeps_ignored envNear
    ⟨mkAF [] [] [] [] [], ⟨[vtx 0 0 0, vtx 5 1 0, vtx 6 1 1, vtx 1 0 1], []⟩,
      ⟨[vtx 0 0 0, vtx 1 0 1, vtx 5 1 0, vtx 6 1 1], []⟩⟩ _
    (some (vtx 6 1 1)) [vtx 0 0 0, vtx 1 0 1] (by decide) (by decide) rfl).1⟩


/-! ## Faces have three distinct vertices (C5) -/

theorem corner_distinct (front : List Vector3) (vp v vn : Vector3) (hnd : front.Nodup)
    (h3 : 3 ≤ front.length) (hc : IsCorner front vp v vn) :
    vp ∈ front ∧ v ∈ front ∧ vn ∈ front ∧ vp ≠ v ∧ v ≠ vn ∧ vp ≠ vn := by
  obtain ⟨i, hi, hv, hvp, hvn⟩ := hc
  have hmod : (i + 1) % front.length = if i + 1 < front.length then i + 1 else 0 := by
    split
    · rename_i h; exact Nat.mod_eq_of_lt h
    · rename_i h
      have : i + 1 = front.length := by omega
      rw [this, Nat.mod_self]
  rw [hmod] at hvn
  have key : ∀ (j k : Nat) (x y : Vector3), front[j]? = some x → front[k]? = some y → j ≠ k →
      x ≠ y := by
    intro j k x y hj hk hjk hxy
    have hjl : j < front.length := by
      rcases Nat.lt_or_ge j front.length with h | h
      · exact h
      · rw [List.getElem?_eq_none h] at hj; cases hj
    apply hjk
    apply List.getElem?_inj hjl hnd
    rw [hj, hk, hxy]
  refine ⟨List.getElem?_mem hvp, List.getElem?_mem hv, List.getElem?_mem hvn,
    key _ _ _ _ hvp hv ?_, key _ _ _ _ hv hvn ?_, key _ _ _ _ hvp hvn ?_⟩
  · split <;> omega
  · split <;> omega
  · split <;> split <;> omega

theorem arrIndexOf_inj {α : Type} [DecidableEq α] (xs : List α) (x y : α) (hx : x ∈ xs)
    (hy : y ∈ xs) (hne : x ≠ y) : arrIndexOf xs x ≠ arrIndexOf xs y := by
  rw [arrIndexOf_mem xs x hx, arrIndexOf_mem xs y hy]
  intro h
  apply hne
  exact (List.indexOf_inj hx hy).1 (by exact_mod_cast h)

theorem arrIndexOf_range {α : Type} [DecidableEq α] (xs : List α) (x : α) (hx : x ∈ xs) :
    0 ≤ arrIndexOf xs x ∧ arrIndexOf xs x < xs.length :=
  ⟨(arrIndexOf_nonneg_iff xs x).2 hx, arrIndexOf_lt xs x⟩

theorem arrIndexOf_append {α : Type} [DecidableEq α] (xs : List α) (x w : α) (hx : x ∈ xs) :
    arrIndexOf (xs ++ [w]) x = arrIndexOf xs x := by
  rw [arrIndexOf_mem xs x hx, arrIndexOf_mem (xs ++ [w]) x (List.mem_append_left _ hx),
    List.indexOf_append_of_mem hx]

theorem face_valid_of_mem (xs : List Vector3) (x y z : Vector3) (hx : x ∈ xs) (hy : y ∈ xs)
    (hz : z ∈ xs) (hxy : x ≠ y) (hxz : x ≠ z) (hyz : y ≠ z) :
    Face3.Valid xs.length ⟨arrIndexOf xs x, arrIndexOf xs y, arrIndexOf xs z⟩ :=
  ⟨⟨arrIndexOf_inj xs x y hx hy hxy, arrIndexOf_inj xs x z hx hz hxz,
    arrIndexOf_inj xs y z hy hz hyz⟩, arrIndexOf_range xs x hx, arrIndexOf_range xs y hy,
    arrIndexOf_range xs z hz⟩

theorem decreaseHigherFaceIndexes_spec (faces : List Face3) (i : Nat) (cmpIndex : Int)
    (hi : i < faces.length) :
    (decreaseHigherFaceIndexes faces i cmpIndex = faces.eraseIdx i) ∨
    (∃ f : Face3, f.Distinct ∧ decreaseHigherFaceIndexes faces i cmpIndex = faces.set i f) := by
  have hg : ∃ g : Face3, decreaseHigherFaceIndexes faces i cmpIndex =
      if g.a = g.b ∨ g.a = g.c ∨ g.b = g.c then faces.eraseIdx i else faces.set i g := by
    unfold decreaseHigherFaceIndexes
    rw [List.get?_eq_getElem?, List.getElem?_eq_getElem hi]
    exact ⟨_, rfl⟩
  obtain ⟨g, hg⟩ := hg
  rw [hg]
  by_cases h : g.a = g.b ∨ g.a = g.c ∨ g.b = g.c
  · rw [if_pos h]
    exact Or.inl rfl
  · rw [if_neg h]
    refine Or.inr ⟨g, ?_, rfl⟩
    simp only [not_or] at h
    exact ⟨h.1, h.2.1, h.2.2⟩

theorem updateFacesLoop_distinct (oldIndex newIndex : Int) (i : Nat) :
    ∀ faces : List Face3, i ≤ faces.length →
      (∀ j, i ≤ j → ∀ f, faces[j]? = some f → f.Distinct) →
      ∀ f ∈ updateFacesLoop oldIndex newIndex i faces, f.Distinct := by
  induction i with
  | zero =>
    intro faces _ h f hf
    unfold updateFacesLoop at hf
    obtain ⟨j, hj, hfj⟩ := List.getElem_of_mem hf
    exact h j (Nat.zero_le _) f (by rw [List.getElem?_eq_getElem hj, hfj])
  | succ i ih =>
    intro faces hlen h f hf
    have hi : i < faces.length := by omega
    unfold updateFacesLoop at hf
    rw [List.get?_eq_getElem?, List.getElem?_eq_getElem hi] at hf
    simp only at hf
    generalize hface : ({
        a := if faces[i].a = oldIndex then newIndex else faces[i].a
        b := if faces[i].b = oldIndex then newIndex else faces[i].b
        c := if faces[i].c = oldIndex then newIndex else faces[i].c } : Face3) = face at hf
    have hset : i < (faces.set i face).length := by simpa using hi
    rcases decreaseHigherFaceIndexes_spec (faces.set i face) i oldIndex hset with h1 | ⟨g, hg, h1⟩
    · rw [h1] at hf
      refine ih _ ?_ ?_ f hf
      · rw [List.length_eraseIdx]; simp only [List.length_set, hi, if_true]; omega
      · intro j hj f1 hf1
        rw [List.getElem?_eraseIdx] at hf1
        have : ¬ j < i := by omega
        rw [if_neg this] at hf1
        rw [List.getElem?_set_ne (by omega)] at hf1
        exact h (j + 1) (by omega) f1 hf1
    · rw [h1] at hf
      refine ih _ ?_ ?_ f hf
      · simp only [List.length_set]; omega
      · intro j hj f1 hf1
        rw [List.set_set] at hf1
        by_cases hji : j = i
        · subst hji
          rw [List.getElem?_set_self hi] at hf1
          cases hf1
          exact hg
        · rw [List.getElem?_set_ne (fun h => hji h.symm)] at hf1
          exact h j (by omega) f1 hf1

/-- The faces the single operations push,
for a duplicate-free front whose vertices are all in `filling.vertices`:
a successful `afRule1`, `afRule2`, `afRule3` at a corner `(vp, v, vn)` of a front
of at least 3 vertices appends one, two, one faces, `closeHole3` on a front of 3
vertices appends one face and `closeHole4` on a front of 4 vertices two, and every
appended face has three pairwise distinct indices, each a valid position of the
(new) vertex list of the filling; and after `updateFaces`, whatever the two
indices are, no face of the filling references the same index twice. -/
theorem faces_have_distinct_vertices (E : Env) (front filling : Geometry)
    (hnd : front.vertices.Nodup) (hsub : ∀ u ∈ front.vertices, u ∈ filling.vertices) :
    (∀ vp v vn, 3 ≤ front.vertices.length → IsCorner front.vertices vp v vn →
      (∀ res, afRule1 E front filling vp v vn = Except.ok res → res.ok = true →
        ∃ f, res.filling.faces = filling.faces ++ [f] ∧
          f.Valid res.filling.vertices.length) ∧
      (∀ ref res, afRule2 E front filling vp v vn ref = Except.ok res → res.vNew.isSome →
        ∃ f g, res.filling.faces = filling.faces ++ [f, g] ∧
          f.Valid res.filling.vertices.length ∧ g.Valid res.filling.vertices.length) ∧
      (∀ d ref res, afRule3 E front filling vp v vn d ref = Except.ok res →
        res.vNew.isSome →
        ∃ f, res.filling.faces = filling.faces ++ [f] ∧
          f.Valid res.filling.vertices.length)) ∧
    (front.vertices.length = 3 →
      ∃ f, (closeHole3 front filling).faces = filling.faces ++ [f] ∧
        f.Valid (closeHole3 front filling).vertices.length) ∧
    (front.vertices.length = 4 →
      ∃ f g, (closeHole4 front filling).faces = filling.faces ++ [f, g] ∧
        f.Valid (closeHole4 front filling).vertices.length ∧
        g.Valid (closeHole4 front filling).vertices.length) ∧
    (∀ oldIndex newIndex, ∀ f ∈ (updateFaces filling oldIndex newIndex).faces,
      f.Distinct) := by
  refine ⟨?_, ?_, ?_, ?_⟩
  · intro vp v vn h3 hc
    obtain ⟨mp, mv, mn, hpv, hvn, hpn⟩ := corner_distinct front.vertices vp v vn hnd h3 hc
    have fp := hsub vp mp
    have fv := hsub v mv
    have fn := hsub vn mn
    refine ⟨?_, ?_, ?_⟩
    · intro res h hok
      unfold afRule1 at h
      simp only at h
      split at h
      · cases h
      · cases h; simp at hok
      · cases h
        exact ⟨_, rfl, face_valid_of_mem filling.vertices v vp vn fv fp fn
          (fun h => hpv h.symm) hvn hpn⟩
    · intro ref res h hsome
      unfold afRule2 at h
      simp only at h
      split at h
      · cases h
      · cases h; simp at hsome
      · cases h
        refine ⟨_, _, rfl, ?_, ?_⟩
        · have iv := arrIndexOf_range filling.vertices v fv
          have ip := arrIndexOf_range filling.vertices vp fp
          have hne := arrIndexOf_inj filling.vertices v vp fv fp (fun h => hpv h.symm)
          simp only [Face3.Valid, Face3.Distinct, arrIndexOf_append _ _ _ fv,
            arrIndexOf_append _ _ _ fp, List.length_append, List.length_singleton,
            Nat.cast_add, Nat.cast_one, ne_eq]
          refine ⟨⟨hne, ?_, ?_⟩, ⟨?_, ?_⟩, ⟨?_, ?_⟩, ⟨?_, ?_⟩⟩ <;> omega
        · have iv := arrIndexOf_range filling.vertices v fv
          have inn := arrIndexOf_range filling.vertices vn fn
          have hne := arrIndexOf_inj filling.vertices v vn fv fn hvn
          simp only [Face3.Valid, Face3.Distinct, arrIndexOf_append _ _ _ fv,
            arrIndexOf_append _ _ _ fn, List.length_append, List.length_singleton,
            Nat.cast_add, Nat.cast_one, ne_eq]
          refine ⟨⟨?_, hne, ?_⟩, ⟨?_, ?_⟩, ⟨?_, ?_⟩, ⟨?_, ?_⟩⟩ <;> omega
    · intro d ref res h hsome
      unfold afRule3 at h
      simp only at h
      split at h
      · cases h
      · cases h; simp at hsome
      · cases h
        refine ⟨_, rfl, ?_⟩
        have iv := arrIndexOf_range filling.vertices v fv
        have inn := arrIndexOf_range filling.vertices vn fn
        have hne := arrIndexOf_inj filling.vertices vn v fn fv (fun h => hvn h.symm)
        simp only [Face3.Valid, Face3.Distinct, arrIndexOf_append _ _ _ fv,
          arrIndexOf_append _ _ _ fn, List.length_append, List.length_singleton,
          Nat.cast_add, Nat.cast_one, ne_eq]
        refine ⟨⟨hne, ?_, ?_⟩, ⟨?_, ?_⟩, ⟨?_, ?_⟩, ⟨?_, ?_⟩⟩ <;> omega
  · intro h3
    match hf : front.vertices, h3 with
    | [a, b, c], _ =>
      rw [hf] at hnd hsub
      simp only [List.nodup_cons, List.mem_cons, List.mem_singleton, not_or, List.not_mem_nil,
        not_false_eq_true, List.nodup_nil, and_true] at hnd
      obtain ⟨⟨hab, hac⟩, hbc⟩ := hnd
      refine ⟨_, rfl, ?_⟩
      simp only [closeHole3, hf, arrGet]
      exact face_valid_of_mem filling.vertices b a c (hsub b (by simp)) (hsub a (by simp))
        (hsub c (by simp)) (fun h => hab h.symm) hbc hac
  · intro h4
    match hf : front.vertices, h4 with
    | [a, b, c, d], _ =>
      rw [hf] at hnd hsub
      simp only [List.nodup_cons, List.mem_cons, List.mem_singleton, not_or, List.not_mem_nil,
        not_false_eq_true, List.nodup_nil, and_true] at hnd
      obtain ⟨⟨hab, hac, had⟩, ⟨hbc, hbd⟩, hcd⟩ := hnd
      refine ⟨_, _, rfl, ?_, ?_⟩
      · simp only [closeHole4, hf, arrGet]
        exact face_valid_of_mem filling.vertices d c a (hsub d (by simp)) (hsub c (by simp))
          (hsub a (by simp)) (fun h => hcd h.symm) (fun h => had h.symm)
          (fun h => hac h.symm)
      · simp only [closeHole4, hf, arrGet]
        exact face_valid_of_mem filling.vertices b a c (hsub b (by simp)) (hsub a (by simp))
          (hsub c (by simp)) (fun h => hab h.symm) hbc hac
  · intro oldIndex newIndex f hf
    exact updateFacesLoop_distinct oldIndex newIndex filling.faces.length filling.faces
      (Nat.le_refl _)
      (fun j hj f1 hf1 => by rw [List.getElem?_eq_none hj] at hf1; cases hf1) f hf

/-- An instance on the loop of five vertices: Rule 1 at the corner of the
second vertex appends a face with three distinct valid indices. -/
theorem faces_have_distinct_vertices_witness :
    ∃ res f, afRule1 envSixty ⟨hole5, []⟩ ⟨hole5, []⟩ (vtx 0 0 0) (vtx 1 2 0) (vtx 2 3 1)
        = Except.ok res ∧ res.filling.faces = [f] ∧ f.Valid 5 := by
  obtain ⟨f, h1, h2⟩ := ((faces_have_distinct_vertices envSixty ⟨hole5, []⟩ ⟨hole5, []⟩
    (by decide) (by decide)).1 (vtx 0 0 0) (vtx 1 2 0) (vtx 2 3 1) (by decide)
    ⟨1, by decide, rfl, rfl, rfl⟩).1 _ rfl rfl
  exact ⟨_, f, rfl, h1, h2⟩


/-! ## Reclassification with an unchanged degree (C11) -/

theorem count_insertEntry (e : HeapEntry) (l : List HeapEntry) (x : Nat) :
    ((insertEntry e l).map (fun e => e.angle)).count x
      = (l.map (fun e => e.angle)).count x + if e.angle = x then 1 else 0 := by
  induction l with
  | nil => simp [insertEntry, List.count_cons]
  | cons y ys ih =>
    simp only [insertEntry]
    split
    · simp [List.count_cons]
    · simp only [List.map_cons, List.count_cons, ih]
      omega

theorem count_removeEntry (r : Nat) (l : List HeapEntry) (x : Nat) :
    ((removeEntry r l).map (fun e => e.angle)).count x
      = (l.map (fun e => e.angle)).count x - if r = x then 1 else 0 := by
  induction l with
  | nil => simp [removeEntry]
  | cons y ys ih =>
    simp only [removeEntry]
    split
    · rename_i h
      simp only [List.map_cons, List.count_cons, h, beq_iff_eq]
      split <;> simp
    · rename_i h
      simp only [List.map_cons, List.count_cons, ih, beq_iff_eq]
      by_cases hx : r = x
      · subst hx
        simp [h]
      · simp [hx]

theorem heapInsert_eq (af : AFState) (r : Nat) (angle : Angle)
    (hr : af.angle r = Except.ok angle) :
    heapInsert af r = Except.ok (af.setHeap (queueOf angle.degree)
      ((af.heap (queueOf angle.degree)).insert angle.degree r)) := by
  unfold heapInsert queueOf
  rw [hr]
  simp only
  split_ifs <;> rfl

theorem heapRemove_eq (af : AFState) (r : Nat) (angle : Angle)
    (hr : af.angle r = Except.ok angle) :
    heapRemove af r = Except.ok (af.setHeap (queueOf angle.degree)
      ((af.heap (queueOf angle.degree)).remove r)) := by
  unfold heapRemove queueOf
  rw [hr]
  simp only
  split_ifs <;> rfl

theorem heap_setHeap (af : AFState) (id id1 : HeapId) (h : Heap) :
    (af.setHeap id h).heap id1 = if id1 = id then h else af.heap id1 := by
  cases id <;> cases id1 <;> simp [AFState.setHeap, AFState.heap]

theorem angles_setHeap (af : AFState) (id : HeapId) (h : Heap) :
    (af.setHeap id h).angles = af.angles := by
  cases id <;> rfl

theorem queued_setHeap (af : AFState) (id id1 : HeapId) (h : Heap) :
    queued (af.setHeap id h) id1
      = if id1 = id then h.values.map (fun e => e.angle) else queued af id1 := by
  unfold queued
  rw [heap_setHeap]
  split <;> rfl

/-- C11: `heapInsert` and `heapRemove` address the same queue, the one the if-chain
selects for the degree of the Angle; and for an Angle `r` that is in this queue,
`heapRemove` followed by `heapInsert` (the degree unchanged) leaves `r` in this
queue, leaves every one of the four queues with the same Angles as before, and
leaves the Angle objects as they were. -/
theorem heapRemove_heapInsert_same_queue (af : AFState) (r : Nat) (angle : Angle)
    (hr : af.angle r = Except.ok angle) (hq : r ∈ queued af (queueOf angle.degree)) :
    heapInsert af r = Except.ok (af.setHeap (queueOf angle.degree)
      ((af.heap (queueOf angle.degree)).insert angle.degree r)) ∧
    heapRemove af r = Except.ok (af.setHeap (queueOf angle.degree)
      ((af.heap (queueOf angle.degree)).remove r)) ∧
    ∃ af1 af2, heapRemove af r = Except.ok af1 ∧ heapInsert af1 r = Except.ok af2 ∧
      r ∈ queued af2 (queueOf angle.degree) ∧
      (∀ id, (queued af2 id).Perm (queued af id)) ∧ af2.angles = af.angles := by
  have hr1 : (af.setHeap (queueOf angle.degree)
      ((af.heap (queueOf angle.degree)).remove r)).angle r = Except.ok angle := by
    unfold AFState.angle at hr ⊢
    rw [angles_setHeap]
    exact hr
  have hperm : ∀ id, (queued ((af.setHeap (queueOf angle.degree)
      ((af.heap (queueOf angle.degree)).remove r)).setHeap (queueOf angle.degree)
        (((af.setHeap (queueOf angle.degree)
          ((af.heap (queueOf angle.degree)).remove r)).heap (queueOf angle.degree)).insert
            angle.degree r)) id).Perm (queued af id) := by
    intro id
    rw [queued_setHeap]
    split
    · rename_i hid
      subst hid
      rw [heap_setHeap, if_pos rfl, List.perm_iff_count]
      intro x
      have hpos : 0 < (queued af (queueOf angle.degree)).count r := List.count_pos_iff.2 hq
      simp only [queued] at hpos ⊢
      simp only [Heap.insert, Heap.remove, count_insertEntry, count_removeEntry]
      by_cases hx : r = x
      · subst hx
        simp only [if_true]
        omega
      · simp [hx]
    · rw [queued_setHeap, if_neg (by assumption)]
  refine ⟨heapInsert_eq af r angle hr, heapRemove_eq af r angle hr, _, _,
    heapRemove_eq af r angle hr, heapInsert_eq _ r angle hr1, ?_, hperm, ?_⟩
  · exact (hperm _).mem_iff.2 hq
  · rw [angles_setHeap, angles_setHeap]

/-- An instance of C11: an Angle of 60 degrees in the Rule-1 queue, between two
other entries. -/
theorem heapRemove_heapInsert_same_queue_witness :
    ∃ af1 af2, heapRemove (mkAF [⟨50, 1⟩, ⟨60, 0⟩, ⟨70, 2⟩] [] [] [] angles5) 0
        = Except.ok af1 ∧ heapInsert af1 0 = Except.ok af2 ∧
      0 ∈ queued af2 (queueOf 60) ∧
      (∀ id, (queued af2 id).Perm
        (queued (mkAF [⟨50, 1⟩, ⟨60, 0⟩, ⟨70, 2⟩] [] [] [] angles5) id)) ∧
      af2.angles = angles5 :=
  (heapRemove_heapInsert_same_queue (mkAF [⟨50, 1⟩, ⟨60, 0⟩, ⟨70, 2⟩] [] [] [] angles5) 0
    ⟨(vtx 4 (-1) 1, vtx 0 0 0, vtx 1 2 0), 60, some 4, some 1⟩ rfl (by decide)).2.2

/-! ## The validity predicate (C19) -/

theorem arrGet_inRange {α : Type} (xs : List α) (i : Int) (h : 0 ≤ i ∧ i < xs.length) :
    ∃ a, arrGet xs i = some a := by
  have hi : i.toNat < xs.length := by omega
  exact ⟨xs[i.toNat], by simp [arrGet, h.1, List.get?_eq_getElem?, List.getElem?_eq_getElem hi]⟩

theorem isInHoleFilling_cons (E : Env) (vs : List Vector3) (v fromA : Vector3)
    (fromB : Option Vector3) (face : Face3) (rest : List Face3) (a b c : Vector3)
    (ha : arrGet vs face.a = some a) (hb : arrGet vs face.b = some b)
    (hc : arrGet vs face.c = some c) :
    isInHoleFilling E vs v fromA fromB (face :: rest)
      = if touches a b c fromA then isInHoleFilling E vs v fromA fromB rest
        else if touches a b c (fromB.getD v) then isInHoleFilling E vs v fromA fromB rest
        else if E.checkIntersectionOfTriangles3D a b c (some v) (some fromA) fromB then
          Except.ok false
        else isInHoleFilling E vs v fromA fromB rest := by
  rw [isInHoleFilling, touchesAt_eq vs face fromA a b c ha hb hc]
  cases touches a b c fromA
  · simp only [ha, hb, hc, Bool.false_eq_true, if_false]
    cases fromB <;> rfl
  · rfl

theorem isInHoleFilling_spec (E : Env) (vs : List Vector3) (v fromA : Vector3)
    (fromB : Option Vector3) (faces : List Face3)
    (h : ∀ face ∈ faces, face.InRange vs.length) :
    (isInHoleFilling E vs v fromA fromB faces = Except.ok false ∧
      ∃ face ∈ faces, ∃ a b c, arrGet vs face.a = some a ∧ arrGet vs face.b = some b ∧
        arrGet vs face.c = some c ∧ touches a b c fromA = false ∧
        touches a b c (fromB.getD v) = false ∧
        E.checkIntersectionOfTriangles3D a b c (some v) (some fromA) fromB = true) ∨
    (isInHoleFilling E vs v fromA fromB faces = Except.ok true ∧
      ¬ ∃ face ∈ faces, ∃ a b c, arrGet vs face.a = some a ∧ arrGet vs face.b = some b ∧
        arrGet vs face.c = some c ∧ touches a b c fromA = false ∧
        touches a b c (fromB.getD v) = false ∧
        E.checkIntersectionOfTriangles3D a b c (some v) (some fromA) fromB = true) := by
  induction faces with
  | nil => right; simp [isInHoleFilling]
  | cons face rest ih =>
    obtain ⟨ha, hb, hc⟩ := h face (List.mem_cons_self _ _)
    obtain ⟨a, ha⟩ := arrGet_inRange vs face.a ha
    obtain ⟨b, hb⟩ := arrGet_inRange vs face.b hb
    obtain ⟨c, hc⟩ := arrGet_inRange vs face.c hc
    have ih1 := ih (fun f hf => h f (List.mem_cons_of_mem _ hf))
    rw [isInHoleFilling_cons E vs v fromA fromB face rest a b c ha hb hc]
    have keep : ∀ (_ : ¬ (touches a b c fromA = false ∧
        touches a b c (fromB.getD v) = false ∧
        E.checkIntersectionOfTriangles3D a b c (some v) (some fromA) fromB = true)),
        (isInHoleFilling E vs v fromA fromB rest = Except.ok false ∧
          ∃ face1 ∈ face :: rest, ∃ a b c, arrGet vs face1.a = some a ∧
            arrGet vs face1.b = some b ∧ arrGet vs face1.c = some c ∧
            touches a b c fromA = false ∧
            touches a b c (fromB.getD v) = false ∧
            E.checkIntersectionOfTriangles3D a b c (some v) (some fromA) fromB = true) ∨
        (isInHoleFilling E vs v fromA fromB rest = Except.ok true ∧
          ¬ ∃ face1 ∈ face :: rest, ∃ a b c, arrGet vs face1.a = some a ∧
            arrGet vs face1.b = some b ∧ arrGet vs face1.c = some c ∧
            touches a b c fromA = false ∧
            touches a b c (fromB.getD v) = false ∧
            E.checkIntersectionOfTriangles3D a b c (some v) (some fromA) fromB = true) := by
      intro hnot
      rcases ih1 with ⟨e, f, hf, w⟩ | ⟨e, hno⟩
      · exact Or.inl ⟨e, f, List.mem_cons_of_mem _ hf, w⟩
      · refine Or.inr ⟨e, ?_⟩
        rintro ⟨f, hf, a1, b1, c1, ea, eb, ec, t⟩
        rcases List.mem_cons.1 hf with rfl | hf
        · rw [ha] at ea; rw [hb] at eb; rw [hc] at ec
          cases ea; cases eb; cases ec
          exact hnot t
        · exact hno ⟨f, hf, a1, b1, c1, ea, eb, ec, t⟩
    cases h1 : touches a b c fromA with
    | true =>
      simp only [if_true]
      exact keep (fun t => by rw [h1] at t; cases t.1)
    | false =>
      simp only [Bool.false_eq_true, if_false]
      cases h2 : touches a b c (fromB.getD v) with
      | true =>
        simp only [if_true]
        exact keep (fun t => by rw [h2] at t; cases t.2.1)
      | false =>
        simp only [Bool.false_eq_true, if_false]
        cases h3 : E.checkIntersectionOfTriangles3D a b c (some v) (some fromA) fromB with
        | true =>
          simp only [if_true]
          exact Or.inl ⟨trivial, face, List.mem_cons_self _ _, a, b, c, ha, hb, hc, h1, h2, h3⟩
        | false =>
          simp only [Bool.false_eq_true, if_false]
          exact keep (fun t => by rw [h3] at t; cases t.2.2)
theorem isInHoleModel_cons (E : Env) (vs : List Vector3) (v fromA : Vector3)
    (fromB : Option Vector3) (face : Face3) (rest : List Face3) (a b c : Vector3)
    (ha : arrGet vs face.a = some a) (hb : arrGet vs face.b = some b)
    (hc : arrGet vs face.c = some c) :
    isInHoleModel E vs v fromA fromB (face :: rest)
      = if touches a b c fromA then isInHoleModel E vs v fromA fromB rest
        else if fromB.any (fun fB => touches a b c fB) then isInHoleModel E vs v fromA fromB rest
        else if E.checkIntersectionOfTriangles3D a b c (some fromA) fromB (some v) then
          Except.ok false
        else isInHoleModel E vs v fromA fromB rest := by
  rw [isInHoleModel, touchesAt_eq vs face fromA a b c ha hb hc]
  cases touches a b c fromA
  · simp only [ha, hb, hc, Bool.false_eq_true, if_false]
    cases fromB <;> rfl
  · rfl

theorem isInHoleModel_spec (E : Env) (vs : List Vector3) (v fromA : Vector3)
    (fromB : Option Vector3) (faces : List Face3)
    (h : ∀ face ∈ faces, face.InRange vs.length) :
    (isInHoleModel E vs v fromA fromB faces = Except.ok false ∧
      ∃ face ∈ faces, ∃ a b c, arrGet vs face.a = some a ∧ arrGet vs face.b = some b ∧
        arrGet vs face.c = some c ∧ touches a b c fromA = false ∧
        fromB.any (fun fB => touches a b c fB) = false ∧
        E.checkIntersectionOfTriangles3D a b c (some fromA) fromB (some v) = true) ∨
    (isInHoleModel E vs v fromA fromB faces = Except.ok true ∧
      ¬ ∃ face ∈ faces, ∃ a b c, arrGet vs face.a = some a ∧ arrGet vs face.b = some b ∧
        arrGet vs face.c = some c ∧ touches a b c fromA = false ∧
        fromB.any (fun fB => touches a b c fB) = false ∧
        E.checkIntersectionOfTriangles3D a b c (some fromA) fromB (some v) = true) := by
  induction faces with
  | nil => right; simp [isInHoleModel]
  | cons face rest ih =>
    obtain ⟨ha, hb, hc⟩ := h face (List.mem_cons_self _ _)
    obtain ⟨a, ha⟩ := arrGet_inRange vs face.a ha
    obtain ⟨b, hb⟩ := arrGet_inRange vs face.b hb
    obtain ⟨c, hc⟩ := arrGet_inRange vs face.c hc
    have ih1 := ih (fun f hf => h f (List.mem_cons_of_mem _ hf))
    rw [isInHoleModel_cons E vs v fromA fromB face rest a b c ha hb hc]
    have keep : ∀ (_ : ¬ (touches a b c fromA = false ∧
        fromB.any (fun fB => touches a b c fB) = false ∧
        E.checkIntersectionOfTriangles3D a b c (some fromA) fromB (some v) = true)),
        (isInHoleModel E vs v fromA fromB rest = Except.ok false ∧
          ∃ face1 ∈ face :: rest, ∃ a b c, arrGet vs face1.a = some a ∧
            arrGet vs face1.b = some b ∧ arrGet vs face1.c = some c ∧
            touches a b c fromA = false ∧
            fromB.any (fun fB => touches a b c fB) = false ∧
            E.checkIntersectionOfTriangles3D a b c (some fromA) fromB (some v) = true) ∨
        (isInHoleModel E vs v fromA fromB rest = Except.ok true ∧
          ¬ ∃ face1 ∈ face :: rest, ∃ a b c, arrGet vs face1.a = some a ∧
            arrGet vs face1.b = some b ∧ arrGet vs face1.c = some c ∧
            touches a b c fromA = false ∧
            fromB.any (fun fB => touches a b c fB) = false ∧
            E.checkIntersectionOfTriangles3D a b c (some fromA) fromB (some v) = true) := by
      intro hnot
      rcases ih1 with ⟨e, f, hf, w⟩ | ⟨e, hno⟩
      · exact Or.inl ⟨e, f, List.mem_cons_of_mem _ hf, w⟩
      · refine Or.inr ⟨e, ?_⟩
        rintro ⟨f, hf, a1, b1, c1, ea, eb, ec, t⟩
        rcases List.mem_cons.1 hf with rfl | hf
        · rw [ha] at ea; rw [hb] at eb; rw [hc] at ec
          cases ea; cases eb; cases ec
          exact hnot t
        · exact hno ⟨f, hf, a1, b1, c1, ea, eb, ec, t⟩
    cases h1 : touches a b c fromA with
    | true =>
      simp only [if_true]
      exact keep (fun t => by rw [h1] at t; cases t.1)
    | false =>
      simp only [Bool.false_eq_true, if_false]
      cases h2 : fromB.any (fun fB => touches a b c fB) with
      | true =>
        simp only [if_true]
        exact keep (fun t => by rw [h2] at t; cases t.2.1)
      | false =>
        simp only [Bool.false_eq_true, if_false]
        cases h3 : E.checkIntersectionOfTriangles3D a b c (some fromA) fromB (some v) with
        | true =>
          simp only [if_true]
          exact Or.inl ⟨trivial, face, List.mem_cons_self _ _, a, b, c, ha, hb, hc, h1, h2, h3⟩
        | false =>
          simp only [Bool.false_eq_true, if_false]
          exact keep (fun t => by rw [h3] at t; cases t.2.2)

theorem isInHole_spec (E : Env) (front filling : Geometry) (v fromA : Vector3)
    (fromB : Option Vector3)
    (hf : ∀ face ∈ filling.faces, face.InRange filling.vertices.length)
    (hm : E.COLLISION_TEST = "all" →
      ∀ face ∈ E.MODEL.faces, face.InRange E.MODEL.vertices.length) :
    (isInHole E front filling v fromA fromB = Except.ok false ∧
      ((∃ face ∈ filling.faces, ∃ a b c, arrGet filling.vertices face.a = some a ∧
        arrGet filling.vertices face.b = some b ∧ arrGet filling.vertices face.c = some c ∧
        touches a b c fromA = false ∧ touches a b c (fromB.getD v) = false ∧
        E.checkIntersectionOfTriangles3D a b c (some v) (some fromA) fromB = true) ∨
      (E.COLLISION_TEST = "all" ∧
        ∃ face ∈ E.MODEL.faces, ∃ a b c, arrGet E.MODEL.vertices face.a = some a ∧
          arrGet E.MODEL.vertices face.b = some b ∧ arrGet E.MODEL.vertices face.c = some c ∧
          touches a b c fromA = false ∧ fromB.any (fun fB => touches a b c fB) = false ∧
          E.checkIntersectionOfTriangles3D a b c (some fromA) fromB (some v) = true))) ∨
    (isInHole E front filling v fromA fromB = Except.ok true ∧
      ¬ ((∃ face ∈ filling.faces, ∃ a b c, arrGet filling.vertices face.a = some a ∧
        arrGet filling.vertices face.b = some b ∧ arrGet filling.vertices face.c = some c ∧
        touches a b c fromA = false ∧ touches a b c (fromB.getD v) = false ∧
        E.checkIntersectionOfTriangles3D a b c (some v) (some fromA) fromB = true) ∨
      (E.COLLISION_TEST = "all" ∧
        ∃ face ∈ E.MODEL.faces, ∃ a b c, arrGet E.MODEL.vertices face.a = some a ∧
          arrGet E.MODEL.vertices face.b = some b ∧ arrGet E.MODEL.vertices face.c = some c ∧
          touches a b c fromA = false ∧ fromB.any (fun fB => touches a b c fB) = false ∧
          E.checkIntersectionOfTriangles3D a b c (some fromA) fromB (some v) = true))) := by
  unfold isInHole
  rcases isInHoleFilling_spec E filling.vertices v fromA fromB filling.faces hf with
    ⟨e, w⟩ | ⟨e, w⟩
  · rw [e]
    exact Or.inl ⟨rfl, Or.inl w⟩
  · rw [e]
    simp only
    by_cases hall : E.COLLISION_TEST = "all"
    · rw [if_pos hall]
      rcases isInHoleModel_spec E E.MODEL.vertices v fromA fromB E.MODEL.faces (hm hall) with
        ⟨e1, w1⟩ | ⟨e1, w1⟩
      · exact Or.inl ⟨e1, Or.inr ⟨hall, w1⟩⟩
      · refine Or.inr ⟨e1, ?_⟩
        rintro (h | ⟨-, h⟩)
        · exact w h
        · exact w1 h
    · rw [if_neg hall]
      refine Or.inr ⟨rfl, ?_⟩
      rintro (h | ⟨h, -⟩)
      · exact w h
      · exact hall h

/-- C19: for a filling whose faces index into its vertex list (and a model of
which the same holds when the collision test is "all"), `isInHole` returns, and it
returns `false` exactly if the oracle reports an intersection for some face of the
filling that has no corner with the coordinates of `fromA` and none with those of
`fromB` when `fromB` is given, or of `v` when it is not, the candidate being passed as
`(v, fromA, fromB)`; or, when the collision test is "all", for some face of the
model that has no corner with the coordinates of `fromA`, or of `fromB` when given,
the candidate being passed as `(fromA, fromB, v)`.  With no committed face and the
collision test not "all" every candidate is accepted. -/
theorem isInHole_false_iff (E : Env) (front filling : Geometry) (v fromA : Vector3)
    (fromB : Option Vector3)
    (hf : ∀ face ∈ filling.faces, face.InRange filling.vertices.length)
    (hm : E.COLLISION_TEST = "all" →
      ∀ face ∈ E.MODEL.faces, face.InRange E.MODEL.vertices.length) :
    (isInHole E front filling v fromA fromB = Except.ok false ∨
      isInHole E front filling v fromA fromB = Except.ok true) ∧
    (isInHole E front filling v fromA fromB = Except.ok false ↔
      (∃ face ∈ filling.faces, ∃ a b c, arrGet filling.vertices face.a = some a ∧
        arrGet filling.vertices face.b = some b ∧ arrGet filling.vertices face.c = some c ∧
        touches a b c fromA = false ∧ touches a b c (fromB.getD v) = false ∧
        E.checkIntersectionOfTriangles3D a b c (some v) (some fromA) fromB = true) ∨
      (E.COLLISION_TEST = "all" ∧
        ∃ face ∈ E.MODEL.faces, ∃ a b c, arrGet E.MODEL.vertices face.a = some a ∧
          arrGet E.MODEL.vertices face.b = some b ∧ arrGet E.MODEL.vertices face.c = some c ∧
          touches a b c fromA = false ∧ fromB.any (fun fB => touches a b c fB) = false ∧
          E.checkIntersectionOfTriangles3D a b c (some fromA) fromB (some v) = true)) ∧
    (filling.faces = [] → E.COLLISION_TEST ≠ "all" →
      isInHole E front filling v fromA fromB = Except.ok true) := by
  have key := isInHole_spec E front filling v fromA fromB hf hm
  refine ⟨?_, ?_, ?_⟩
  · rcases key with ⟨e, -⟩ | ⟨e, -⟩
    · exact Or.inl e
    · exact Or.inr e
  · rcases key with ⟨e, w⟩ | ⟨e, w⟩
    · exact ⟨fun _ => w, fun _ => e⟩
    · constructor
      · intro h
        rw [e] at h
        cases h
      · intro h
        exact absurd h w
  · intro h1 h2
    rcases key with ⟨-, w⟩ | ⟨e, -⟩
    · rcases w with ⟨f, hfm, -⟩ | ⟨hall, -⟩
      · rw [h1] at hfm
        cases hfm
      · exact absurd hall h2
    · exact e

/-- A counterexample to C19 as stated: in a call without `fromB`, a face of the
filling that has the candidate `v` as a corner is skipped; here the one face has no
corner equal to the anchor `fromA` and the oracle reports an intersection with the
candidate, and `isInHole` still returns `true`. -/
theorem isInHole_skips_faces_at_candidate :
    isInHole envHit ⟨[], []⟩ ⟨[vtx 0 0 0, vtx 1 2 0, vtx 2 3 1], [⟨0, 1, 2⟩]⟩
        (vtx 0 0 0) (vtx 3 1 3) none = Except.ok true ∧
      touches (vtx 0 0 0) (vtx 1 2 0) (vtx 2 3 1) (vtx 3 1 3) = false ∧
      envHit.checkIntersectionOfTriangles3D (vtx 0 0 0) (vtx 1 2 0) (vtx 2 3 1)
        (some (vtx 0 0 0)) (some (vtx 3 1 3)) none = true :=
  ⟨rfl, by decide, rfl⟩

/-- An instance of C19: one committed face away from both anchors, an oracle that
reports an intersection: the candidate is rejected. -/
theorem isInHole_false_iff_witness :
    isInHole envHit ⟨[], []⟩ ⟨[vtx 0 0 0, vtx 1 2 0, vtx 2 3 1], [⟨0, 1, 2⟩]⟩
        (vtx 5 9 9) (vtx 3 1 3) (some (vtx 4 (-1) 1)) = Except.ok false :=
  (isInHole_false_iff envHit ⟨[], []⟩ ⟨[vtx 0 0 0, vtx 1 2 0, vtx 2 3 1], [⟨0, 1, 2⟩]⟩
    (vtx 5 9 9) (vtx 3 1 3) (some (vtx 4 (-1) 1)) (by simp [Face3.InRange])
    (fun h => absurd h (by decide))).2.1.2
    (Or.inl ⟨⟨0, 1, 2⟩, by simp, vtx 0 0 0, vtx 1 2 0, vtx 2 3 1, rfl, rfl, rfl,
      by decide, by decide, rfl⟩)

/-! ## The precondition of Rule 1 (C12) -/

/-- C12: for a filling whose faces index into its vertex list (and a model of which
the same holds when the collision test is "all"), `afRule1` returns, and its result
is that of `isInHole( front, filling, vp, vn )`, a call with `previous` as the
candidate, `next` as the one anchor and no `fromB`: it is `false` exactly if the
oracle reports an intersection of `(vp, vn, undefined)` with a face of the filling
that has no corner with the coordinates of `vn` or of `vp`, or, when the collision
test is "all", of `(vn, undefined, vp)` with a face of the model that has no corner
with the coordinates of `vn`.  The vertex `current` is not passed: the result is
the same for every `v`. -/
theorem afRule1_precondition (E : Env) (front filling : Geometry) (vp v vn : Vector3)
    (hf : ∀ face ∈ filling.faces, face.InRange filling.vertices.length)
    (hm : E.COLLISION_TEST = "all" →
      ∀ face ∈ E.MODEL.faces, face.InRange E.MODEL.vertices.length) :
    ∃ res, afRule1 E front filling vp v vn = Except.ok res ∧
      isInHole E front filling vp vn none = Except.ok res.ok ∧
      (res.ok = false ↔
        (∃ face ∈ filling.faces, ∃ a b c, arrGet filling.vertices face.a = some a ∧
          arrGet filling.vertices face.b = some b ∧
          arrGet filling.vertices face.c = some c ∧
          touches a b c vn = false ∧ touches a b c vp = false ∧
          E.checkIntersectionOfTriangles3D a b c (some vp) (some vn) none = true) ∨
        (E.COLLISION_TEST = "all" ∧
          ∃ face ∈ E.MODEL.faces, ∃ a b c, arrGet E.MODEL.vertices face.a = some a ∧
            arrGet E.MODEL.vertices face.b = some b ∧
            arrGet E.MODEL.vertices face.c = some c ∧
            touches a b c vn = false ∧
            E.checkIntersectionOfTriangles3D a b c (some vn) none (some vp) = true)) ∧
      (∀ w, ∃ res1, afRule1 E front filling vp w vn = Except.ok res1 ∧ res1.ok = res.ok) := by
  have key := isInHole_spec E front filling vp vn none hf hm
  simp only [Option.getD_none, Option.any_none, true_and] at key
  rcases key with ⟨e, w⟩ | ⟨e, w⟩
  · refine ⟨_, afRule1_rejected E front filling vp v vn e, e, ?_, ?_⟩
    · exact ⟨fun _ => w, fun _ => rfl⟩
    · intro u
      exact ⟨_, afRule1_rejected E front filling vp u vn e, rfl⟩
  · refine ⟨_, afRule1_accepted E front filling vp v vn e, e, ?_, ?_⟩
    · constructor
      · intro h
        cases h
      · intro h
        exact absurd h w
    · intro u
      exact ⟨_, afRule1_accepted E front filling vp u vn e, rfl⟩

/-- A counterexample to C12 as stated: the oracle reports an intersection exactly
for the candidates that have `current` among their points; the predicate with
`current` as the candidate and `previous`, `next` as the anchors rejects, and
`afRule1` accepts. -/
theorem afRule1_does_not_test_current :
    (afRule1 (envCorner (vtx 1 2 0)) ⟨hole5, []⟩ ⟨hole5 ++ [vtx 5 1 1], [⟨3, 4, 5⟩]⟩
        (vtx 0 0 0) (vtx 1 2 0) (vtx 2 3 1)).toOption.map (fun res => res.ok) = some true ∧
      isInHole (envCorner (vtx 1 2 0)) ⟨hole5, []⟩ ⟨hole5 ++ [vtx 5 1 1], [⟨3, 4, 5⟩]⟩
        (vtx 1 2 0) (vtx 0 0 0) (some (vtx 2 3 1)) = Except.ok false :=
  ⟨by decide, rfl⟩

/-- An instance of C12: with one committed face away from `previous` and `next`
and an oracle that reports an intersection, Rule 1 is rejected for every `v`. -/
theorem afRule1_precondition_witness :
    ∃ res, afRule1 envHit ⟨hole5, []⟩ ⟨hole5 ++ [vtx 5 1 1], [⟨3, 4, 5⟩]⟩
        (vtx 0 0 0) (vtx 1 2 0) (vtx 2 3 1) = Except.ok res ∧ res.ok = false := by
  obtain ⟨res, h1, -, h3, -⟩ := afRule1_precondition envHit ⟨hole5, []⟩
    ⟨hole5 ++ [vtx 5 1 1], [⟨3, 4, 5⟩]⟩ (vtx 0 0 0) (vtx 1 2 0) (vtx 2 3 1)
    (by simp [Face3.InRange, hole5]) (fun h => absurd h (by decide))
  exact ⟨res, h1, h3.2 (Or.inl ⟨⟨3, 4, 5⟩, by simp, vtx 3 1 3, vtx 4 (-1) 1, vtx 5 1 1,
    rfl, rfl, rfl, by decide, by decide, rfl⟩)⟩

/-! ## What a successful rule commits (C13, C14, C15) -/

theorem arrGet_indexOf {α : Type} [DecidableEq α] (xs : List α) (x : α) (h : x ∈ xs) :
    arrGet xs (arrIndexOf xs x) = some x := by
  rw [arrIndexOf_mem xs x h]
  simp [arrGet, List.get?_eq_getElem?, List.getElem?_indexOf h]

theorem arrGet_append_left {α : Type} (xs : List α) (w x : α) (i : Int)
    (h : arrGet xs i = some x) : arrGet (xs ++ [w]) i = some x := by
  unfold arrGet at h ⊢
  split at h
  · rename_i hi
    rw [if_pos hi]
    rw [List.get?_eq_getElem?] at h ⊢
    have hlt : i.toNat < xs.length := by
      by_contra hc
      rw [List.getElem?_eq_none (by omega)] at h
      cases h
    rw [List.getElem?_append_left hlt]
    exact h
  · cases h

theorem arrGet_append_length {α : Type} (xs : List α) (w : α) :
    arrGet (xs ++ [w]) ((xs ++ [w]).length - 1 : Int) = some w := by
  have h : ((xs ++ [w]).length - 1 : Int) = (xs.length : Int) := by
    simp
  rw [h]
  simp [arrGet, List.get?_eq_getElem?]

theorem front_split {α : Type} [DecidableEq α] (xs : List α) (v : α) (h : v ∈ xs) :
    ∃ l1 l2, xs = l1 ++ v :: l2 ∧ v ∉ l1 ∧
      arrSplice1 xs (arrIndexOf xs v) = l1 ++ l2 ∧
      (∀ w, arrSet xs (arrIndexOf xs v) w = l1 ++ w :: l2) ∧
      (∀ w, arrSpliceIns xs (arrIndexOf xs v + 1) w = l1 ++ v :: w :: l2) := by
  obtain ⟨l1, l2, rfl, hnot⟩ := List.eq_append_cons_of_mem h
  have hix : arrIndexOf (l1 ++ v :: l2) v = (l1.length : Int) := by
    rw [arrIndexOf_mem _ _ h, List.indexOf_append_of_not_mem hnot, List.indexOf_cons_self]
    rfl
  refine ⟨l1, l2, rfl, hnot, ?_, ?_, ?_⟩
  · rw [hix]
    have h0 : ¬ ((l1.length : Int) < 0) := by omega
    simp only [arrSplice1, spliceStart, h0, if_false, Int.toNat_ofNat, List.length_append,
      List.length_cons]
    rw [Nat.min_eq_left (by omega), List.eraseIdx_append_of_length_le (le_refl _)]
    simp
  · intro w
    rw [hix]
    have h0 : (0 : Int) ≤ (l1.length : Int) := by omega
    simp only [arrSet, h0, if_true, Int.toNat_ofNat]
    rw [List.set_append_right _ _ (le_refl _)]
    simp
  · intro w
    rw [hix]
    have h0 : ¬ ((l1.length : Int) + 1 < 0) := by omega
    have h1 : ((l1.length : Int) + 1).toNat = l1.length + 1 := by omega
    simp only [arrSpliceIns, spliceStart, h0, if_false, h1, List.length_append,
      List.length_cons]
    rw [Nat.min_eq_left (by omega)]
    clear hix h hnot h0 h1
    induction l1 with
    | nil => rfl
    | cons x xs ih =>
      simp only [List.insertIdx] at ih
      simp [List.insertIdx, ih]

/-- C13: a successful `afRule1( front, filling, vp, v, vn )` with `vp`, `v`, `vn` in
`filling.vertices` and `v` in the front appends exactly one face, whose indices are
positions of `v`, `vp`, `vn` in `filling.vertices` (in this order); the vertices of
the filling are unchanged; the front loses exactly its entry `v` and keeps the other
entries in their order; and `applyRule1` returns `false` in every case. -/
theorem afRule1_success (E : Env) (front filling : Geometry) (vp v vn : Vector3)
    (res : Rule1Result) (h : afRule1 E front filling vp v vn = Except.ok res)
    (hok : res.ok = true) (hvp : vp ∈ filling.vertices) (hv : v ∈ filling.vertices)
    (hvn : vn ∈ filling.vertices) (hfront : v ∈ front.vertices) :
    res.filling.faces = filling.faces ++ [⟨arrIndexOf filling.vertices v,
      arrIndexOf filling.vertices vp, arrIndexOf filling.vertices vn⟩] ∧
    arrGet filling.vertices (arrIndexOf filling.vertices v) = some v ∧
    arrGet filling.vertices (arrIndexOf filling.vertices vp) = some vp ∧
    arrGet filling.vertices (arrIndexOf filling.vertices vn) = some vn ∧
    res.filling.vertices = filling.vertices ∧
    (∃ l1 l2, front.vertices = l1 ++ v :: l2 ∧ v ∉ l1 ∧ res.front.vertices = l1 ++ l2) ∧
    res.front.faces = front.faces ∧
    (∀ af front1 filling1 res1, applyRule1 E af front1 filling1 = Except.ok res1 →
      res1.vNew = none) := by
  obtain ⟨l1, l2, e1, hnot, hs, -, -⟩ := front_split front.vertices v hfront
  have hlast : ∀ af front1 filling1 res1,
      applyRule1 E af front1 filling1 = Except.ok res1 → res1.vNew = none := by
    intro af front1 filling1 res1 h1
    unfold applyRule1 at h1
    simp only [bind_eq_ok] at h1
    obtain ⟨r, -, a, -, res2, -, h1⟩ := h1
    split at h1
    · simp only [bind_eq_ok] at h1
      obtain ⟨_, -, _, -, _, -, _, -, _, -, _, -, h1⟩ := h1
      cases h1
      rfl
    · cases h1
      rfl
  unfold afRule1 at h
  split at h
  · cases h
  · cases h
    cases hok
  · cases h
    exact ⟨rfl, arrGet_indexOf _ _ hv, arrGet_indexOf _ _ hvp, arrGet_indexOf _ _ hvn, rfl,
      ⟨l1, l2, e1, hnot, hs⟩, rfl, hlast⟩

/-- An instance of C13: Rule 1 at the corner `(v0, v1, v2)` of `hole5`. -/
theorem afRule1_success_witness :
    ∃ res, afRule1 envSixty ⟨hole5, []⟩ ⟨hole5, []⟩ (vtx 0 0 0) (vtx 1 2 0) (vtx 2 3 1)
        = Except.ok res ∧
      res.filling.faces = [⟨1, 0, 2⟩] ∧
      res.front.vertices = [vtx 0 0 0, vtx 2 3 1, vtx 3 1 3, vtx 4 (-1) 1] := by
  refine ⟨_, rfl, ?_, by decide⟩
  have h := (afRule1_success envSixty ⟨hole5, []⟩ ⟨hole5, []⟩ (vtx 0 0 0) (vtx 1 2 0)
    (vtx 2 3 1) _ rfl rfl (by decide) (by decide) (by decide) (by decide)).1
  rw [h]
  decide

/-- C14: a successful `afRule2( front, filling, vp, v, vn )` with `vp`, `v`, `vn` in
`filling.vertices` and `v` in the front appends exactly one vertex, the returned
one, to `filling.vertices`; appends exactly two faces, whose indices are positions
of `(v, vp, vNew)` and of `(v, vNew, vn)` in the vertex list; and replaces the entry
`v` of the front by the new vertex, the other entries staying in place. -/
theorem afRule2_success (E : Env) (front filling : Geometry) (vp v vn : Vector3) (ref : Nat)
    (res : RuleResult) (vNew : Vector3)
    (h : afRule2 E front filling vp v vn ref = Except.ok res) (hnew : res.vNew = some vNew)
    (hvp : vp ∈ filling.vertices) (hv : v ∈ filling.vertices)
    (hvn : vn ∈ filling.vertices) (hfront : v ∈ front.vertices) :
    res.filling.vertices = filling.vertices ++ [vNew] ∧
    res.filling.faces = filling.faces ++
      [⟨arrIndexOf filling.vertices v, arrIndexOf filling.vertices vp,
          filling.vertices.length⟩,
        ⟨arrIndexOf filling.vertices v, filling.vertices.length,
          arrIndexOf filling.vertices vn⟩] ∧
    arrGet res.filling.vertices (arrIndexOf filling.vertices v) = some v ∧
    arrGet res.filling.vertices (arrIndexOf filling.vertices vp) = some vp ∧
    arrGet res.filling.vertices (arrIndexOf filling.vertices vn) = some vn ∧
    arrGet res.filling.vertices filling.vertices.length = some vNew ∧
    (∃ l1 l2, front.vertices = l1 ++ v :: l2 ∧ v ∉ l1 ∧
      res.front.vertices = l1 ++ vNew :: l2) ∧
    res.front.faces = front.faces := by
  obtain ⟨l1, l2, e1, hnot, -, hs, -⟩ := front_split front.vertices v hfront
  have hlen : ∀ w : Vector3, (((filling.vertices ++ [w]).length : Int) - 1)
      = (filling.vertices.length : Int) := by
    intro w
    simp
  unfold afRule2 at h
  simp only at h
  split at h
  · cases h
  · cases h
    cases hnew
  · cases h
    cases hnew
    simp only [hlen, arrIndexOf_append _ _ _ hv, arrIndexOf_append _ _ _ hvp,
      arrIndexOf_append _ _ _ hvn]
    refine ⟨trivial, trivial, arrGet_append_left _ _ _ _ (arrGet_indexOf _ _ hv),
      arrGet_append_left _ _ _ _ (arrGet_indexOf _ _ hvp),
      arrGet_append_left _ _ _ _ (arrGet_indexOf _ _ hvn), ?_, ⟨l1, l2, e1, hnot, hs _⟩, trivial⟩
    rw [← hlen]
    exact arrGet_append_length _ _

/-- An instance of C14: Rule 2 at the corner `(v0, v1, v2)` of `hole5`. -/
theorem afRule2_success_witness :
    ∃ res, afRule2 envSixty ⟨hole5, []⟩ ⟨hole5, []⟩ (vtx 0 0 0) (vtx 1 2 0) (vtx 2 3 1) 5
        = Except.ok res ∧
      res.filling.faces = [⟨1, 0, 5⟩, ⟨1, 5, 2⟩] ∧
      res.filling.vertices = hole5 ++ [⟨5, 2, 0, 0⟩] := by
  refine ⟨_, rfl, ?_, ?_⟩
  · have h := (afRule2_success envSixty ⟨hole5, []⟩ ⟨hole5, []⟩ (vtx 0 0 0) (vtx 1 2 0)
      (vtx 2 3 1) 5 _ ⟨5, 2, 0, 0⟩ rfl rfl (by decide) (by decide) (by decide) (by decide)).2.1
    rw [h]
    decide
  · decide

/-- C15: a successful `afRule3( front, filling, vp, v, vn, angle )` with `v`, `vn` in
`filling.vertices` and `v` in the front appends exactly one vertex, the returned
one, to `filling.vertices`; appends exactly one face, whose indices are positions of
`(vn, v, vNew)` in the vertex list; and inserts the new vertex into the front right
after the entry `v`, the other entries keeping their order. -/
theorem afRule3_success (E : Env) (front filling : Geometry) (vp v vn : Vector3)
    (angle : ℚ) (ref : Nat) (res : RuleResult) (vNew : Vector3)
    (h : afRule3 E front filling vp v vn angle ref = Except.ok res)
    (hnew : res.vNew = some vNew) (hv : v ∈ filling.vertices)
    (hvn : vn ∈ filling.vertices) (hfront : v ∈ front.vertices) :
    res.filling.vertices = filling.vertices ++ [vNew] ∧
    res.filling.faces = filling.faces ++
      [⟨arrIndexOf filling.vertices vn, arrIndexOf filling.vertices v,
        filling.vertices.length⟩] ∧
    arrGet res.filling.vertices (arrIndexOf filling.vertices vn) = some vn ∧
    arrGet res.filling.vertices (arrIndexOf filling.vertices v) = some v ∧
    arrGet res.filling.vertices filling.vertices.length = some vNew ∧
    (∃ l1 l2, front.vertices = l1 ++ v :: l2 ∧ v ∉ l1 ∧
      res.front.vertices = l1 ++ v :: vNew :: l2) ∧
    res.front.faces = front.faces := by
  obtain ⟨l1, l2, e1, hnot, -, -, hs⟩ := front_split front.vertices v hfront
  have hlen : ∀ w : Vector3, (((filling.vertices ++ [w]).length : Int) - 1)
      = (filling.vertices.length : Int) := by
    intro w
    simp
  unfold afRule3 at h
  simp only at h
  split at h
  · cases h
  · cases h
    cases hnew
  · cases h
    cases hnew
    simp only [hlen, arrIndexOf_append _ _ _ hv, arrIndexOf_append _ _ _ hvn]
    refine ⟨trivial, trivial, arrGet_append_left _ _ _ _ (arrGet_indexOf _ _ hvn),
      arrGet_append_left _ _ _ _ (arrGet_indexOf _ _ hv), ?_, ⟨l1, l2, e1, hnot, hs _⟩, trivial⟩
    rw [← hlen]
    exact arrGet_append_length _ _

/-- An instance of C15: Rule 3 at the corner `(v0, v1, v2)` of `hole5`. -/
theorem afRule3_success_witness :
    ∃ res, afRule3 envSixty ⟨hole5, []⟩ ⟨hole5, []⟩ (vtx 0 0 0) (vtx 1 2 0) (vtx 2 3 1) 150 5
        = Except.ok res ∧
      res.filling.faces = [⟨2, 1, 5⟩] ∧
      res.front.vertices = [vtx 0 0 0, vtx 1 2 0, ⟨5, 2, 0, 0⟩, vtx 2 3 1, vtx 3 1 3,
        vtx 4 (-1) 1] := by
  refine ⟨_, rfl, ?_, ?_⟩
  · have h := (afRule3_success envSixty ⟨hole5, []⟩ ⟨hole5, []⟩ (vtx 0 0 0) (vtx 1 2 0)
      (vtx 2 3 1) 150 5 _ ⟨5, 2, 0, 0⟩ rfl rfl (by decide) (by decide) (by decide)).2.1
    rw [h]
    decide
  · decide

/-! ## The terminal closures (C16) -/

/-- C16: for three distinct vertices `f0`, `f1`, `f2` of `filling.vertices`,
`closeHole3` on the front `[f0, f1, f2]` appends exactly the face of the positions
of `(f1, f0, f2)`; and for a fourth vertex `f3` of `filling.vertices`, distinct from
them, `closeHole4` on the front `[f0, f1, f2, f3]` appends exactly the two faces of
the positions of `(f3, f2, f0)` and `(f1, f0, f2)`, which are four different
positions, so that the faces share the diagonal `f0`-`f2` and use all four
vertices.  Both leave `filling.vertices` and the earlier faces as they were. -/
theorem closeHole_faces (filling : Geometry) (f0 f1 f2 : Vector3) (faces : List Face3)
    (hnd : [f0, f1, f2].Nodup) (h0 : f0 ∈ filling.vertices) (h1 : f1 ∈ filling.vertices)
    (h2 : f2 ∈ filling.vertices) :
    closeHole3 ⟨[f0, f1, f2], faces⟩ filling = {
      vertices := filling.vertices
      faces := filling.faces ++ [⟨arrIndexOf filling.vertices f1,
        arrIndexOf filling.vertices f0, arrIndexOf filling.vertices f2⟩] } ∧
    arrGet filling.vertices (arrIndexOf filling.vertices f0) = some f0 ∧
    arrGet filling.vertices (arrIndexOf filling.vertices f1) = some f1 ∧
    arrGet filling.vertices (arrIndexOf filling.vertices f2) = some f2 ∧
    Face3.Valid filling.vertices.length ⟨arrIndexOf filling.vertices f1,
      arrIndexOf filling.vertices f0, arrIndexOf filling.vertices f2⟩ ∧
    ∀ f3, f3 ∈ filling.vertices → [f0, f1, f2, f3].Nodup →
      closeHole4 ⟨[f0, f1, f2, f3], faces⟩ filling = {
        vertices := filling.vertices
        faces := filling.faces ++
          [⟨arrIndexOf filling.vertices f3, arrIndexOf filling.vertices f2,
              arrIndexOf filling.vertices f0⟩,
            ⟨arrIndexOf filling.vertices f1, arrIndexOf filling.vertices f0,
              arrIndexOf filling.vertices f2⟩] } ∧
      arrGet filling.vertices (arrIndexOf filling.vertices f3) = some f3 ∧
      [arrIndexOf filling.vertices f0, arrIndexOf filling.vertices f1,
        arrIndexOf filling.vertices f2, arrIndexOf filling.vertices f3].Nodup := by
  simp only [List.nodup_cons, List.mem_cons, List.mem_singleton, not_or, List.not_mem_nil,
    not_false_eq_true, List.nodup_nil, and_true] at hnd
  obtain ⟨⟨h01, h02⟩, h12⟩ := hnd
  refine ⟨rfl, arrGet_indexOf _ _ h0, arrGet_indexOf _ _ h1, arrGet_indexOf _ _ h2,
    face_valid_of_mem _ _ _ _ h1 h0 h2 (Ne.symm h01) h12 h02, ?_⟩
  intro f3 h3 hnd4
  simp only [List.nodup_cons, List.mem_cons, List.mem_singleton, not_or, List.not_mem_nil,
    not_false_eq_true, List.nodup_nil, and_true] at hnd4
  obtain ⟨⟨-, -, h03⟩, ⟨-, h13⟩, h23⟩ := hnd4
  refine ⟨rfl, arrGet_indexOf _ _ h3, ?_⟩
  simp only [List.nodup_cons, List.mem_cons, List.mem_singleton, not_or, List.not_mem_nil,
    not_false_eq_true, List.nodup_nil, and_true]
  exact ⟨⟨arrIndexOf_inj _ _ _ h0 h1 h01, arrIndexOf_inj _ _ _ h0 h2 h02,
    arrIndexOf_inj _ _ _ h0 h3 h03⟩, ⟨arrIndexOf_inj _ _ _ h1 h2 h12,
    arrIndexOf_inj _ _ _ h1 h3 h13⟩, arrIndexOf_inj _ _ _ h2 h3 h23⟩

/-- An instance of C16: the closures of a front of four, and of its first three,
vertices of `hole5`. -/
theorem closeHole_faces_witness :
    (closeHole3 ⟨[vtx 0 0 0, vtx 1 2 0, vtx 2 3 1], []⟩ ⟨hole5, []⟩).faces = [⟨1, 0, 2⟩] ∧
    (closeHole4 ⟨[vtx 0 0 0, vtx 1 2 0, vtx 2 3 1, vtx 3 1 3], []⟩ ⟨hole5, []⟩).faces
      = [⟨3, 2, 0⟩, ⟨1, 0, 2⟩] := by
  have h := closeHole_faces ⟨hole5, []⟩ (vtx 0 0 0) (vtx 1 2 0) (vtx 2 3 1) [] (by decide)
    (by decide) (by decide) (by decide)
  constructor
  · rw [h.1]
    decide
  · rw [(h.2.2.2.2.2 (vtx 3 1 3) (by decide) (by decide)).1]
    decide

/-! ## The faces after a merge (C20) -/

theorem take_set_self {α : Type} (l : List α) (i : Nat) (x : α) :
    (l.set i x).take i = l.take i := by
  by_cases h : i < l.length
  · rw [List.set_eq_take_append_cons_drop, if_pos h,
      List.take_left' (by rw [List.length_take]; omega)]
  · rw [List.set_eq_of_length_le (by omega)]

theorem updateFacesLoop_succ (oldIndex newIndex : Int) (i : Nat) (faces : List Face3)
    (hi : i < faces.length) :
    updateFacesLoop oldIndex newIndex (i + 1) faces
      = updateFacesLoop oldIndex newIndex i
          (faces.take i ++ ((if (reindexFace oldIndex newIndex faces[i]).Distinct then
            [reindexFace oldIndex newIndex faces[i]] else []) ++ faces.drop (i + 1))) := by
  rw [updateFacesLoop]
  simp only [List.get?_eq_getElem?, List.getElem?_eq_getElem hi]
  congr 1
  unfold decreaseHigherFaceIndexes
  have hset : i < (faces.set i ({
        a := if faces[i].a = oldIndex then newIndex else faces[i].a
        b := if faces[i].b = oldIndex then newIndex else faces[i].b
        c := if faces[i].c = oldIndex then newIndex else faces[i].c } : Face3)).length := by
    simpa using hi
  simp only [List.get?_eq_getElem?, List.getElem?_eq_getElem hset, List.getElem_set_self,
    List.set_set]
  by_cases hd : (reindexFace oldIndex newIndex faces[i]).Distinct
  · rw [if_pos hd]
    unfold Face3.Distinct reindexFace reindex at hd
    simp only at hd
    rw [if_neg (by tauto), List.set_eq_take_append_cons_drop, if_pos hi]
    rfl
  · rw [if_neg hd]
    unfold Face3.Distinct reindexFace reindex at hd
    simp only at hd
    rw [if_pos (by tauto), List.eraseIdx_eq_take_drop_succ, take_set_self,
      List.drop_set_of_lt _ _ (Nat.lt_succ_self i)]
    rfl

theorem updateFacesLoop_eq (oldIndex newIndex : Int) (i : Nat) :
    ∀ faces : List Face3, i ≤ faces.length →
      updateFacesLoop oldIndex newIndex i faces
        = ((faces.take i).map (reindexFace oldIndex newIndex)).filter
            (fun f => decide f.Distinct) ++ faces.drop i := by
  induction i with
  | zero =>
    intro faces _
    simp [updateFacesLoop]
  | succ i ih =>
    intro faces hlen
    have hi : i < faces.length := by omega
    have hlt : (faces.take i).length = i := by
      rw [List.length_take]
      omega
    rw [updateFacesLoop_succ _ _ _ _ hi, ih _ (by rw [List.length_append, hlt]; omega),
      List.take_left' hlt, List.drop_left' hlt]
    have htake : faces.take (i + 1) = faces.take i ++ [faces[i]] := by
      rw [List.take_succ, List.getElem?_eq_getElem hi]
      rfl
    rw [htake, List.map_append, List.filter_append, List.append_assoc]
    by_cases hd : (reindexFace oldIndex newIndex faces[i]).Distinct
    · simp only [hd, if_true, List.map_cons, List.map_nil, List.filter_cons, decide_True,
        List.filter_nil]
    · simp only [hd, if_false, List.map_cons, List.map_nil, List.filter_cons, decide_False,
        List.filter_nil]
      rfl

theorem updateFaces_eq (filling : Geometry) (oldIndex newIndex : Int) :
    (updateFaces filling oldIndex newIndex).faces
      = (filling.faces.map (reindexFace oldIndex newIndex)).filter
          (fun f => decide f.Distinct) := by
  unfold updateFaces
  simp only
  rw [updateFacesLoop_eq _ _ _ _ (le_refl _)]
  simp

theorem arrGet_natCast {α : Type} (xs : List α) (k : Nat) : arrGet xs (k : Int) = xs[k]? := by
  simp [arrGet, List.get?_eq_getElem?]

theorem arrSplice1_indexOf_eraseIdx {α : Type} [DecidableEq α] (xs : List α) (x : α)
    (h : x ∈ xs) : arrSplice1 xs (arrIndexOf xs x) = xs.eraseIdx (List.indexOf x xs) := by
  have hlt : List.indexOf x xs < xs.length := List.indexOf_lt_length.2 h
  unfold arrSplice1 spliceStart
  rw [arrIndexOf_mem xs x h]
  have h1 : ¬ ((List.indexOf x xs : Int) < 0) := by omega
  rw [if_neg h1]
  simp only [Int.toNat_ofNat]
  rw [Nat.min_eq_left (Nat.le_of_lt hlt)]

theorem reindex_get (vs : List Vector3) (t v : Vector3) (hnd : vs.Nodup) (ht : t ∈ vs)
    (hv : v ∈ vs) (hne : t ≠ v) (k : Int) (hk0 : 0 ≤ k) (hk : k < vs.length) :
    arrGet (arrSplice1 vs (arrIndexOf vs t)) (reindex (arrIndexOf vs t) (arrIndexOf vs v) k)
        = (arrGet vs k).map (fun u => if u = t then v else u) ∧
      0 ≤ reindex (arrIndexOf vs t) (arrIndexOf vs v) k ∧
      reindex (arrIndexOf vs t) (arrIndexOf vs v) k
        < (arrSplice1 vs (arrIndexOf vs t)).length := by
  obtain ⟨kn, rfl⟩ := Int.eq_ofNat_of_zero_le hk0
  have hkn : kn < vs.length := by exact_mod_cast hk
  have hti : List.indexOf t vs < vs.length := List.indexOf_lt_length.2 ht
  have hvi : List.indexOf v vs < vs.length := List.indexOf_lt_length.2 hv
  have hne_i : List.indexOf t vs ≠ List.indexOf v vs :=
    fun h => hne ((List.indexOf_inj ht hv).1 h)
  have hlen : (vs.eraseIdx (List.indexOf t vs)).length = vs.length - 1 := by
    rw [List.length_eraseIdx, if_pos hti]
  rw [arrSplice1_indexOf_eraseIdx _ _ ht, arrIndexOf_mem _ _ ht, arrIndexOf_mem _ _ hv,
    arrGet_natCast, List.getElem?_eq_getElem hkn, hlen]
  generalize hti' : List.indexOf t vs = ti at *
  generalize hvi' : List.indexOf v vs = vi at *
  have hgv : vs[vi]? = some v := by
    rw [← hvi']
    exact List.getElem?_indexOf hv
  by_cases h1 : kn = ti
  · subst h1
    have hgt : vs[kn] = t := by
      have := List.getElem?_indexOf ht
      rw [hti', List.getElem?_eq_getElem hkn] at this
      exact Option.some.inj this
    by_cases h2 : kn < vi
    · have hr : reindex (kn : Int) (vi : Int) (kn : Int) = ((vi - 1 : Nat) : Int) := by
        unfold reindex
        simp only [if_true]
        rw [if_pos (by omega)]
        omega
      rw [hr, arrGet_natCast, List.getElem?_eraseIdx, if_neg (by omega)]
      have : vi - 1 + 1 = vi := by omega
      rw [this, hgv]
      refine ⟨by simp [hgt], by omega, by omega⟩
    · have hr : reindex (kn : Int) (vi : Int) (kn : Int) = (vi : Int) := by
        unfold reindex
        simp only [if_true]
        rw [if_neg (by omega)]
      rw [hr, arrGet_natCast, List.getElem?_eraseIdx, if_pos (by omega), hgv]
      refine ⟨by simp [hgt], by omega, by omega⟩
  · have hgt : vs[kn] ≠ t := by
      intro h
      apply h1
      rw [← hti', ← h]
      exact (List.indexOf_getElem hnd kn hkn).symm
    by_cases h2 : ti < kn
    · have hr : reindex (ti : Int) (vi : Int) (kn : Int) = ((kn - 1 : Nat) : Int) := by
        unfold reindex
        simp only
        split_ifs <;> omega
      rw [hr, arrGet_natCast, List.getElem?_eraseIdx, if_neg (by omega)]
      have : kn - 1 + 1 = kn := by omega
      rw [this, List.getElem?_eq_getElem hkn]
      refine ⟨by simp [hgt], by omega, by omega⟩
    · have hr : reindex (ti : Int) (vi : Int) (kn : Int) = (kn : Int) := by
        unfold reindex
        simp only
        split_ifs <;> omega
      rw [hr, arrGet_natCast, List.getElem?_eraseIdx, if_pos (by omega),
        List.getElem?_eq_getElem hkn]
      refine ⟨by simp [hgt], by omega, by omega⟩

/-- C20: when a round of `mergeByDistance` merges the neighbour `t` into `v` (`t` not
in `ignore`, within the threshold; the vertex list of the filling without
duplicates and with `t` and `v` in it, its faces indexing into it): `t` is removed
from `filling.vertices`, whose length decreases by 1, and from the front, `v` stays
in both; the faces are the old faces with every index sent through `reindex`, less
the faces that reference one index twice; the index `reindex k` refers, in the
shortened list, to `v` if `k` referred to `t` and otherwise to the vertex `k` referred
to; and every face that remains has three distinct indices, all positions of the
shortened list.  It holds whether `t` comes before or after `v` in the list. -/
theorem mergeNeighbour_reindexes (E : Env) (v t : Vector3) (ignore : List Vector3)
    (s s1 : MergeState) (h : mergeNeighbour E v ignore s (some t) = Except.ok s1)
    (hign : t ∉ ignore) (hnear : E.distanceTo v t ≤ E.THRESHOLD_MERGE) (hne : t ≠ v)
    (hnd : s.filling.vertices.Nodup) (hfnd : s.front.vertices.Nodup)
    (ht : t ∈ s.filling.vertices) (hv : v ∈ s.filling.vertices)
    (hfaces : ∀ f ∈ s.filling.faces, f.InRange s.filling.vertices.length) :
    s1.filling.vertices = s.filling.vertices.erase t ∧
    s1.filling.vertices.length + 1 = s.filling.vertices.length ∧
    t ∉ s1.filling.vertices ∧ v ∈ s1.filling.vertices ∧
    t ∉ s1.front.vertices ∧ v ∈ s1.front.vertices ∧
    s1.filling.faces = (s.filling.faces.map (reindexFace (arrIndexOf s.filling.vertices t)
      (arrIndexOf s.filling.vertices v))).filter (fun f => decide f.Distinct) ∧
    (∀ k : Int, 0 ≤ k → k < s.filling.vertices.length →
      arrGet s1.filling.vertices
          (reindex (arrIndexOf s.filling.vertices t) (arrIndexOf s.filling.vertices v) k)
        = (arrGet s.filling.vertices k).map (fun u => if u = t then v else u)) ∧
    (∀ f ∈ s1.filling.faces, f.Valid s1.filling.vertices.length) := by
  unfold mergeNeighbour at h
  have hi : ¬ arrIndexOf ignore t ≥ 0 := by
    intro hc
    exact hign ((arrIndexOf_nonneg_iff ignore t).1 hc)
  simp only [hi, if_false, hnear, if_true, bind_eq_ok] at h
  obtain ⟨front1, hfront, merged, -, h⟩ := h
  cases h
  unfold mergeUpdateFront at hfront
  simp only at hfront
  split_ifs at hfront with hix
  cases hfront
  have ht0 : t ∈ s.front.vertices := by
    rw [← arrIndexOf_nonneg_iff]
    omega
  have hv0 : v ∈ s.front.vertices := by
    rw [← arrIndexOf_nonneg_iff]
    omega
  simp only [updateFaces_vertices, updateFaces_eq, arrSplice1_indexOf_mem _ _ ht0]
  have hvs : arrSplice1 s.filling.vertices (arrIndexOf s.filling.vertices t)
      = s.filling.vertices.erase t := arrSplice1_indexOf_mem _ _ ht
  refine ⟨hvs, ?_, ?_, ?_, ?_, ?_, trivial, ?_, ?_⟩
  · rw [hvs, List.length_erase_of_mem ht]
    have := List.length_pos_of_mem ht
    omega
  · rw [hvs]
    exact fun hc => (hnd.mem_erase_iff.1 hc).1 rfl
  · rw [hvs]
    exact (List.mem_erase_of_ne (Ne.symm hne)).2 hv
  · exact fun hc => (hfnd.mem_erase_iff.1 hc).1 rfl
  · exact (List.mem_erase_of_ne (Ne.symm hne)).2 hv0
  · intro k hk0 hk
    exact (reindex_get _ t v hnd ht hv hne k hk0 hk).1
  · intro f hf
    rw [List.mem_filter, List.mem_map] at hf
    obtain ⟨⟨g, hg, rfl⟩, hd⟩ := hf
    obtain ⟨ha, hb, hc⟩ := hfaces g hg
    exact ⟨of_decide_eq_true hd, (reindex_get _ t v hnd ht hv hne g.a ha.1 ha.2).2,
      (reindex_get _ t v hnd ht hv hne g.b hb.1 hb.2).2,
      (reindex_get _ t v hnd ht hv hne g.c hc.1 hc.2).2⟩

/-- Two instances of C20, with three faces of which the first references both
vertices and the second only `t`: in the first instance `t` comes before `v` in
`filling.vertices`, in the second after it. -/
theorem mergeNeighbour_reindexes_witness :
    (∃ s1, mergeNeighbour envNear (vtx 6 1 1) [vtx 0 0 0, vtx 1 0 1]
        (mergeEx [vtx 0 0 0, vtx 1 0 1, vtx 5 1 0, vtx 6 1 1]
          [⟨0, 2, 3⟩, ⟨1, 0, 2⟩, ⟨3, 1, 0⟩]) (some (vtx 5 1 0)) = Except.ok s1 ∧
      s1.filling.vertices = [vtx 0 0 0, vtx 1 0 1, vtx 6 1 1] ∧
      s1.filling.faces = [⟨1, 0, 2⟩, ⟨2, 1, 0⟩]) ∧
    (∃ s1, mergeNeighbour envNear (vtx 6 1 1) [vtx 0 0 0, vtx 1 0 1]
        (mergeEx [vtx 0 0 0, vtx 1 0 1, vtx 6 1 1, vtx 5 1 0]
          [⟨0, 2, 3⟩, ⟨1, 0, 3⟩, ⟨2, 1, 0⟩]) (some (vtx 5 1 0)) = Except.ok s1 ∧
      s1.filling.vertices = [vtx 0 0 0, vtx 1 0 1, vtx 6 1 1] ∧
      s1.filling.faces = [⟨1, 0, 2⟩, ⟨2, 1, 0⟩]) := by
  constructor
  · have h := mergeNeighbour_reindexes envNear (vtx 6 1 1) (vtx 5 1 0) [vtx 0 0 0, vtx 1 0 1]
      (mergeEx [vtx 0 0 0, vtx 1 0 1, vtx 5 1 0, vtx 6 1 1] [⟨0, 2, 3⟩, ⟨1, 0, 2⟩, ⟨3, 1, 0⟩])
      _ rfl (by decide) (by decide) (by decide) (by decide) (by decide) (by decide)
      (by decide) (by simp [Face3.InRange, mergeEx])
    refine ⟨_, rfl, ?_, ?_⟩
    · rw [h.1]
      decide
    · rw [h.2.2.2.2.2.2.1]
      decide
  · have h := mergeNeighbour_reindexes envNear (vtx 6 1 1) (vtx 5 1 0) [vtx 0 0 0, vtx 1 0 1]
      (mergeEx [vtx 0 0 0, vtx 1 0 1, vtx 6 1 1, vtx 5 1 0] [⟨0, 2, 3⟩, ⟨1, 0, 3⟩, ⟨2, 1, 0⟩])
      _ rfl (by decide) (by decide) (by decide) (by decide) (by decide) (by decide)
      (by decide) (by simp [Face3.InRange, mergeEx])
    refine ⟨_, rfl, ?_, ?_⟩
    · rw [h.1]
      decide
    · rw [h.2.2.2.2.2.2.1]
      decide

/-! ## The ring of Angles (C17) -/

theorem getD_eraseIdx {α : Type} (l : List α) (i j : Nat) (d : α) :
    (l.eraseIdx i).getD j d = l.getD (if j < i then j else j + 1) d := by
  simp only [List.getD_eq_getElem?_getD, List.getElem?_eraseIdx]
  split <;> rfl

theorem getD_inj {α : Type} (l : List α) (hnd : l.Nodup) (d : α) (a b : Nat)
    (ha : a < l.length) (hb : b < l.length) (h : l.getD a d = l.getD b d) : a = b := by
  rw [List.getD_eq_getElem l d ha, List.getD_eq_getElem l d hb] at h
  exact (hnd.getElem_inj_iff).1 h

theorem mkCorner_congr (E : Env) (front : List Vector3) (ring : List Nat)
    (a b c a1 b1 c1 : Nat) (ha : a = a1) (hb : b = b1) (hc : c = c1) :
    mkCorner E front ring a b c = mkCorner E front ring a1 b1 c1 := by
  subst ha hb hc
  rfl

theorem ringOk_erase (E : Env) (af af1 : AFState) (front : List Vector3) (ring : List Nat)
    (i : Nat) (h : RingOk E af front ring) (hn : 3 ≤ front.length) (hi : i < front.length)
    (hother : ∀ k, k < front.length → k ≠ cycPrev front.length i →
      k ≠ cycNext front.length i →
      af1.angles[ring.getD k 0]? = af.angles[ring.getD k 0]?)
    (hp : af1.angles[ring.getD (cycPrev front.length i) 0]? = some (mkCorner E front ring
      (cycPrev front.length (cycPrev front.length i)) (cycPrev front.length i)
      (cycNext front.length i)))
    (hnx : af1.angles[ring.getD (cycNext front.length i) 0]? = some (mkCorner E front ring
      (cycPrev front.length i) (cycNext front.length i)
      (cycNext front.length (cycNext front.length i)))) :
    RingOk E af1 (front.eraseIdx i) (ring.eraseIdx i) := by
  obtain ⟨hlen, hnd, hall⟩ := h
  have hlen1 : (front.eraseIdx i).length = front.length - 1 := by
    rw [List.length_eraseIdx, if_pos hi]
  refine ⟨?_, hnd.eraseIdx i, ?_⟩
  · rw [List.length_eraseIdx, List.length_eraseIdx, hlen]
  · intro j hj
    rw [hlen1] at hj
    have hmk : cornerAngle E (front.eraseIdx i) (ring.eraseIdx i) j
        = mkCorner E front ring
            (if cycPrev (front.length - 1) j < i then cycPrev (front.length - 1) j
              else cycPrev (front.length - 1) j + 1)
            (if j < i then j else j + 1)
            (if cycNext (front.length - 1) j < i then cycNext (front.length - 1) j
              else cycNext (front.length - 1) j + 1) := by
      simp only [cornerAngle, mkCorner, getD_eraseIdx, hlen1]
    rw [hmk, getD_eraseIdx]
    by_cases h1 : (if j < i then j else j + 1) = cycPrev front.length i
    · rw [h1, hp]
      congr 1
      apply mkCorner_congr <;> simp only [cycPrev, cycNext] at h1 ⊢ <;>
        split_ifs at h1 ⊢ <;> first | contradiction | omega
    · by_cases h2 : (if j < i then j else j + 1) = cycNext front.length i
      · rw [h2, hnx]
        congr 1
        apply mkCorner_congr <;> simp only [cycPrev, cycNext] at h2 ⊢ <;>
          split_ifs at h2 ⊢ <;> first | contradiction | omega
      · rw [hother _ (by split_ifs <;> omega) h1 h2, hall _ (by split_ifs <;> omega)]
        simp only [cornerAngle]
        congr 1
        apply mkCorner_congr <;> simp only [cycPrev, cycNext] at h1 h2 ⊢ <;>
          split_ifs at h1 h2 ⊢ <;> first | contradiction | omega

/-! ## Queue membership (C18) -/

theorem queuesOk_congr (af : AFState) (l l1 : List Nat) (h : ∀ r, r ∈ l ↔ r ∈ l1)
    (hq : QueuesOk af l) : QueuesOk af l1 := by
  intro id r
  rw [hq id r]
  simp only [h r]

theorem queuesOk_of_eq (af af1 : AFState) (l : List Nat) (ha : af1.angles = af.angles)
    (hq1 : ∀ id, queued af1 id = queued af id) (hq : QueuesOk af l) : QueuesOk af1 l := by
  intro id r
  rw [hq1, ha]
  exact hq id r

theorem mem_filter_ne (l : List Nat) (p r : Nat) :
    r ∈ l.filter (fun x => decide (x ≠ p)) ↔ r ∈ l ∧ r ≠ p := by
  simp [List.mem_filter]

theorem queuesOk_heapRemove (af af1 : AFState) (l : List Nat) (p : Nat)
    (hq : QueuesOk af l) (h : heapRemove af p = Except.ok af1) :
    QueuesOk af1 (l.filter (fun x => decide (x ≠ p))) ∧ af1.angles = af.angles := by
  have hp : ∃ a, af.angle p = Except.ok a := by
    unfold heapRemove at h
    split at h
    · cases h
    · exact ⟨_, by assumption⟩
  obtain ⟨a, ha⟩ := hp
  rw [heapRemove_eq af p a ha] at h
  cases h
  rw [angle_eq_ok] at ha
  refine ⟨?_, angles_setHeap _ _ _⟩
  intro id r
  rw [queued_setHeap, angles_setHeap]
  simp only [mem_filter_ne]
  have h0 := hq id r
  by_cases hid : id = queueOf a.degree
  · rw [if_pos hid]
    subst hid
    simp only [Heap.remove, count_removeEntry]
    simp only [queued] at h0
    rw [h0]
    by_cases hr : p = r
    · subst hr
      simp
      split_ifs <;> rfl
    · have hr1 : r ≠ p := fun h => hr h.symm
      simp [hr, hr1]
  · rw [if_neg hid, h0]
    by_cases hr : p = r
    · subst hr
      simp [ha, Ne.symm hid]
    · have hr1 : r ≠ p := fun h => hr h.symm
      simp [hr1]

theorem getElem?_modify_angles (af : AFState) (p r : Nat) (f : Angle → Angle) :
    (af.modify p f).angles[r]? = if p = r then (af.angles[r]?).map f else af.angles[r]? := by
  simp only [AFState.modify, List.getElem?_modify]
  split
  · rfl
  · cases af.angles[r]? <;> rfl

theorem queued_modify (af : AFState) (p : Nat) (f : Angle → Angle) (id : HeapId) :
    queued (af.modify p f) id = queued af id := by
  cases id <;> rfl

theorem queuesOk_modify (af : AFState) (l : List Nat) (p : Nat) (f : Angle → Angle)
    (hq : QueuesOk af l) (hp : p ∉ l) : QueuesOk (af.modify p f) l := by
  intro id r
  rw [queued_modify, hq id r, getElem?_modify_angles]
  by_cases hr : p = r
  · subst hr
    simp [hp]
  · simp [hr]

theorem queuesOk_modify_degree (af : AFState) (l : List Nat) (p : Nat) (f : Angle → Angle)
    (hf : ∀ a, (f a).degree = a.degree) (hq : QueuesOk af l) : QueuesOk (af.modify p f) l := by
  intro id r
  rw [queued_modify, hq id r, getElem?_modify_angles]
  by_cases hr : p = r
  · subst hr
    cases hget : af.angles[p]? with
    | none => simp
    | some a => simp [hf]
  · simp [hr]

theorem queuesOk_heapInsert (af af1 : AFState) (l : List Nat) (p : Nat)
    (hq : QueuesOk af l) (hp : p ∉ l) (h : heapInsert af p = Except.ok af1) :
    QueuesOk af1 (p :: l) ∧ af1.angles = af.angles := by
  have hp1 : ∃ a, af.angle p = Except.ok a := by
    unfold heapInsert at h
    split at h
    · cases h
    · exact ⟨_, by assumption⟩
  obtain ⟨a, ha⟩ := hp1
  rw [heapInsert_eq af p a ha] at h
  cases h
  rw [angle_eq_ok] at ha
  refine ⟨?_, angles_setHeap _ _ _⟩
  intro id r
  rw [queued_setHeap, angles_setHeap]
  have h0 := hq id r
  by_cases hid : id = queueOf a.degree
  · rw [if_pos hid]
    subst hid
    simp only [Heap.insert, count_insertEntry]
    simp only [queued] at h0
    rw [h0]
    by_cases hr : p = r
    · subst hr
      simp [hp, ha]
    · have hr1 : r ≠ p := fun h => hr h.symm
      simp [hr, hr1]
  · rw [if_neg hid, h0]
    by_cases hr : p = r
    · subst hr
      simp [ha, Ne.symm hid, hp]
    · have hr1 : r ≠ p := fun h => hr h.symm
      simp [hr1]

theorem queuesOk_push (af : AFState) (l : List Nat) (a : Angle) (hq : QueuesOk af l)
    (hl : af.angles.length ∉ l) :
    QueuesOk { af with angles := af.angles ++ [a] } l := by
  intro id r
  have h0 := hq id r
  have hqd : queued { af with angles := af.angles ++ [a] } id = queued af id := by
    cases id <;> rfl
  rw [hqd, h0]
  by_cases hr : r = af.angles.length
  · subst hr
    simp [hl]
  · simp only
    by_cases hlt : r < af.angles.length
    · rw [List.getElem?_append_left hlt]
    · rw [List.getElem?_eq_none (by omega), List.getElem?_eq_none (by simp; omega)]

theorem setHeap_rule1 (af : AFState) (h : Heap) :
    ({ af with HEAP_RULE_1 := h } : AFState) = af.setHeap HeapId.rule1 h := rfl

theorem queuesOk_pop (af : AFState) (l : List Nat) (id : HeapId) (r : Nat)
    (hq : QueuesOk af l) (hr : (af.heap id).removeFirst.1 = some r) :
    r ∈ l ∧ (af.angles[r]?).map (fun a => queueOf a.degree) = some id ∧
      QueuesOk (af.setHeap id (af.heap id).removeFirst.2)
        (l.filter (fun x => decide (x ≠ r))) := by
  unfold Heap.removeFirst at hr ⊢
  cases hv : (af.heap id).values with
  | nil => rw [hv] at hr; cases hr
  | cons e rest =>
    rw [hv] at hr
    simp only at hr ⊢
    cases hr
    have h0 := hq id e.angle
    have hc : (queued af id).count e.angle = (rest.map (fun e => e.angle)).count e.angle + 1 := by
      simp [queued, hv]
    rw [hc] at h0
    have hcond : e.angle ∈ l ∧
        (af.angles[e.angle]?).map (fun a => queueOf a.degree) = some id := by
      by_contra hcon
      rw [if_neg hcon] at h0
      omega
    refine ⟨hcond.1, hcond.2, ?_⟩
    intro id1 x
    rw [queued_setHeap, angles_setHeap]
    simp only [mem_filter_ne]
    have h1 := hq id1 x
    by_cases hid : id1 = id
    · subst hid
      rw [if_pos rfl]
      simp only [queued, hv, List.map_cons, List.count_cons, beq_iff_eq] at h1
      by_cases hx : e.angle = x
      · subst hx
        rw [if_pos rfl, if_pos hcond] at h1
        simp only [ne_eq, not_true_eq_false, and_false, false_and, if_false]
        omega
      · have hx1 : x ≠ e.angle := fun h => hx h.symm
        rw [if_neg hx] at h1
        simp only [ne_eq, hx1, not_false_eq_true, and_true]
        simpa using h1
    · rw [if_neg hid, h1]
      by_cases hx : e.angle = x
      · subst hx
        have : ¬ ((af.angles[e.angle]?).map (fun a => queueOf a.degree) = some id1) := by
          rw [hcond.2]
          intro hc2
          exact hid (Option.some.inj hc2).symm
        simp [this]
      · have hx1 : x ≠ e.angle := fun h => hx h.symm
        simp [hx1]

theorem ring_mem (ring : List Nat) (r : Nat) (h : r ∈ ring) :
    ∃ i, i < ring.length ∧ ring.getD i 0 = r := by
  obtain ⟨i, hi, rfl⟩ := List.getElem_of_mem h
  exact ⟨i, hi, List.getD_eq_getElem _ _ hi⟩

theorem mem_eraseIdx_ring (ring : List Nat) (hnd : ring.Nodup) (i : Nat) (hi : i < ring.length)
    (x : Nat) : x ∈ ring.eraseIdx i ↔ x ∈ ring ∧ x ≠ ring.getD i 0 := by
  rw [List.getD_eq_getElem _ _ hi, List.mem_eraseIdx_iff_getElem]
  constructor
  · rintro ⟨j, hj, hne, rfl⟩
    refine ⟨List.getElem_mem _, ?_⟩
    intro h
    exact hne (hnd.getElem_inj_iff.1 h)
  · rintro ⟨hmem, hne⟩
    obtain ⟨j, hj, rfl⟩ := List.getElem_of_mem hmem
    refine ⟨j, hj, ?_, rfl⟩
    rintro rfl
    exact hne rfl

theorem arrIndexOf_getD (front : List Vector3) (hnd : front.Nodup) (i : Nat)
    (hi : i < front.length) : arrIndexOf front (front.getD i default) = (i : Int) := by
  rw [List.getD_eq_getElem _ _ hi, arrIndexOf_mem _ _ (List.getElem_mem _),
    List.indexOf_getElem hnd i hi]

theorem arrSplice1_getD (front : List Vector3) (hnd : front.Nodup) (i : Nat)
    (hi : i < front.length) :
    arrSplice1 front (arrIndexOf front (front.getD i default)) = front.eraseIdx i := by
  have hm : front.getD i default ∈ front := by
    rw [List.getD_eq_getElem _ _ hi]
    exact List.getElem_mem _
  rw [arrSplice1_indexOf_eraseIdx _ _ hm, List.getD_eq_getElem _ _ hi,
    List.indexOf_getElem hnd i hi]

theorem cyc_lt (n i : Nat) (hn : 0 < n) (_hi : i < n) : cycPrev n i < n ∧ cycNext n i < n := by
  unfold cycPrev cycNext
  constructor <;> split <;> omega

theorem applyRule1_inv (E : Env) (af : AFState) (front filling : Geometry) (res : ApplyResult)
    (ring : List Nat) (hring : RingOk E af front.vertices ring) (hq : QueuesOk af ring)
    (hn : 3 ≤ front.vertices.length) (hnd : front.vertices.Nodup)
    (h : applyRule1 E af front filling = Except.ok res)
    (hs : res.filling.faces ≠ filling.faces) :
    ∃ i, i < front.vertices.length ∧
      (af.HEAP_RULE_1.removeFirst).1 = some (ring.getD i 0) ∧
      res.front.vertices = front.vertices.eraseIdx i ∧
      RingOk E res.af res.front.vertices (ring.eraseIdx i) ∧
      QueuesOk res.af (ring.eraseIdx i) := by
  unfold applyRule1 at h
  simp only [bind_eq_ok] at h
  obtain ⟨r, hr, angle, ha, res1, hres1, h⟩ := h
  have hr1 : (af.HEAP_RULE_1.removeFirst).1 = some r := by
    cases hh : (af.HEAP_RULE_1.removeFirst).1 with
    | none => rw [hh] at hr; cases hr
    | some x => rw [hh] at hr; cases hr; rfl
  obtain ⟨hrl, hrq, hq0⟩ := queuesOk_pop af ring HeapId.rule1 r hq hr1
  obtain ⟨i, hi, hir⟩ := ring_mem ring r hrl
  obtain ⟨hlen, hrnd, hall⟩ := hring
  rw [hlen] at hi
  rw [angle_eq_ok] at ha
  simp only at ha
  rw [← hir, hall i hi] at ha
  cases ha
  have hprev : (cornerAngle E front.vertices ring i).previous
      = some (ring.getD (cycPrev front.vertices.length i) 0) := rfl
  have hnext : (cornerAngle E front.vertices ring i).next
      = some (ring.getD (cycNext front.vertices.length i) 0) := rfl
  have hv1 : (cornerAngle E front.vertices ring i).vertices.1
      = front.vertices.getD (cycPrev front.vertices.length i) default := rfl
  have hv2 : (cornerAngle E front.vertices ring i).vertices.2.1
      = front.vertices.getD i default := rfl
  have hv3 : (cornerAngle E front.vertices ring i).vertices.2.2
      = front.vertices.getD (cycNext front.vertices.length i) default := rfl
  rw [hv1, hv2, hv3] at hres1
  rw [hprev, hnext, hv1, hv3] at h
  obtain ⟨hpl, hnl⟩ := cyc_lt front.vertices.length i (by omega) hi
  generalize hpI : cycPrev front.vertices.length i = pI at *
  generalize hnI : cycNext front.vertices.length i = nI at *
  have hpi : pI ≠ i := by
    rw [← hpI]; unfold cycPrev; split <;> omega
  have hni : nI ≠ i := by
    rw [← hnI]; unfold cycNext; split <;> omega
  have hpn : pI ≠ nI := by
    rw [← hpI, ← hnI]; unfold cycPrev cycNext; split <;> split <;> omega
  have hinj : ∀ a b, a < front.vertices.length → b < front.vertices.length → a ≠ b →
      ring.getD a 0 ≠ ring.getD b 0 := by
    intro a b ha hb hab hc
    exact hab (getD_inj ring hrnd 0 a b (by omega) (by omega) hc)
  have hres : (res1.ok = true → res1.front.vertices = front.vertices.eraseIdx i) ∧
      (res1.ok = false → res1.filling = filling) := by
    unfold afRule1 at hres1
    split at hres1
    · cases hres1
    · cases hres1
      exact ⟨fun hc => (by cases hc), fun _ => rfl⟩
    · cases hres1
      exact ⟨fun _ => arrSplice1_getD _ hnd i hi, fun hc => (by cases hc)⟩
  split at h
  · rename_i hok
    simp only [bind_eq_ok, deref] at h
    obtain ⟨p, hp, af1, h1, af2, h2, n, hn1, af3, h3, af4, h4, h⟩ := h
    cases hp
    cases hn1
    cases h
    simp only
    have hfront := hres.1 hok
    -- the queues
    obtain ⟨q1, e1⟩ := queuesOk_heapRemove _ af1 _ _ hq0 h1
    have hp1 : ring.getD pI 0 ∉ (ring.filter (fun x => decide (x ≠ r))).filter
        (fun x => decide (x ≠ ring.getD pI 0)) := by
      simp [mem_filter_ne]
    obtain ⟨q2, e2⟩ := queuesOk_heapInsert _ af2 _ _
      (queuesOk_modify _ _ _ _ (queuesOk_modify _ _ _ _ q1 hp1) hp1) hp1 h2
    obtain ⟨q3, e3⟩ := queuesOk_heapRemove _ af3 _ _ q2 h3
    have hn2 : ring.getD nI 0 ∉ (ring.getD pI 0 :: (ring.filter
        (fun x => decide (x ≠ r))).filter (fun x => decide (x ≠ ring.getD pI 0))).filter
          (fun x => decide (x ≠ ring.getD nI 0)) := by
      simp [mem_filter_ne]
    obtain ⟨q4, e4⟩ := queuesOk_heapInsert _ af4 _ _
      (queuesOk_modify _ _ _ _ (queuesOk_modify _ _ _ _ q3 hn2) hn2) hn2 h4
    have hpm : ring.getD pI 0 ∈ ring := by
      rw [List.getD_eq_getElem _ _ (by omega)]; exact List.getElem_mem _
    have hnm : ring.getD nI 0 ∈ ring := by
      rw [List.getD_eq_getElem _ _ (by omega)]; exact List.getElem_mem _
    have hpr : ring.getD pI 0 ≠ r := by rw [← hir]; exact hinj _ _ hpl hi hpi
    have hnr : ring.getD nI 0 ≠ r := by rw [← hir]; exact hinj _ _ hnl hi hni
    have hstore : ∀ x, af4.angles[x]? =
        if ring.getD nI 0 = x then (af.angles[x]?).map (fun a =>
          { Angle.setVertices E a (front.vertices.getD pI default, a.vertices.2.1,
              a.vertices.2.2) with previous := some (ring.getD pI 0) })
        else if ring.getD pI 0 = x then (af.angles[x]?).map (fun a =>
          { Angle.setVertices E a (a.vertices.1, a.vertices.2.1,
              front.vertices.getD nI default) with next := some (ring.getD nI 0) })
        else af.angles[x]? := by
      intro x
      rw [e4, getElem?_modify_angles, getElem?_modify_angles, e3, e2, getElem?_modify_angles,
        getElem?_modify_angles, e1, angles_setHeap]
      have hpn1 := hinj _ _ hpl hnl hpn
      by_cases hx : ring.getD nI 0 = x
      · subst hx
        simp only [if_true, if_neg hpn1]
        cases af.angles[ring.getD nI 0]? <;> rfl
      · simp only [if_neg hx]
        by_cases hx1 : ring.getD pI 0 = x
        · subst hx1
          simp only [if_true]
          cases af.angles[ring.getD pI 0]? <;> rfl
        · simp only [if_neg hx1]
    refine ⟨i, hi, by rw [hir]; exact hr1, hfront, ?_, ?_⟩
    · rw [hfront]
      apply ringOk_erase E af af4 front.vertices ring i ⟨hlen, hrnd, hall⟩ hn hi
      · intro k hk hkp hkn
        rw [hpI] at hkp
        rw [hnI] at hkn
        rw [hstore, if_neg (hinj _ _ hnl hk (Ne.symm hkn)), if_neg (hinj _ _ hpl hk (Ne.symm hkp))]
      · rw [hpI, hnI, hstore, if_neg (hinj _ _ hnl hpl (Ne.symm hpn)), if_pos rfl, hall pI hpl]
        rfl
      · rw [hpI, hnI, hstore, if_pos rfl, hall nI hnl]
        rfl
    · refine queuesOk_congr _ _ _ ?_ q4
      intro x
      rw [mem_eraseIdx_ring ring hrnd i (by omega), hir]
      simp only [List.mem_cons, mem_filter_ne]
      constructor
      · rintro (rfl | ⟨rfl | ⟨⟨h1, h2⟩, -⟩, -⟩)
        · exact ⟨hnm, hnr⟩
        · exact ⟨hpm, hpr⟩
        · exact ⟨h1, h2⟩
      · rintro ⟨h1, h2⟩
        by_cases hxn : x = ring.getD nI 0
        · exact Or.inl hxn
        · by_cases hxp : x = ring.getD pI 0
          · exact Or.inr ⟨Or.inl hxp, hxn⟩
          · exact Or.inr ⟨Or.inr ⟨⟨h1, h2⟩, hxp⟩, hxn⟩
  · rename_i hok
    cases h
    exfalso
    apply hs
    simp only
    rw [hres.2 (by simpa using hok)]

theorem mkAngle_congr (E : Env) (vp v vn vp1 v1 vn1 : Vector3) (p n p1 n1 : Nat)
    (h1 : vp = vp1) (h2 : v = v1) (h3 : vn = vn1) (h4 : p = p1) (h5 : n = n1) :
    mkAngle E vp v vn p n = mkAngle E vp1 v1 vn1 p1 n1 := by
  subst h1 h2 h3 h4 h5
  rfl

theorem cornerAngle_eq (E : Env) (front : List Vector3) (ring : List Nat) (i : Nat) :
    cornerAngle E front ring i
      = mkAngle E (front.getD (cycPrev front.length i) default) (front.getD i default)
          (front.getD (cycNext front.length i) default)
          (ring.getD (cycPrev front.length i) 0) (ring.getD (cycNext front.length i) 0) := rfl

theorem getD_set {α : Type} (l : List α) (i k : Nat) (x d : α) (hi : i < l.length) :
    (l.set i x).getD k d = if k = i then x else l.getD k d := by
  simp only [List.getD_eq_getElem?_getD, List.getElem?_set]
  by_cases h : i = k
  · subst h
    simp [hi]
  · have : ¬ k = i := fun hc => h hc.symm
    simp [h, this]

theorem arrSet_getD (front : List Vector3) (hnd : front.Nodup) (i : Nat)
    (hi : i < front.length) (w : Vector3) :
    arrSet front (arrIndexOf front (front.getD i default)) w = front.set i w := by
  rw [arrIndexOf_getD front hnd i hi]
  simp [arrSet]

theorem setHeap_alloc (af : AFState) (k : Nat) (l : List Nat) (hq : QueuesOk af l) :
    QueuesOk { af with alloc := k } l :=
  queuesOk_of_eq af _ l rfl (fun id => by cases id <;> rfl) hq

theorem cycNext_cycPrev (n i : Nat) (hn : 2 ≤ n) (hi : i < n) :
    cycNext n (cycPrev n i) = i := by
  simp only [cycPrev, cycNext]
  split_ifs <;> omega

theorem cycPrev_cycNext (n i : Nat) (hn : 2 ≤ n) (hi : i < n) :
    cycPrev n (cycNext n i) = i := by
  simp only [cycPrev, cycNext]
  split_ifs <;> first | contradiction | omega

theorem ringOk_set (E : Env) (af af1 : AFState) (front : List Vector3) (ring : List Nat)
    (i : Nat) (w : Vector3) (h : RingOk E af front ring) (hn : 3 ≤ front.length)
    (hi : i < front.length)
    (hother : ∀ k, k < front.length → k ≠ i → k ≠ cycPrev front.length i →
      k ≠ cycNext front.length i →
      af1.angles[ring.getD k 0]? = af.angles[ring.getD k 0]?)
    (hr : af1.angles[ring.getD i 0]? = some (mkAngle E
      (front.getD (cycPrev front.length i) default) w
      (front.getD (cycNext front.length i) default)
      (ring.getD (cycPrev front.length i) 0) (ring.getD (cycNext front.length i) 0)))
    (hp : af1.angles[ring.getD (cycPrev front.length i) 0]? = some (mkAngle E
      (front.getD (cycPrev front.length (cycPrev front.length i)) default)
      (front.getD (cycPrev front.length i) default) w
      (ring.getD (cycPrev front.length (cycPrev front.length i)) 0) (ring.getD i 0)))
    (hnx : af1.angles[ring.getD (cycNext front.length i) 0]? = some (mkAngle E w
      (front.getD (cycNext front.length i) default)
      (front.getD (cycNext front.length (cycNext front.length i)) default)
      (ring.getD i 0) (ring.getD (cycNext front.length (cycNext front.length i)) 0))) :
    RingOk E af1 (front.set i w) ring := by
  obtain ⟨hlen, hnd, hall⟩ := h
  refine ⟨by rw [List.length_set]; exact hlen, hnd, ?_⟩
  intro k hk
  rw [List.length_set] at hk
  rw [cornerAngle_eq, List.length_set, getD_set _ _ _ _ _ hi, getD_set _ _ _ _ _ hi,
    getD_set _ _ _ _ _ hi]
  by_cases h0 : k = i
  · subst h0
    rw [hr]
    congr 1
    apply mkAngle_congr <;> simp only [cycPrev, cycNext] <;> split_ifs <;>
      first | rfl | omega
  · by_cases h1 : k = cycPrev front.length i
    · rw [h1, hp]
      congr 1
      apply mkAngle_congr <;> simp only [cycPrev, cycNext] at h0 h1 ⊢ <;>
        split_ifs at h0 h1 ⊢ <;> first | rfl | contradiction | omega | (congr 1 <;> omega)
    · by_cases h2 : k = cycNext front.length i
      · rw [h2, hnx]
        congr 1
        apply mkAngle_congr <;> simp only [cycPrev, cycNext] at h0 h1 h2 ⊢ <;>
          split_ifs at h0 h1 h2 ⊢ <;> first | rfl | contradiction | omega | (congr 1 <;> omega)
      · rw [hother k hk h0 h1 h2, hall k hk, cornerAngle_eq]
        congr 1
        apply mkAngle_congr <;> simp only [cycPrev, cycNext] at h0 h1 h2 ⊢ <;>
          split_ifs at h0 h1 h2 ⊢ <;> first | rfl | contradiction | omega | (congr 1 <;> omega)

theorem applyRule2_inv (E : Env) (af : AFState) (front filling : Geometry) (res : ApplyResult)
    (ring : List Nat) (vNew : Vector3) (hring : RingOk E af front.vertices ring)
    (hq : QueuesOk af ring) (hn : 3 ≤ front.vertices.length) (hnd : front.vertices.Nodup)
    (h : applyRule2 E af front filling = Except.ok res) (hs : res.vNew = some vNew) :
    ∃ i, i < front.vertices.length ∧
      (af.HEAP_RULE_2.removeFirst).1 = some (ring.getD i 0) ∧
      res.front.vertices = front.vertices.set i vNew ∧
      RingOk E res.af res.front.vertices ring ∧ QueuesOk res.af ring := by
  unfold applyRule2 at h
  simp only [bind_eq_ok] at h
  obtain ⟨r, hr, angle, ha, res1, hres1, h⟩ := h
  have hr1 : (af.HEAP_RULE_2.removeFirst).1 = some r := by
    cases hh : (af.HEAP_RULE_2.removeFirst).1 with
    | none => rw [hh] at hr; cases hr
    | some x => rw [hh] at hr; cases hr; rfl
  obtain ⟨hrl, hrq, hq0⟩ := queuesOk_pop af ring HeapId.rule2 r hq hr1
  obtain ⟨i, hi, hir⟩ := ring_mem ring r hrl
  obtain ⟨hlen, hrnd, hall⟩ := hring
  rw [hlen] at hi
  rw [angle_eq_ok] at ha
  simp only at ha
  rw [← hir, hall i hi] at ha
  cases ha
  have hprev : (cornerAngle E front.vertices ring i).previous
      = some (ring.getD (cycPrev front.vertices.length i) 0) := rfl
  have hnext : (cornerAngle E front.vertices ring i).next
      = some (ring.getD (cycNext front.vertices.length i) 0) := rfl
  have hv1 : (cornerAngle E front.vertices ring i).vertices.1
      = front.vertices.getD (cycPrev front.vertices.length i) default := rfl
  have hv2 : (cornerAngle E front.vertices ring i).vertices.2.1
      = front.vertices.getD i default := rfl
  have hv3 : (cornerAngle E front.vertices ring i).vertices.2.2
      = front.vertices.getD (cycNext front.vertices.length i) default := rfl
  rw [hv1, hv2, hv3] at hres1
  rw [hprev, hnext] at h
  obtain ⟨hpl, hnl⟩ := cyc_lt front.vertices.length i (by omega) hi
  have hpi : cycPrev front.vertices.length i ≠ i := by
    unfold cycPrev; split <;> omega
  have hni : cycNext front.vertices.length i ≠ i := by
    unfold cycNext; split <;> omega
  have hpn : cycPrev front.vertices.length i ≠ cycNext front.vertices.length i := by
    unfold cycPrev cycNext; split <;> split <;> omega
  generalize hpI : cycPrev front.vertices.length i = pI at *
  generalize hnI : cycNext front.vertices.length i = nI at *
  have hinj : ∀ a b, a < front.vertices.length → b < front.vertices.length → a ≠ b →
      ring.getD a 0 ≠ ring.getD b 0 := by
    intro a b ha hb hab hc
    exact hab (getD_inj ring hrnd 0 a b (by omega) (by omega) hc)
  split at h
  · rename_i w hw
    subst hir
    simp only [bind_eq_ok, deref] at h
    obtain ⟨af1, h1, p, hp, af2, h2, af3, h3, n, hn1, af4, h4, af5, h5, h⟩ := h
    cases hp
    cases hn1
    cases h
    cases hs
    have hfront : res1.front.vertices = front.vertices.set i vNew := by
      unfold afRule2 at hres1
      simp only at hres1
      split at hres1
      · cases hres1
      · cases hres1
        cases hw
      · cases hres1
        cases hw
        exact arrSet_getD _ hnd i hi _
    simp only
    -- the queues
    have hr0 : ring.getD i 0 ∉ ring.filter (fun x => decide (x ≠ ring.getD i 0)) := by
      simp [mem_filter_ne]
    obtain ⟨q1, e1⟩ := queuesOk_heapInsert _ af1 _ _
      (queuesOk_modify _ _ _ _ (setHeap_alloc _ (af.alloc + 1) _ hq0) hr0) hr0 h1
    obtain ⟨q2, e2⟩ := queuesOk_heapRemove _ af2 _ _ q1 h2
    have hp1 : ring.getD pI 0 ∉ (ring.getD i 0 :: ring.filter
        (fun x => decide (x ≠ ring.getD i 0))).filter
          (fun x => decide (x ≠ ring.getD pI 0)) := by
      simp [mem_filter_ne]
    obtain ⟨q3, e3⟩ := queuesOk_heapInsert _ af3 _ _ (queuesOk_modify _ _ _ _ q2 hp1) hp1 h3
    obtain ⟨q4, e4⟩ := queuesOk_heapRemove _ af4 _ _ q3 h4
    have hn2 : ring.getD nI 0 ∉ (ring.getD pI 0 :: (ring.getD i 0 :: ring.filter
        (fun x => decide (x ≠ ring.getD i 0))).filter
          (fun x => decide (x ≠ ring.getD pI 0))).filter
            (fun x => decide (x ≠ ring.getD nI 0)) := by
      simp [mem_filter_ne]
    obtain ⟨q5, e5⟩ := queuesOk_heapInsert _ af5 _ _ (queuesOk_modify _ _ _ _ q4 hn2) hn2 h5
    have hrm : ring.getD i 0 ∈ ring := hrl
    have hpm : ring.getD pI 0 ∈ ring := by
      rw [List.getD_eq_getElem _ _ (by omega)]; exact List.getElem_mem _
    have hnm : ring.getD nI 0 ∈ ring := by
      rw [List.getD_eq_getElem _ _ (by omega)]; exact List.getElem_mem _
    have hstore : ∀ x, af5.angles[x]? =
        if ring.getD nI 0 = x then (af.angles[x]?).map (fun a =>
          Angle.setVertices E a (vNew, a.vertices.2.1, a.vertices.2.2))
        else if ring.getD pI 0 = x then (af.angles[x]?).map (fun a =>
          Angle.setVertices E a (a.vertices.1, a.vertices.2.1, vNew))
        else if ring.getD i 0 = x then (af.angles[x]?).map (fun a =>
          Angle.setVertices E a (a.vertices.1, vNew, a.vertices.2.2))
        else af.angles[x]? := by
      intro x
      rw [e5, getElem?_modify_angles, e4, e3, getElem?_modify_angles, e2, e1,
        getElem?_modify_angles]
      have hpn1 := hinj _ _ hpl hnl hpn
      have hpi1 := hinj _ _ hpl hi hpi
      have hni1 := hinj _ _ hnl hi hni
      by_cases hx : ring.getD nI 0 = x
      · subst hx
        simp only [if_true, if_neg hpn1, if_neg (Ne.symm hni1)]
        rfl
      · simp only [if_neg hx]
        by_cases hx1 : ring.getD pI 0 = x
        · subst hx1
          simp only [if_true, if_neg (Ne.symm hpi1)]
          rfl
        · simp only [if_neg hx1]
          rfl
    refine ⟨i, hi, hr1, hfront, ?_, ?_⟩
    · rw [hfront]
      apply ringOk_set E af af5 front.vertices ring i vNew ⟨hlen, hrnd, hall⟩ hn hi
      · intro k hk hki hkp hkn
        rw [hpI] at hkp
        rw [hnI] at hkn
        rw [hstore, if_neg (hinj _ _ hnl hk (Ne.symm hkn)),
          if_neg (hinj _ _ hpl hk (Ne.symm hkp)), if_neg (hinj _ _ hi hk (Ne.symm hki))]
      · rw [hpI, hnI, hstore, if_neg (hinj _ _ hnl hi hni), if_neg (hinj _ _ hpl hi hpi),
          if_pos rfl, hall i hi, cornerAngle_eq, hpI, hnI]
        rfl
      · rw [hpI, hstore, if_neg (hinj _ _ hnl hpl (Ne.symm hpn)), if_pos rfl, hall pI hpl,
          cornerAngle_eq]
        have : cycNext front.vertices.length pI = i := by
          rw [← hpI]; exact cycNext_cycPrev _ _ (by omega) hi
        rw [this]
        rfl
      · rw [hnI, hstore, if_pos rfl, hall nI hnl, cornerAngle_eq]
        have : cycPrev front.vertices.length nI = i := by
          rw [← hnI]; exact cycPrev_cycNext _ _ (by omega) hi
        rw [this]
        rfl
    · refine queuesOk_congr _ _ _ ?_ q5
      intro x
      simp only [List.mem_cons, mem_filter_ne]
      constructor
      · rintro (rfl | ⟨rfl | ⟨rfl | ⟨h1, -⟩, -⟩, -⟩)
        · exact hnm
        · exact hpm
        · exact hrm
        · exact h1
      · intro h1
        by_cases hxn : x = ring.getD nI 0
        · exact Or.inl hxn
        · by_cases hxp : x = ring.getD pI 0
          · exact Or.inr ⟨Or.inl hxp, hxn⟩
          · by_cases hxr : x = ring.getD i 0
            · exact Or.inr ⟨Or.inr ⟨Or.inl hxr, hxp⟩, hxn⟩
            · exact Or.inr ⟨Or.inr ⟨Or.inr ⟨h1, hxr⟩, hxp⟩, hxn⟩
  · cases h
    cases hs

theorem insertIdx_eq_take_drop {α : Type} (x : α) : ∀ (l : List α) (i : Nat), i ≤ l.length →
    l.insertIdx i x = l.take i ++ x :: l.drop i := by
  intro l
  induction l with
  | nil =>
    intro i hi
    have : i = 0 := by simpa using hi
    subst this
    rfl
  | cons y ys ih =>
    intro i hi
    cases i with
    | zero => rfl
    | succ i =>
      have := ih i (by simpa using hi)
      simp only [List.insertIdx, List.modifyTailIdx] at this ⊢
      simp [this]

theorem getD_insertIdx {α : Type} (l : List α) (i k : Nat) (x d : α) (hi : i < l.length) :
    (l.insertIdx (i + 1) x).getD k d
      = if k ≤ i then l.getD k d else if k = i + 1 then x else l.getD (k - 1) d := by
  rw [insertIdx_eq_take_drop x l (i + 1) (by omega)]
  simp only [List.getD_eq_getElem?_getD, List.getElem?_append, List.length_take,
    Nat.min_eq_left (show i + 1 ≤ l.length by omega), List.getElem?_take]
  by_cases h1 : k ≤ i
  · rw [if_pos (by omega), if_pos (by omega), if_pos h1]
  · rw [if_neg (by omega), if_neg h1]
    by_cases h2 : k = i + 1
    · subst h2
      simp
    · rw [if_neg h2]
      have : k - (i + 1) = (k - (i + 2)) + 1 := by omega
      rw [this, List.getElem?_cons_succ, List.getElem?_drop]
      congr 2
      omega

set_option maxHeartbeats 2000000 in
theorem ringOk_insert (E : Env) (af af1 : AFState) (front : List Vector3) (ring : List Nat)
    (i m : Nat) (w : Vector3) (h : RingOk E af front ring) (hn : 3 ≤ front.length)
    (hi : i < front.length) (hm : m ∉ ring)
    (hother : ∀ k, k < front.length → k ≠ i → k ≠ cycNext front.length i →
      af1.angles[ring.getD k 0]? = af.angles[ring.getD k 0]?)
    (hnew : af1.angles[m]? = some (mkAngle E (front.getD i default) w
      (front.getD (cycNext front.length i) default)
      (ring.getD i 0) (ring.getD (cycNext front.length i) 0)))
    (hnx : af1.angles[ring.getD (cycNext front.length i) 0]? = some (mkAngle E w
      (front.getD (cycNext front.length i) default)
      (front.getD (cycNext front.length (cycNext front.length i)) default)
      m (ring.getD (cycNext front.length (cycNext front.length i)) 0)))
    (hr : af1.angles[ring.getD i 0]? = some (mkAngle E
      (front.getD (cycPrev front.length i) default) (front.getD i default) w
      (ring.getD (cycPrev front.length i) 0) m)) :
    RingOk E af1 (front.insertIdx (i + 1) w) (ring.insertIdx (i + 1) m) := by
  obtain ⟨hlen, hnd, hall⟩ := h
  have hiR : i < ring.length := by omega
  have hl1 : (front.insertIdx (i + 1) w).length = front.length + 1 :=
    List.length_insertIdx _ _ (by omega)
  refine ⟨?_, ?_, ?_⟩
  · rw [hl1, List.length_insertIdx _ _ (by omega), hlen]
  · rw [(List.perm_insertIdx m ring (show i + 1 ≤ ring.length by omega)).nodup_iff]
    exact List.nodup_cons.2 ⟨hm, hnd⟩
  · intro k hk
    rw [hl1] at hk
    rw [cornerAngle_eq, hl1, getD_insertIdx _ _ _ _ _ hi, getD_insertIdx _ _ _ _ _ hi,
      getD_insertIdx _ _ _ _ _ hi, getD_insertIdx _ _ _ _ _ hiR,
      getD_insertIdx _ _ _ _ _ hiR, getD_insertIdx _ _ _ _ _ hiR]
    by_cases h0 : k = i + 1
    · subst h0
      rw [if_neg (by omega), if_pos rfl, hnew]
      congr 1
      apply mkAngle_congr <;> simp only [cycPrev, cycNext] <;> split_ifs <;>
        first | rfl | contradiction | omega | (congr 1 <;> omega)
    · by_cases h1 : k = i
      · subst h1
        rw [if_pos (le_refl _), hr]
        congr 1
        apply mkAngle_congr <;> first | rfl | ((try simp only [cycPrev, cycNext]) <;> split_ifs <;>
          first | rfl | contradiction | omega | (congr 1 <;> omega))
      · by_cases h2 : (if k ≤ i then k else k - 1) = cycNext front.length i
        · have hk2 : (if k ≤ i then ring.getD k 0 else if k = i + 1 then m
              else ring.getD (k - 1) 0) = ring.getD (cycNext front.length i) 0 := by
            rw [← h2]
            split_ifs <;> first | rfl | omega
          rw [hk2, hnx]
          congr 1
          apply mkAngle_congr <;> first | rfl | ((try simp only [cycPrev, cycNext] at h2 ⊢) <;>
            split_ifs at h2 ⊢ <;>
            first | rfl | contradiction | omega | (congr 1 <;> omega))
        · have hk2 : (if k ≤ i then ring.getD k 0 else if k = i + 1 then m
              else ring.getD (k - 1) 0) = ring.getD (if k ≤ i then k else k - 1) 0 := by
            split_ifs <;> first | rfl | omega
          rw [hk2, hother _ (by split_ifs <;> omega) (by split_ifs <;> omega) h2,
            hall _ (by split_ifs <;> omega), cornerAngle_eq]
          congr 1
          apply mkAngle_congr <;> first | rfl | ((try simp only [cycPrev, cycNext] at h2 ⊢) <;>
            split_ifs at h2 ⊢ <;>
            first | rfl | contradiction | omega | (congr 1 <;> omega))

theorem arrSpliceIns_getD (front : List Vector3) (hnd : front.Nodup) (i : Nat)
    (hi : i < front.length) (w : Vector3) :
    arrSpliceIns front (arrIndexOf front (front.getD i default) + 1) w
      = front.insertIdx (i + 1) w := by
  rw [arrIndexOf_getD front hnd i hi]
  have h0 : ¬ ((i : Int) + 1 < 0) := by omega
  have h1 : ((i : Int) + 1).toNat = i + 1 := by omega
  simp only [arrSpliceIns, spliceStart, h0, if_false, h1]
  rw [Nat.min_eq_left (by omega)]

theorem ring_lt (E : Env) (af : AFState) (front : List Vector3) (ring : List Nat)
    (h : RingOk E af front ring) (x : Nat) (hx : x ∈ ring) : x < af.angles.length := by
  obtain ⟨hlen, -, hall⟩ := h
  obtain ⟨k, hk, rfl⟩ := ring_mem ring x hx
  have := hall k (by omega)
  by_contra hc
  rw [List.getElem?_eq_none (by omega)] at this
  cases this

theorem applyRule3_inv (E : Env) (af : AFState) (front filling : Geometry) (res : ApplyResult)
    (ring : List Nat) (vNew : Vector3) (hring : RingOk E af front.vertices ring)
    (hq : QueuesOk af ring) (hn : 3 ≤ front.vertices.length) (hnd : front.vertices.Nodup)
    (h : applyRule3 E af front filling = Except.ok res) (hs : res.vNew = some vNew) :
    ∃ i, i < front.vertices.length ∧
      (af.HEAP_RULE_3.removeFirst).1 = some (ring.getD i 0) ∧
      res.front.vertices = front.vertices.insertIdx (i + 1) vNew ∧
      RingOk E res.af res.front.vertices (ring.insertIdx (i + 1) af.angles.length) ∧
      QueuesOk res.af (ring.insertIdx (i + 1) af.angles.length) := by
  have hlt := ring_lt E af front.vertices ring hring
  unfold applyRule3 at h
  simp only [bind_eq_ok] at h
  obtain ⟨r, hr, angle, ha, res1, hres1, h⟩ := h
  have hr1 : (af.HEAP_RULE_3.removeFirst).1 = some r := by
    cases hh : (af.HEAP_RULE_3.removeFirst).1 with
    | none => rw [hh] at hr; cases hr
    | some x => rw [hh] at hr; cases hr; rfl
  obtain ⟨hrl, hrq, hq0⟩ := queuesOk_pop af ring HeapId.rule3 r hq hr1
  obtain ⟨i, hi, hir⟩ := ring_mem ring r hrl
  obtain ⟨hlen, hrnd, hall⟩ := hring
  rw [hlen] at hi
  rw [angle_eq_ok] at ha
  simp only at ha
  rw [← hir, hall i hi] at ha
  cases ha
  have hprev : (cornerAngle E front.vertices ring i).previous
      = some (ring.getD (cycPrev front.vertices.length i) 0) := rfl
  have hnext : (cornerAngle E front.vertices ring i).next
      = some (ring.getD (cycNext front.vertices.length i) 0) := rfl
  have hv1 : (cornerAngle E front.vertices ring i).vertices.1
      = front.vertices.getD (cycPrev front.vertices.length i) default := rfl
  have hv2 : (cornerAngle E front.vertices ring i).vertices.2.1
      = front.vertices.getD i default := rfl
  have hv3 : (cornerAngle E front.vertices ring i).vertices.2.2
      = front.vertices.getD (cycNext front.vertices.length i) default := rfl
  rw [hv1, hv2, hv3] at hres1
  rw [hnext, hv2, hv3] at h
  obtain ⟨hpl, hnl⟩ := cyc_lt front.vertices.length i (by omega) hi
  have hpi : cycPrev front.vertices.length i ≠ i := by
    unfold cycPrev; split <;> omega
  have hni : cycNext front.vertices.length i ≠ i := by
    unfold cycNext; split <;> omega
  have hpn : cycPrev front.vertices.length i ≠ cycNext front.vertices.length i := by
    unfold cycPrev cycNext; split <;> split <;> omega
  have hinj : ∀ a b, a < front.vertices.length → b < front.vertices.length → a ≠ b →
      ring.getD a 0 ≠ ring.getD b 0 := by
    intro a b ha hb hab hc
    exact hab (getD_inj ring hrnd 0 a b (by omega) (by omega) hc)
  split at h
  · rename_i w hw
    subst hir
    simp only [bind_eq_ok, deref] at h
    obtain ⟨af1, h1, n, hn1, af2, h2, af3, h3, af4, h4, h⟩ := h
    cases hn1
    cases h
    cases hs
    have hfront : res1.front.vertices = front.vertices.insertIdx (i + 1) vNew := by
      unfold afRule3 at hres1
      simp only at hres1
      split at hres1
      · cases hres1
      · cases hres1
        cases hw
      · cases hres1
        cases hw
        exact arrSpliceIns_getD _ hnd i hi _
    simp only
    have hmr : af.angles.length ∉ ring := fun hc => Nat.lt_irrefl _ (hlt _ hc)
    have hpm : ring.getD (cycPrev front.vertices.length i) 0 ∈ ring := by
      rw [List.getD_eq_getElem _ _ (by omega)]; exact List.getElem_mem _
    have hnm : ring.getD (cycNext front.vertices.length i) 0 ∈ ring := by
      rw [List.getD_eq_getElem _ _ (by omega)]; exact List.getElem_mem _
    have hnr := hinj _ _ hnl hi hni
    have hmn : af.angles.length ≠ ring.getD (cycNext front.vertices.length i) 0 :=
      fun hc => hmr (hc ▸ hnm)
    have hmi : af.angles.length ≠ ring.getD i 0 := fun hc => hmr (hc ▸ hrl)
    -- the queues
    have hm0 : af.angles.length ∉ ring.filter (fun x => decide (x ≠ ring.getD i 0)) := by
      simp [mem_filter_ne, hmr]
    obtain ⟨q1, e1⟩ := queuesOk_heapInsert _ af1 _ _
      (queuesOk_push _ _ _ (setHeap_alloc _ (af.alloc + 1) _ hq0) hm0) hm0 h1
    obtain ⟨q2, e2⟩ := queuesOk_heapRemove _ af2 _ _ q1 h2
    have hn2 : ring.getD (cycNext front.vertices.length i) 0 ∉
        (af.angles.length :: ring.filter (fun x => decide (x ≠ ring.getD i 0))).filter
          (fun x => decide (x ≠ ring.getD (cycNext front.vertices.length i) 0)) := by
      simp [mem_filter_ne]
    obtain ⟨q3, e3⟩ := queuesOk_heapInsert _ af3 _ _
      (queuesOk_modify _ _ _ _ (queuesOk_modify _ _ _ _ q2 hn2) hn2) hn2 h3
    have hr2 : ring.getD i 0 ∉ ring.getD (cycNext front.vertices.length i) 0 ::
        (af.angles.length :: ring.filter (fun x => decide (x ≠ ring.getD i 0))).filter
          (fun x => decide (x ≠ ring.getD (cycNext front.vertices.length i) 0)) := by
      intro hc
      rcases List.mem_cons.1 hc with h | h
      · exact hnr h.symm
      · rcases List.mem_cons.1 ((mem_filter_ne _ _ _).1 h).1 with h | h
        · exact hmi h.symm
        · exact ((mem_filter_ne _ _ _).1 h).2 rfl
    obtain ⟨q4, e4⟩ := queuesOk_heapInsert _ af4 _ _
      (queuesOk_modify _ _ _ _ (queuesOk_modify _ _ _ _ q3 hr2) hr2) hr2 h4
    have hstore : ∀ x, af4.angles[x]? =
        if ring.getD i 0 = x then (af.angles[x]?).map (fun a =>
          { Angle.setVertices E a (a.vertices.1, a.vertices.2.1, vNew) with
            next := some af.angles.length })
        else if ring.getD (cycNext front.vertices.length i) 0 = x then
          (af.angles[x]?).map (fun a =>
            { Angle.setVertices E a (vNew, a.vertices.2.1, a.vertices.2.2) with
              previous := some af.angles.length })
        else (af.angles ++ [mkAngle E (front.vertices.getD i default) vNew
          (front.vertices.getD (cycNext front.vertices.length i) default) (ring.getD i 0)
          (ring.getD (cycNext front.vertices.length i) 0)])[x]? := by
      intro x
      rw [e4, getElem?_modify_angles, getElem?_modify_angles, e3, getElem?_modify_angles,
        getElem?_modify_angles, e2, e1]
      simp only [angles_setHeap]
      have hil := hlt _ hrl
      have hnl1 := hlt _ hnm
      by_cases hx : ring.getD i 0 = x
      · subst hx
        simp only [if_true, if_neg hnr, List.getElem?_append_left hil]
        cases af.angles[ring.getD i 0]? <;> rfl
      · simp only [if_neg hx]
        by_cases hx1 : ring.getD (cycNext front.vertices.length i) 0 = x
        · subst hx1
          simp only [if_true, List.getElem?_append_left hnl1]
          cases af.angles[ring.getD (cycNext front.vertices.length i) 0]? <;> rfl
        · simp only [if_neg hx1]
          rfl
    refine ⟨i, hi, hr1, hfront, ?_, ?_⟩
    · rw [hfront]
      apply ringOk_insert E af af4 front.vertices ring i af.angles.length vNew
        ⟨hlen, hrnd, hall⟩ hn hi hmr
      · intro k hk hki hkn
        have hkm : ring.getD k 0 ∈ ring := by
          rw [List.getD_eq_getElem _ _ (by omega)]; exact List.getElem_mem _
        rw [hstore, if_neg (hinj _ _ hi hk (Ne.symm hki)),
          if_neg (hinj _ _ hnl hk (Ne.symm hkn)), List.getElem?_append_left (hlt _ hkm)]
      · rw [hstore, if_neg (Ne.symm hmi), if_neg (Ne.symm hmn)]
        simp
      · rw [hstore, if_neg (Ne.symm hnr), if_pos rfl, hall _ hnl, cornerAngle_eq,
          cycPrev_cycNext _ _ (by omega) hi]
        rfl
      · rw [hstore, if_pos rfl, hall i hi, cornerAngle_eq]
        rfl
    · refine queuesOk_congr _ _ _ ?_ q4
      intro x
      rw [List.mem_insertIdx (by omega)]
      simp only [List.mem_cons, mem_filter_ne]
      constructor
      · rintro (rfl | rfl | ⟨rfl | ⟨h1, -⟩, -⟩)
        · exact Or.inr hrl
        · exact Or.inr hnm
        · exact Or.inl rfl
        · exact Or.inr h1
      · rintro (rfl | h1)
        · exact Or.inr (Or.inr ⟨Or.inl rfl, hmn⟩)
        · by_cases hxr : x = ring.getD i 0
          · exact Or.inl hxr
          · by_cases hxn : x = ring.getD (cycNext front.vertices.length i) 0
            · exact Or.inr (Or.inl hxn)
            · exact Or.inr (Or.inr ⟨Or.inr ⟨h1, hxr⟩, hxn⟩)
  · cases h
    cases hs

theorem queued_mem_ring (af : AFState) (l : List Nat) (hq : QueuesOk af l) (id : HeapId)
    (x : Nat) (hx : x ∈ queued af id) :
    x ∈ l ∧ (af.angles[x]?).map (fun a => queueOf a.degree) = some id := by
  have h0 := hq id x
  have hpos : 0 < (queued af id).count x := List.count_pos_iff.2 hx
  by_contra hc
  rw [if_neg hc] at h0
  omega

theorem findMiddle_spec (E : Env) (af : AFState) (front : List Vector3) (ring : List Nat)
    (hring : RingOk E af front ring) (hnd : front.Nodup) (j : Nat) (hj : j < front.length)
    (l : List HeapEntry) (hl : ∀ e ∈ l, e.angle ∈ ring) :
    findMiddle af (front.getD j default) l
      = Except.ok (if ring.getD j 0 ∈ l.map (fun e => e.angle) then some (ring.getD j 0)
          else none) := by
  obtain ⟨hlen, hrnd, hall⟩ := hring
  induction l with
  | nil => rfl
  | cons e rest ih =>
    obtain ⟨k, hk, hke⟩ := ring_mem ring e.angle (hl e (List.mem_cons_self _ _))
    rw [hlen] at hk
    have hget : af.angle e.angle = Except.ok (cornerAngle E front ring k) := by
      rw [angle_eq_ok, ← hke]
      exact hall k hk
    unfold findMiddle
    rw [hget]
    simp only
    have hmid : (cornerAngle E front ring k).vertices.2.1 = front.getD k default := rfl
    rw [hmid]
    by_cases hkj : k = j
    · subst hkj
      rw [if_pos rfl, hke]
      simp
    · have hne : front.getD k default ≠ front.getD j default := by
        intro hc
        exact hkj (getD_inj front hnd default k j hk hj hc)
      rw [if_neg hne, ih (fun e he => hl e (List.mem_cons_of_mem _ he))]
      have hne2 : ring.getD j 0 ≠ e.angle := by
        rw [← hke]
        intro hc
        exact hkj (getD_inj ring hrnd 0 k j (by omega) (by omega) hc.symm)
      simp only [List.map_cons, List.mem_cons, hne2, false_or]

theorem findMiddleIn_spec (E : Env) (af : AFState) (front : List Vector3) (ring : List Nat)
    (hring : RingOk E af front ring) (hq : QueuesOk af ring) (hnd : front.Nodup) (j : Nat)
    (hj : j < front.length) (ids : List HeapId) :
    findMiddleIn af (front.getD j default) ids
      = Except.ok ((ids.find? (fun id => decide (ring.getD j 0 ∈ queued af id))).map
          (fun id => (id, ring.getD j 0))) := by
  induction ids with
  | nil => rfl
  | cons id rest ih =>
    unfold findMiddleIn
    rw [findMiddle_spec E af front ring hring hnd j hj _ (fun e he =>
      (queued_mem_ring af ring hq id e.angle (List.mem_map_of_mem _ he)).1)]
    by_cases hm : ring.getD j 0 ∈ queued af id
    · have hm1 := hm
      unfold queued at hm1
      simp only [if_pos hm1, List.find?_cons, hm, decide_True, Option.map_some']
    · have hm1 := hm
      unfold queued at hm1
      simp only [if_neg hm1, List.find?_cons, hm, decide_False, ih]

theorem findMiddleIn_all (E : Env) (af : AFState) (front : List Vector3) (ring : List Nat)
    (hring : RingOk E af front ring) (hq : QueuesOk af ring) (hnd : front.Nodup) (j : Nat)
    (hj : j < front.length) :
    findMiddleIn af (front.getD j default)
        [HeapId.rule1, HeapId.rule2, HeapId.rule3, HeapId.ruleR]
      = Except.ok (some (queueOf (cornerAngle E front ring j).degree, ring.getD j 0)) := by
  rw [findMiddleIn_spec E af front ring hring hq hnd j hj]
  have hget := hring.2.2 j hj
  have hmem : ring.getD j 0 ∈ ring := by
    rw [List.getD_eq_getElem _ _ (by rw [hring.1]; exact hj)]; exact List.getElem_mem _
  have hin : ∀ id, ring.getD j 0 ∈ queued af id ↔
      id = queueOf (cornerAngle E front ring j).degree := by
    intro id
    have h0 := hq id (ring.getD j 0)
    rw [hget] at h0
    simp only [Option.map_some', hmem, true_and, Option.some.injEq] at h0
    rw [← List.count_pos_iff, h0]
    constructor
    · intro h
      by_contra hc
      rw [if_neg (fun h1 => hc h1.symm)] at h
      omega
    · intro h
      rw [if_pos h.symm]
      omega
  simp only [hin]
  generalize queueOf (cornerAngle E front ring j).degree = q
  cases q <;> simp [List.find?]

theorem mergeTriples_eq (E : Env) (af : AFState) (front : List Vector3) (ring : List Nat)
    (hring : RingOk E af front ring) (hn : 3 ≤ front.length) (j : Nat) (hj : j < front.length)
    (v : Vector3)
    (hadj : v = front.getD (cycPrev front.length j) default ∨
      v = front.getD (cycNext front.length j) default) :
    mergeTriples af (cornerAngle E front ring j) (ring.getD (cycPrev front.length j) 0)
        (ring.getD (cycNext front.length j) 0) v
      = Except.ok ((af.modify (ring.getD (cycPrev front.length j) 0) (fun a =>
          { a with vertices := (a.vertices.1, a.vertices.2.1,
              front.getD (cycNext front.length j) default) })).modify
            (ring.getD (cycNext front.length j) 0) (fun a =>
          { a with vertices := (front.getD (cycPrev front.length j) default, a.vertices.2.1,
              a.vertices.2.2) })) := by
  obtain ⟨hlen, hrnd, hall⟩ := hring
  obtain ⟨hpl, hnl⟩ := cyc_lt front.length j (by omega) hj
  have hp : af.angle (ring.getD (cycPrev front.length j) 0)
      = Except.ok (cornerAngle E front ring (cycPrev front.length j)) := by
    rw [angle_eq_ok]; exact hall _ hpl
  have hnx : af.angle (ring.getD (cycNext front.length j) 0)
      = Except.ok (cornerAngle E front ring (cycNext front.length j)) := by
    rw [angle_eq_ok]; exact hall _ hnl
  unfold mergeTriples
  rw [hp]
  simp only
  have hm1 : (cornerAngle E front ring (cycPrev front.length j)).vertices.2.1
      = front.getD (cycPrev front.length j) default := rfl
  have hm2 : (cornerAngle E front ring (cycNext front.length j)).vertices.2.1
      = front.getD (cycNext front.length j) default := rfl
  have hv1 : (cornerAngle E front ring j).vertices.1
      = front.getD (cycPrev front.length j) default := rfl
  have hv3 : (cornerAngle E front ring j).vertices.2.2
      = front.getD (cycNext front.length j) default := rfl
  rw [hm1, hv1, hv3]
  by_cases h1 : front.getD (cycPrev front.length j) default = v
  · rw [if_pos h1, h1]
  · rw [if_neg h1, hnx]
    simp only
    rw [hm2]
    rcases hadj with h | h
    · exact absurd h.symm h1
    · rw [if_pos h.symm, h]

theorem merge_inv (E : Env) (af : AFState) (front : Geometry) (ring : List Nat) (v : Vector3)
    (hring : RingOk E af front.vertices ring) (hq : QueuesOk af ring)
    (hn : 3 ≤ front.vertices.length) (hnd : front.vertices.Nodup) (j : Nat)
    (hj : j < front.vertices.length)
    (hadj : v = front.vertices.getD (cycPrev front.vertices.length j) default ∨
      v = front.vertices.getD (cycNext front.vertices.length j) default) :
    ∃ af1, mergeUpdateFront front (front.vertices.getD j default) v
        = Except.ok { front with vertices := front.vertices.eraseIdx j } ∧
      heapMergeVertex E af (front.vertices.getD j default) v = Except.ok (true, af1) ∧
      RingOk E af1 (front.vertices.eraseIdx j) (ring.eraseIdx j) ∧
      QueuesOk af1 (ring.eraseIdx j) := by
  have hlt := ring_lt E af front.vertices ring hring
  have hfind := findMiddleIn_all E af front.vertices ring hring hq hnd j hj
  have htri := mergeTriples_eq E af front.vertices ring hring hn j hj v hadj
  obtain ⟨hlen, hrnd, hall⟩ := hring
  obtain ⟨hpl, hnl⟩ := cyc_lt front.vertices.length j (by omega) hj
  have hpi : cycPrev front.vertices.length j ≠ j := by
    unfold cycPrev; split <;> omega
  have hni : cycNext front.vertices.length j ≠ j := by
    unfold cycNext; split <;> omega
  have hpn : cycPrev front.vertices.length j ≠ cycNext front.vertices.length j := by
    unfold cycPrev cycNext; split <;> split <;> omega
  have hinj : ∀ a b, a < front.vertices.length → b < front.vertices.length → a ≠ b →
      ring.getD a 0 ≠ ring.getD b 0 := by
    intro a b ha hb hab hc
    exact hab (getD_inj ring hrnd 0 a b (by omega) (by omega) hc)
  have hrm : ring.getD j 0 ∈ ring := by
    rw [List.getD_eq_getElem _ _ (by omega)]; exact List.getElem_mem _
  have hpm : ring.getD (cycPrev front.vertices.length j) 0 ∈ ring := by
    rw [List.getD_eq_getElem _ _ (by omega)]; exact List.getElem_mem _
  have hnm : ring.getD (cycNext front.vertices.length j) 0 ∈ ring := by
    rw [List.getD_eq_getElem _ _ (by omega)]; exact List.getElem_mem _
  have hget : af.angle (ring.getD j 0) = Except.ok (cornerAngle E front.vertices ring j) := by
    rw [angle_eq_ok]; exact hall j hj
  have hprev : (cornerAngle E front.vertices ring j).previous
      = some (ring.getD (cycPrev front.vertices.length j) 0) := rfl
  have hnext : (cornerAngle E front.vertices ring j).next
      = some (ring.getD (cycNext front.vertices.length j) 0) := rfl
  generalize hpI : cycPrev front.vertices.length j = pI at *
  generalize hnI : cycNext front.vertices.length j = nI at *
  have hlp := hlt _ hpm
  have hln := hlt _ hnm
  obtain ⟨a1, h1, e1⟩ := heapRemove_ok
    ((((af.modify (ring.getD pI 0) (fun a =>
        { a with vertices := (a.vertices.1, a.vertices.2.1,
            front.vertices.getD nI default) })).modify
          (ring.getD nI 0) (fun a =>
        { a with vertices := (front.vertices.getD pI default, a.vertices.2.1,
            a.vertices.2.2) })).modify (ring.getD pI 0)
        (fun a => { a with next := some (ring.getD nI 0) })).modify (ring.getD nI 0)
        (fun a => { a with previous := some (ring.getD pI 0) })) (ring.getD pI 0)
    (by simp only [modify_length]; exact hlp)
  obtain ⟨a2, h2, e2⟩ := heapInsert_ok (a1.modify (ring.getD pI 0) (Angle.calculateAngle E))
    (ring.getD pI 0) (by rw [modify_length, e1]; simp only [modify_length]; exact hlp)
  obtain ⟨a3, h3, e3⟩ := heapRemove_ok a2 (ring.getD nI 0)
    (by rw [e2, modify_length, e1]; simp only [modify_length]; exact hln)
  obtain ⟨a4, h4, e4⟩ := heapInsert_ok (a3.modify (ring.getD nI 0) (Angle.calculateAngle E))
    (ring.getD nI 0)
    (by rw [modify_length, e3, e2, modify_length, e1]; simp only [modify_length]; exact hln)
  have hmerge : heapMergeVertex E af (front.vertices.getD j default) v
      = Except.ok (true, a4.setHeap (queueOf (cornerAngle E front.vertices ring j).degree)
          ((a4.heap (queueOf (cornerAngle E front.vertices ring j).degree)).remove
            (ring.getD j 0))) := by
    unfold heapMergeVertex
    simp only [hfind, bind, Except.bind, hget, hprev, hnext, deref, htri, h1, h2, h3, h4]
    rfl
  have hpn1 := hinj _ _ hpl hnl hpn
  have hpr := hinj _ _ hpl hj hpi
  have hnr := hinj _ _ hnl hj hni
  have hstore : ∀ x, a4.angles[x]? =
      if ring.getD nI 0 = x then (af.angles[x]?).map (fun a =>
        Angle.calculateAngle E { a with
          vertices := (front.vertices.getD pI default, a.vertices.2.1, a.vertices.2.2)
          previous := some (ring.getD pI 0) })
      else if ring.getD pI 0 = x then (af.angles[x]?).map (fun a =>
        Angle.calculateAngle E { a with
          vertices := (a.vertices.1, a.vertices.2.1, front.vertices.getD nI default)
          next := some (ring.getD nI 0) })
      else af.angles[x]? := by
    intro x
    rw [e4, getElem?_modify_angles, e3, e2, getElem?_modify_angles, e1,
      getElem?_modify_angles, getElem?_modify_angles, getElem?_modify_angles,
      getElem?_modify_angles]
    by_cases hx : ring.getD nI 0 = x
    · subst hx
      simp only [if_true, if_neg hpn1]
      cases af.angles[ring.getD nI 0]? <;> rfl
    · simp only [if_neg hx]
      by_cases hx1 : ring.getD pI 0 = x
      · subst hx1
        simp only [if_true]
        cases af.angles[ring.getD pI 0]? <;> rfl
      · simp only [if_neg hx1]
  have hget4 : a4.angle (ring.getD j 0) = Except.ok (cornerAngle E front.vertices ring j) := by
    rw [angle_eq_ok, hstore, if_neg hnr, if_neg hpr]
    exact hall j hj
  have hfront : mergeUpdateFront front (front.vertices.getD j default) v
      = Except.ok { front with vertices := front.vertices.eraseIdx j } := by
    have hvm : v ∈ front.vertices := by
      rcases hadj with h | h
      · rw [h, List.getD_eq_getElem _ _ hpl]; exact List.getElem_mem _
      · rw [h, List.getD_eq_getElem _ _ hnl]; exact List.getElem_mem _
    unfold mergeUpdateFront
    simp only
    have h0 : ¬ (arrIndexOf front.vertices (front.vertices.getD j default) < 0 ∨
        arrIndexOf front.vertices v < 0) := by
      rw [arrIndexOf_getD _ hnd j hj]
      have := (arrIndexOf_nonneg_iff front.vertices v).2 hvm
      omega
    rw [if_neg h0, arrSplice1_getD _ hnd j hj]
  refine ⟨_, hfront, hmerge, ?_, ?_⟩
  · apply ringOk_erase E af _ front.vertices ring j ⟨hlen, hrnd, hall⟩ hn hj
    · intro k hk hkp hkn
      rw [hpI] at hkp
      rw [hnI] at hkn
      rw [angles_setHeap, hstore, if_neg (hinj _ _ hnl hk (Ne.symm hkn)),
        if_neg (hinj _ _ hpl hk (Ne.symm hkp))]
    · rw [hpI, hnI, angles_setHeap, hstore, if_neg (Ne.symm hpn1), if_pos rfl, hall pI hpl]
      rfl
    · rw [hpI, hnI, angles_setHeap, hstore, if_pos rfl, hall nI hnl]
      rfl
  · have qa := queuesOk_modify_degree _ ring (ring.getD nI 0)
      (fun a => { a with previous := some (ring.getD pI 0) }) (fun _ => rfl)
      (queuesOk_modify_degree _ ring (ring.getD pI 0)
        (fun a => { a with next := some (ring.getD nI 0) }) (fun _ => rfl)
        (queuesOk_modify_degree _ ring (ring.getD nI 0)
          (fun a => { a with vertices := (front.vertices.getD pI default, a.vertices.2.1,
            a.vertices.2.2) }) (fun _ => rfl)
          (queuesOk_modify_degree af ring (ring.getD pI 0)
            (fun a => { a with vertices := (a.vertices.1, a.vertices.2.1,
              front.vertices.getD nI default) }) (fun _ => rfl) hq)))
    obtain ⟨q1, -⟩ := queuesOk_heapRemove _ a1 _ _ qa h1
    have hp1 : ring.getD pI 0 ∉ ring.filter (fun x => decide (x ≠ ring.getD pI 0)) := by
      intro hc
      exact ((mem_filter_ne _ _ _).1 hc).2 rfl
    obtain ⟨q2, -⟩ := queuesOk_heapInsert _ a2 _ _ (queuesOk_modify _ _ _ _ q1 hp1) hp1 h2
    obtain ⟨q3, -⟩ := queuesOk_heapRemove _ a3 _ _ q2 h3
    have hn2 : ring.getD nI 0 ∉ (ring.getD pI 0 :: ring.filter
        (fun x => decide (x ≠ ring.getD pI 0))).filter
          (fun x => decide (x ≠ ring.getD nI 0)) := by
      intro hc
      exact ((mem_filter_ne _ _ _).1 hc).2 rfl
    obtain ⟨q4, -⟩ := queuesOk_heapInsert _ a4 _ _ (queuesOk_modify _ _ _ _ q3 hn2) hn2 h4
    obtain ⟨q5, -⟩ := queuesOk_heapRemove a4 _ _ (ring.getD j 0) q4
      (heapRemove_eq a4 _ _ hget4)
    refine queuesOk_congr _ _ _ ?_ q5
    intro x
    rw [mem_eraseIdx_ring ring hrnd j (by omega)]
    simp only [List.mem_cons, mem_filter_ne]
    constructor
    · rintro ⟨rfl | ⟨rfl | ⟨h1, -⟩, -⟩, hx⟩
      · exact ⟨hnm, hx⟩
      · exact ⟨hpm, hx⟩
      · exact ⟨h1, hx⟩
    · rintro ⟨h1, hx⟩
      refine ⟨?_, hx⟩
      by_cases hxn : x = ring.getD nI 0
      · exact Or.inl hxn
      · by_cases hxp : x = ring.getD pI 0
        · exact Or.inr ⟨Or.inl hxp, hxn⟩
        · exact Or.inr ⟨Or.inr ⟨h1, hxp⟩, hxn⟩

theorem ringOk_of_angles (E : Env) (af af1 : AFState) (front : List Vector3) (ring : List Nat)
    (h : af1.angles = af.angles) (hring : RingOk E af front ring) : RingOk E af1 front ring := by
  obtain ⟨hlen, hnd, hall⟩ := hring
  refine ⟨hlen, hnd, ?_⟩
  intro i hi
  rw [h]
  exact hall i hi

theorem queuesOk_requeue (af : AFState) (ring : List Nat) (id : HeapId) (r : Nat)
    (angle : Angle) (hq : QueuesOk af ring) (hr : (af.heap id).removeFirst.1 = some r)
    (ha : af.angles[r]? = some angle) :
    QueuesOk ((af.setHeap id (af.heap id).removeFirst.2).setHeap id
      ((af.heap id).removeFirst.2.insert angle.degree r)) ring := by
  obtain ⟨hrl, hrq, hq0⟩ := queuesOk_pop af ring id r hq hr
  rw [ha] at hrq
  simp only [Option.map_some', Option.some.injEq] at hrq
  have hang : (af.setHeap id (af.heap id).removeFirst.2).angle r = Except.ok angle := by
    rw [angle_eq_ok, angles_setHeap]
    exact ha
  have hins := heapInsert_eq _ r angle hang
  rw [hrq, heap_setHeap, if_pos rfl] at hins
  have hr0 : r ∉ ring.filter (fun x => decide (x ≠ r)) := by
    intro hc
    exact ((mem_filter_ne _ _ _).1 hc).2 rfl
  obtain ⟨q1, -⟩ := queuesOk_heapInsert _ _ _ _ hq0 hr0 hins
  refine queuesOk_congr _ _ _ ?_ q1
  intro x
  simp only [List.mem_cons, mem_filter_ne]
  constructor
  · rintro (rfl | ⟨h, -⟩)
    · exact hrl
    · exact h
  · intro h
    by_cases hx : x = r
    · exact Or.inl hx
    · exact Or.inr ⟨h, hx⟩

theorem applyRule1_fail_inv (E : Env) (af : AFState) (front filling : Geometry)
    (res : ApplyResult) (ring : List Nat) (hq : QueuesOk af ring)
    (h : applyRule1 E af front filling = Except.ok res)
    (hf : res.filling.faces = filling.faces) :
    res.front = front ∧ res.filling = filling ∧ res.af.angles = af.angles ∧
      QueuesOk res.af ring := by
  unfold applyRule1 at h
  simp only [bind_eq_ok] at h
  obtain ⟨r, hr, angle, ha, res1, hres1, h⟩ := h
  have hr1 : (af.HEAP_RULE_1.removeFirst).1 = some r := by
    cases hh : (af.HEAP_RULE_1.removeFirst).1 with
    | none => rw [hh] at hr; cases hr
    | some x => rw [hh] at hr; cases hr; rfl
  rw [angle_eq_ok] at ha
  simp only at ha
  have hres : (res1.ok = true → res1.filling.faces ≠ filling.faces) ∧
      (res1.ok = false → res1.filling = filling ∧ res1.front = front) := by
    unfold afRule1 at hres1
    split at hres1
    · cases hres1
    · cases hres1
      exact ⟨fun hc => (by cases hc), fun _ => ⟨rfl, rfl⟩⟩
    · cases hres1
      exact ⟨fun _ => (by simp), fun hc => (by cases hc)⟩
  split at h
  · rename_i hok
    simp only [bind_eq_ok] at h
    obtain ⟨_, -, _, -, _, -, _, -, _, -, _, -, h⟩ := h
    cases h
    exact absurd hf (hres.1 hok)
  · rename_i hok
    cases h
    obtain ⟨h1, h2⟩ := hres.2 (by simpa using hok)
    exact ⟨h2, h1, rfl, queuesOk_requeue af ring HeapId.rule1 r angle hq hr1 ha⟩

theorem applyRule2_fail_inv (E : Env) (af : AFState) (front filling : Geometry)
    (res : ApplyResult) (ring : List Nat) (hq : QueuesOk af ring)
    (h : applyRule2 E af front filling = Except.ok res) (hf : res.vNew = none) :
    res.front = front ∧ res.filling = filling ∧ res.af.angles = af.angles ∧
      QueuesOk res.af ring := by
  unfold applyRule2 at h
  simp only [bind_eq_ok] at h
  obtain ⟨r, hr, angle, ha, res1, hres1, h⟩ := h
  have hr1 : (af.HEAP_RULE_2.removeFirst).1 = some r := by
    cases hh : (af.HEAP_RULE_2.removeFirst).1 with
    | none => rw [hh] at hr; cases hr
    | some x => rw [hh] at hr; cases hr; rfl
  rw [angle_eq_ok] at ha
  simp only at ha
  have hres : res1.vNew = none → res1.filling = filling ∧ res1.front = front := by
    unfold afRule2 at hres1
    simp only at hres1
    split at hres1
    · cases hres1
    · cases hres1
      exact fun _ => ⟨rfl, rfl⟩
    · cases hres1
      exact fun hc => (by cases hc)
  split at h
  · simp only [bind_eq_ok] at h
    obtain ⟨_, -, _, -, _, -, _, -, _, -, _, -, _, -, h⟩ := h
    cases h
    cases hf
  · rename_i hnone
    cases h
    obtain ⟨h1, h2⟩ := hres hnone
    exact ⟨h2, h1, rfl, setHeap_alloc _ (af.alloc + 1) _
      (queuesOk_requeue af ring HeapId.rule2 r angle hq hr1 ha)⟩

theorem applyRule3_fail_inv (E : Env) (af : AFState) (front filling : Geometry)
    (res : ApplyResult) (ring : List Nat) (hq : QueuesOk af ring)
    (h : applyRule3 E af front filling = Except.ok res) (hf : res.vNew = none) :
    res.front = front ∧ res.filling = filling ∧ res.af.angles = af.angles ∧
      QueuesOk res.af ring := by
  unfold applyRule3 at h
  simp only [bind_eq_ok] at h
  obtain ⟨r, hr, angle, ha, res1, hres1, h⟩ := h
  have hr1 : (af.HEAP_RULE_3.removeFirst).1 = some r := by
    cases hh : (af.HEAP_RULE_3.removeFirst).1 with
    | none => rw [hh] at hr; cases hr
    | some x => rw [hh] at hr; cases hr; rfl
  rw [angle_eq_ok] at ha
  simp only at ha
  have hres : res1.vNew = none → res1.filling = filling ∧ res1.front = front := by
    unfold afRule3 at hres1
    simp only at hres1
    split at hres1
    · cases hres1
    · cases hres1
      exact fun _ => ⟨rfl, rfl⟩
    · cases hres1
      exact fun hc => (by cases hc)
  split at h
  · simp only [bind_eq_ok] at h
    obtain ⟨_, -, _, -, _, -, _, -, _, -, h⟩ := h
    cases h
    cases hf
  · rename_i hnone
    cases h
    obtain ⟨h1, h2⟩ := hres hnone
    exact ⟨h2, h1, rfl, setHeap_alloc _ (af.alloc + 1) _
      (queuesOk_requeue af ring HeapId.rule3 r angle hq hr1 ha)⟩

theorem getD_range (n k : Nat) (hk : k < n) : (List.range n).getD k 0 = k := by
  rw [List.getD_eq_getElem _ _ (by simpa using hk)]
  simp

theorem ringAngle_eq (E : Env) (front : List Vector3) (i : Nat) (hi : i < front.length) :
    ringAngle E front i = cornerAngle E front (List.range front.length) i := by
  obtain ⟨hp, hn⟩ := cyc_lt front.length i (by omega) hi
  rw [cornerAngle_eq, getD_range _ _ hp, getD_range _ _ hn]
  have h1 : (i + 1) % front.length = cycNext front.length i := by
    unfold cycNext
    split
    · exact Nat.mod_eq_of_lt (by omega)
    · have : i + 1 = front.length := by omega
      rw [this, Nat.mod_self]
  unfold ringAngle
  rw [h1]
  rfl

theorem computeAngles_ring (E : Env) (af : AFState) (front : List Vector3) (hne : front ≠ []) :
    ∃ angles, computeAngles E front = Except.ok angles ∧ angles.length = front.length ∧
      RingOk E { af with angles := angles } front (List.range front.length) := by
  obtain ⟨angles, h1, h2, h3⟩ := computeAngles_eq E front hne
  refine ⟨angles, h1, h2, List.length_range _, List.nodup_range _, ?_⟩
  intro i hi
  rw [getD_range _ _ hi]
  simp only
  rw [h3 i hi, ringAngle_eq E front i hi]

theorem queuesOk_af5 : QueuesOk af5 [0, 1, 2, 3, 4] := by
  intro id r
  rcases Nat.lt_or_ge r 5 with h | h
  · interval_cases r <;> cases id <;> decide
  · have hr : r ∉ [0, 1, 2, 3, 4] := by
      simp only [List.mem_cons, List.mem_singleton, List.not_mem_nil, or_false]
      omega
    rw [if_neg (fun hc => hr hc.1)]
    have hq : ∀ x ∈ queued af5 id, x < 5 := by
      cases id <;> decide
    exact List.count_eq_zero.2 (fun hc => by have := hq r hc; omega)

/-- C17: `computeAngles` builds, for a non-empty front, one Angle per front entry
with the triple of the entries cyclically before, at and after its position and
the links to the Angles of these positions (`RingOk` with the Angles in the order
of the front).  In a state where this correspondence holds for a duplicate-free
front of at least 3 vertices and every Angle of the ring is queued by its degree,
a successful `applyRule1`, `applyRule2`, `applyRule3` acts on the Angle of some
position `i` of the front and re-establishes the correspondence for the updated
front (without entry `i`; with the new vertex at `i`; with the new vertex after
`i` and the new Angle object there), and so does the merge of a front entry into a
front neighbour (`mergeUpdateFront` followed by `heapMergeVertex`, which both
return). -/
theorem angles_ring_isomorphic (E : Env) (af : AFState) (front filling : Geometry)
    (ring : List Nat) (hring : RingOk E af front.vertices ring) (hq : QueuesOk af ring)
    (hn : 3 ≤ front.vertices.length) (hnd : front.vertices.Nodup) :
    (∀ (af0 : AFState) (f : List Vector3), f ≠ [] →
      ∃ angles, computeAngles E f = Except.ok angles ∧ angles.length = f.length ∧
        RingOk E { af0 with angles := angles } f (List.range f.length)) ∧
    (∀ res, applyRule1 E af front filling = Except.ok res →
      res.filling.faces ≠ filling.faces →
      ∃ i, i < front.vertices.length ∧
        (af.HEAP_RULE_1.removeFirst).1 = some (ring.getD i 0) ∧
        res.front.vertices = front.vertices.eraseIdx i ∧
        RingOk E res.af res.front.vertices (ring.eraseIdx i)) ∧
    (∀ res vNew, applyRule2 E af front filling = Except.ok res → res.vNew = some vNew →
      ∃ i, i < front.vertices.length ∧
        (af.HEAP_RULE_2.removeFirst).1 = some (ring.getD i 0) ∧
        res.front.vertices = front.vertices.set i vNew ∧
        RingOk E res.af res.front.vertices ring) ∧
    (∀ res vNew, applyRule3 E af front filling = Except.ok res → res.vNew = some vNew →
      ∃ i, i < front.vertices.length ∧
        (af.HEAP_RULE_3.removeFirst).1 = some (ring.getD i 0) ∧
        res.front.vertices = front.vertices.insertIdx (i + 1) vNew ∧
        RingOk E res.af res.front.vertices (ring.insertIdx (i + 1) af.angles.length)) ∧
    (∀ j v, j < front.vertices.length →
      (v = front.vertices.getD (cycPrev front.vertices.length j) default ∨
        v = front.vertices.getD (cycNext front.vertices.length j) default) →
      ∃ front1 af1, mergeUpdateFront front (front.vertices.getD j default) v
          = Except.ok front1 ∧
        heapMergeVertex E af (front.vertices.getD j default) v = Except.ok (true, af1) ∧
        front1.vertices = front.vertices.eraseIdx j ∧
        RingOk E af1 front1.vertices (ring.eraseIdx j)) := by
  refine ⟨fun af0 f hf => computeAngles_ring E af0 f hf, ?_, ?_, ?_, ?_⟩
  · intro res h hs
    obtain ⟨i, hi, h1, h2, h3, -⟩ := applyRule1_inv E af front filling res ring hring hq hn hnd h hs
    exact ⟨i, hi, h1, h2, h3⟩
  · intro res vNew h hs
    obtain ⟨i, hi, h1, h2, h3, -⟩ :=
      applyRule2_inv E af front filling res ring vNew hring hq hn hnd h hs
    exact ⟨i, hi, h1, h2, h3⟩
  · intro res vNew h hs
    obtain ⟨i, hi, h1, h2, h3, -⟩ :=
      applyRule3_inv E af front filling res ring vNew hring hq hn hnd h hs
    exact ⟨i, hi, h1, h2, h3⟩
  · intro j v hj hadj
    obtain ⟨af1, h1, h2, h3, -⟩ := merge_inv E af front ring v hring hq hn hnd j hj hadj
    exact ⟨_, af1, h1, h2, rfl, h3⟩

/-- An instance of C17: on `hole5` with every corner at 60 degrees, Rule 1 consumes
the Angle of the first vertex and the four remaining Angles are the ring of the
front of four vertices. -/
theorem angles_ring_isomorphic_witness :
    ∃ res, applyRule1 envSixty af5 ⟨hole5, []⟩ ⟨hole5, []⟩ = Except.ok res ∧
      res.front.vertices = [vtx 1 2 0, vtx 2 3 1, vtx 3 1 3, vtx 4 (-1) 1] ∧
      RingOk envSixty res.af res.front.vertices [1, 2, 3, 4] := by
  refine ⟨_, rfl, by decide, ?_⟩
  obtain ⟨i, hi, h1, -, h3⟩ := (angles_ring_isomorphic envSixty af5 ⟨hole5, []⟩ ⟨hole5, []⟩
    [0, 1, 2, 3, 4] (by decide) queuesOk_af5 (by decide) (by decide)).2.1 _ rfl (by decide)
  have hi0 : i = 0 := by
    have h5 : i < 5 := hi
    interval_cases i
    · rfl
    all_goals exact absurd h1 (by decide)
  subst hi0
  exact h3

/-- C18: in a state where the Angles of `ring` are the ring of a duplicate-free
front of at least 3 vertices and queue membership is exclusive and
degree-consistent for them (`QueuesOk`: an Angle of `ring` is exactly once in the
queue `heapInsert` selects for its degree and in no other, and no other object is
in a queue), the same holds after `applyRule1`, `applyRule2`, `applyRule3`,
successful or failed, and after the merge of a front entry into a front neighbour
by `heapMergeVertex`, for the Angles of the updated ring; the Angle that Rule 1
consumed or that was merged away is in no queue. -/
theorem queues_exclusive (E : Env) (af : AFState) (front filling : Geometry)
    (ring : List Nat) (hring : RingOk E af front.vertices ring) (hq : QueuesOk af ring)
    (hn : 3 ≤ front.vertices.length) (hnd : front.vertices.Nodup) :
    (∀ res, applyRule1 E af front filling = Except.ok res →
      (res.filling.faces ≠ filling.faces →
        ∃ i, i < front.vertices.length ∧
          (af.HEAP_RULE_1.removeFirst).1 = some (ring.getD i 0) ∧
          QueuesOk res.af (ring.eraseIdx i) ∧ ∀ id, ring.getD i 0 ∉ queued res.af id) ∧
      (res.filling.faces = filling.faces → QueuesOk res.af ring)) ∧
    (∀ res, applyRule2 E af front filling = Except.ok res → QueuesOk res.af ring) ∧
    (∀ res, applyRule3 E af front filling = Except.ok res →
      (∀ vNew, res.vNew = some vNew →
        ∃ i, i < front.vertices.length ∧
          (af.HEAP_RULE_3.removeFirst).1 = some (ring.getD i 0) ∧
          QueuesOk res.af (ring.insertIdx (i + 1) af.angles.length)) ∧
      (res.vNew = none → QueuesOk res.af ring)) ∧
    (∀ j v, j < front.vertices.length →
      (v = front.vertices.getD (cycPrev front.vertices.length j) default ∨
        v = front.vertices.getD (cycNext front.vertices.length j) default) →
      ∃ af1, heapMergeVertex E af (front.vertices.getD j default) v = Except.ok (true, af1) ∧
        QueuesOk af1 (ring.eraseIdx j) ∧ ∀ id, ring.getD j 0 ∉ queued af1 id) := by
  have hgone : ∀ (af1 : AFState) (i : Nat), i < front.vertices.length →
      QueuesOk af1 (ring.eraseIdx i) → ∀ id, ring.getD i 0 ∉ queued af1 id := by
    intro af1 i hi hq1 id hc
    have := (queued_mem_ring af1 _ hq1 id _ hc).1
    rw [mem_eraseIdx_ring ring hring.2.1 i (by rw [hring.1]; exact hi)] at this
    exact this.2 rfl
  refine ⟨?_, ?_, ?_, ?_⟩
  · intro res h
    constructor
    · intro hs
      obtain ⟨i, hi, h1, -, -, h4⟩ :=
        applyRule1_inv E af front filling res ring hring hq hn hnd h hs
      exact ⟨i, hi, h1, h4, hgone _ i hi h4⟩
    · intro hf
      exact (applyRule1_fail_inv E af front filling res ring hq h hf).2.2.2
  · intro res h
    cases hv : res.vNew with
    | none => exact (applyRule2_fail_inv E af front filling res ring hq h hv).2.2.2
    | some vNew =>
      obtain ⟨i, -, -, -, -, h4⟩ :=
        applyRule2_inv E af front filling res ring vNew hring hq hn hnd h hv
      exact h4
  · intro res h
    constructor
    · intro vNew hv
      obtain ⟨i, hi, h1, -, -, h4⟩ :=
        applyRule3_inv E af front filling res ring vNew hring hq hn hnd h hv
      exact ⟨i, hi, h1, h4⟩
    · intro hv
      exact (applyRule3_fail_inv E af front filling res ring hq h hv).2.2.2
  · intro j v hj hadj
    obtain ⟨af1, -, h2, -, h4⟩ := merge_inv E af front ring v hring hq hn hnd j hj hadj
    exact ⟨af1, h2, h4, hgone _ j hj h4⟩

/-- An instance of C18: on `hole5` with every corner at 60 degrees, after the merge
of the second vertex into the third the Angle of the second vertex is in no queue
and the other four are queued by their degree. -/
theorem queues_exclusive_witness :
    ∃ af1, heapMergeVertex envSixty af5 (vtx 1 2 0) (vtx 2 3 1) = Except.ok (true, af1) ∧
      QueuesOk af1 [0, 2, 3, 4] ∧ ∀ id, 1 ∉ queued af1 id :=
  (queues_exclusive envSixty af5 ⟨hole5, []⟩ ⟨hole5, []⟩ [0, 1, 2, 3, 4] (by decide)
    queuesOk_af5 (by decide) (by decide)).2.2.2 1 (vtx 2 3 1) (by decide) (Or.inr rfl)

/-! ## The snap of Rule 3 onto a coordinate plane (C21, C22) -/

/-- C21, as the code has it: `keepNearPlane` pins x exactly if the variance of x is
strictly below those of y and z, y if the variance of y is at most that of x and
strictly below that of z, and z if the variance of z is at most those of x and y:
among the axes of minimal variance the last one in the order x, y, z is pinned.
One of the three cases always holds. -/
theorem keepNearPlane_tie_order (E : Env) (v vn vNew : Vector3) :
    ((E.calculateVariances v vn).x < (E.calculateVariances v vn).y ∧
        (E.calculateVariances v vn).x < (E.calculateVariances v vn).z →
      keepNearPlane E v vn vNew = { vNew with x := (E.calculateVariances v vn).average.x }) ∧
    ((E.calculateVariances v vn).y ≤ (E.calculateVariances v vn).x ∧
        (E.calculateVariances v vn).y < (E.calculateVariances v vn).z →
      keepNearPlane E v vn vNew = { vNew with y := (E.calculateVariances v vn).average.y }) ∧
    ((E.calculateVariances v vn).z ≤ (E.calculateVariances v vn).x ∧
        (E.calculateVariances v vn).z ≤ (E.calculateVariances v vn).y →
      keepNearPlane E v vn vNew = { vNew with z := (E.calculateVariances v vn).average.z }) ∧
    (((E.calculateVariances v vn).x < (E.calculateVariances v vn).y ∧
        (E.calculateVariances v vn).x < (E.calculateVariances v vn).z) ∨
      ((E.calculateVariances v vn).y ≤ (E.calculateVariances v vn).x ∧
        (E.calculateVariances v vn).y < (E.calculateVariances v vn).z) ∨
      ((E.calculateVariances v vn).z ≤ (E.calculateVariances v vn).x ∧
        (E.calculateVariances v vn).z ≤ (E.calculateVariances v vn).y)) := by
  unfold keepNearPlane
  generalize E.calculateVariances v vn = var
  simp only
  refine ⟨?_, ?_, ?_, ?_⟩
  · rintro ⟨h1, h2⟩
    rw [if_pos h1, if_pos h2]
  · rintro ⟨h1, h2⟩
    rw [if_neg (not_lt.2 h1), if_pos h2]
  · rintro ⟨h1, h2⟩
    by_cases hxy : var.x < var.y
    · rw [if_pos hxy, if_neg (not_lt.2 h1)]
    · rw [if_neg hxy, if_neg (not_lt.2 h2)]
  · by_cases hxy : var.x < var.y
    · by_cases hxz : var.x < var.z
      · exact Or.inl ⟨hxy, hxz⟩
      · exact Or.inr (Or.inr ⟨not_lt.1 hxz, le_trans (not_lt.1 hxz) (le_of_lt hxy)⟩)
    · by_cases hyz : var.y < var.z
      · exact Or.inr (Or.inl ⟨not_lt.1 hxy, hyz⟩)
      · exact Or.inr (Or.inr ⟨le_trans (not_lt.1 hyz) (not_lt.1 hxy), not_lt.1 hyz⟩)

/-- A counterexample to C21 as stated: with the variances of x and y equal and
below that of z, `keepNearPlane` pins y and leaves x alone; with three equal
variances it pins z and leaves x and y alone. -/
theorem keepNearPlane_ties_go_to_the_last_axis :
    keepNearPlane envTie (vtx 0 0 0) (vtx 1 2 0) ⟨5, 0, 0, 0⟩ = ⟨5, 0, 8, 0⟩ ∧
      keepNearPlane envEqual (vtx 0 0 0) (vtx 1 2 0) ⟨5, 0, 0, 0⟩ = ⟨5, 0, 0, 9⟩ := by
  decide

/-- C22: `keepNearPlane` sets exactly one coordinate of `vNew`, on an axis whose
variance is minimal among x, y, z, to the average of `v` and `vn` on this axis; the
other two coordinates and the identity of `vNew` are returned unchanged. -/
theorem keepNearPlane_pins_minimal_axis (E : Env) (v vn vNew : Vector3) :
    (keepNearPlane E v vn vNew = { vNew with x := (E.calculateVariances v vn).average.x } ∧
      (E.calculateVariances v vn).x ≤ (E.calculateVariances v vn).y ∧
      (E.calculateVariances v vn).x ≤ (E.calculateVariances v vn).z) ∨
    (keepNearPlane E v vn vNew = { vNew with y := (E.calculateVariances v vn).average.y } ∧
      (E.calculateVariances v vn).y ≤ (E.calculateVariances v vn).x ∧
      (E.calculateVariances v vn).y ≤ (E.calculateVariances v vn).z) ∨
    (keepNearPlane E v vn vNew = { vNew with z := (E.calculateVariances v vn).average.z } ∧
      (E.calculateVariances v vn).z ≤ (E.calculateVariances v vn).x ∧
      (E.calculateVariances v vn).z ≤ (E.calculateVariances v vn).y) := by
  unfold keepNearPlane
  generalize E.calculateVariances v vn = var
  simp only
  by_cases hxy : var.x < var.y
  · rw [if_pos hxy]
    by_cases hxz : var.x < var.z
    · rw [if_pos hxz]
      exact Or.inl ⟨rfl, le_of_lt hxy, le_of_lt hxz⟩
    · rw [if_neg hxz]
      exact Or.inr (Or.inr ⟨rfl, not_lt.1 hxz, le_trans (not_lt.1 hxz) (le_of_lt hxy)⟩)
  · rw [if_neg hxy]
    by_cases hyz : var.y < var.z
    · rw [if_pos hyz]
      exact Or.inr (Or.inl ⟨rfl, not_lt.1 hxy, le_of_lt hyz⟩)
    · rw [if_neg hyz]
      exact Or.inr (Or.inr ⟨rfl, le_trans (not_lt.1 hyz) (not_lt.1 hxy), not_lt.1 hyz⟩)

/-! ## A vertex that is looked up and not found (C23) -/

/-- C23 fails in the code: `afRule1` with `v` absent from `filling.vertices` raises
no error and pushes a face with the index -1; with `v` absent from the front it
raises no error, pushes its face, and `splice( -1, 1 )` removes the last entry of
the front, another vertex; `closeHole3` with a front vertex absent from the
filling pushes a face with the index -1; `mergeByDistance` with `v` absent from the
filling returns without an error.  Only `mergeUpdateFront` raises "Vertex not found
in front." and changes nothing. -/
theorem lookup_failure_is_not_raised :
    afRule1 envSixty ⟨hole5, []⟩ ⟨[vtx 0 0 0, vtx 2 3 1, vtx 3 1 3, vtx 4 (-1) 1], []⟩
        (vtx 0 0 0) (vtx 1 2 0) (vtx 2 3 1)
      = Except.ok ⟨true, ⟨[vtx 0 0 0, vtx 2 3 1, vtx 3 1 3, vtx 4 (-1) 1], []⟩,
          ⟨[vtx 0 0 0, vtx 2 3 1, vtx 3 1 3, vtx 4 (-1) 1], [⟨-1, 0, 1⟩]⟩⟩ ∧
    afRule1 envSixty ⟨[vtx 0 0 0, vtx 2 3 1, vtx 3 1 3, vtx 4 (-1) 1], []⟩ ⟨hole5, []⟩
        (vtx 0 0 0) (vtx 1 2 0) (vtx 2 3 1)
      = Except.ok ⟨true, ⟨[vtx 0 0 0, vtx 2 3 1, vtx 3 1 3], []⟩, ⟨hole5, [⟨1, 0, 2⟩]⟩⟩ ∧
    closeHole3 ⟨[vtx 0 0 0, vtx 1 2 0, vtx 2 3 1], []⟩ ⟨[vtx 0 0 0, vtx 2 3 1], []⟩
      = ⟨[vtx 0 0 0, vtx 2 3 1], [⟨-1, 0, 1⟩]⟩ ∧
    mergeByDistance envNear (mergeEx [vtx 0 0 0, vtx 1 0 1, vtx 5 1 0] []) (some (vtx 6 1 1))
        [vtx 0 0 0, vtx 1 0 1]
      = Except.ok (mergeEx [vtx 0 0 0, vtx 1 0 1, vtx 5 1 0] []) ∧
    mergeUpdateFront ⟨[vtx 0 0 0, vtx 2 3 1, vtx 3 1 3], []⟩ (vtx 1 2 0) (vtx 2 3 1)
      = Except.error Err.vertexNotFound :=
  ⟨rfl, rfl, rfl, rfl, rfl⟩

/-! ## The loader for a file extension (C27) -/

/-- C27: for every string, `Loader.getLoader` returns a loader exactly if
`Loader.validateFileExtension` is true under the shipped
`CONFIG.ALLOWED_FILE_EXTENSIONS`; hence the call of `getLoader` that `loadFile`
leads to never throws "No loader available", whatever the files are and whatever
`getFileExtension` returns. -/
theorem getLoader_iff_validateFileExtension :
    (∀ extension : String, (∃ loader, Loader.getLoader extension = Except.ok loader) ↔
      Loader.validateFileExtension extension = true) ∧
    (∀ (getFileExtension : String → String) (files : List String) (e : LoaderErr),
      Loader.loadFile getFileExtension files ≠ LoadResult.model (Except.error e)) := by
  have key : ∀ extension : String,
      (∃ loader, Loader.getLoader extension = Except.ok loader) ↔
        Loader.validateFileExtension extension = true := by
    intro extension
    unfold Loader.getLoader Loader.validateFileExtension
    rw [decide_eq_true_iff, ge_iff_le, arrIndexOf_nonneg_iff]
    simp only [ALLOWED_FILE_EXTENSIONS, List.mem_cons, List.mem_singleton, List.not_mem_nil,
      or_false]
    by_cases h1 : extension = "obj"
    · simp [h1]
    · by_cases h2 : extension = "ply"
      · simp [h2]
      · by_cases h3 : extension = "stl"
        · simp [h3]
        · simp [h1, h2, h3]
  refine ⟨key, ?_⟩
  intro getFileExtension files e
  unfold Loader.loadFile
  cases files with
  | nil => simp
  | cons name rest =>
    simp only
    by_cases hv : Loader.validateFileExtension (getFileExtension name) = true
    · rw [if_pos hv]
      obtain ⟨loader, hl⟩ := (key _).2 hv
      rw [hl]
      simp
    · rw [if_neg hv]
      simp

/-! ## The length of the front over one round (C24, C25) -/

theorem arrSplice1_length_ge {α : Type} (xs : List α) (i : Int) :
    xs.length ≤ (arrSplice1 xs i).length + 1 := by
  unfold arrSplice1
  rw [List.length_eraseIdx]
  split_ifs <;> omega

theorem afRule1_front_length (E : Env) (front filling : Geometry) (vp v vn : Vector3)
    (res : Rule1Result) (h : afRule1 E front filling vp v vn = Except.ok res) :
    front.vertices.length ≤ res.front.vertices.length + 1 := by
  unfold afRule1 at h
  simp only at h
  split at h
  · cases h
  · cases h; exact Nat.le_succ _
  · cases h
    exact arrSplice1_length_ge _ _

theorem afRule2_front_length (E : Env) (front filling : Geometry) (vp v vn : Vector3)
    (ref : Nat) (res : RuleResult) (h : afRule2 E front filling vp v vn ref = Except.ok res) :
    res.front.vertices.length = front.vertices.length := by
  unfold afRule2 at h
  simp only at h
  split at h
  · cases h
  · cases h; rfl
  · cases h
    exact arrSet_length _ _ _

theorem afRule3_front_length (E : Env) (front filling : Geometry) (vp v vn : Vector3)
    (angle : ℚ) (ref : Nat) (res : RuleResult)
    (h : afRule3 E front filling vp v vn angle ref = Except.ok res) :
    front.vertices.length ≤ res.front.vertices.length := by
  unfold afRule3 at h
  simp only at h
  split at h
  · cases h
  · cases h; exact Nat.le_refl _
  · cases h
    simp only [arrSpliceIns_length]
    exact Nat.le_succ _

theorem applyRule1_front_length (E : Env) (af : AFState) (front filling : Geometry)
    (res : ApplyResult) (h : applyRule1 E af front filling = Except.ok res) :
    res.vNew = none ∧ front.vertices.length ≤ res.front.vertices.length + 1 := by
  unfold applyRule1 at h
  simp only [bind_eq_ok] at h
  obtain ⟨r, -, angle, -, res1, hr, h⟩ := h
  have hlen := afRule1_front_length E _ _ _ _ _ _ hr
  split at h
  · simp only [bind_eq_ok] at h
    obtain ⟨p, -, af1, -, af2, -, n, -, af3, -, af4, -, h⟩ := h
    cases h
    exact ⟨rfl, hlen⟩
  · cases h
    exact ⟨rfl, hlen⟩

theorem applyRule2_front_length (E : Env) (af : AFState) (front filling : Geometry)
    (res : ApplyResult) (h : applyRule2 E af front filling = Except.ok res) :
    res.front.vertices.length = front.vertices.length := by
  unfold applyRule2 at h
  simp only [bind_eq_ok] at h
  obtain ⟨r, -, angle, -, res1, hr, h⟩ := h
  have hlen := afRule2_front_length E _ _ _ _ _ _ _ hr
  split at h
  · simp only [bind_eq_ok] at h
    obtain ⟨af1, -, p, -, af2, -, af3, -, n, -, af4, -, af5, -, h⟩ := h
    cases h
    exact hlen
  · cases h
    exact hlen

theorem applyRule3_front_length (E : Env) (af : AFState) (front filling : Geometry)
    (res : ApplyResult) (h : applyRule3 E af front filling = Except.ok res) :
    front.vertices.length ≤ res.front.vertices.length := by
  unfold applyRule3 at h
  simp only [bind_eq_ok] at h
  obtain ⟨r, -, angle, -, res1, hr, h⟩ := h
  have hlen := afRule3_front_length E _ _ _ _ _ _ _ _ hr
  split at h
  · simp only [bind_eq_ok] at h
    obtain ⟨af1, -, n, -, af2, -, af3, -, af4, -, h⟩ := h
    cases h
    exact hlen
  · cases h
    exact hlen

/-- The front after the rule-selection part: a rule that returns `false` has
removed at most one vertex, a rule that returns a vertex none. -/
theorem applyRules_front_length (E : Env) (s : LoopState) (res : ApplyResult)
    (h : applyRules E s = Except.ok res) :
    s.front.vertices.length ≤ res.front.vertices.length + 1 ∧
    (res.vNew.isSome → s.front.vertices.length ≤ res.front.vertices.length) ∧
    (s.af.HEAP_RULE_1.length > 0 → res.vNew = none) := by
  unfold applyRules at h
  split_ifs at h with h1 h2 h3
  · obtain ⟨hv, hl⟩ := applyRule1_front_length E _ _ _ _ h
    refine ⟨hl, ?_, fun _ => hv⟩
    intro hs
    rw [hv] at hs
    cases hs
  · have hl := applyRule2_front_length E _ _ _ _ h
    exact ⟨by omega, fun _ => by omega, fun hc => absurd hc h1⟩
  · have hl := applyRule3_front_length E _ _ _ _ h
    exact ⟨by omega, fun _ => hl, fun hc => absurd hc h1⟩

theorem mergeUpdateFront_length (front front1 : Geometry) (vOld vNew : Vector3)
    (h : mergeUpdateFront front vOld vNew = Except.ok front1) :
    front.vertices.length ≤ front1.vertices.length + 1 := by
  unfold mergeUpdateFront at h
  simp only at h
  split_ifs at h
  cases h
  exact arrSplice1_length_ge _ _

theorem mergeNeighbour_length (E : Env) (v : Vector3) (ignore : List Vector3)
    (s s1 : MergeState) (t : Option Vector3)
    (h : mergeNeighbour E v ignore s t = Except.ok s1) :
    s.front.vertices.length ≤ s1.front.vertices.length + 1 := by
  unfold mergeNeighbour at h
  split at h
  · cases h
  · split_ifs at h
    · cases h; exact Nat.le_succ _
    · simp only [bind_eq_ok] at h
      obtain ⟨front1, hf, merged, -, h⟩ := h
      cases h
      exact mergeUpdateFront_length _ _ _ _ hf
    · cases h; exact Nat.le_succ _

/-- The merge pass removes at most two vertices of the front. -/
theorem mergeByDistance_length (E : Env) (s s1 : MergeState) (v : Option Vector3)
    (ignore : List Vector3) (h : mergeByDistance E s v ignore = Except.ok s1) :
    s.front.vertices.length ≤ s1.front.vertices.length + 2 := by
  unfold mergeByDistance at h
  split at h
  · cases h; omega
  · simp only at h
    split_ifs at h
    · cases h; omega
    · unfold compareNeighbours at h
      simp only [List.foldlM_cons, List.foldlM_nil, bind_eq_ok] at h
      obtain ⟨m1, h1, m2, h2, h⟩ := h
      cases h
      have := mergeNeighbour_length E _ _ _ _ _ h1
      have := mergeNeighbour_length E _ _ _ _ _ h2
      omega

/-- One round that goes on to the next, from a front of at least 5 vertices,
leaves at least 3. -/
theorem loopBody_front_length (E : Env) (hole : List Vector3) (s s1 : LoopState)
    (h5 : 5 ≤ s.front.vertices.length)
    (h : loopBody E hole s = Except.ok (Outcome.next s1)) :
    3 ≤ s1.front.vertices.length := by
  by_cases hcap : E.AFM_STOP_AFTER_ITER.any (fun stopIter => s.count + 1 > stopIter) = true
  · unfold loopBody at h
    rw [if_pos hcap] at h
    cases h
  · rw [loopBody_eq_rules E hole s (by simpa using hcap) (by omega) (by omega) (by omega),
      bind_eq_ok] at h
    obtain ⟨res, hres, h⟩ := h
    have hr := applyRules_front_length E _ _ hres
    rw [enterRound_front] at hr
    unfold mergeStep at h
    split_ifs at h with hm
    · split at h
      · cases h
      · rename_i m hmerge
        cases h
        have hml := mergeByDistance_length E _ _ _ _ hmerge
        simp only at hml ⊢
        cases hv : res.vNew with
        | none =>
          rw [hv] at hmerge
          simp only [mergeByDistance] at hmerge
          cases hmerge
          simp only
          omega
        | some w =>
          have := hr.2.1 (by rw [hv]; rfl)
          omega
    · cases h
      simp only
      omega

theorem stateAfter_front_length (E : Env) (hole : List Vector3) (k : Nat) :
    ∀ s s1 : LoopState, 3 ≤ s.front.vertices.length → stateAfter E hole k s = some s1 →
      3 ≤ s1.front.vertices.length := by
  induction k with
  | zero =>
    intro s s1 h3 h
    cases h
    exact h3
  | succ k ih =>
    intro s s1 h3 h
    rw [stateAfter] at h
    split at h
    · rename_i s2 hb
      refine ih s2 s1 ?_ h
      by_cases h5 : 5 ≤ s.front.vertices.length
      · exact loopBody_front_length E hole s s2 h5 hb
      · exfalso
        unfold loopBody at hb
        simp only [enterRound_front] at hb
        split_ifs at hb <;> first | cases hb | omega
    · cases h

/-- C24, with the hypothesis the code needs: for a hole loop of at least 3
vertices no two of which share a key of `mergeVertices` (its coordinates rounded to
4 decimals), the initialisation of `afmStart` succeeds and the front has at least 3 vertices at
the head of every round of the main loop; and a round that starts with a front of
at least 5 vertices and goes on to the next one leaves at least 3. -/
theorem front_length_at_least_three (E : Env) (hole : List Vector3)
    (h3 : 3 ≤ hole.length) (hkeys : (hole.map E.mergeKey).Nodup) :
    (∃ s0, afmInit E hole = Except.ok s0 ∧
      ∀ k s, stateAfter E hole k s0 = some s → 3 ≤ s.front.vertices.length) ∧
    (∀ s s1, 5 ≤ s.front.vertices.length → loopBody E hole s = Except.ok (Outcome.next s1) →
      3 ≤ s1.front.vertices.length) := by
  have hne : hole ≠ [] := by
    intro h
    rw [h] at h3
    cases h3
  obtain ⟨s0, h0, hf, -⟩ := afmInit_ok E hole hne hkeys
  refine ⟨⟨s0, h0, fun k s hs => stateAfter_front_length E hole k s0 s ?_ hs⟩,
    fun s s1 h5 h => loopBody_front_length E hole s s1 h5 h⟩
  rw [hf]
  exact h3

/-- An instance of C24: the loop of five vertices. -/
theorem front_length_at_least_three_witness :
    (∃ s0, afmInit envSixty hole5 = Except.ok s0 ∧
      ∀ k s, stateAfter envSixty hole5 k s0 = some s → 3 ≤ s.front.vertices.length) ∧
    (∀ s s1, 5 ≤ s.front.vertices.length →
      loopBody envSixty hole5 s = Except.ok (Outcome.next s1) →
      3 ≤ s1.front.vertices.length) :=
  front_length_at_least_three envSixty hole5 (by decide) (by decide)

/-- C25: in a round of the main loop that the debug cap does not end and that
starts with a front of at least 5 vertices, if the selected rule returns a vertex
(as only `applyRule2` and `applyRule3` do: `applyRule1` returns `false`), the round
is the call of `mergeByDistance` on this vertex with the hole loop as the ignore
list, and its result is the state of the next round; if the rule returns `false`,
the merge call returns its state unchanged and the round hands the state the rule
left to the next round. -/
theorem loopBody_merges_new_vertex (E : Env) (hole : List Vector3) (s : LoopState)
    (res : ApplyResult)
    (hcap : E.AFM_STOP_AFTER_ITER.any (fun stopIter => s.count + 1 > stopIter) = false)
    (h5 : 5 ≤ s.front.vertices.length)
    (hres : applyRules E (enterRound E s) = Except.ok res) :
    (∀ w, res.vNew = some w →
      loopBody E hole s =
        (mergeByDistance E ⟨res.af, res.front, res.filling⟩ (some w) hole).map
          (fun m => Outcome.next ⟨m.af, m.front, m.filling, s.count + 1⟩)) ∧
    (res.vNew = none →
      mergeByDistance E ⟨res.af, res.front, res.filling⟩ res.vNew hole
          = Except.ok ⟨res.af, res.front, res.filling⟩ ∧
        loopBody E hole s
          = Except.ok (Outcome.next ⟨res.af, res.front, res.filling, s.count + 1⟩)) ∧
    ((enterRound E s).af.HEAP_RULE_1.length > 0 → res.vNew = none) := by
  have hbody := loopBody_eq_rules E hole s hcap (by omega) (by omega) (by omega)
  have hr := applyRules_front_length E _ _ hres
  rw [enterRound_front] at hr
  rw [hres] at hbody
  have hb : loopBody E hole s = mergeStep E hole (s.count + 1) res := hbody
  refine ⟨?_, ?_, hr.2.2⟩
  · intro w hw
    have hlen := hr.2.1 (by rw [hw]; rfl)
    rw [hb]
    unfold mergeStep
    rw [if_pos (Or.inr (by omega)), hw]
    cases mergeByDistance E ⟨res.af, res.front, res.filling⟩ (some w) hole <;> rfl
  · intro hn
    refine ⟨?_, ?_⟩
    · rw [hn]
      rfl
    · rw [hb]
      exact mergeStep_none E hole _ res hn

/-- An instance of C25: Rule 3 at the second corner of the loop of five vertices
creates the vertex of identity 13, on which the merge pass then runs. -/
theorem loopBody_merges_new_vertex_witness :
    ∃ res w, applyRules envSixty (enterRound envSixty loopRule3) = Except.ok res ∧
      res.vNew = some w ∧ w.ref = 13 ∧ res.front.vertices.length = 6 ∧
      loopBody envSixty hole5 loopRule3 =
        (mergeByDistance envSixty ⟨res.af, res.front, res.filling⟩ (some w) hole5).map
          (fun m => Outcome.next ⟨m.af, m.front, m.filling, 1⟩) :=
  ⟨_, _, rfl, rfl, rfl, rfl,
    (loopBody_merges_new_vertex envSixty hole5 loopRule3 _ rfl (by decide) rfl).1 _ rfl⟩

/-! ## The parity of the edges (C26) -/


theorem cycEdges_rotate (l : List Int) (k : Nat) :
    cycEdges (l.rotate k) = (cycEdges l).rotate k := by
  show List.zipWith Prod.mk (l.rotate k) ((l.rotate k).rotate 1)
    = (List.zipWith Prod.mk l (l.rotate 1)).rotate k
  rw [List.rotate_rotate, List.zipWith_rotate_distrib _ _ _ _ (by simp),
    List.rotate_rotate, Nat.add_comm]

theorem loopEdge_isRotated (l l1 : List Int) (h : l ~r l1) (a b : Int) :
    loopEdge l a b ↔ loopEdge l1 a b := by
  obtain ⟨k, rfl⟩ := h
  unfold loopEdge
  rw [cycEdges_rotate, List.mem_rotate, List.mem_rotate]

theorem mem_zip_tail_append (M : List Int) (y a b : Int) :
    (a, b) ∈ List.zip M (M.tail ++ [y]) ↔
      (a, b) ∈ List.zip M M.tail ∨ (M.getLast? = some a ∧ b = y) := by
  induction M with
  | nil => simp
  | cons x m ih =>
    cases m with
    | nil =>
      simp only [List.tail_cons, List.nil_append, List.zip_cons_cons, List.zip_nil_right,
        List.mem_singleton, Prod.mk.injEq, List.not_mem_nil, List.getLast?_singleton,
        Option.some.injEq, false_or]
      exact ⟨fun h => ⟨h.1.symm, h.2⟩, fun h => ⟨h.1.symm, h.2⟩⟩
    | cons x1 m1 =>
      simp only [List.tail_cons] at ih ⊢
      rw [List.cons_append, List.zip_cons_cons, List.mem_cons, ih, List.zip_cons_cons,
        List.mem_cons, List.getLast?_cons_cons, or_assoc]

theorem cycEdges_cons (x : Int) (m : List Int) :
    cycEdges (x :: m) = List.zip (x :: m) (m ++ [x]) := by
  simp [cycEdges, List.rotate_cons_succ]

/-- The directed edges of the loop through `M`. -/
theorem mem_cycEdges_loop (M : List Int) (Nx P a b : Int) (hh : M.head? = some Nx)
    (hl : M.getLast? = some P) :
    (a, b) ∈ cycEdges M ↔ (a, b) ∈ List.zip M M.tail ∨ (a = P ∧ b = Nx) := by
  cases M with
  | nil => cases hh
  | cons x m =>
    simp only [List.head?_cons, Option.some.injEq] at hh
    subst hh
    have h := mem_zip_tail_append (x :: m) x a b
    rw [List.tail_cons] at h
    rw [cycEdges_cons, h, hl]
    simp only [Option.some.injEq, List.tail_cons]
    constructor
    · rintro (h | ⟨h1, h2⟩)
      · exact Or.inl h
      · exact Or.inr ⟨h1.symm, h2⟩
    · rintro (h | ⟨h1, h2⟩)
      · exact Or.inl h
      · exact Or.inr ⟨h1.symm, h2⟩

/-- The directed edges of the loop through `V :: M`. -/
theorem mem_cycEdges_cons (M : List Int) (V Nx P a b : Int) (hh : M.head? = some Nx)
    (hl : M.getLast? = some P) :
    (a, b) ∈ cycEdges (V :: M) ↔
      (a = V ∧ b = Nx) ∨ (a, b) ∈ List.zip M M.tail ∨ (a = P ∧ b = V) := by
  cases M with
  | nil => cases hh
  | cons x m =>
    simp only [List.head?_cons, Option.some.injEq] at hh
    subst hh
    have h := mem_zip_tail_append (V :: x :: m) V a b
    rw [List.tail_cons] at h
    rw [cycEdges_cons, h, List.getLast?_cons_cons, hl, List.zip_cons_cons, List.mem_cons]
    simp only [Option.some.injEq, List.tail_cons, Prod.mk.injEq]
    constructor
    · rintro ((h | h) | ⟨h1, h2⟩)
      · exact Or.inl h
      · exact Or.inr (Or.inl h)
      · exact Or.inr (Or.inr ⟨h1.symm, h2⟩)
    · rintro (h | h | ⟨h1, h2⟩)
      · exact Or.inl (Or.inl h)
      · exact Or.inl (Or.inr h)
      · exact Or.inr ⟨h1.symm, h2⟩

theorem mem_of_mem_zip_tail (M : List Int) (a b : Int) (h : (a, b) ∈ List.zip M M.tail) :
    a ∈ M ∧ b ∈ M :=
  ⟨(List.of_mem_zip h).1, List.mem_of_mem_tail (List.of_mem_zip h).2⟩

/-- In a duplicate-free list the pair (last, first) is not a pair of neighbours,
and the pair (first, last) only if the list has two entries. -/
theorem ends_not_neighbours (M : List Int) (Nx P : Int) (hnd : M.Nodup)
    (hh : M.head? = some Nx) (hl : M.getLast? = some P) :
    (P, Nx) ∉ List.zip M M.tail ∧ (3 ≤ M.length → (Nx, P) ∉ List.zip M M.tail) := by
  cases M with
  | nil => cases hh
  | cons x m =>
    simp only [List.head?_cons, Option.some.injEq] at hh
    subst hh
    rw [List.nodup_cons] at hnd
    refine ⟨fun h => hnd.1 (List.of_mem_zip h).2, ?_⟩
    intro h3 h
    cases m with
    | nil => simp at h3
    | cons y m1 =>
      rw [List.tail_cons, List.zip_cons_cons, List.mem_cons] at h
      rcases h with h | h
      · simp only [Prod.mk.injEq, true_and] at h
        subst h
        rw [List.getLast?_cons_cons] at hl
        cases m1 with
        | nil => simp at h3
        | cons z m2 =>
          rw [List.getLast?_cons_cons] at hl
          have hm : P ∈ z :: m2 := List.mem_of_getLast?_eq_some hl
          exact (List.nodup_cons.1 hnd.2).1 hm
      · exact hnd.1 (List.of_mem_zip h).1

theorem hasEdge_iff (x y z a b : Int) :
    (Face3.mk x y z).hasEdge a b = true ↔
      (a = x ∨ a = y ∨ a = z) ∧ (b = x ∨ b = y ∨ b = z) := by
  simp only [Face3.hasEdge, Bool.and_eq_true, Bool.or_eq_true, decide_eq_true_eq, or_assoc]
  rw [@eq_comm _ x a, @eq_comm _ y a, @eq_comm _ z a, @eq_comm _ x b, @eq_comm _ y b,
    @eq_comm _ z b]

theorem head_ne_last (M : List Int) (Nx P : Int) (hnd : M.Nodup) (h2 : 2 ≤ M.length)
    (hh : M.head? = some Nx) (hl : M.getLast? = some P) : Nx ≠ P ∧ Nx ∈ M ∧ P ∈ M := by
  have hP : P ∈ M := List.mem_of_getLast?_eq_some hl
  cases M with
  | nil => cases hh
  | cons x m =>
    simp only [List.head?_cons, Option.some.injEq] at hh
    subst hh
    refine ⟨?_, List.mem_cons_self _ _, hP⟩
    cases m with
    | nil => simp at h2
    | cons y m1 =>
      rw [List.getLast?_cons_cons] at hl
      intro h
      subst h
      exact (List.nodup_cons.1 hnd).1 (List.mem_of_getLast?_eq_some hl)

/-- The directed edges of the loop through `V :: W :: M`. -/
theorem mem_cycEdges_cons_cons (M : List Int) (V W Nx P a b : Int) (hh : M.head? = some Nx)
    (hl : M.getLast? = some P) :
    (a, b) ∈ cycEdges (V :: W :: M) ↔
      (a = V ∧ b = W) ∨ ((a = W ∧ b = Nx) ∨ (a, b) ∈ List.zip M M.tail) ∨ (a = P ∧ b = V) := by
  have hl1 : (W :: M).getLast? = some P := by
    cases M with
    | nil => cases hh
    | cons x m => rw [List.getLast?_cons_cons]; exact hl
  rw [mem_cycEdges_cons (W :: M) V W P a b rfl hl1]
  cases M with
  | nil => cases hh
  | cons x m =>
    simp only [List.head?_cons, Option.some.injEq] at hh
    subst hh
    rw [List.tail_cons, List.zip_cons_cons, List.mem_cons, Prod.mk.injEq, List.tail_cons]

theorem three_states (a V P Nx : Int) (hPV : P ≠ V) (hNV : Nx ≠ V) (hne : Nx ≠ P) :
    (a = V ∧ ¬ a = P ∧ ¬ a = Nx) ∨ (¬ a = V ∧ a = P ∧ ¬ a = Nx) ∨
      (¬ a = V ∧ ¬ a = P ∧ a = Nx) ∨ (¬ a = V ∧ ¬ a = P ∧ ¬ a = Nx) := by
  by_cases h1 : a = V
  · exact Or.inl ⟨h1, fun h => hPV (h.symm.trans h1), fun h => hNV (h.symm.trans h1)⟩
  · by_cases h2 : a = P
    · exact Or.inr (Or.inl ⟨h1, h2, fun h => hne (h.symm.trans h2)⟩)
    · by_cases h3 : a = Nx
      · exact Or.inr (Or.inr (Or.inl ⟨h1, h2, h3⟩))
      · exact Or.inr (Or.inr (Or.inr ⟨h1, h2, h3⟩))

theorem four_states (a V P Nx W : Int) (hPV : P ≠ V) (hNV : Nx ≠ V) (hne : Nx ≠ P)
    (hWV : W ≠ V) (hWP : W ≠ P) (hWN : W ≠ Nx) :
    (a = V ∧ ¬ a = P ∧ ¬ a = Nx ∧ ¬ a = W) ∨ (¬ a = V ∧ a = P ∧ ¬ a = Nx ∧ ¬ a = W) ∨
      (¬ a = V ∧ ¬ a = P ∧ a = Nx ∧ ¬ a = W) ∨ (¬ a = V ∧ ¬ a = P ∧ ¬ a = Nx ∧ a = W) ∨
      (¬ a = V ∧ ¬ a = P ∧ ¬ a = Nx ∧ ¬ a = W) := by
  by_cases h4 : a = W
  · exact Or.inr (Or.inr (Or.inr (Or.inl ⟨fun h => hWV (h4.symm.trans h),
      fun h => hWP (h4.symm.trans h), fun h => hWN (h4.symm.trans h), h4⟩)))
  · rcases three_states a V P Nx hPV hNV hne with ⟨h1, h2, h3⟩ | ⟨h1, h2, h3⟩ |
      ⟨h1, h2, h3⟩ | ⟨h1, h2, h3⟩
    · exact Or.inl ⟨h1, h2, h3, h4⟩
    · exact Or.inr (Or.inl ⟨h1, h2, h3, h4⟩)
    · exact Or.inr (Or.inr (Or.inl ⟨h1, h2, h3, h4⟩))
    · exact Or.inr (Or.inr (Or.inr (Or.inr ⟨h1, h2, h3, h4⟩)))

/-- Taking the corner `V` out of the loop `V :: M`, whose neighbours are the last
entry `P` and the first entry `Nx` of `M`: the edges change by those of the
triangle `(V, P, Nx)`. -/
theorem loopEdge_remove (M : List Int) (V Nx P a b : Int) (hnd : M.Nodup)
    (h3 : 3 ≤ M.length) (hh : M.head? = some Nx) (hl : M.getLast? = some P)
    (hV : V ∉ M) (hab : a ≠ b) :
    loopEdge M a b ↔
      Xor' (loopEdge (V :: M) a b) ((Face3.mk V P Nx).hasEdge a b = true) := by
  obtain ⟨hne, hNx, hP⟩ := head_ne_last M Nx P hnd (by omega) hh hl
  obtain ⟨e1, e2⟩ := ends_not_neighbours M Nx P hnd hh hl
  have hc : ∀ x y : Int, (x, y) ∈ List.zip M M.tail →
      ¬ x = V ∧ ¬ y = V ∧ ¬ (x = P ∧ y = Nx) ∧ ¬ (x = Nx ∧ y = P) := by
    intro x y h
    obtain ⟨hx, hy⟩ := mem_of_mem_zip_tail M x y h
    refine ⟨fun e => hV (e ▸ hx), fun e => hV (e ▸ hy), ?_, ?_⟩
    · rintro ⟨rfl, rfl⟩
      exact e1 h
    · rintro ⟨rfl, rfl⟩
      exact e2 h3 h
  have hPV : P ≠ V := fun e => hV (e ▸ hP)
  have hNV : Nx ≠ V := fun e => hV (e ▸ hNx)
  have hc1 := hc a b
  have hc2 := hc b a
  have sa := three_states a V P Nx hPV hNV hne
  have sb := three_states b V P Nx hPV hNV hne
  have d1 : ¬ (a = V ∧ b = V) := fun h => hab (h.1.trans h.2.symm)
  have d2 : ¬ (a = P ∧ b = P) := fun h => hab (h.1.trans h.2.symm)
  have d3 : ¬ (a = Nx ∧ b = Nx) := fun h => hab (h.1.trans h.2.symm)
  unfold loopEdge
  rw [mem_cycEdges_loop M Nx P a b hh hl, mem_cycEdges_loop M Nx P b a hh hl,
    mem_cycEdges_cons M V Nx P a b hh hl, mem_cycEdges_cons M V Nx P b a hh hl, hasEdge_iff]
  unfold Xor'
  clear hc hab hne hPV hNV e1 e2 hV hnd hh hl hNx hP
  generalize ((a, b) ∈ List.zip M M.tail) = c1 at *
  generalize ((b, a) ∈ List.zip M M.tail) = c2 at *
  generalize (a = V) = p1 at *
  generalize (a = P) = p2 at *
  generalize (a = Nx) = p3 at *
  generalize (b = V) = q1 at *
  generalize (b = P) = q2 at *
  generalize (b = Nx) = q3 at *
  by_cases k1 : c1 <;> by_cases k2 : c2 <;>
  rcases sa with ⟨h1, h2, h3⟩ | ⟨h1, h2, h3⟩ | ⟨h1, h2, h3⟩ | ⟨h1, h2, h3⟩ <;>
  rcases sb with ⟨h4, h5, h6⟩ | ⟨h4, h5, h6⟩ | ⟨h4, h5, h6⟩ | ⟨h4, h5, h6⟩ <;>
  simp only [k1, k2, h1, h2, h3, h4, h5, h6, and_self, and_true, true_and, and_false,
    false_and, or_self, or_true, true_or, or_false, false_or, not_true_eq_false,
    not_false_eq_true, true_implies, false_implies] at *

/-- Replacing the corner `V` of the loop `V :: M` by the new index `W`: the edges
change by those of the triangles `(V, P, W)` and `(V, W, Nx)` taken together. -/
theorem loopEdge_replace (M : List Int) (V W Nx P a b : Int) (hnd : M.Nodup)
    (h2 : 2 ≤ M.length) (hh : M.head? = some Nx) (hl : M.getLast? = some P)
    (hV : V ∉ M) (hW : W ∉ M) (hWV : W ≠ V) (hab : a ≠ b) :
    loopEdge (W :: M) a b ↔
      Xor' (loopEdge (V :: M) a b)
        (Xor' ((Face3.mk V P W).hasEdge a b = true) ((Face3.mk V W Nx).hasEdge a b = true)) := by
  obtain ⟨hne, hNx, hP⟩ := head_ne_last M Nx P hnd h2 hh hl
  have hc : ∀ x y : Int, (x, y) ∈ List.zip M M.tail →
      ¬ x = V ∧ ¬ y = V ∧ ¬ x = W ∧ ¬ y = W := by
    intro x y h
    obtain ⟨hx, hy⟩ := mem_of_mem_zip_tail M x y h
    exact ⟨fun e => hV (e ▸ hx), fun e => hV (e ▸ hy), fun e => hW (e ▸ hx),
      fun e => hW (e ▸ hy)⟩
  have hPV : P ≠ V := fun e => hV (e ▸ hP)
  have hNV : Nx ≠ V := fun e => hV (e ▸ hNx)
  have hWP : W ≠ P := fun e => hW (e ▸ hP)
  have hWN : W ≠ Nx := fun e => hW (e ▸ hNx)
  have hc1 := hc a b
  have hc2 := hc b a
  have sa := four_states a V P Nx W hPV hNV hne hWV hWP hWN
  have sb := four_states b V P Nx W hPV hNV hne hWV hWP hWN
  have d1 : ¬ (a = V ∧ b = V) := fun h => hab (h.1.trans h.2.symm)
  have d2 : ¬ (a = P ∧ b = P) := fun h => hab (h.1.trans h.2.symm)
  have d3 : ¬ (a = Nx ∧ b = Nx) := fun h => hab (h.1.trans h.2.symm)
  have d4 : ¬ (a = W ∧ b = W) := fun h => hab (h.1.trans h.2.symm)
  unfold loopEdge
  rw [mem_cycEdges_cons M W Nx P a b hh hl, mem_cycEdges_cons M W Nx P b a hh hl,
    mem_cycEdges_cons M V Nx P a b hh hl, mem_cycEdges_cons M V Nx P b a hh hl, hasEdge_iff,
    hasEdge_iff]
  unfold Xor'
  clear hc hab hne hPV hNV hWP hWN hWV hV hW hnd hh hl hNx hP
  generalize ((a, b) ∈ List.zip M M.tail) = c1 at *
  generalize ((b, a) ∈ List.zip M M.tail) = c2 at *
  generalize (a = V) = p1 at *
  generalize (a = P) = p2 at *
  generalize (a = Nx) = p3 at *
  generalize (a = W) = p4 at *
  generalize (b = V) = q1 at *
  generalize (b = P) = q2 at *
  generalize (b = Nx) = q3 at *
  generalize (b = W) = q4 at *
  by_cases k1 : c1 <;> by_cases k2 : c2 <;>
  rcases sa with ⟨h1, h2, h3, h4⟩ | ⟨h1, h2, h3, h4⟩ | ⟨h1, h2, h3, h4⟩ | ⟨h1, h2, h3, h4⟩ |
    ⟨h1, h2, h3, h4⟩ <;>
  rcases sb with ⟨h5, h6, h7, h8⟩ | ⟨h5, h6, h7, h8⟩ | ⟨h5, h6, h7, h8⟩ | ⟨h5, h6, h7, h8⟩ |
    ⟨h5, h6, h7, h8⟩ <;>
  simp only [k1, k2, h1, h2, h3, h4, h5, h6, h7, h8, and_self, and_true, true_and, and_false,
    false_and, or_self, or_true, true_or, or_false, false_or, not_true_eq_false,
    not_false_eq_true, true_implies, false_implies] at *

/-- Putting the new index `W` after the corner `V` of the loop `V :: M`: the edges
change by those of the triangle `(Nx, V, W)`. -/
theorem loopEdge_insert (M : List Int) (V W Nx P a b : Int) (hnd : M.Nodup)
    (h2 : 2 ≤ M.length) (hh : M.head? = some Nx) (hl : M.getLast? = some P)
    (hV : V ∉ M) (hW : W ∉ M) (hWV : W ≠ V) (hab : a ≠ b) :
    loopEdge (V :: W :: M) a b ↔
      Xor' (loopEdge (V :: M) a b) ((Face3.mk Nx V W).hasEdge a b = true) := by
  obtain ⟨hne, hNx, hP⟩ := head_ne_last M Nx P hnd h2 hh hl
  have hc : ∀ x y : Int, (x, y) ∈ List.zip M M.tail →
      ¬ x = V ∧ ¬ y = V ∧ ¬ x = W ∧ ¬ y = W := by
    intro x y h
    obtain ⟨hx, hy⟩ := mem_of_mem_zip_tail M x y h
    exact ⟨fun e => hV (e ▸ hx), fun e => hV (e ▸ hy), fun e => hW (e ▸ hx),
      fun e => hW (e ▸ hy)⟩
  have hPV : P ≠ V := fun e => hV (e ▸ hP)
  have hNV : Nx ≠ V := fun e => hV (e ▸ hNx)
  have hWP : W ≠ P := fun e => hW (e ▸ hP)
  have hWN : W ≠ Nx := fun e => hW (e ▸ hNx)
  have hc1 := hc a b
  have hc2 := hc b a
  have sa := four_states a V P Nx W hPV hNV hne hWV hWP hWN
  have sb := four_states b V P Nx W hPV hNV hne hWV hWP hWN
  have d1 : ¬ (a = V ∧ b = V) := fun h => hab (h.1.trans h.2.symm)
  have d2 : ¬ (a = P ∧ b = P) := fun h => hab (h.1.trans h.2.symm)
  have d3 : ¬ (a = Nx ∧ b = Nx) := fun h => hab (h.1.trans h.2.symm)
  have d4 : ¬ (a = W ∧ b = W) := fun h => hab (h.1.trans h.2.symm)
  unfold loopEdge
  rw [mem_cycEdges_cons_cons M V W Nx P a b hh hl, mem_cycEdges_cons_cons M V W Nx P b a hh hl,
    mem_cycEdges_cons M V Nx P a b hh hl, mem_cycEdges_cons M V Nx P b a hh hl, hasEdge_iff]
  unfold Xor'
  clear hc hab hne hPV hNV hWP hWN hWV hV hW hnd hh hl hNx hP
  generalize ((a, b) ∈ List.zip M M.tail) = c1 at *
  generalize ((b, a) ∈ List.zip M M.tail) = c2 at *
  generalize (a = V) = p1 at *
  generalize (a = P) = p2 at *
  generalize (a = Nx) = p3 at *
  generalize (a = W) = p4 at *
  generalize (b = V) = q1 at *
  generalize (b = P) = q2 at *
  generalize (b = Nx) = q3 at *
  generalize (b = W) = q4 at *
  by_cases k1 : c1 <;> by_cases k2 : c2 <;>
  rcases sa with ⟨h1, h2, h3, h4⟩ | ⟨h1, h2, h3, h4⟩ | ⟨h1, h2, h3, h4⟩ | ⟨h1, h2, h3, h4⟩ |
    ⟨h1, h2, h3, h4⟩ <;>
  rcases sb with ⟨h5, h6, h7, h8⟩ | ⟨h5, h6, h7, h8⟩ | ⟨h5, h6, h7, h8⟩ | ⟨h5, h6, h7, h8⟩ |
    ⟨h5, h6, h7, h8⟩ <;>
  simp only [k1, k2, h1, h2, h3, h4, h5, h6, h7, h8, and_self, and_true, true_and, and_false,
    false_and, or_self, or_true, true_or, or_false, false_or, not_true_eq_false,
    not_false_eq_true, true_implies, false_implies] at *

/-- The edges of the loop through three distinct indices are those of the
triangle `closeHole3` commits. -/
theorem loopEdge_three (i0 i1 i2 a b : Int) (h01 : i0 ≠ i1) (h02 : i0 ≠ i2) (h12 : i1 ≠ i2)
    (hab : a ≠ b) :
    loopEdge [i0, i1, i2] a b ↔ (Face3.mk i1 i0 i2).hasEdge a b = true := by
  have sa := three_states a i0 i1 i2 h01.symm h02.symm h12.symm
  have sb := three_states b i0 i1 i2 h01.symm h02.symm h12.symm
  have d1 : ¬ (a = i0 ∧ b = i0) := fun h => hab (h.1.trans h.2.symm)
  have d2 : ¬ (a = i1 ∧ b = i1) := fun h => hab (h.1.trans h.2.symm)
  have d3 : ¬ (a = i2 ∧ b = i2) := fun h => hab (h.1.trans h.2.symm)
  unfold loopEdge
  rw [hasEdge_iff]
  simp only [cycEdges_cons, List.cons_append, List.nil_append, List.zip_cons_cons,
    List.zip_nil_right, List.mem_cons, Prod.mk.injEq, List.not_mem_nil, or_false]
  clear hab h01 h02 h12
  generalize (a = i0) = p1 at *
  generalize (a = i1) = p2 at *
  generalize (a = i2) = p3 at *
  generalize (b = i0) = q1 at *
  generalize (b = i1) = q2 at *
  generalize (b = i2) = q3 at *
  rcases sa with ⟨h1, h2, h3⟩ | ⟨h1, h2, h3⟩ | ⟨h1, h2, h3⟩ | ⟨h1, h2, h3⟩ <;>
  rcases sb with ⟨h4, h5, h6⟩ | ⟨h4, h5, h6⟩ | ⟨h4, h5, h6⟩ | ⟨h4, h5, h6⟩ <;>
  simp only [h1, h2, h3, h4, h5, h6, and_self, and_true, true_and, and_false,
    false_and, or_self, or_true, true_or, or_false, false_or, not_true_eq_false,
    not_false_eq_true, true_implies, false_implies] at *

/-- The edges of the loop through four distinct indices are those that lie in
exactly one of the two triangles `closeHole4` commits. -/
theorem loopEdge_four (i0 i1 i2 i3 a b : Int) (h01 : i0 ≠ i1) (h02 : i0 ≠ i2) (h03 : i0 ≠ i3)
    (h12 : i1 ≠ i2) (h13 : i1 ≠ i3) (h23 : i2 ≠ i3) (hab : a ≠ b) :
    loopEdge [i0, i1, i2, i3] a b ↔
      Xor' ((Face3.mk i3 i2 i0).hasEdge a b = true) ((Face3.mk i1 i0 i2).hasEdge a b = true) := by
  have sa := four_states a i0 i1 i2 i3 h01.symm h02.symm h12.symm h03.symm h13.symm h23.symm
  have sb := four_states b i0 i1 i2 i3 h01.symm h02.symm h12.symm h03.symm h13.symm h23.symm
  have d1 : ¬ (a = i0 ∧ b = i0) := fun h => hab (h.1.trans h.2.symm)
  have d2 : ¬ (a = i1 ∧ b = i1) := fun h => hab (h.1.trans h.2.symm)
  have d3 : ¬ (a = i2 ∧ b = i2) := fun h => hab (h.1.trans h.2.symm)
  have d4 : ¬ (a = i3 ∧ b = i3) := fun h => hab (h.1.trans h.2.symm)
  unfold loopEdge
  rw [hasEdge_iff, hasEdge_iff]
  simp only [cycEdges_cons, List.cons_append, List.nil_append, List.zip_cons_cons,
    List.zip_nil_right, List.mem_cons, Prod.mk.injEq, List.not_mem_nil, or_false]
  unfold Xor'
  clear hab h01 h02 h12 h03 h13 h23
  generalize (a = i0) = p1 at *
  generalize (a = i1) = p2 at *
  generalize (a = i2) = p3 at *
  generalize (a = i3) = p4 at *
  generalize (b = i0) = q1 at *
  generalize (b = i1) = q2 at *
  generalize (b = i2) = q3 at *
  generalize (b = i3) = q4 at *
  rcases sa with ⟨h1, h2, h3, h4⟩ | ⟨h1, h2, h3, h4⟩ | ⟨h1, h2, h3, h4⟩ | ⟨h1, h2, h3, h4⟩ |
    ⟨h1, h2, h3, h4⟩ <;>
  rcases sb with ⟨h5, h6, h7, h8⟩ | ⟨h5, h6, h7, h8⟩ | ⟨h5, h6, h7, h8⟩ | ⟨h5, h6, h7, h8⟩ |
    ⟨h5, h6, h7, h8⟩ <;>
  simp only [h1, h2, h3, h4, h5, h6, h7, h8, and_self, and_true, true_and, and_false,
    false_and, or_self, or_true, true_or, or_false, false_or, not_true_eq_false,
    not_false_eq_true, true_implies, false_implies] at *

theorem edgeCount_append (faces : List Face3) (f : Face3) (a b : Int) :
    edgeCount (faces ++ [f]) a b
      = edgeCount faces a b + (if f.hasEdge a b = true then 1 else 0) := by
  unfold edgeCount
  rw [List.filter_append, List.length_append]
  cases h : f.hasEdge a b <;> simp [List.filter, h]

theorem parity_step (c : Nat) (t : Bool) (H E0 E1 : Prop)
    (hpar : c % 2 = 1 ↔ Xor' H E0) (hnew : E1 ↔ Xor' E0 (t = true)) :
    (c + (if t = true then 1 else 0)) % 2 = 1 ↔ Xor' H E1 := by
  have h1 : (c + 1) % 2 = 1 ↔ ¬ (c % 2 = 1) := by omega
  unfold Xor' at *
  cases t
  · simp only [Bool.false_eq_true, if_false, Nat.add_zero, and_false, false_and, or_false,
      not_false_eq_true, and_true] at hnew ⊢
    rw [hpar, hnew]
  · simp only [if_true, not_true_eq_false, and_false, true_and, false_or] at hnew ⊢
    rw [h1, hpar, hnew]
    by_cases hH : H <;> by_cases hE : E0 <;> simp [hH, hE]

theorem parity_close (c : Nat) (t : Bool) (H E0 : Prop)
    (hpar : c % 2 = 1 ↔ Xor' H E0) (hnew : E0 ↔ t = true) :
    (c + (if t = true then 1 else 0)) % 2 = 1 ↔ H := by
  have h := parity_step c t H E0 False hpar
    (by unfold Xor'; rw [hnew]; by_cases ht : t = true <;> simp [ht])
  rw [h]
  unfold Xor'
  simp

theorem xor_step (E0 T1 T2 : Prop) :
    Xor' (Xor' E0 T1) T2 ↔ Xor' E0 (Xor' T1 T2) := by
  unfold Xor'
  by_cases h0 : E0 <;> by_cases h1 : T1 <;> by_cases h2 : T2 <;> simp [h0, h1, h2]

theorem loopEdge_split (L1 L2 : List Int) (a b : Int) :
    loopEdge (L1 ++ L2) a b ↔ loopEdge (L2 ++ L1) a b :=
  loopEdge_isRotated _ _ List.isRotated_append a b

/-- The neighbours of the corner `v` of a front `l1 ++ v :: l2` are the first and
the last entry of `l2 ++ l1`. -/
theorem corner_split (l1 l2 : List Vector3) (vp v vn : Vector3)
    (hnd : (l1 ++ v :: l2).Nodup) (h2 : 2 ≤ (l1 ++ v :: l2).length)
    (hc : IsCorner (l1 ++ v :: l2) vp v vn) :
    (l2 ++ l1).head? = some vn ∧ (l2 ++ l1).getLast? = some vp := by
  obtain ⟨i, hi, hv, hvp, hvn⟩ := hc
  have h0 : (l1 ++ v :: l2)[l1.length]? = some v := by
    rw [List.getElem?_append_right (le_refl _)]
    simp
  have hi1 : i = l1.length := List.getElem?_inj hi hnd (hv.trans h0.symm)
  subst hi1
  constructor
  · cases l2 with
    | nil =>
      have hm : (l1.length + 1) % (l1 ++ [v]).length = 0 := by simp
      rw [hm] at hvn
      cases l1 with
      | nil => simp at h2
      | cons x l3 => simpa using hvn
    | cons y l3 =>
      have hm : (l1.length + 1) % (l1 ++ v :: y :: l3).length = l1.length + 1 :=
        Nat.mod_eq_of_lt (by simp)
      rw [hm] at hvn
      rw [List.getElem?_append_right (by omega)] at hvn
      simpa using hvn
  · rw [List.getLast?_append]
    cases hl : l1.length with
    | zero =>
      have hnil : l1 = [] := List.length_eq_zero.1 hl
      subst hnil
      simp only [List.nil_append, List.length_nil, if_true, List.length_cons,
        Nat.add_sub_cancel] at hvp
      simp only [List.getLast?_nil, Option.or_none]
      rw [List.getLast?_eq_getElem?]
      cases l2 with
      | nil => simp at h2
      | cons y l3 =>
        simpa using hvp
    | succ k =>
      rw [hl] at hvp
      simp only [Nat.succ_ne_zero, if_false, Nat.add_sub_cancel] at hvp
      rw [List.getElem?_append_left (by omega)] at hvp
      have : l1.getLast? = some vp := by
        rw [List.getLast?_eq_getElem?, hl]
        simpa using hvp
      rw [this]
      rfl

/-- The index lists of a duplicate-free front `l1 ++ v :: l2` inside the filling. -/
theorem corner_indices (F l1 l2 : List Vector3) (vp v vn : Vector3)
    (hnd : (l1 ++ v :: l2).Nodup) (hsub : ∀ u ∈ l1 ++ v :: l2, u ∈ F)
    (h3 : 3 ≤ (l1 ++ v :: l2).length) (hc : IsCorner (l1 ++ v :: l2) vp v vn) :
    ((l2 ++ l1).map (arrIndexOf F)).Nodup ∧
      ((l2 ++ l1).map (arrIndexOf F)).length + 1 = (l1 ++ v :: l2).length ∧
      ((l2 ++ l1).map (arrIndexOf F)).head? = some (arrIndexOf F vn) ∧
      ((l2 ++ l1).map (arrIndexOf F)).getLast? = some (arrIndexOf F vp) ∧
      arrIndexOf F v ∉ (l2 ++ l1).map (arrIndexOf F) ∧
      (∀ x ∈ (l2 ++ l1).map (arrIndexOf F), x ≠ (F.length : Int)) ∧
      arrIndexOf F v ≠ (F.length : Int) := by
  obtain ⟨hh, hl⟩ := corner_split l1 l2 vp v vn hnd (by omega) hc
  have hnd1 : (v :: (l1 ++ l2)).Nodup := List.nodup_middle.1 hnd
  have hnd2 : (l2 ++ l1).Nodup :=
    (List.perm_append_comm.nodup_iff).1 (List.nodup_cons.1 hnd1).2
  have hv : v ∉ l2 ++ l1 := fun h =>
    (List.nodup_cons.1 hnd1).1 ((List.perm_append_comm.mem_iff).1 h)
  have hmem : ∀ u ∈ l2 ++ l1, u ∈ F := by
    intro u hu
    apply hsub
    rcases List.mem_append.1 hu with h | h
    · exact List.mem_append_right _ (List.mem_cons_of_mem _ h)
    · exact List.mem_append_left _ h
  have hvF : v ∈ F := hsub v (List.mem_append_right _ (List.mem_cons_self _ _))
  refine ⟨?_, ?_, ?_, ?_, ?_, ?_, ?_⟩
  · refine List.Nodup.map_on ?_ hnd2
    intro x hx y hy hxy
    by_contra hne
    exact arrIndexOf_inj F x y (hmem x hx) (hmem y hy) hne hxy
  · simp only [List.length_map, List.length_append, List.length_cons]
    omega
  · rw [List.head?_map, hh]
    rfl
  · rw [List.getLast?_map, hl]
    rfl
  · intro h
    obtain ⟨u, hu, hux⟩ := List.mem_map.1 h
    by_cases hne : u = v
    · exact hv (hne ▸ hu)
    · exact arrIndexOf_inj F u v (hmem u hu) hvF hne hux
  · intro x hx
    obtain ⟨u, -, rfl⟩ := List.mem_map.1 hx
    have := arrIndexOf_lt F u
    omega
  · have := arrIndexOf_lt F v
    omega

theorem edgeParity_start (hole : List Vector3) :
    EdgeParity hole ⟨hole, []⟩ ⟨hole, []⟩ := by
  intro a b _
  unfold Xor'
  simp [edgeCount]

theorem keepNearPlane_ref (E : Env) (v vn vNew : Vector3) :
    (keepNearPlane E v vn vNew).ref = vNew.ref := by
  unfold keepNearPlane
  simp only
  split_ifs <;> rfl

theorem arrIndexOf_append_self {α : Type} [DecidableEq α] (xs : List α) (x : α)
    (h : x ∉ xs) : arrIndexOf (xs ++ [x]) x = (xs.length : Int) := by
  rw [arrIndexOf_mem _ _ (List.mem_append_right _ (List.mem_singleton_self _)),
    List.indexOf_append_of_not_mem h, List.indexOf_cons_self]
  rfl

theorem indices_append (F vs : List Vector3) (w : Vector3) (h : ∀ u ∈ vs, u ∈ F) :
    vs.map (arrIndexOf (F ++ [w])) = vs.map (arrIndexOf F) :=
  List.map_congr_left (fun u hu => arrIndexOf_append F u w (h u hu))

/-- Rule 1 and the edge parity, in terms of the split front. -/
theorem remove_edge_parity (hole F l1 l2 : List Vector3) (faces : List Face3)
    (vp v vn : Vector3)
    (hnd : (l1 ++ v :: l2).Nodup) (hsub : ∀ u ∈ l1 ++ v :: l2, u ∈ F)
    (h4 : 4 ≤ (l1 ++ v :: l2).length) (hc : IsCorner (l1 ++ v :: l2) vp v vn)
    (hpar : EdgeParity hole ⟨l1 ++ v :: l2, []⟩ ⟨F, faces⟩) :
    EdgeParity hole ⟨l1 ++ l2, []⟩
      ⟨F, faces ++ [⟨arrIndexOf F v, arrIndexOf F vp, arrIndexOf F vn⟩]⟩ := by
  obtain ⟨hM, hlen, hh, hl, hV, -, -⟩ := corner_indices F l1 l2 vp v vn hnd hsub (by omega) hc
  intro a b hab
  have hp := hpar a b hab
  simp only [indicesOf, List.map_append, List.map_cons] at hp ⊢
  rw [edgeCount_append]
  refine parity_step _ _ _ _ _ hp ?_
  rw [loopEdge_split, loopEdge_split (l1.map _) _, List.cons_append, ← List.map_append]
  exact loopEdge_remove _ _ _ _ a b hM (by omega) hh hl hV hab

/-- Rule 2 and the edge parity, in terms of the split front. -/
theorem replace_edge_parity (hole F l1 l2 : List Vector3) (faces : List Face3)
    (vp v vn w : Vector3)
    (hnd : (l1 ++ v :: l2).Nodup) (hsub : ∀ u ∈ l1 ++ v :: l2, u ∈ F)
    (hhole : ∀ u ∈ hole, u ∈ F) (hw : w ∉ F)
    (h3 : 3 ≤ (l1 ++ v :: l2).length) (hc : IsCorner (l1 ++ v :: l2) vp v vn)
    (hpar : EdgeParity hole ⟨l1 ++ v :: l2, []⟩ ⟨F, faces⟩) :
    EdgeParity hole ⟨l1 ++ w :: l2, []⟩
      ⟨F ++ [w], faces ++ [⟨arrIndexOf F v, arrIndexOf F vp, F.length⟩,
        ⟨arrIndexOf F v, F.length, arrIndexOf F vn⟩]⟩ := by
  obtain ⟨hM, hlen, hh, hl, hV, hW, hWV⟩ := corner_indices F l1 l2 vp v vn hnd hsub h3 hc
  intro a b hab
  have hp := hpar a b hab
  have e1 : l1.map (arrIndexOf (F ++ [w])) = l1.map (arrIndexOf F) :=
    indices_append F l1 w (fun u hu => hsub u (List.mem_append_left _ hu))
  have e2 : l2.map (arrIndexOf (F ++ [w])) = l2.map (arrIndexOf F) :=
    indices_append F l2 w
      (fun u hu => hsub u (List.mem_append_right _ (List.mem_cons_of_mem _ hu)))
  simp only [indicesOf, List.map_append, List.map_cons] at hp ⊢
  rw [indices_append F hole w hhole, e1, e2, arrIndexOf_append_self F w hw,
    show faces ++ [(⟨arrIndexOf F v, arrIndexOf F vp, F.length⟩ : Face3),
        ⟨arrIndexOf F v, F.length, arrIndexOf F vn⟩]
      = (faces ++ [⟨arrIndexOf F v, arrIndexOf F vp, F.length⟩])
        ++ [⟨arrIndexOf F v, F.length, arrIndexOf F vn⟩] by simp,
    edgeCount_append, edgeCount_append]
  refine parity_step _ _ _ _ _ (parity_step _ _ _ _ _ hp Iff.rfl) ?_
  rw [xor_step, loopEdge_split, loopEdge_split (l1.map _) _, List.cons_append,
    List.cons_append, ← List.map_append]
  exact loopEdge_replace _ _ _ _ _ a b hM (by omega) hh hl hV
    (fun h => hW _ h rfl) (fun h => hWV h.symm) hab

/-- Rule 3 and the edge parity, in terms of the split front. -/
theorem insert_edge_parity (hole F l1 l2 : List Vector3) (faces : List Face3)
    (vp v vn w : Vector3)
    (hnd : (l1 ++ v :: l2).Nodup) (hsub : ∀ u ∈ l1 ++ v :: l2, u ∈ F)
    (hhole : ∀ u ∈ hole, u ∈ F) (hw : w ∉ F)
    (h3 : 3 ≤ (l1 ++ v :: l2).length) (hc : IsCorner (l1 ++ v :: l2) vp v vn)
    (hpar : EdgeParity hole ⟨l1 ++ v :: l2, []⟩ ⟨F, faces⟩) :
    EdgeParity hole ⟨l1 ++ v :: w :: l2, []⟩
      ⟨F ++ [w], faces ++ [⟨arrIndexOf F vn, arrIndexOf F v, F.length⟩]⟩ := by
  obtain ⟨hM, hlen, hh, hl, hV, hW, hWV⟩ := corner_indices F l1 l2 vp v vn hnd hsub h3 hc
  intro a b hab
  have hp := hpar a b hab
  have hvF : v ∈ F := hsub v (List.mem_append_right _ (List.mem_cons_self _ _))
  have e1 : l1.map (arrIndexOf (F ++ [w])) = l1.map (arrIndexOf F) :=
    indices_append F l1 w (fun u hu => hsub u (List.mem_append_left _ hu))
  have e2 : l2.map (arrIndexOf (F ++ [w])) = l2.map (arrIndexOf F) :=
    indices_append F l2 w
      (fun u hu => hsub u (List.mem_append_right _ (List.mem_cons_of_mem _ hu)))
  simp only [indicesOf, List.map_append, List.map_cons] at hp ⊢
  rw [indices_append F hole w hhole, e1, e2, arrIndexOf_append_self F w hw,
    arrIndexOf_append F v w hvF, edgeCount_append]
  refine parity_step _ _ _ _ _ hp ?_
  rw [loopEdge_split, loopEdge_split (l1.map _) _, List.cons_append, List.cons_append,
    List.cons_append, ← List.map_append]
  exact loopEdge_insert _ _ _ _ _ a b hM (by omega) hh hl hV
    (fun h => hW _ h rfl) (fun h => hWV h.symm) hab

theorem xor_close (E0 T1 T2 : Prop) (h : E0 ↔ Xor' T1 T2) : Xor' E0 T1 ↔ T2 := by
  unfold Xor' at *
  by_cases h0 : E0 <;> by_cases h1 : T1 <;> by_cases h2 : T2 <;> simp [h0, h1, h2] at h ⊢

/-- The triangle of `closeHole3` and the edge parity. -/
theorem closeHole3_edge_parity (hole : List Vector3) (front filling : Geometry)
    (hnd : front.vertices.Nodup) (hsub : ∀ u ∈ front.vertices, u ∈ filling.vertices)
    (h3 : front.vertices.length = 3) (hpar : EdgeParity hole front filling) :
    HoleParity hole (closeHole3 front filling) := by
  obtain ⟨x0, x1, x2, hs⟩ := List.length_eq_three.1 h3
  rw [hs] at hnd hsub
  have hcl : closeHole3 front filling = { filling with faces := filling.faces ++
      [⟨arrIndexOf filling.vertices x1, arrIndexOf filling.vertices x0,
        arrIndexOf filling.vertices x2⟩] } := by
    unfold closeHole3
    rw [hs]
    rfl
  simp only [List.nodup_cons, List.mem_cons, List.mem_singleton, not_or, List.not_mem_nil,
    not_false_eq_true, List.nodup_nil, and_true] at hnd
  obtain ⟨⟨h01, h02⟩, h12⟩ := hnd
  have m0 := hsub x0 (by simp)
  have m1 := hsub x1 (by simp)
  have m2 := hsub x2 (by simp)
  rw [hcl]
  intro a b hab
  have hp := hpar a b hab
  simp only [indicesOf, hs, List.map_cons, List.map_nil] at hp ⊢
  rw [edgeCount_append]
  refine parity_close _ _ _ _ hp ?_
  exact loopEdge_three _ _ _ a b (arrIndexOf_inj _ _ _ m0 m1 h01)
    (arrIndexOf_inj _ _ _ m0 m2 h02) (arrIndexOf_inj _ _ _ m1 m2 h12) hab

/-- The two triangles of `closeHole4` and the edge parity. -/
theorem closeHole4_edge_parity (hole : List Vector3) (front filling : Geometry)
    (hnd : front.vertices.Nodup) (hsub : ∀ u ∈ front.vertices, u ∈ filling.vertices)
    (h4 : front.vertices.length = 4) (hpar : EdgeParity hole front filling) :
    HoleParity hole (closeHole4 front filling) := by
  obtain ⟨x0, l, hs0⟩ := List.exists_cons_of_length_eq_add_one h4
  have hl : l.length = 3 := by
    rw [hs0] at h4
    simpa using h4
  obtain ⟨x1, x2, x3, hs1⟩ := List.length_eq_three.1 hl
  have hs : front.vertices = [x0, x1, x2, x3] := by rw [hs0, hs1]
  rw [hs] at hnd hsub
  have hcl : closeHole4 front filling = { filling with faces := filling.faces ++
      [⟨arrIndexOf filling.vertices x3, arrIndexOf filling.vertices x2,
        arrIndexOf filling.vertices x0⟩,
       ⟨arrIndexOf filling.vertices x1, arrIndexOf filling.vertices x0,
        arrIndexOf filling.vertices x2⟩] } := by
    unfold closeHole4
    rw [hs]
    rfl
  simp only [List.nodup_cons, List.mem_cons, List.mem_singleton, not_or, List.not_mem_nil,
    not_false_eq_true, List.nodup_nil, and_true] at hnd
  obtain ⟨⟨h01, h02, h03⟩, ⟨h12, h13⟩, h23⟩ := hnd
  have m0 := hsub x0 (by simp)
  have m1 := hsub x1 (by simp)
  have m2 := hsub x2 (by simp)
  have m3 := hsub x3 (by simp)
  rw [hcl]
  intro a b hab
  have hp := hpar a b hab
  simp only [indicesOf, hs, List.map_cons, List.map_nil] at hp ⊢
  rw [show filling.faces ++ [(⟨arrIndexOf filling.vertices x3, arrIndexOf filling.vertices x2,
        arrIndexOf filling.vertices x0⟩ : Face3),
       ⟨arrIndexOf filling.vertices x1, arrIndexOf filling.vertices x0,
        arrIndexOf filling.vertices x2⟩]
      = (filling.faces ++ [⟨arrIndexOf filling.vertices x3, arrIndexOf filling.vertices x2,
        arrIndexOf filling.vertices x0⟩])
        ++ [⟨arrIndexOf filling.vertices x1, arrIndexOf filling.vertices x0,
        arrIndexOf filling.vertices x2⟩] by simp,
    edgeCount_append, edgeCount_append]
  refine parity_close _ _ _ _ (parity_step _ _ _ _ _ hp Iff.rfl) (xor_close _ _ _ ?_)
  exact loopEdge_four _ _ _ _ a b (arrIndexOf_inj _ _ _ m0 m1 h01)
    (arrIndexOf_inj _ _ _ m0 m2 h02) (arrIndexOf_inj _ _ _ m0 m3 h03)
    (arrIndexOf_inj _ _ _ m1 m2 h12) (arrIndexOf_inj _ _ _ m1 m3 h13)
    (arrIndexOf_inj _ _ _ m2 m3 h23) hab

/-- The split of a front at a corner, with the facts about it in the split form. -/
theorem corner_setup (hole : List Vector3) (front filling : Geometry) (vp v vn : Vector3)
    (hnd : front.vertices.Nodup) (hsub : ∀ u ∈ front.vertices, u ∈ filling.vertices)
    (h3 : 3 ≤ front.vertices.length) (hc : IsCorner front.vertices vp v vn)
    (hpar : EdgeParity hole front filling) :
    ∃ l1 l2, (l1 ++ v :: l2).Nodup ∧ (∀ u ∈ l1 ++ v :: l2, u ∈ filling.vertices) ∧
      (l1 ++ v :: l2).length = front.vertices.length ∧ IsCorner (l1 ++ v :: l2) vp v vn ∧
      EdgeParity hole ⟨l1 ++ v :: l2, []⟩ ⟨filling.vertices, filling.faces⟩ ∧
      arrSplice1 front.vertices (arrIndexOf front.vertices v) = l1 ++ l2 ∧
      (∀ w, arrSet front.vertices (arrIndexOf front.vertices v) w = l1 ++ w :: l2) ∧
      (∀ w, arrSpliceIns front.vertices (arrIndexOf front.vertices v + 1) w
        = l1 ++ v :: w :: l2) ∧
      vp ∈ filling.vertices ∧ v ∈ filling.vertices ∧ vn ∈ filling.vertices := by
  obtain ⟨hvp, hv, hvn, -⟩ := corner_distinct front.vertices vp v vn hnd h3 hc
  obtain ⟨l1, l2, hs, -, hsp, hset, hins⟩ := front_split front.vertices v hv
  refine ⟨l1, l2, hs ▸ hnd, hs ▸ hsub, by rw [hs], hs ▸ hc, ?_, hsp, hset, hins,
    hsub vp hvp, hsub v hv, hsub vn hvn⟩
  intro a b hab
  have hp := hpar a b hab
  simp only [indicesOf] at hp ⊢
  rw [hs] at hp
  exact hp

/-- C26, with the bounds on the front that the equation needs: for a duplicate-free
front whose vertices are all in `filling.vertices`, a hole loop whose vertices are
all in `filling.vertices`, and a corner `(vp, v, vn)` of the front, the equation
"an undirected edge lies in an odd number of filling faces exactly if it is in the
symmetric difference of the edge set of the hole loop and the cyclic edge set of
the front" is preserved by a successful `afRule1` on a front of at least 4
vertices and by a successful `afRule2` and `afRule3` on a front of at least 3
vertices (the new vertex being a fresh object); `closeHole3` on a front of 3 and
`closeHole4` on a front of 4 vertices turn it into "an undirected edge lies in an
odd number of filling faces exactly if it is an edge of the hole loop". -/
theorem rules_preserve_edge_parity (E : Env) (hole : List Vector3) (front filling : Geometry)
    (vp v vn : Vector3)
    (hnd : front.vertices.Nodup) (hsub : ∀ u ∈ front.vertices, u ∈ filling.vertices)
    (hhole : ∀ u ∈ hole, u ∈ filling.vertices)
    (hc : IsCorner front.vertices vp v vn)
    (hpar : EdgeParity hole front filling) :
    (∀ res, 4 ≤ front.vertices.length → afRule1 E front filling vp v vn = Except.ok res →
      res.ok = true → EdgeParity hole res.front res.filling) ∧
    (∀ ref res, 3 ≤ front.vertices.length → (∀ u ∈ filling.vertices, u.ref ≠ ref) →
      afRule2 E front filling vp v vn ref = Except.ok res → res.vNew.isSome →
      EdgeParity hole res.front res.filling) ∧
    (∀ angle ref res, 3 ≤ front.vertices.length → (∀ u ∈ filling.vertices, u.ref ≠ ref) →
      afRule3 E front filling vp v vn angle ref = Except.ok res → res.vNew.isSome →
      EdgeParity hole res.front res.filling) ∧
    (front.vertices.length = 3 → HoleParity hole (closeHole3 front filling)) ∧
    (front.vertices.length = 4 → HoleParity hole (closeHole4 front filling)) := by
  refine ⟨?_, ?_, ?_, fun h3 => closeHole3_edge_parity hole front filling hnd hsub h3 hpar,
    fun h4 => closeHole4_edge_parity hole front filling hnd hsub h4 hpar⟩
  · intro res h4 h hok
    obtain ⟨l1, l2, hnd1, hsub1, hlen, hc1, hpar1, hsp, -, -, -, -, -⟩ :=
      corner_setup hole front filling vp v vn hnd hsub (by omega) hc hpar
    have key := remove_edge_parity hole filling.vertices l1 l2 filling.faces vp v vn hnd1 hsub1
      (by omega) hc1 hpar1
    unfold afRule1 at h
    simp only at h
    split at h
    · cases h
    · cases h; simp at hok
    · cases h
      simp only [hsp]
      exact key
  · intro ref res h3 hfresh h hsome
    obtain ⟨l1, l2, hnd1, hsub1, hlen, hc1, hpar1, -, hset, -, hvp, hv, hvn⟩ :=
      corner_setup hole front filling vp v vn hnd hsub h3 hc hpar
    have hw : ({ E.rule2Point vp v vn with ref := ref } : Vector3) ∉ filling.vertices :=
      fun hm => hfresh _ hm rfl
    have key := replace_edge_parity hole filling.vertices l1 l2 filling.faces vp v vn _ hnd1
      hsub1 hhole hw (by omega) hc1 hpar1
    unfold afRule2 at h
    simp only at h
    split at h
    · cases h
    · cases h; simp at hsome
    · cases h
      simp only [hset, arrIndexOf_append _ _ _ hvp, arrIndexOf_append _ _ _ hv,
        arrIndexOf_append _ _ _ hvn, List.length_append, List.length_singleton,
        Nat.cast_add, Nat.cast_one, add_sub_cancel_right]
      exact key
  · intro angle ref res h3 hfresh h hsome
    obtain ⟨l1, l2, hnd1, hsub1, hlen, hc1, hpar1, -, -, hins, hvp, hv, hvn⟩ :=
      corner_setup hole front filling vp v vn hnd hsub h3 hc hpar
    have hw : keepNearPlane E v vn { E.rule3Point vp v vn angle with ref := ref }
        ∉ filling.vertices :=
      fun hm => hfresh _ hm (keepNearPlane_ref E v vn _)
    have key := insert_edge_parity hole filling.vertices l1 l2 filling.faces vp v vn _ hnd1
      hsub1 hhole hw (by omega) hc1 hpar1
    unfold afRule3 at h
    simp only at h
    split at h
    · cases h
    · cases h; simp at hsome
    · cases h
      simp only [hins, arrIndexOf_append _ _ _ hv,
        arrIndexOf_append _ _ _ hvn, List.length_append, List.length_singleton,
        Nat.cast_add, Nat.cast_one, add_sub_cancel_right]
      exact key

/-- An instance of C26 on the loop of five vertices: Rule 1 at the second corner
of the untouched front keeps the equation of the edge parity. -/
theorem rules_preserve_edge_parity_witness :
    ∃ res, afRule1 envSixty ⟨hole5, []⟩ ⟨hole5, []⟩ (vtx 0 0 0) (vtx 1 2 0) (vtx 2 3 1)
        = Except.ok res ∧ res.ok = true ∧ EdgeParity hole5 res.front res.filling :=
  ⟨_, rfl, rfl,
    (rules_preserve_edge_parity envSixty hole5 ⟨hole5, []⟩ ⟨hole5, []⟩
      (vtx 0 0 0) (vtx 1 2 0) (vtx 2 3 1) (by decide) (fun _ h => h) (fun _ h => h)
      ⟨1, by decide, rfl, rfl, rfl⟩ (edgeParity_start hole5)).1 _ (by decide) rfl rfl⟩

/-- A counterexample to C26 as stated: on the duplicate-free front of the three
vertices of `hole3`, which is the hole loop and the vertex list of a filling without
faces, the equation of the edge parity holds; `afRule1` at the corner of the second
vertex succeeds and breaks it: the edge between the indices 0 and 2 lies in one
face, and it is an edge of the hole loop and of the front of two vertices. -/
theorem afRule1_breaks_edge_parity_of_triangle :
    hole3.Nodup ∧ IsCorner hole3 (vtx 0 0 0) (vtx 1 2 0) (vtx 2 3 1) ∧
    EdgeParity hole3 ⟨hole3, []⟩ ⟨hole3, []⟩ ∧
    ∃ res, afRule1 envSixty ⟨hole3, []⟩ ⟨hole3, []⟩ (vtx 0 0 0) (vtx 1 2 0) (vtx 2 3 1)
        = Except.ok res ∧ res.ok = true ∧ res.front.vertices = [vtx 0 0 0, vtx 2 3 1] ∧
      res.filling.faces = [⟨1, 0, 2⟩] ∧ edgeCount res.filling.faces 0 2 = 1 ∧
      loopEdge (indicesOf res.filling hole3) 0 2 ∧
      loopEdge (indicesOf res.filling res.front.vertices) 0 2 ∧
      ¬ EdgeParity hole3 res.front res.filling := by
  refine ⟨by decide, ⟨1, by decide, rfl, rfl, rfl⟩, edgeParity_start hole3, _, rfl, rfl, rfl,
    rfl, by decide, by decide, by decide, ?_⟩
  intro h
  have h02 := h 0 2 (by decide)
  revert h02
  unfold Xor'
  decide

/-! ## Loops that `mergeVertices` shrinks (C5, C9, C10, C24) -/

/-- The key `roundKey` is `Math.round( x * 10000 )`: the floor of `x * 10000 + 1/2`. -/
theorem roundKey_eq_floor (x : ℚ) : roundKey x = ⌊x * 10000 + 1 / 2⌋ := by
  have key : ∀ (n : ℤ) (d : ℕ), 0 < d →
      ((n : ℚ) / d) * 10000 + 1 / 2 = ((20000 * n + d : ℤ) : ℚ) / ((2 * d : ℕ) : ℚ) := by
    intro n d hd
    have hd0 : (d : ℚ) ≠ 0 := by exact_mod_cast (Nat.pos_iff_ne_zero.1 hd)
    push_cast
    field_simp
    ring
  have hx : x * 10000 + 1 / 2 = ((x.num : ℚ) / x.den) * 10000 + 1 / 2 := by
    rw [Rat.num_div_den]
  rw [hx, key x.num x.den x.den_pos, Rat.floor_intCast_div_natCast]
  unfold roundKey
  push_cast
  rfl

/-- The second vertex of `holeNear3` and `holeNear4` is at x = 0.00001. -/
theorem mkRat_near : mkRat 1 100000 = 1 / 100000 := by
  rw [Rat.mkRat_eq_div]
  norm_num

/-- A counterexample to C9 as stated: the four vertices of `holeNear4` are pairwise
distinct, also by their positions, but the second is within 0.00001 of the first:
`mergeVertices` leaves three of them, and `afmStart` closes the hole in its first
round by `closeHole3`: the filling has one face and three vertices. -/
theorem afmStart_four_close_vertices :
    holeNear4.length = 4 ∧ (holeNear4.map (fun v => (v.x, v.y, v.z))).Nodup ∧
    (afmStart envKeys holeNear4 1).toOption.join.map
        (fun s => (s.count, s.filling.vertices, s.filling.faces))
      = some (1, [⟨0, 0, 0, 0⟩, ⟨2, 1, 0, 0⟩, ⟨3, 1, 1, 0⟩], [⟨1, 0, 2⟩]) := by
  refine ⟨rfl, by decide, by decide⟩

/-- A counterexample to C24 as stated: the three vertices of `holeNear3` are
pairwise distinct, also by their positions, but `mergeVertices` leaves two of
them: the front has 2 vertices at the head of the first round of the main loop and
1 vertex at the head of the second, which leaves the loop by the length-1 branch. -/
theorem afmInit_close_vertices_front_of_two :
    3 ≤ holeNear3.length ∧ (holeNear3.map (fun v => (v.x, v.y, v.z))).Nodup ∧
    (afmInit envKeys holeNear3).toOption.map (fun s => s.front.vertices)
      = some [⟨0, 0, 0, 0⟩, ⟨2, 1, 0, 0⟩] ∧
    ((afmInit envKeys holeNear3).toOption.bind (stateAfter envKeys holeNear3 1)).map
        (fun s => s.front.vertices)
      = some [⟨2, 1, 0, 0⟩] := by
  refine ⟨by decide, by decide, by decide, by decide⟩

/-- A counterexample to C10 as stated: on the loop `holeNear3` of three distinct
vertices, of which `mergeVertices` leaves two, the only round that applies a rule
finds the Rule-1 queue non-empty and its Angle passes `isInHole`; no other queue is
popped; `afmStart` terminates with the vertex list `[v0, v2]`, which is not the
list of the 3 input vertices. -/
theorem afmStart_rule1_only_close_vertices :
    3 ≤ holeNear3.length ∧ holeNear3.Nodup ∧
    (afmInit envKeys holeNear3).toOption.map (fun s => ruleOneReady envKeys s) = some true ∧
    ((afmInit envKeys holeNear3).toOption.bind (stateAfter envKeys holeNear3 1)).map
        (fun s => s.front.vertices.length) = some 1 ∧
    (afmInit envKeys holeNear3).toOption.bind (stateAfter envKeys holeNear3 2) = none ∧
    (afmStart envKeys holeNear3 2).toOption.join.map
        (fun s => (s.filling.vertices, popCounts s.af))
      = some ([⟨0, 0, 0, 0⟩, ⟨2, 1, 0, 0⟩], (1, 0, 0, 0)) ∧
    (afmStart envKeys holeNear3 2).toOption.join.map (fun s => s.filling.vertices)
      ≠ some holeNear3 := by
  refine ⟨by decide, by decide, by decide, by decide, by decide, by decide, by decide⟩

/-- A counterexample to C5 as stated: the fill of the loop `holeNear3` of three
distinct vertices, of which `mergeVertices` leaves two, applies Rule 1 to a front
of two vertices and commits the face `(0, 1, 1)`, which references the vertex of
index 1 twice; it is in the filling `afmStart` returns. -/
theorem afmStart_close_vertices_degenerate_face :
    holeNear3.Nodup ∧
    ((afmInit envKeys holeNear3).toOption.bind (stateAfter envKeys holeNear3 1)).map
        (fun s => s.filling.faces) = some [⟨0, 1, 1⟩] ∧
    (afmStart envKeys holeNear3 2).toOption.join.map (fun s => s.filling.faces)
      = some [⟨0, 1, 1⟩] ∧
    ¬ (Face3.mk 0 1 1).Distinct := by
  refine ⟨by decide, by decide, by decide, by decide⟩

/-! ## The invariant of a fill (C4, C5) -/

theorem heapInsert_alloc (af af1 : AFState) (r : Nat)
    (h : heapInsert af r = Except.ok af1) : af1.alloc = af.alloc := by
  unfold heapInsert at h
  split at h
  · cases h
  · split_ifs at h <;> cases h <;> rfl

theorem heapRemove_alloc (af af1 : AFState) (r : Nat)
    (h : heapRemove af r = Except.ok af1) : af1.alloc = af.alloc := by
  unfold heapRemove at h
  split at h
  · cases h
  · split_ifs at h <;> cases h <;> rfl

theorem deref_eq_ok {α : Type} (o : Option α) (a : α) (h : deref o = Except.ok a) :
    o = some a := by
  cases o with
  | none => cases h
  | some x => cases h; rfl

/-- The entries of a front at a position and at the positions cyclically before
and after it form a corner. -/
theorem isCorner_getD (front : List Vector3) (i : Nat) (hi : i < front.length) :
    IsCorner front (front.getD (cycPrev front.length i) default) (front.getD i default)
      (front.getD (cycNext front.length i) default) := by
  obtain ⟨hp, hn⟩ := cyc_lt front.length i (by omega) hi
  have hmod : (i + 1) % front.length = cycNext front.length i := by
    unfold cycNext
    split
    · rename_i h; exact Nat.mod_eq_of_lt h
    · rename_i h
      have : i + 1 = front.length := by omega
      rw [this, Nat.mod_self]
  refine ⟨i, hi, ?_, ?_, ?_⟩
  · rw [List.getD_eq_getElem _ _ hi, List.getElem?_eq_getElem hi]
  · have : (if i = 0 then front.length - 1 else i - 1) = cycPrev front.length i := rfl
    rw [this, List.getD_eq_getElem _ _ hp, List.getElem?_eq_getElem hp]
  · rw [hmod, List.getD_eq_getElem _ _ hn, List.getElem?_eq_getElem hn]

/-- What `applyRule1` does, read off its code: it pops the Rule-1 queue, runs
`afRule1` on the triple of the popped Angle and hands on its front and filling. -/
theorem applyRule1_parts (E : Env) (af : AFState) (front filling : Geometry)
    (res : ApplyResult) (h : applyRule1 E af front filling = Except.ok res) :
    ∃ r angle res1, (af.HEAP_RULE_1.removeFirst).1 = some r ∧ af.angles[r]? = some angle ∧
      afRule1 E front filling angle.vertices.1 angle.vertices.2.1 angle.vertices.2.2
        = Except.ok res1 ∧
      res.front = res1.front ∧ res.filling = res1.filling ∧ res.vNew = none ∧
      res.af.alloc = af.alloc := by
  unfold applyRule1 at h
  simp only [bind_eq_ok] at h
  obtain ⟨r, hr, angle, ha, res1, hres1, h⟩ := h
  rw [angle_eq_ok] at ha
  refine ⟨r, angle, res1, deref_eq_ok _ _ hr, ha, hres1, ?_⟩
  split at h
  · simp only [bind_eq_ok] at h
    obtain ⟨p, -, af1, h1, af2, h2, n, -, af3, h3, af4, h4, h⟩ := h
    cases h
    refine ⟨rfl, rfl, rfl, ?_⟩
    simp only
    rw [heapInsert_alloc _ _ _ h4]
    show af3.alloc = af.alloc
    rw [heapRemove_alloc _ _ _ h3]
    show af2.alloc = af.alloc
    rw [heapInsert_alloc _ _ _ h2]
    show af1.alloc = af.alloc
    rw [heapRemove_alloc _ _ _ h1]
  · cases h
    exact ⟨rfl, rfl, rfl, rfl⟩

/-- What `applyRule2` does, read off its code. -/
theorem applyRule2_parts (E : Env) (af : AFState) (front filling : Geometry)
    (res : ApplyResult) (h : applyRule2 E af front filling = Except.ok res) :
    ∃ r angle res1, (af.HEAP_RULE_2.removeFirst).1 = some r ∧ af.angles[r]? = some angle ∧
      afRule2 E front filling angle.vertices.1 angle.vertices.2.1 angle.vertices.2.2 af.alloc
        = Except.ok res1 ∧
      res.front = res1.front ∧ res.filling = res1.filling ∧ res.vNew = res1.vNew ∧
      res.af.alloc = af.alloc + 1 := by
  unfold applyRule2 at h
  simp only [bind_eq_ok] at h
  obtain ⟨r, hr, angle, ha, res1, hres1, h⟩ := h
  rw [angle_eq_ok] at ha
  refine ⟨r, angle, res1, deref_eq_ok _ _ hr, ha, hres1, ?_⟩
  split at h
  · rename_i w hw
    simp only [bind_eq_ok] at h
    obtain ⟨af1, h1, p, -, af2, h2, af3, h3, n, -, af4, h4, af5, h5, h⟩ := h
    cases h
    refine ⟨rfl, rfl, hw.symm, ?_⟩
    simp only
    rw [heapInsert_alloc _ _ _ h5]
    show af4.alloc = af.alloc + 1
    rw [heapRemove_alloc _ _ _ h4]
    show af3.alloc = af.alloc + 1
    rw [heapInsert_alloc _ _ _ h3]
    show af2.alloc = af.alloc + 1
    rw [heapRemove_alloc _ _ _ h2]
    show af1.alloc = af.alloc + 1
    rw [heapInsert_alloc _ _ _ h1]
    rfl
  · rename_i hw
    cases h
    exact ⟨rfl, rfl, hw.symm, rfl⟩

/-- What `applyRule3` does, read off its code. -/
theorem applyRule3_parts (E : Env) (af : AFState) (front filling : Geometry)
    (res : ApplyResult) (h : applyRule3 E af front filling = Except.ok res) :
    ∃ r angle res1, (af.HEAP_RULE_3.removeFirst).1 = some r ∧ af.angles[r]? = some angle ∧
      afRule3 E front filling angle.vertices.1 angle.vertices.2.1 angle.vertices.2.2
        angle.degree af.alloc = Except.ok res1 ∧
      res.front = res1.front ∧ res.filling = res1.filling ∧ res.vNew = res1.vNew ∧
      res.af.alloc = af.alloc + 1 := by
  unfold applyRule3 at h
  simp only [bind_eq_ok] at h
  obtain ⟨r, hr, angle, ha, res1, hres1, h⟩ := h
  rw [angle_eq_ok] at ha
  refine ⟨r, angle, res1, deref_eq_ok _ _ hr, ha, hres1, ?_⟩
  split at h
  · rename_i w hw
    simp only [bind_eq_ok] at h
    obtain ⟨af1, h1, n, -, af2, h2, af3, h3, af4, h4, h⟩ := h
    cases h
    refine ⟨rfl, rfl, hw.symm, ?_⟩
    simp only
    rw [heapInsert_alloc _ _ _ h4]
    show af3.alloc = af.alloc + 1
    rw [heapInsert_alloc _ _ _ h3]
    show af2.alloc = af.alloc + 1
    rw [heapRemove_alloc _ _ _ h2]
    show af1.alloc = af.alloc + 1
    rw [heapInsert_alloc _ _ _ h1]
  · rename_i hw
    cases h
    exact ⟨rfl, rfl, hw.symm, rfl⟩

theorem valid_succ (n : Nat) (f : Face3) (h : f.Valid n) : f.Valid (n + 1) := by
  obtain ⟨hd, ha, hb, hc⟩ := h
  refine ⟨hd, ⟨ha.1, ?_⟩, ⟨hb.1, ?_⟩, ⟨hc.1, ?_⟩⟩ <;> push_cast <;> omega

theorem afRule1_cases (E : Env) (front filling : Geometry) (vp v vn : Vector3)
    (res : Rule1Result) (h : afRule1 E front filling vp v vn = Except.ok res) :
    (res.front = front ∧ res.filling = filling) ∨
    (res.front = { front with
        vertices := arrSplice1 front.vertices (arrIndexOf front.vertices v) } ∧
      res.filling = { filling with faces := filling.faces ++
        [⟨arrIndexOf filling.vertices v, arrIndexOf filling.vertices vp,
          arrIndexOf filling.vertices vn⟩] }) := by
  unfold afRule1 at h
  simp only at h
  split at h
  · cases h
  · cases h; exact Or.inl ⟨rfl, rfl⟩
  · cases h; exact Or.inr ⟨rfl, rfl⟩

theorem afRule2_cases (E : Env) (front filling : Geometry) (vp v vn : Vector3) (ref : Nat)
    (res : RuleResult) (h : afRule2 E front filling vp v vn ref = Except.ok res)
    (hvp : vp ∈ filling.vertices) (hv : v ∈ filling.vertices) (hvn : vn ∈ filling.vertices) :
    (res.vNew = none ∧ res.front = front ∧ res.filling = filling) ∨
    (∃ w, w.ref = ref ∧ res.vNew = some w ∧
      res.front = { front with
        vertices := arrSet front.vertices (arrIndexOf front.vertices v) w } ∧
      res.filling = ⟨filling.vertices ++ [w], filling.faces ++
        [⟨arrIndexOf filling.vertices v, arrIndexOf filling.vertices vp,
            filling.vertices.length⟩,
          ⟨arrIndexOf filling.vertices v, filling.vertices.length,
            arrIndexOf filling.vertices vn⟩]⟩) := by
  unfold afRule2 at h
  simp only at h
  split at h
  · cases h
  · cases h; exact Or.inl ⟨rfl, rfl, rfl⟩
  · cases h
    refine Or.inr ⟨_, rfl, rfl, rfl, ?_⟩
    simp only [arrIndexOf_append _ _ _ hvp, arrIndexOf_append _ _ _ hv,
      arrIndexOf_append _ _ _ hvn, List.length_append, List.length_singleton,
      Nat.cast_add, Nat.cast_one, add_sub_cancel_right]

theorem afRule3_cases (E : Env) (front filling : Geometry) (vp v vn : Vector3) (angle : ℚ)
    (ref : Nat) (res : RuleResult)
    (h : afRule3 E front filling vp v vn angle ref = Except.ok res)
    (hv : v ∈ filling.vertices) (hvn : vn ∈ filling.vertices) :
    (res.vNew = none ∧ res.front = front ∧ res.filling = filling) ∨
    (∃ w, w.ref = ref ∧ res.vNew = some w ∧
      res.front = { front with
        vertices := arrSpliceIns front.vertices (arrIndexOf front.vertices v + 1) w } ∧
      res.filling = ⟨filling.vertices ++ [w], filling.faces ++
        [⟨arrIndexOf filling.vertices vn, arrIndexOf filling.vertices v,
            filling.vertices.length⟩]⟩) := by
  unfold afRule3 at h
  simp only at h
  split at h
  · cases h
  · cases h; exact Or.inl ⟨rfl, rfl, rfl⟩
  · cases h
    refine Or.inr ⟨_, keepNearPlane_ref E v vn _, rfl, rfl, ?_⟩
    simp only [arrIndexOf_append _ _ _ hv,
      arrIndexOf_append _ _ _ hvn, List.length_append, List.length_singleton,
      Nat.cast_add, Nat.cast_one, add_sub_cancel_right]

/-- The Angle a queue hands out is the Angle of a corner of the front. -/
theorem popped_corner (E : Env) (af : AFState) (front : List Vector3) (ring : List Nat)
    (id : HeapId) (r : Nat) (angle : Angle) (hring : RingOk E af front ring)
    (hq : QueuesOk af ring) (_hn : 3 ≤ front.length)
    (hpop : (af.heap id).removeFirst.1 = some r) (hang : af.angles[r]? = some angle) :
    ∃ i, i < front.length ∧ ring.getD i 0 = r ∧
      angle.vertices.1 = front.getD (cycPrev front.length i) default ∧
      angle.vertices.2.1 = front.getD i default ∧
      angle.vertices.2.2 = front.getD (cycNext front.length i) default ∧
      IsCorner front angle.vertices.1 angle.vertices.2.1 angle.vertices.2.2 := by
  obtain ⟨hrl, -, -⟩ := queuesOk_pop af ring id r hq hpop
  obtain ⟨i, hi, hir⟩ := ring_mem ring r hrl
  obtain ⟨hlen, -, hall⟩ := hring
  rw [hlen] at hi
  rw [← hir, hall i hi] at hang
  cases hang
  exact ⟨i, hi, hir, rfl, rfl, rfl, isCorner_getD front i hi⟩

theorem applyRule1_fill (E : Env) (af : AFState) (front filling : Geometry)
    (res : ApplyResult) (ring : List Nat) (hok : FillOk E af front filling ring)
    (hn : 3 ≤ front.vertices.length)
    (h : applyRule1 E af front filling = Except.ok res) :
    res.vNew = none ∧
    ((res.front = front ∧ res.filling = filling ∧ FillOk E res.af front filling ring) ∨
      ∃ l1 l2 vp v vn ring1, front.vertices = l1 ++ v :: l2 ∧
        IsCorner front.vertices vp v vn ∧ res.front.vertices = l1 ++ l2 ∧
        res.filling = ⟨filling.vertices, filling.faces ++
          [⟨arrIndexOf filling.vertices v, arrIndexOf filling.vertices vp,
            arrIndexOf filling.vertices vn⟩]⟩ ∧
        FillOk E res.af res.front res.filling ring1) := by
  obtain ⟨hnd, hsub, hfnd, hfresh, hring, hq, hfaces⟩ := hok
  obtain ⟨r, angle, res1, hpop, hang, hres1, hfront, hfill, hnew, halloc⟩ :=
    applyRule1_parts E af front filling res h
  refine ⟨hnew, ?_⟩
  by_cases hsame : res.filling.faces = filling.faces
  · obtain ⟨e1, e2, e3, e4⟩ := applyRule1_fail_inv E af front filling res ring hq h hsame
    refine Or.inl ⟨e1, e2, hnd, hsub, hfnd, ?_, ringOk_of_angles E af res.af _ _ e3 hring, e4,
      hfaces⟩
    rw [halloc]
    exact hfresh
  · obtain ⟨i, hi, -, hfr, hring1, hq1⟩ :=
      applyRule1_inv E af front filling res ring hring hq hn hnd h hsame
    obtain ⟨i0, -, -, -, -, -, hc⟩ := popped_corner E af front.vertices ring HeapId.rule1 r
      angle hring hq hn hpop hang
    obtain ⟨hvp, hv, hvn, d1, d2, d3⟩ := corner_distinct front.vertices _ _ _ hnd hn hc
    obtain ⟨l1, l2, hs, -, hsp, -, -⟩ := front_split front.vertices angle.vertices.2.1 hv
    rcases afRule1_cases E front filling _ _ _ res1 hres1 with ⟨-, g2⟩ | ⟨g1, g2⟩
    · exact absurd (by rw [hfill, g2]) hsame
    · have hfv : res.front.vertices = l1 ++ l2 := by rw [hfront, g1]; exact hsp
      have hfl : res.filling = ⟨filling.vertices, filling.faces ++
          [⟨arrIndexOf filling.vertices angle.vertices.2.1,
            arrIndexOf filling.vertices angle.vertices.1,
            arrIndexOf filling.vertices angle.vertices.2.2⟩]⟩ := by rw [hfill, g2]
      refine Or.inr ⟨l1, l2, _, _, _, ring.eraseIdx i, hs, hc, hfv, hfl, ?_, ?_, ?_, ?_,
        hring1, hq1, ?_⟩
      · rw [hfr]
        exact hnd.sublist (List.eraseIdx_sublist _ _)
      · intro u hu
        rw [hfr] at hu
        rw [hfl]
        exact hsub u (List.mem_of_mem_eraseIdx hu)
      · rw [hfl]; exact hfnd
      · rw [hfl, halloc]; exact hfresh
      · rw [hfl]
        intro f hf
        rcases List.mem_append.1 hf with hf | hf
        · exact hfaces f hf
        · rw [List.mem_singleton] at hf
          subst hf
          exact face_valid_of_mem filling.vertices _ _ _ (hsub _ hv) (hsub _ hvp)
            (hsub _ hvn) (Ne.symm d1) d2 d3

theorem nodup_replace (l1 l2 : List Vector3) (v w : Vector3)
    (hnd : (l1 ++ v :: l2).Nodup) (hw : w ∉ l1 ++ v :: l2) : (l1 ++ w :: l2).Nodup := by
  rw [List.nodup_middle] at hnd ⊢
  rw [List.nodup_cons] at hnd ⊢
  refine ⟨fun h => hw ?_, hnd.2⟩
  rcases List.mem_append.1 h with h | h
  · exact List.mem_append_left _ h
  · exact List.mem_append_right _ (List.mem_cons_of_mem _ h)

theorem nodup_insert (l1 l2 : List Vector3) (v w : Vector3)
    (hnd : (l1 ++ v :: l2).Nodup) (hw : w ∉ l1 ++ v :: l2) :
    (l1 ++ v :: w :: l2).Nodup := by
  have h1 : (l1 ++ v :: w :: l2) = (l1 ++ [v]) ++ w :: l2 := by simp
  have h2 : (l1 ++ v :: l2) = (l1 ++ [v]) ++ l2 := by simp
  rw [h1, List.nodup_middle, List.nodup_cons, ← h2]
  exact ⟨hw, hnd⟩

theorem applyRule2_fill (E : Env) (af : AFState) (front filling : Geometry)
    (res : ApplyResult) (ring : List Nat) (hok : FillOk E af front filling ring)
    (hn : 3 ≤ front.vertices.length)
    (h : applyRule2 E af front filling = Except.ok res) :
    (res.vNew = none ∧ res.front = front ∧ res.filling = filling ∧
      FillOk E res.af front filling ring) ∨
    ∃ l1 l2 vp v vn w ring1, front.vertices = l1 ++ v :: l2 ∧
      IsCorner front.vertices vp v vn ∧ w ∉ filling.vertices ∧ res.vNew = some w ∧
      res.front.vertices = l1 ++ w :: l2 ∧
      res.filling = ⟨filling.vertices ++ [w], filling.faces ++
        [⟨arrIndexOf filling.vertices v, arrIndexOf filling.vertices vp,
            filling.vertices.length⟩,
          ⟨arrIndexOf filling.vertices v, filling.vertices.length,
            arrIndexOf filling.vertices vn⟩]⟩ ∧
      FillOk E res.af res.front res.filling ring1 := by
  obtain ⟨hnd, hsub, hfnd, hfresh, hring, hq, hfaces⟩ := hok
  obtain ⟨r, angle, res1, hpop, hang, hres1, hfront, hfill, hnew, halloc⟩ :=
    applyRule2_parts E af front filling res h
  obtain ⟨i0, -, -, -, -, -, hc⟩ := popped_corner E af front.vertices ring HeapId.rule2 r
    angle hring hq hn hpop hang
  obtain ⟨hvp, hv, hvn, d1, d2, d3⟩ := corner_distinct front.vertices _ _ _ hnd hn hc
  rcases afRule2_cases E front filling _ _ _ _ res1 hres1 (hsub _ hvp) (hsub _ hv)
    (hsub _ hvn) with ⟨g0, -, -⟩ | ⟨w, hwref, g0, g1, g2⟩
  · have hnone : res.vNew = none := by rw [hnew, g0]
    obtain ⟨e1, e2, e3, e4⟩ := applyRule2_fail_inv E af front filling res ring hq h hnone
    refine Or.inl ⟨hnone, e1, e2, hnd, hsub, hfnd, ?_,
      ringOk_of_angles E af res.af _ _ e3 hring, e4, hfaces⟩
    intro u hu
    rw [halloc]
    exact Nat.lt_succ_of_lt (hfresh u hu)
  · have hsome : res.vNew = some w := by rw [hnew, g0]
    obtain ⟨i, hi, -, hfr, hring1, hq1⟩ :=
      applyRule2_inv E af front filling res ring w hring hq hn hnd h hsome
    obtain ⟨l1, l2, hs, -, -, hset, -⟩ := front_split front.vertices angle.vertices.2.1 hv
    have hwF : w ∉ filling.vertices := by
      intro hm
      have := hfresh w hm
      omega
    have hwf : w ∉ l1 ++ angle.vertices.2.1 :: l2 := by
      rw [← hs]
      exact fun hm => hwF (hsub w hm)
    have hfv : res.front.vertices = l1 ++ w :: l2 := by rw [hfront, g1]; exact hset w
    have hfl : res.filling = ⟨filling.vertices ++ [w], filling.faces ++
        [⟨arrIndexOf filling.vertices angle.vertices.2.1,
            arrIndexOf filling.vertices angle.vertices.1, filling.vertices.length⟩,
          ⟨arrIndexOf filling.vertices angle.vertices.2.1, filling.vertices.length,
            arrIndexOf filling.vertices angle.vertices.2.2⟩]⟩ := by rw [hfill, g2]
    have r1 := arrIndexOf_range filling.vertices _ (hsub _ hvp)
    have r2 := arrIndexOf_range filling.vertices _ (hsub _ hv)
    have r3 := arrIndexOf_range filling.vertices _ (hsub _ hvn)
    have i12 := arrIndexOf_inj filling.vertices _ _ (hsub _ hvp) (hsub _ hv) d1
    have i23 := arrIndexOf_inj filling.vertices _ _ (hsub _ hv) (hsub _ hvn) d2
    refine Or.inr ⟨l1, l2, _, _, _, w, ring, hs, hc, hwF, hsome, hfv, hfl, ?_, ?_, ?_, ?_,
      hring1, hq1, ?_⟩
    · rw [hfv]
      exact nodup_replace l1 l2 _ w (hs ▸ hnd) hwf
    · intro u hu
      rw [hfv] at hu
      rw [hfl]
      rcases List.mem_append.1 hu with hu | hu
      · exact List.mem_append_left _ (hsub u (hs ▸ List.mem_append_left _ hu))
      · rcases List.mem_cons.1 hu with hu | hu
        · subst hu; simp
        · exact List.mem_append_left _
            (hsub u (hs ▸ List.mem_append_right _ (List.mem_cons_of_mem _ hu)))
    · rw [hfl]
      simp only
      rw [List.nodup_append]
      refine ⟨hfnd, List.nodup_singleton _, ?_⟩
      intro a ha hb
      rw [List.mem_singleton] at hb
      exact hwF (hb ▸ ha)
    · rw [hfl, halloc]
      intro u hu
      rcases List.mem_append.1 hu with hu | hu
      · exact Nat.lt_succ_of_lt (hfresh u hu)
      · rw [List.mem_singleton] at hu
        subst hu
        omega
    · rw [hfl]
      simp only [List.length_append, List.length_singleton]
      intro f hf
      rcases List.mem_append.1 hf with hf | hf
      · exact valid_succ _ f (hfaces f hf)
      · simp only [List.mem_cons, List.mem_singleton, List.not_mem_nil, or_false] at hf
        rcases hf with hf | hf
        · subst hf
          refine ⟨⟨?_, ?_, ?_⟩, ⟨?_, ?_⟩, ⟨?_, ?_⟩, ⟨?_, ?_⟩⟩ <;>
            simp only [] <;> (push_cast; omega)
        · subst hf
          refine ⟨⟨?_, ?_, ?_⟩, ⟨?_, ?_⟩, ⟨?_, ?_⟩, ⟨?_, ?_⟩⟩ <;>
            simp only [] <;> (push_cast; omega)

theorem applyRule3_fill (E : Env) (af : AFState) (front filling : Geometry)
    (res : ApplyResult) (ring : List Nat) (hok : FillOk E af front filling ring)
    (hn : 3 ≤ front.vertices.length)
    (h : applyRule3 E af front filling = Except.ok res) :
    (res.vNew = none ∧ res.front = front ∧ res.filling = filling ∧
      FillOk E res.af front filling ring) ∨
    ∃ l1 l2 vp v vn w ring1, front.vertices = l1 ++ v :: l2 ∧
      IsCorner front.vertices vp v vn ∧ w ∉ filling.vertices ∧ res.vNew = some w ∧
      res.front.vertices = l1 ++ v :: w :: l2 ∧
      res.filling = ⟨filling.vertices ++ [w], filling.faces ++
        [⟨arrIndexOf filling.vertices vn, arrIndexOf filling.vertices v,
            filling.vertices.length⟩]⟩ ∧
      FillOk E res.af res.front res.filling ring1 := by
  obtain ⟨hnd, hsub, hfnd, hfresh, hring, hq, hfaces⟩ := hok
  obtain ⟨r, angle, res1, hpop, hang, hres1, hfront, hfill, hnew, halloc⟩ :=
    applyRule3_parts E af front filling res h
  obtain ⟨i0, -, -, -, -, -, hc⟩ := popped_corner E af front.vertices ring HeapId.rule3 r
    angle hring hq hn hpop hang
  obtain ⟨hvp, hv, hvn, d1, d2, d3⟩ := corner_distinct front.vertices _ _ _ hnd hn hc
  rcases afRule3_cases E front filling _ _ _ _ _ res1 hres1 (hsub _ hv)
    (hsub _ hvn) with ⟨g0, -, -⟩ | ⟨w, hwref, g0, g1, g2⟩
  · have hnone : res.vNew = none := by rw [hnew, g0]
    obtain ⟨e1, e2, e3, e4⟩ := applyRule3_fail_inv E af front filling res ring hq h hnone
    refine Or.inl ⟨hnone, e1, e2, hnd, hsub, hfnd, ?_,
      ringOk_of_angles E af res.af _ _ e3 hring, e4, hfaces⟩
    intro u hu
    rw [halloc]
    exact Nat.lt_succ_of_lt (hfresh u hu)
  · have hsome : res.vNew = some w := by rw [hnew, g0]
    obtain ⟨i, hi, -, hfr, hring1, hq1⟩ :=
      applyRule3_inv E af front filling res ring w hring hq hn hnd h hsome
    obtain ⟨l1, l2, hs, -, -, -, hins⟩ := front_split front.vertices angle.vertices.2.1 hv
    have hwF : w ∉ filling.vertices := by
      intro hm
      have := hfresh w hm
      omega
    have hwf : w ∉ l1 ++ angle.vertices.2.1 :: l2 := by
      rw [← hs]
      exact fun hm => hwF (hsub w hm)
    have hfv : res.front.vertices = l1 ++ angle.vertices.2.1 :: w :: l2 := by
      rw [hfront, g1]; exact hins w
    have hfl : res.filling = ⟨filling.vertices ++ [w], filling.faces ++
        [⟨arrIndexOf filling.vertices angle.vertices.2.2,
            arrIndexOf filling.vertices angle.vertices.2.1, filling.vertices.length⟩]⟩ := by
      rw [hfill, g2]
    have r2 := arrIndexOf_range filling.vertices _ (hsub _ hv)
    have r3 := arrIndexOf_range filling.vertices _ (hsub _ hvn)
    have i23 := arrIndexOf_inj filling.vertices _ _ (hsub _ hv) (hsub _ hvn) d2
    refine Or.inr ⟨l1, l2, _, _, _, w, _, hs, hc, hwF, hsome, hfv, hfl, ?_, ?_, ?_, ?_,
      hring1, hq1, ?_⟩
    · rw [hfv]
      exact nodup_insert l1 l2 _ w (hs ▸ hnd) hwf
    · intro u hu
      rw [hfv] at hu
      rw [hfl]
      rcases List.mem_append.1 hu with hu | hu
      · exact List.mem_append_left _ (hsub u (hs ▸ List.mem_append_left _ hu))
      · rcases List.mem_cons.1 hu with hu | hu
        · subst hu
          exact List.mem_append_left _ (hsub _ hv)
        · rcases List.mem_cons.1 hu with hu | hu
          · subst hu; simp
          · exact List.mem_append_left _
              (hsub u (hs ▸ List.mem_append_right _ (List.mem_cons_of_mem _ hu)))
    · rw [hfl]
      simp only
      rw [List.nodup_append]
      refine ⟨hfnd, List.nodup_singleton _, ?_⟩
      intro a ha hb
      rw [List.mem_singleton] at hb
      exact hwF (hb ▸ ha)
    · rw [hfl, halloc]
      intro u hu
      rcases List.mem_append.1 hu with hu | hu
      · exact Nat.lt_succ_of_lt (hfresh u hu)
      · rw [List.mem_singleton] at hu
        subst hu
        omega
    · rw [hfl]
      simp only [List.length_append, List.length_singleton]
      intro f hf
      rcases List.mem_append.1 hf with hf | hf
      · exact valid_succ _ f (hfaces f hf)
      · rw [List.mem_singleton] at hf
        subst hf
        refine ⟨⟨?_, ?_, ?_⟩, ⟨?_, ?_⟩, ⟨?_, ?_⟩, ⟨?_, ?_⟩⟩ <;>
          simp only [] <;> (push_cast; omega)

theorem initHeaps_cons (af : AFState) (r : Nat) (rest : List Nat) :
    initHeaps af (r :: rest) = (heapInsert af r >>= fun af1 => initHeaps af1 rest) := by
  unfold heapInsert
  rw [initHeaps]
  cases af.angle r with
  | error e => rfl
  | ok angle =>
    simp only [bind, Except.bind]
    split_ifs <;> rfl

theorem initHeaps_queues (l : List Nat) : ∀ (af af1 : AFState) (live : List Nat),
    QueuesOk af live → l.Nodup → (∀ r ∈ l, r ∉ live) → initHeaps af l = Except.ok af1 →
    QueuesOk af1 (l.reverse ++ live) ∧ af1.angles = af.angles ∧ af1.alloc = af.alloc := by
  induction l with
  | nil =>
    intro af af1 live hq _ _ h
    cases h
    exact ⟨hq, rfl, rfl⟩
  | cons r rest ih =>
    intro af af1 live hq hnd hl h
    rw [initHeaps_cons, bind_eq_ok] at h
    obtain ⟨af2, h2, h⟩ := h
    obtain ⟨hq2, ha2⟩ := queuesOk_heapInsert af af2 live r hq
      (hl r (List.mem_cons_self _ _)) h2
    have hnd1 := List.nodup_cons.1 hnd
    obtain ⟨hq1, ha1, hal1⟩ := ih af2 af1 (r :: live) hq2 hnd1.2 (by
      intro x hx hc
      rcases List.mem_cons.1 hc with hc | hc
      · exact hnd1.1 (hc ▸ hx)
      · exact hl x (List.mem_cons_of_mem _ hx) hc) h
    refine ⟨?_, ha1.trans ha2, hal1.trans (heapInsert_alloc af af2 r h2)⟩
    rw [List.reverse_cons, List.append_assoc]
    exact hq1

theorem foldl_max_le (l : List Nat) : ∀ init : Nat,
    init ≤ l.foldl max init ∧ ∀ x ∈ l, x ≤ l.foldl max init := by
  induction l with
  | nil => intro init; exact ⟨le_refl _, fun x hx => by cases hx⟩
  | cons y rest ih =>
    intro init
    obtain ⟨h1, h2⟩ := ih (max init y)
    rw [List.foldl_cons]
    refine ⟨le_trans (le_max_left _ _) h1, ?_⟩
    intro x hx
    rcases List.mem_cons.1 hx with hx | hx
    · rw [hx]; exact le_trans (le_max_right _ _) h1
    · exact h2 x hx

theorem lt_firstFree (vs : List Vector3) (u : Vector3) (hu : u ∈ vs) :
    u.ref < firstFree vs := by
  have := (foldl_max_le (vs.map (fun v => v.ref + 1)) 0).2 (u.ref + 1)
    (List.mem_map.2 ⟨u, hu, rfl⟩)
  unfold firstFree
  omega

theorem queuesOk_empty (af : AFState) (h : ∀ id, queued af id = []) : QueuesOk af [] := by
  intro id r
  rw [h id]
  simp

/-- The state before the first round: the front and the filling are the hole loop,
and the invariant of the fill holds with the Angles in the order of the loop. -/
theorem afmInit_fill (E : Env) (hole : List Vector3) (hne : hole ≠ [])
    (hkeys : (hole.map E.mergeKey).Nodup) :
    ∃ s, afmInit E hole = Except.ok s ∧ s.front = ⟨hole, []⟩ ∧ s.filling = ⟨hole, []⟩ ∧
      FillOk E s.af s.front s.filling (List.range hole.length) := by
  obtain ⟨angles, hca, hlen, hring⟩ := computeAngles_ring E
    { LAST_ITERATION := false
      HEAP_RULE_1 := Heap.create "1"
      HEAP_RULE_2 := Heap.create "2"
      HEAP_RULE_3 := Heap.create "3"
      HEAP_RULE_R := Heap.create "R"
      angles := []
      alloc := firstFree (hole ++ E.MODEL.vertices) } hole hne
  simp only at hring
  obtain ⟨af1, h1, -⟩ := initHeaps_ok (List.range angles.length)
    { LAST_ITERATION := false
      HEAP_RULE_1 := Heap.create "1"
      HEAP_RULE_2 := Heap.create "2"
      HEAP_RULE_3 := Heap.create "3"
      HEAP_RULE_R := Heap.create "R"
      angles := angles
      alloc := firstFree (hole ++ E.MODEL.vertices) }
    (fun r hr => List.mem_range.1 hr)
  obtain ⟨hq, ha, hal⟩ := initHeaps_queues _ _ af1 [] (queuesOk_empty _ (by
    intro id; cases id <;> rfl)) (List.nodup_range _) (fun r _ hc => by cases hc) h1
  have hnd : hole.Nodup := List.Nodup.of_map _ hkeys
  unfold afmInit
  simp only [mergeVertices_nodup E hole hkeys, hca, bind, Except.bind, h1, pure, Except.pure]
  refine ⟨_, rfl, rfl, rfl, hnd, fun u hu => hu, hnd, ?_, ?_, ?_, ?_⟩
  · intro u hu
    show u.ref < af1.alloc
    rw [hal]
    exact lt_firstFree _ u (List.mem_append_left _ hu)
  · exact ringOk_of_angles E _ _ hole _ ha hring
  · refine queuesOk_of_eq af1 _ _ rfl (fun id => by cases id <;> rfl) ?_
    refine queuesOk_congr af1 _ _ ?_ hq
    intro r
    simp [hlen]
  · intro f hf
    cases hf

/-- The head of a round keeps the invariant of the fill. -/
theorem enterRound_fill (E : Env) (s : LoopState) (ring : List Nat)
    (hok : FillOk E s.af s.front s.filling ring) :
    FillOk E (enterRound E s).af (enterRound E s).front (enterRound E s).filling ring := by
  obtain ⟨h1, h2, h3, h4, h5, h6, h7⟩ := hok
  obtain ⟨e1, e2, e3, e4, e5⟩ := enterRound_heaps E s
  rw [enterRound_front, enterRound_filling]
  refine ⟨h1, h2, h3, ?_, ringOk_of_angles E _ _ _ _ e5 h5, ?_, h7⟩
  · have : (enterRound E s).af.alloc = s.af.alloc := by
      unfold enterRound; split <;> rfl
    rw [this]
    exact h4
  · refine queuesOk_of_eq s.af _ _ e5 (fun id => ?_) h6
    cases id <;> simp [queued, AFState.heap, e1, e2, e3, e4]

theorem alloc_setHeap (af : AFState) (id : HeapId) (h : Heap) :
    (af.setHeap id h).alloc = af.alloc := by
  cases id <;> rfl

theorem mergeTriples_alloc (af af1 : AFState) (angle : Angle) (p n : Nat) (vNew : Vector3)
    (h : mergeTriples af angle p n vNew = Except.ok af1) : af1.alloc = af.alloc := by
  unfold mergeTriples at h
  split at h
  · cases h
  · split_ifs at h
    · cases h; rfl
    · split at h
      · cases h
      · split_ifs at h
        · cases h; rfl

theorem heapMergeVertex_alloc (E : Env) (af : AFState) (vOld vNew : Vector3)
    (res : Bool × AFState) (h : heapMergeVertex E af vOld vNew = Except.ok res) :
    res.2.alloc = af.alloc := by
  unfold heapMergeVertex at h
  simp only [bind_eq_ok] at h
  obtain ⟨found, -, h⟩ := h
  split at h
  · cases h; rfl
  · simp only [bind_eq_ok] at h
    obtain ⟨angle, -, p, -, n, -, af1, h1, af2, h2, af3, h3, af4, h4, af5, h5, h⟩ := h
    cases h
    have e1 : af1.alloc = af.alloc := mergeTriples_alloc _ _ _ _ _ _ h1
    have e2 : af2.alloc = af1.alloc := (heapRemove_alloc _ af2 p h2).trans rfl
    have e3 : af3.alloc = af2.alloc := (heapInsert_alloc _ af3 p h3).trans rfl
    have e4 : af4.alloc = af3.alloc := (heapRemove_alloc _ af4 n h4).trans rfl
    have e5 : af5.alloc = af4.alloc := (heapInsert_alloc _ af5 n h5).trans rfl
    simp only
    rw [alloc_setHeap, e5, e4, e3, e2, e1]

/-- The array `compare` of `mergeByDistance` for the front entry at position `i`:
the entries cyclically before and after it. -/
theorem compareNeighbours_eq (front : List Vector3) (hnd : front.Nodup) (i : Nat)
    (hi : i < front.length) :
    compareNeighbours front (arrIndexOf front (front.getD i default))
      = [some (front.getD (cycPrev front.length i) default),
          some (front.getD (cycNext front.length i) default)] := by
  obtain ⟨hp, hn⟩ := cyc_lt front.length i (by omega) hi
  have hb : (if (i : Int) - 1 < 0 then (front.length : Int) - 1 else (i : Int) - 1)
      = ((cycPrev front.length i : Nat) : Int) := by
    unfold cycPrev
    split_ifs <;> omega
  have ha : (if (i : Int) + 1 > (front.length : Int) - 1 then 0 else (i : Int) + 1)
      = ((cycNext front.length i : Nat) : Int) := by
    unfold cycNext
    split_ifs <;> omega
  rw [arrIndexOf_getD front hnd i hi]
  unfold compareNeighbours
  simp only
  rw [hb, ha, arrGet_natCast, arrGet_natCast, List.getElem?_eq_getElem hp,
    List.getElem?_eq_getElem hn, List.getD_eq_getElem _ _ hp, List.getD_eq_getElem _ _ hn]

/-- A neighbour that is in the ignore list or farther away than the threshold is
left alone. -/
theorem mergeNeighbour_skip (E : Env) (v t : Vector3) (ignore : List Vector3)
    (s s1 : MergeState) (h : mergeNeighbour E v ignore s (some t) = Except.ok s1)
    (hskip : t ∈ ignore ∨ E.THRESHOLD_MERGE < E.distanceTo v t) : s1 = s := by
  unfold mergeNeighbour at h
  simp only at h
  split_ifs at h with hign hnear
  · cases h; rfl
  · exfalso
    rcases hskip with hs | hs
    · exact hign ((arrIndexOf_nonneg_iff ignore t).2 hs)
    · exact absurd hnear (not_le.2 hs)
  · cases h; rfl

/-- The merge of the front entry at position `j` into its front neighbour `v`
keeps the invariant of the fill, with the Angle of position `j` gone from the
ring. -/
theorem mergeNeighbour_fill (E : Env) (v : Vector3) (ignore : List Vector3)
    (s s1 : MergeState) (ring : List Nat) (j : Nat)
    (hok : FillOk E s.af s.front s.filling ring) (hn : 3 ≤ s.front.vertices.length)
    (hj : j < s.front.vertices.length)
    (hadj : v = s.front.vertices.getD (cycPrev s.front.vertices.length j) default ∨
      v = s.front.vertices.getD (cycNext s.front.vertices.length j) default)
    (h : mergeNeighbour E v ignore s (some (s.front.vertices.getD j default))
      = Except.ok s1) :
    s1 = s ∨
    (s.front.vertices.getD j default ∉ ignore ∧
      s1.front.vertices = s.front.vertices.eraseIdx j ∧
      s1.filling.vertices = s.filling.vertices.erase (s.front.vertices.getD j default) ∧
      s1.filling.faces = (s.filling.faces.map
          (reindexFace (arrIndexOf s.filling.vertices (s.front.vertices.getD j default))
            (arrIndexOf s.filling.vertices v))).filter (fun f => decide f.Distinct) ∧
      FillOk E s1.af s1.front s1.filling (ring.eraseIdx j)) := by
  obtain ⟨hnd, hsub, hfnd, hal, hring, hq, hfaces⟩ := hok
  obtain ⟨hpl, hnl⟩ := cyc_lt s.front.vertices.length j (by omega) hj
  generalize ht : s.front.vertices.getD j default = t at h ⊢
  have htm : t ∈ s.front.vertices := by
    rw [← ht, List.getD_eq_getElem _ _ hj]
    exact List.getElem_mem _
  have hvm : v ∈ s.front.vertices := by
    rcases hadj with hv | hv
    · rw [hv, List.getD_eq_getElem _ _ hpl]; exact List.getElem_mem _
    · rw [hv, List.getD_eq_getElem _ _ hnl]; exact List.getElem_mem _
  have hne : t ≠ v := by
    intro hc
    rw [← ht] at hc
    rcases hadj with hv | hv
    · rw [hv] at hc
      have := getD_inj _ hnd default _ _ hj hpl hc
      unfold cycPrev at this
      split at this <;> omega
    · rw [hv] at hc
      have := getD_inj _ hnd default _ _ hj hnl hc
      unfold cycNext at this
      split at this <;> omega
  obtain ⟨af1, hmf, hmv, hring1, hq1⟩ :=
    merge_inv E s.af s.front ring v hring hq hn hnd j hj hadj
  rw [ht] at hmf hmv
  unfold mergeNeighbour at h
  simp only at h
  split_ifs at h with hign hnear
  · cases h; exact Or.inl rfl
  · right
    rw [hmf, hmv] at h
    simp only [bind, Except.bind, pure, Except.pure] at h
    cases h
    have hign1 : t ∉ ignore := fun hc => hign ((arrIndexOf_nonneg_iff ignore t).2 hc)
    have hvs : arrSplice1 s.filling.vertices (arrIndexOf s.filling.vertices t)
        = s.filling.vertices.erase t := arrSplice1_indexOf_mem _ _ (hsub t htm)
    have hfe : s.front.vertices.eraseIdx j = s.front.vertices.erase t := by
      rw [← ht, ← arrSplice1_getD _ hnd j hj, arrSplice1_indexOf_mem]
      rw [List.getD_eq_getElem _ _ hj]
      exact List.getElem_mem _
    simp only [updateFaces_vertices, updateFaces_eq, hvs]
    refine ⟨hign1, trivial, trivial, trivial, ?_, ?_, hfnd.erase t, ?_, hring1, hq1, ?_⟩
    · exact hnd.sublist (List.eraseIdx_sublist _ _)
    · intro u hu
      rw [hfe, hnd.mem_erase_iff] at hu
      exact (List.mem_erase_of_ne hu.1).2 (hsub u hu.2)
    · intro u hu
      rw [heapMergeVertex_alloc E _ _ _ _ hmv]
      exact hal u (List.mem_of_mem_erase hu)
    · intro f hf
      rw [updateFaces_eq, List.mem_filter, List.mem_map] at hf
      obtain ⟨⟨g, hg, rfl⟩, hd⟩ := hf
      obtain ⟨-, ha, hb, hc⟩ := hfaces g hg
      rw [updateFaces_vertices]
      simp only
      rw [← hvs]
      exact ⟨of_decide_eq_true hd,
        (reindex_get _ t v hfnd (hsub t htm) (hsub v hvm) hne g.a ha.1 ha.2).2,
        (reindex_get _ t v hfnd (hsub t htm) (hsub v hvm) hne g.b hb.1 hb.2).2,
        (reindex_get _ t v hfnd (hsub t htm) (hsub v hvm) hne g.c hc.1 hc.2).2⟩
  · cases h; exact Or.inl rfl

/-- After the entry cyclically before position `i` is erased, the entry that was
cyclically after `i` is still a neighbour of the entry that was at `i`. -/
theorem erase_prev_adjacent (l : List Vector3) (i : Nat) (hi : i < l.length)
    (hn : 3 ≤ l.length) :
    ∃ i1 j1, i1 < l.length - 1 ∧ j1 < l.length - 1 ∧
      (l.eraseIdx (cycPrev l.length i)).getD i1 default = l.getD i default ∧
      (l.eraseIdx (cycPrev l.length i)).getD j1 default
        = l.getD (cycNext l.length i) default ∧
      i1 = cycPrev (l.length - 1) j1 := by
  by_cases h0 : i = 0
  · subst h0
    refine ⟨0, 1, by omega, by omega, ?_, ?_, ?_⟩
    · rw [getD_eraseIdx]
      simp only [cycPrev, if_true]
      rw [if_pos (by omega)]
    · rw [getD_eraseIdx]
      simp only [cycPrev, cycNext, if_true]
      rw [if_pos (by omega), if_pos (by omega)]
    · simp [cycPrev]
  · by_cases h1 : i + 1 < l.length
    · refine ⟨i - 1, i, by omega, by omega, ?_, ?_, ?_⟩
      · rw [getD_eraseIdx]
        simp only [cycPrev, if_neg h0, lt_irrefl, if_false]
        congr 1
        omega
      · rw [getD_eraseIdx]
        simp only [cycPrev, cycNext, if_neg h0, if_pos h1]
        rw [if_neg (by omega)]
      · simp [cycPrev, h0]
    · refine ⟨l.length - 2, 0, by omega, by omega, ?_, ?_, ?_⟩
      · rw [getD_eraseIdx]
        simp only [cycPrev, if_neg h0]
        rw [if_neg (by omega)]
        congr 1
        omega
      · rw [getD_eraseIdx]
        simp only [cycPrev, cycNext, if_neg h0, if_neg h1]
        rw [if_pos (by omega)]
      · simp only [cycPrev, if_true]
        omega

theorem exists_getD_of_mem (l : List Vector3) (v : Vector3) (h : v ∈ l) :
    ∃ i, i < l.length ∧ l.getD i default = v := by
  obtain ⟨i, hi, hv⟩ := List.getElem_of_mem h
  exact ⟨i, hi, by rw [List.getD_eq_getElem _ _ hi]; exact hv⟩

/-- The merge pass for a front vertex `v` keeps the invariant of the fill. -/
theorem mergeByDistance_fill (E : Env) (s s1 : MergeState) (v : Vector3)
    (ignore : List Vector3) (ring : List Nat)
    (hok : FillOk E s.af s.front s.filling ring) (hn : 4 ≤ s.front.vertices.length)
    (hv : v ∈ s.front.vertices)
    (h : mergeByDistance E s (some v) ignore = Except.ok s1) :
    ∃ ring1, FillOk E s1.af s1.front s1.filling ring1 := by
  obtain ⟨i, hi, hvi⟩ := exists_getD_of_mem _ v hv
  obtain ⟨hpl, hnl⟩ := cyc_lt s.front.vertices.length i (by omega) hi
  have hnd := hok.1
  have hvf : v ∈ s.filling.vertices := hok.2.1 v hv
  unfold mergeByDistance at h
  simp only at h
  rw [if_neg (by
    have := (arrIndexOf_nonneg_iff s.filling.vertices v).2 hvf
    omega)] at h
  rw [← hvi, compareNeighbours_eq _ hnd i hi, hvi] at h
  simp only [List.foldlM, bind_eq_ok] at h
  obtain ⟨a, ha, b, hb, h⟩ := h
  cases h
  have hadj1 : v = s.front.vertices.getD
      (cycNext s.front.vertices.length (cycPrev s.front.vertices.length i)) default := by
    rw [cycNext_cycPrev _ _ (by omega) hi, hvi]
  rcases mergeNeighbour_fill E v ignore s a ring _ hok (by omega) hpl (Or.inr hadj1) ha
    with hs | ⟨-, hfront, -, -, hok1⟩
  · rw [hs] at hb
    have hadj2 : v = s.front.vertices.getD
        (cycPrev s.front.vertices.length (cycNext s.front.vertices.length i)) default := by
      rw [cycPrev_cycNext _ _ (by omega) hi, hvi]
    rcases mergeNeighbour_fill E v ignore s s1 ring _ hok (by omega) hnl (Or.inl hadj2) hb
      with hs1 | ⟨-, -, -, -, hok2⟩
    · rw [hs1]
      exact ⟨ring, hok⟩
    · exact ⟨_, hok2⟩
  · obtain ⟨i1, j1, hi1, hj1, hgi, hgj, hij⟩ :=
      erase_prev_adjacent s.front.vertices i hi (by omega)
    have hlen : a.front.vertices.length = s.front.vertices.length - 1 := by
      rw [hfront, List.length_eraseIdx]
      rw [if_pos hpl]
    rw [← hfront] at hgi hgj
    rw [← hlen] at hi1 hj1 hij
    rw [← hgj] at hb
    have hadj2 : v = a.front.vertices.getD (cycPrev a.front.vertices.length j1) default := by
      rw [← hij, hgi, hvi]
    rcases mergeNeighbour_fill E v ignore a s1 _ j1 hok1 (by omega) hj1 (Or.inl hadj2) hb
      with hs1 | ⟨-, -, -, -, hok2⟩
    · rw [hs1]
      exact ⟨_, hok1⟩
    · exact ⟨_, hok2⟩

theorem edgeParity_congr (hole : List Vector3) (f1 f2 g1 g2 : Geometry)
    (hf : f1.vertices = f2.vertices) (hg : g1 = g2) (h : EdgeParity hole f1 g1) :
    EdgeParity hole f2 g2 := by
  subst hg
  unfold EdgeParity indicesOf at h ⊢
  rw [← hf]
  exact h

/-- One rule application in a state of the fill: the invariant holds afterwards, a
vertex the rule returns is in the new front, which is not shorter than the old
one, and the equation of the edge parity is kept. -/
theorem applyRules_step (E : Env) (hole : List Vector3) (s : LoopState) (res : ApplyResult)
    (ring : List Nat) (hok : FillOk E s.af s.front s.filling ring)
    (hn : 3 ≤ s.front.vertices.length) (h : applyRules E s = Except.ok res) :
    (∃ ring1, FillOk E res.af res.front res.filling ring1) ∧
    (∀ w, res.vNew = some w →
      w ∈ res.front.vertices ∧ s.front.vertices.length ≤ res.front.vertices.length) ∧
    (4 ≤ s.front.vertices.length →
      (∀ u ∈ hole, u ∈ s.filling.vertices) → EdgeParity hole s.front s.filling →
      (∀ u ∈ hole, u ∈ res.filling.vertices) ∧ EdgeParity hole res.front res.filling) := by
  have hnd := hok.1
  have hsub := hok.2.1
  unfold applyRules at h
  split_ifs at h
  · obtain ⟨hv, hc⟩ := applyRule1_fill E s.af s.front s.filling res ring hok (by omega) h
    rcases hc with ⟨h1, h2, h3⟩ | ⟨l1, l2, vp, v, vn, ring1, hs, hcor, hf, hfill, hok1⟩
    · rw [h1, h2]
      refine ⟨⟨ring, h3⟩, ?_, fun _ hh hp => ⟨hh, hp⟩⟩
      intro w hw
      rw [hv] at hw
      cases hw
    · refine ⟨⟨ring1, hok1⟩, ?_, ?_⟩
      · intro w hw
        rw [hv] at hw
        cases hw
      · intro h4 hh hp
        constructor
        · rw [hfill]
          exact hh
        · have := remove_edge_parity hole s.filling.vertices l1 l2 s.filling.faces vp v vn
            (hs ▸ hnd) (hs ▸ hsub) (hs ▸ h4) (hs ▸ hcor)
            (edgeParity_congr hole s.front _ s.filling _ hs rfl hp)
          exact edgeParity_congr hole _ _ _ _ hf.symm hfill.symm this
  · rcases applyRule2_fill E s.af s.front s.filling res ring hok (by omega) h
      with ⟨hv, h1, h2, h3⟩ | ⟨l1, l2, vp, v, vn, w, ring1, hs, hcor, hw, hv, hf, hfill, hok1⟩
    · rw [h1, h2]
      refine ⟨⟨ring, h3⟩, ?_, fun _ hh hp => ⟨hh, hp⟩⟩
      intro w hw
      rw [hv] at hw
      cases hw
    · have hlen : res.front.vertices.length = s.front.vertices.length := by
        rw [hf, hs]
        simp
      refine ⟨⟨ring1, hok1⟩, ?_, ?_⟩
      · intro w1 hw1
        rw [hv] at hw1
        cases hw1
        refine ⟨?_, by omega⟩
        rw [hf]
        simp
      · intro _ hh hp
        constructor
        · rw [hfill]
          exact fun u hu => List.mem_append_left _ (hh u hu)
        · have := replace_edge_parity hole s.filling.vertices l1 l2 s.filling.faces vp v vn w
            (hs ▸ hnd) (hs ▸ hsub) hh hw (by rw [← hs]; omega) (hs ▸ hcor)
            (edgeParity_congr hole s.front _ s.filling _ hs rfl hp)
          exact edgeParity_congr hole _ _ _ _ hf.symm hfill.symm this
  · rcases applyRule3_fill E s.af s.front s.filling res ring hok (by omega) h
      with ⟨hv, h1, h2, h3⟩ | ⟨l1, l2, vp, v, vn, w, ring1, hs, hcor, hw, hv, hf, hfill, hok1⟩
    · rw [h1, h2]
      refine ⟨⟨ring, h3⟩, ?_, fun _ hh hp => ⟨hh, hp⟩⟩
      intro w hw
      rw [hv] at hw
      cases hw
    · have hlen : res.front.vertices.length = s.front.vertices.length + 1 := by
        rw [hf, hs]
        simp only [List.length_append, List.length_cons]
        omega
      refine ⟨⟨ring1, hok1⟩, ?_, ?_⟩
      · intro w1 hw1
        rw [hv] at hw1
        cases hw1
        refine ⟨?_, by omega⟩
        rw [hf]
        simp
      · intro _ hh hp
        constructor
        · rw [hfill]
          exact fun u hu => List.mem_append_left _ (hh u hu)
        · have := insert_edge_parity hole s.filling.vertices l1 l2 s.filling.faces vp v vn w
            (hs ▸ hnd) (hs ▸ hsub) hh hw (by rw [← hs]; omega) (hs ▸ hcor)
            (edgeParity_congr hole s.front _ s.filling _ hs rfl hp)
          exact edgeParity_congr hole _ _ _ _ hf.symm hfill.symm this

/-- A round that goes on to the next one is a rule application on a front of at
least 5 vertices, followed by the merge pass for the vertex the rule returned. -/
theorem loopBody_next (E : Env) (hole : List Vector3) (s s1 : LoopState)
    (h3 : 3 ≤ s.front.vertices.length)
    (h : loopBody E hole s = Except.ok (Outcome.next s1)) :
    5 ≤ s.front.vertices.length ∧
    ∃ res, applyRules E (enterRound E s) = Except.ok res ∧
      (mergeByDistance E ⟨res.af, res.front, res.filling⟩ res.vNew hole
          = Except.ok ⟨s1.af, s1.front, s1.filling⟩ ∨
        (res.front.vertices.length = 3 ∧ s1.af = res.af ∧ s1.front = res.front ∧
          s1.filling = res.filling)) := by
  by_cases hcap : E.AFM_STOP_AFTER_ITER.any (fun stopIter => s.count + 1 > stopIter) = true
  · unfold loopBody at h
    rw [if_pos hcap] at h
    cases h
  · have h5 : 5 ≤ s.front.vertices.length := by
      by_contra hc
      unfold loopBody at h
      simp only [enterRound_front] at h
      split_ifs at h <;> first | cases h | omega
    refine ⟨h5, ?_⟩
    rw [loopBody_eq_rules E hole s (by simpa using hcap) (by omega) (by omega) (by omega),
      bind_eq_ok] at h
    obtain ⟨res, hres, h⟩ := h
    refine ⟨res, hres, ?_⟩
    unfold mergeStep at h
    split_ifs at h with hm
    · split at h
      · cases h
      · rename_i m hmerge
        cases h
        exact Or.inl hmerge
    · cases h
      refine Or.inr ⟨?_, rfl, rfl, rfl⟩
      by_contra hc
      exact hm (Or.inr hc)

/-- The invariant of the fill passes from the head of one round to the head of
the next, with a front of at least 3 vertices. -/
theorem loopBody_fill (E : Env) (hole : List Vector3) (s s1 : LoopState) (ring : List Nat)
    (hok : FillOk E s.af s.front s.filling ring) (h3 : 3 ≤ s.front.vertices.length)
    (h : loopBody E hole s = Except.ok (Outcome.next s1)) :
    3 ≤ s1.front.vertices.length ∧ ∃ ring1, FillOk E s1.af s1.front s1.filling ring1 := by
  obtain ⟨h5, res, hres, hm⟩ := loopBody_next E hole s s1 h3 h
  refine ⟨loopBody_front_length E hole s s1 h5 h, ?_⟩
  obtain ⟨⟨ring1, hok1⟩, hnew, -⟩ := applyRules_step E hole (enterRound E s) res ring
    (enterRound_fill E s ring hok) (by rw [enterRound_front]; omega) hres
  rcases hm with hm | ⟨-, e1, e2, e3⟩
  · cases hv : res.vNew with
    | none =>
      rw [hv] at hm
      simp only [mergeByDistance, Except.ok.injEq, MergeState.mk.injEq] at hm
      obtain ⟨e1, e2, e3⟩ := hm
      rw [← e1, ← e2, ← e3]
      exact ⟨ring1, hok1⟩
    | some w =>
      rw [hv] at hm
      obtain ⟨hw, hlen⟩ := hnew w hv
      rw [enterRound_front] at hlen
      exact mergeByDistance_fill E ⟨res.af, res.front, res.filling⟩
        ⟨s1.af, s1.front, s1.filling⟩ w hole ring1 hok1 (by simp only; omega) hw hm
  · rw [e1, e2, e3]
    exact ⟨ring1, hok1⟩

theorem stateAfter_fill (E : Env) (hole : List Vector3) (k : Nat) :
    ∀ s s1 : LoopState, 3 ≤ s.front.vertices.length →
      (∃ ring, FillOk E s.af s.front s.filling ring) → stateAfter E hole k s = some s1 →
      3 ≤ s1.front.vertices.length ∧ ∃ ring1, FillOk E s1.af s1.front s1.filling ring1 := by
  induction k with
  | zero =>
    intro s s1 h3 hok h
    cases h
    exact ⟨h3, hok⟩
  | succ k ih =>
    intro s s1 h3 hok h
    rw [stateAfter] at h
    split at h
    · rename_i s2 hb
      obtain ⟨ring, hok⟩ := hok
      obtain ⟨h32, hok2⟩ := loopBody_fill E hole s s2 ring hok h3 hb
      exact ih s2 s1 h32 hok2 h
    · cases h

/-- The state `afmLoop` returns is the result of the round that ended the loop, in
a state at the head of a round. -/
theorem afmLoop_finished (E : Env) (hole : List Vector3) (fuel : Nat) :
    ∀ s s1 : LoopState, afmLoop E hole fuel s = Except.ok (some s1) →
      ∃ k s2, stateAfter E hole k s = some s2 ∧
        loopBody E hole s2 = Except.ok (Outcome.finished s1) := by
  induction fuel with
  | zero =>
    intro s s1 h
    cases h
  | succ fuel ih =>
    intro s s1 h
    rw [afmLoop] at h
    split at h
    · cases h
    · rename_i s2 hb
      cases h
      exact ⟨0, s, rfl, hb⟩
    · rename_i s2 hb
      obtain ⟨k, s3, hk, hfin⟩ := ih s2 s1 h
      refine ⟨k + 1, s3, ?_, hfin⟩
      rw [stateAfter, hb]
      exact hk

/-- The round that ends the loop on a front of at least 3 vertices: the debug cap
stopped it, or `closeHole4` or `closeHole3` closed the front. -/
theorem loopBody_finished (E : Env) (hole : List Vector3) (s s1 : LoopState)
    (h3 : 3 ≤ s.front.vertices.length)
    (h : loopBody E hole s = Except.ok (Outcome.finished s1)) :
    (E.AFM_STOP_AFTER_ITER.any (fun stopIter => s.count + 1 > stopIter) = true ∧
      s1.filling = s.filling ∧ s1.count = s.count + 1) ∨
    (E.AFM_STOP_AFTER_ITER.any (fun stopIter => s.count + 1 > stopIter) = false ∧
      ((s.front.vertices.length = 4 ∧ s1.filling = closeHole4 s.front s.filling) ∨
        (s.front.vertices.length = 3 ∧ s1.filling = closeHole3 s.front s.filling)) ∧
      s1.count = s.count + 1) := by
  by_cases hcap : E.AFM_STOP_AFTER_ITER.any (fun stopIter => s.count + 1 > stopIter) = true
  · unfold loopBody at h
    rw [if_pos hcap] at h
    cases h
    exact Or.inl ⟨hcap, rfl, rfl⟩
  · right
    refine ⟨by simpa using hcap, ?_⟩
    unfold loopBody at h
    rw [if_neg hcap] at h
    simp only [enterRound_front] at h
    split_ifs at h with h4 h3' h1
    · cases h
      simp only [enterRound_front, enterRound_filling, enterRound_count]
      exact ⟨Or.inl ⟨h4, trivial⟩, trivial⟩
    · cases h
      simp only [enterRound_front, enterRound_filling, enterRound_count]
      exact ⟨Or.inr ⟨h3', trivial⟩, trivial⟩
    · omega
    · split at h
      · cases h
      · rename_i res hres
        obtain ⟨s2, hs2, -⟩ := mergeStep_ok E hole _ res _ h
        cases hs2

/-! ## The merge pass and the edge parity -/

/-- The index map of a merge sends `k` to the shifted `x` exactly if `k` is `x`, or
`x` is the target and `k` the merged index. -/
theorem reindex_eq_shift (it iv k x : Int) (hne : iv ≠ it) (hx : x ≠ it) :
    reindex it iv k = reindex it it x ↔ k = x ∨ (x = iv ∧ k = it) := by
  unfold reindex
  simp only
  split_ifs <;> omega

theorem reindex_eq_reindex (it iv x y : Int) (hne : iv ≠ it) :
    reindex it iv x = reindex it iv y ↔
      x = y ∨ (x = it ∧ y = iv) ∨ (x = iv ∧ y = it) := by
  unfold reindex
  simp only
  split_ifs <;> omega

theorem shift_surj (it a : Int) : ∃ a0, a0 ≠ it ∧ reindex it it a0 = a := by
  by_cases h : a < it
  · refine ⟨a, by omega, ?_⟩
    unfold reindex
    simp only
    split_ifs <;> omega
  · refine ⟨a + 1, by omega, ?_⟩
    unfold reindex
    simp only
    split_ifs <;> omega

theorem shift_inj (it x y : Int) (hx : x ≠ it) (hy : y ≠ it)
    (h : reindex it it x = reindex it it y) : x = y := by
  unfold reindex at h
  simp only at h
  split_ifs at h <;> omega

/-- The index of a vertex after another vertex is erased. -/
theorem arrIndexOf_erase (F : List Vector3) (t u : Vector3) (hnd : F.Nodup) (ht : t ∈ F)
    (hu : u ∈ F) (hne : u ≠ t) :
    arrIndexOf (F.erase t) u = reindex (arrIndexOf F t) (arrIndexOf F t) (arrIndexOf F u) := by
  obtain ⟨A, B, rfl, hA⟩ := List.eq_append_cons_of_mem ht
  have hnd1 : (t :: (A ++ B)).Nodup := List.nodup_middle.1 hnd
  have hnd2 : (A ++ B).Nodup := (List.nodup_cons.1 hnd1).2
  have herase : (A ++ t :: B).erase t = A ++ B := by
    rw [List.erase_append_right _ hA, List.erase_cons_head]
  have hit : arrIndexOf (A ++ t :: B) t = (A.length : Int) := by
    rw [arrIndexOf_mem _ _ ht, List.indexOf_append_of_not_mem hA, List.indexOf_cons_self]
    rfl
  rw [herase, hit]
  have hu1 : u ∈ A ∨ u ∈ B := by
    rcases List.mem_append.1 hu with h | h
    · exact Or.inl h
    · rcases List.mem_cons.1 h with h | h
      · exact absurd h hne
      · exact Or.inr h
  rcases hu1 with h | h
  · have hlt : List.indexOf u A < A.length := List.indexOf_lt_length.2 h
    rw [arrIndexOf_mem _ _ (List.mem_append_left _ h), arrIndexOf_mem _ _ hu,
      List.indexOf_append_of_mem h, List.indexOf_append_of_mem h]
    unfold reindex
    simp only
    split_ifs <;> omega
  · have huA : u ∉ A := by
      intro hc
      exact (List.nodup_append.1 hnd2).2.2 hc h
    rw [arrIndexOf_mem _ _ (List.mem_append_right _ h), arrIndexOf_mem _ _ hu,
      List.indexOf_append_of_not_mem huA, List.indexOf_append_of_not_mem huA,
      List.indexOf_cons_ne _ (Ne.symm hne)]
    unfold reindex
    simp only
    push_cast
    split_ifs <;> omega

theorem indices_erase (F vs : List Vector3) (t : Vector3) (hnd : F.Nodup) (ht : t ∈ F)
    (hvs : ∀ u ∈ vs, u ∈ F) (htv : t ∉ vs) :
    vs.map (arrIndexOf (F.erase t))
      = (vs.map (arrIndexOf F)).map (reindex (arrIndexOf F t) (arrIndexOf F t)) := by
  rw [List.map_map]
  apply List.map_congr_left
  intro u hu
  exact arrIndexOf_erase F t u hnd ht (hvs u hu) (fun h => htv (h ▸ hu))

theorem mem_cycEdges (l : List Int) (a b : Int) (h : (a, b) ∈ cycEdges l) : a ∈ l ∧ b ∈ l := by
  unfold cycEdges at h
  have := List.of_mem_zip h
  exact ⟨this.1, List.mem_rotate.1 this.2⟩

theorem cycEdges_map (l : List Int) (f : Int → Int) :
    cycEdges (l.map f) = (cycEdges l).map (Prod.map f f) := by
  unfold cycEdges
  rw [← List.map_rotate, List.zip_map]

/-- The loop edges of a list of indices under an index map that is injective off
one index the list does not have. -/
theorem loopEdge_shift (l : List Int) (it a b : Int) (hl : it ∉ l) (ha : a ≠ it)
    (hb : b ≠ it) :
    loopEdge (l.map (reindex it it)) (reindex it it a) (reindex it it b) ↔ loopEdge l a b := by
  have key : ∀ x y : Int, x ≠ it → y ≠ it →
      ((reindex it it x, reindex it it y) ∈ cycEdges (l.map (reindex it it)) ↔
        (x, y) ∈ cycEdges l) := by
    intro x y hx hy
    rw [cycEdges_map, List.mem_map]
    constructor
    · rintro ⟨⟨p, q⟩, hpq, he⟩
      simp only [Prod.map_apply, Prod.mk.injEq] at he
      obtain ⟨hp, hq⟩ := mem_cycEdges l p q hpq
      have h1 := shift_inj it p x (fun h => hl (h ▸ hp)) hx he.1
      have h2 := shift_inj it q y (fun h => hl (h ▸ hq)) hy he.2
      rw [← h1, ← h2]
      exact hpq
    · intro h
      exact ⟨(x, y), h, rfl⟩
  unfold loopEdge
  rw [key a b ha hb, key b a hb ha]

theorem hasEdge_slots (f : Face3) (a b : Int) :
    f.hasEdge a b = true ↔
      (f.a = a ∨ f.b = a ∨ f.c = a) ∧ (f.a = b ∨ f.b = b ∨ f.c = b) := by
  simp only [Face3.hasEdge, Bool.and_eq_true, Bool.or_eq_true, decide_eq_true_eq, or_assoc]

/-- Four pairwise different indices are not all among the three of a face. -/
theorem four_in_three (x y z p q r s : Int) (hpq : p ≠ q) (hpr : p ≠ r) (hps : p ≠ s)
    (hqr : q ≠ r) (hqs : q ≠ s) (hrs : r ≠ s)
    (hp : x = p ∨ y = p ∨ z = p) (hq : x = q ∨ y = q ∨ z = q)
    (hr : x = r ∨ y = r ∨ z = r) (hs : x = s ∨ y = s ∨ z = s) : False := by
  rcases hp with hp | hp | hp <;> rcases hq with hq | hq | hq <;>
    rcases hr with hr | hr | hr <;> rcases hs with hs | hs | hs <;> omega

/-- The slots of a face after the index map of a merge. -/
theorem reindexFace_slots (f : Face3) (it iv x : Int) (hne : iv ≠ it) (hx : x ≠ it) :
    ((reindexFace it iv f).a = reindex it it x ∨ (reindexFace it iv f).b = reindex it it x ∨
        (reindexFace it iv f).c = reindex it it x) ↔
      (f.a = x ∨ f.b = x ∨ f.c = x) ∨ (x = iv ∧ (f.a = it ∨ f.b = it ∨ f.c = it)) := by
  simp only [reindexFace, reindex_eq_shift _ _ _ _ hne hx]
  constructor
  · rintro ((h | ⟨h1, h2⟩) | (h | ⟨h1, h2⟩) | (h | ⟨h1, h2⟩))
    · exact Or.inl (Or.inl h)
    · exact Or.inr ⟨h1, Or.inl h2⟩
    · exact Or.inl (Or.inr (Or.inl h))
    · exact Or.inr ⟨h1, Or.inr (Or.inl h2)⟩
    · exact Or.inl (Or.inr (Or.inr h))
    · exact Or.inr ⟨h1, Or.inr (Or.inr h2)⟩
  · rintro ((h | h | h) | ⟨h1, h | h | h⟩)
    · exact Or.inl (Or.inl h)
    · exact Or.inr (Or.inl (Or.inl h))
    · exact Or.inr (Or.inr (Or.inl h))
    · exact Or.inl (Or.inr ⟨h1, h⟩)
    · exact Or.inr (Or.inl (Or.inr ⟨h1, h⟩))
    · exact Or.inr (Or.inr (Or.inr ⟨h1, h⟩))

/-- A face stays non-degenerate under the index map of a merge exactly if it does
not have both the merged index and the target. -/
theorem reindexFace_distinct (f : Face3) (it iv : Int) (hne : iv ≠ it) (hd : f.Distinct) :
    (reindexFace it iv f).Distinct ↔
      ¬ ((f.a = it ∨ f.b = it ∨ f.c = it) ∧ (f.a = iv ∨ f.b = iv ∨ f.c = iv)) := by
  obtain ⟨h1, h2, h3⟩ := hd
  simp only [Face3.Distinct, reindexFace, ne_eq, reindex_eq_reindex _ _ _ _ hne]
  constructor
  · rintro ⟨g1, g2, g3⟩ ⟨ht, hv⟩
    rcases ht with ht | ht | ht <;> rcases hv with hv | hv | hv
    · exact hne (hv.symm.trans ht)
    · exact g1 (Or.inr (Or.inl ⟨ht, hv⟩))
    · exact g2 (Or.inr (Or.inl ⟨ht, hv⟩))
    · exact g1 (Or.inr (Or.inr ⟨hv, ht⟩))
    · exact hne (hv.symm.trans ht)
    · exact g3 (Or.inr (Or.inl ⟨ht, hv⟩))
    · exact g2 (Or.inr (Or.inr ⟨hv, ht⟩))
    · exact g3 (Or.inr (Or.inr ⟨hv, ht⟩))
    · exact hne (hv.symm.trans ht)
  · intro h
    refine ⟨?_, ?_, ?_⟩
    · rintro (g | ⟨g1, g2⟩ | ⟨g1, g2⟩)
      · exact h1 g
      · exact h ⟨Or.inl g1, Or.inr (Or.inl g2)⟩
      · exact h ⟨Or.inr (Or.inl g2), Or.inl g1⟩
    · rintro (g | ⟨g1, g2⟩ | ⟨g1, g2⟩)
      · exact h2 g
      · exact h ⟨Or.inl g1, Or.inr (Or.inr g2)⟩
      · exact h ⟨Or.inr (Or.inr g2), Or.inl g1⟩
    · rintro (g | ⟨g1, g2⟩ | ⟨g1, g2⟩)
      · exact h3 g
      · exact h ⟨Or.inr (Or.inl g1), Or.inr (Or.inr g2)⟩
      · exact h ⟨Or.inr (Or.inr g2), Or.inr (Or.inl g1)⟩

/-- One face under the index map of a merge, for an edge with no end at the
target: the face counts for the edge as before. -/
theorem contract_face_plain (f : Face3) (it iv a0 b0 : Int) (hd : f.Distinct)
    (hne : iv ≠ it) (ha : a0 ≠ it) (hb : b0 ≠ it) (hab : a0 ≠ b0) (hav : a0 ≠ iv)
    (hbv : b0 ≠ iv) :
    ((reindexFace it iv f).Distinct ∧
        (reindexFace it iv f).hasEdge (reindex it it a0) (reindex it it b0) = true) ↔
      f.hasEdge a0 b0 = true := by
  rw [hasEdge_slots, hasEdge_slots, reindexFace_slots f it iv a0 hne ha,
    reindexFace_slots f it iv b0 hne hb, reindexFace_distinct f it iv hne hd]
  constructor
  · rintro ⟨-, h1 | ⟨h1, -⟩, h2 | ⟨h2, -⟩⟩
    · exact ⟨h1, h2⟩
    · exact absurd h2 hbv
    · exact absurd h1 hav
    · exact absurd h1 hav
  · rintro ⟨h1, h2⟩
    refine ⟨?_, Or.inl h1, Or.inl h2⟩
    rintro ⟨ht, hv⟩
    exact four_in_three f.a f.b f.c a0 b0 it iv hab ha hav hb hbv (Ne.symm hne) h1 h2 ht hv

/-- One face under the index map of a merge, for an edge at the target: the face
counts for the edge if it counted for exactly one of the edges at the target and
at the merged index. -/
theorem contract_face_target (f : Face3) (it iv b0 : Int) (hd : f.Distinct)
    (hne : iv ≠ it) (hb : b0 ≠ it) (hbv : b0 ≠ iv) :
    ((reindexFace it iv f).Distinct ∧
        (reindexFace it iv f).hasEdge (reindex it it iv) (reindex it it b0) = true) ↔
      Xor' (f.hasEdge iv b0 = true) (f.hasEdge it b0 = true) := by
  rw [hasEdge_slots, hasEdge_slots, hasEdge_slots, reindexFace_slots f it iv iv hne hne,
    reindexFace_slots f it iv b0 hne hb, reindexFace_distinct f it iv hne hd]
  generalize (f.a = it ∨ f.b = it ∨ f.c = it) = T
  generalize (f.a = iv ∨ f.b = iv ∨ f.c = iv) = V
  generalize (f.a = b0 ∨ f.b = b0 ∨ f.c = b0) = B
  unfold Xor'
  by_cases hT : T <;> by_cases hV : V <;> by_cases hB : B <;> simp [hT, hV, hB, hbv]

theorem hasEdge_comm (f : Face3) (a b : Int) : f.hasEdge a b = f.hasEdge b a := by
  simp only [Face3.hasEdge]
  exact Bool.and_comm _ _

theorem edgeCount_comm (faces : List Face3) (a b : Int) :
    edgeCount faces a b = edgeCount faces b a := by
  unfold edgeCount
  congr 1
  apply List.filter_congr
  intro f _
  exact hasEdge_comm f a b

theorem edgeCount_cons (f : Face3) (faces : List Face3) (a b : Int) :
    edgeCount (f :: faces) a b
      = (if f.hasEdge a b = true then 1 else 0) + edgeCount faces a b := by
  unfold edgeCount
  rw [List.filter_cons]
  split <;> simp [Nat.add_comm]

/-- The faces after a merge, for an edge with no end at the target: the parity of
the face count is the one before. -/
theorem contract_count_plain (faces : List Face3) (it iv a0 b0 : Int)
    (hd : ∀ f ∈ faces, f.Distinct) (hne : iv ≠ it) (ha : a0 ≠ it) (hb : b0 ≠ it)
    (hab : a0 ≠ b0) (hav : a0 ≠ iv) (hbv : b0 ≠ iv) :
    edgeCount ((faces.map (reindexFace it iv)).filter (fun f => decide f.Distinct))
        (reindex it it a0) (reindex it it b0) % 2 = edgeCount faces a0 b0 % 2 := by
  induction faces with
  | nil => rfl
  | cons f fs ih =>
    have ih1 := ih (fun g hg => hd g (List.mem_cons_of_mem _ hg))
    have hf := contract_face_plain f it iv a0 b0 (hd f (List.mem_cons_self _ _)) hne ha hb
      hab hav hbv
    rw [List.map_cons, List.filter_cons, edgeCount_cons]
    by_cases h1 : f.hasEdge a0 b0 = true
    · obtain ⟨g1, g2⟩ := hf.2 h1
      rw [if_pos (decide_eq_true g1), edgeCount_cons, if_pos g2, if_pos h1]
      omega
    · rw [if_neg h1]
      by_cases g1 : (reindexFace it iv f).Distinct
      · have g2 : ¬ (reindexFace it iv f).hasEdge (reindex it it a0) (reindex it it b0)
            = true := fun g2 => h1 (hf.1 ⟨g1, g2⟩)
        rw [if_pos (decide_eq_true g1), edgeCount_cons, if_neg g2]
        omega
      · rw [if_neg (by simpa using g1)]
        omega

/-- The faces after a merge, for an edge at the target: the parity of the face
count is the sum of those at the target and at the merged index. -/
theorem contract_count_target (faces : List Face3) (it iv b0 : Int)
    (hd : ∀ f ∈ faces, f.Distinct) (hne : iv ≠ it) (hb : b0 ≠ it) (hbv : b0 ≠ iv) :
    edgeCount ((faces.map (reindexFace it iv)).filter (fun f => decide f.Distinct))
        (reindex it it iv) (reindex it it b0) % 2
      = (edgeCount faces iv b0 + edgeCount faces it b0) % 2 := by
  induction faces with
  | nil => rfl
  | cons f fs ih =>
    have ih1 := ih (fun g hg => hd g (List.mem_cons_of_mem _ hg))
    have hf := contract_face_target f it iv b0 (hd f (List.mem_cons_self _ _)) hne hb hbv
    rw [List.map_cons, List.filter_cons, edgeCount_cons, edgeCount_cons]
    unfold Xor' at hf
    by_cases g1 : (reindexFace it iv f).Distinct
    · rw [if_pos (decide_eq_true g1), edgeCount_cons]
      by_cases g2 : (reindexFace it iv f).hasEdge (reindex it it iv) (reindex it it b0) = true
      · rw [if_pos g2]
        rcases hf.1 ⟨g1, g2⟩ with ⟨e1, e2⟩ | ⟨e2, e1⟩
        · rw [if_pos e1, if_neg e2]
          omega
        · rw [if_neg e1, if_pos e2]
          omega
      · rw [if_neg g2]
        by_cases e1 : f.hasEdge iv b0 = true <;> by_cases e2 : f.hasEdge it b0 = true
        · rw [if_pos e1, if_pos e2]
          omega
        · exact absurd (hf.2 (Or.inl ⟨e1, e2⟩)).2 g2
        · exact absurd (hf.2 (Or.inr ⟨e2, e1⟩)).2 g2
        · rw [if_neg e1, if_neg e2]
          omega
    · rw [if_neg (by simpa using g1)]
      by_cases e1 : f.hasEdge iv b0 = true <;> by_cases e2 : f.hasEdge it b0 = true
      · rw [if_pos e1, if_pos e2]
        omega
      · exact absurd (hf.2 (Or.inl ⟨e1, e2⟩)).1 g1
      · exact absurd (hf.2 (Or.inr ⟨e2, e1⟩)).1 g1
      · rw [if_neg e1, if_neg e2]
        omega

theorem loopEdge_comm (l : List Int) (a b : Int) : loopEdge l a b ↔ loopEdge l b a := by
  unfold loopEdge
  exact Or.comm

theorem not_loopEdge_of_not_mem (l : List Int) (x y : Int) (hx : x ∉ l) :
    ¬ loopEdge l x y := by
  unfold loopEdge
  rintro (h | h)
  · exact hx (mem_cycEdges l x y h).1
  · exact hx (mem_cycEdges l y x h).2

/-- The loop edges at the first entry `V` of the loop `V :: M`: the edges to the
first and to the last entry of `M`. -/
theorem loopEdge_cons_self (M : List Int) (V Nx P y : Int) (hh : M.head? = some Nx)
    (hl : M.getLast? = some P) (hV : V ∉ M) (hy : y ≠ V) :
    loopEdge (V :: M) V y ↔ (y = Nx ∨ y = P) := by
  unfold loopEdge
  rw [mem_cycEdges_cons M V Nx P V y hh hl, mem_cycEdges_cons M V Nx P y V hh hl]
  have z1 : (V, y) ∉ List.zip M M.tail := fun h => hV (mem_of_mem_zip_tail M V y h).1
  have z2 : (y, V) ∉ List.zip M M.tail := fun h => hV (mem_of_mem_zip_tail M y V h).2
  constructor
  · rintro ((⟨-, h⟩ | h | ⟨-, h⟩) | (⟨h, -⟩ | h | ⟨h, -⟩))
    · exact Or.inl h
    · exact absurd h z1
    · exact absurd h hy
    · exact absurd h hy
    · exact absurd h z2
    · exact Or.inr h
  · rintro (h | h)
    · exact Or.inl (Or.inl ⟨rfl, h⟩)
    · exact Or.inr (Or.inr (Or.inr ⟨h, rfl⟩))

theorem xor_parity (c1 c2 : Nat) :
    (c1 + c2) % 2 = 1 ↔ Xor' (c1 % 2 = 1) (c2 % 2 = 1) := by
  unfold Xor'
  omega

theorem xor_contract (Hh Lv Lit Mm O : Prop) (hL : Lit ↔ O) (hM : Mm ↔ Xor' Lv O) :
    Xor' (Xor' Hh Lv) (Xor' False Lit) ↔ Xor' Hh Mm := by
  unfold Xor' at *
  by_cases h1 : Hh <;> by_cases h2 : Lv <;> by_cases h3 : O <;>
    simp [h1, h2, h3, hL, hM]

/-- The equation of the edge parity under the contraction of the loop entry `it`
into a loop neighbour `iv`, in terms of indices: `it :: M` is the loop before, `M`
the loop after, and the faces are reindexed with the degenerate ones dropped. -/
theorem contract_loop_parity (H M : List Int) (faces : List Face3) (it iv ip inx : Int)
    (hM : M.Nodup) (h3 : 3 ≤ M.length) (hh : M.head? = some inx)
    (hl : M.getLast? = some ip) (hV : it ∉ M) (hH : it ∉ H) (hiv : iv = ip ∨ iv = inx)
    (hd : ∀ f ∈ faces, f.Distinct)
    (hpar : ∀ a b : Int, a ≠ b →
      (edgeCount faces a b % 2 = 1 ↔ Xor' (loopEdge H a b) (loopEdge (it :: M) a b)))
    (a0 b0 : Int) (ha : a0 ≠ it) (hb : b0 ≠ it) (hab : a0 ≠ b0) :
    edgeCount ((faces.map (reindexFace it iv)).filter (fun f => decide f.Distinct))
        (reindex it it a0) (reindex it it b0) % 2 = 1 ↔
      Xor' (loopEdge H a0 b0) (loopEdge M a0 b0) := by
  obtain ⟨hne, hNx, hP⟩ := head_ne_last M inx ip hM (by omega) hh hl
  have hivM : iv ∈ M := by
    rcases hiv with h | h
    · rw [h]; exact hP
    · rw [h]; exact hNx
  have hivt : iv ≠ it := fun h => hV (h ▸ hivM)
  have hipt : ip ≠ it := fun h => hV (h ▸ hP)
  have hint : inx ≠ it := fun h => hV (h ▸ hNx)
  have key : ∀ y : Int, y ≠ it → y ≠ iv →
      (edgeCount ((faces.map (reindexFace it iv)).filter (fun f => decide f.Distinct))
          (reindex it it iv) (reindex it it y) % 2 = 1 ↔
        Xor' (loopEdge H iv y) (loopEdge M iv y)) := by
    intro y hy hyv
    rw [contract_count_target faces it iv y hd hivt hy hyv, xor_parity,
      hpar iv y (Ne.symm hyv), hpar it y (Ne.symm hy)]
    have hface : (Face3.mk it ip inx).hasEdge iv y = true ↔ (y = inx ∨ y = ip) := by
      rw [hasEdge_slots]
      simp only
      rcases hiv with h | h <;> omega
    have hHit : loopEdge H it y ↔ False :=
      iff_false_intro (not_loopEdge_of_not_mem H it y hH)
    rw [hHit]
    refine xor_contract _ _ _ _ (y = inx ∨ y = ip)
      (loopEdge_cons_self M it inx ip y hh hl hV hy) ?_
    rw [← hface]
    exact loopEdge_remove M it inx ip iv y hM h3 hh hl hV (Ne.symm hyv)
  by_cases hav : a0 = iv
  · rw [hav]
    exact key b0 hb (fun h => hab (hav.trans h.symm))
  · by_cases hbv : b0 = iv
    · rw [hbv, edgeCount_comm, loopEdge_comm H, loopEdge_comm M]
      exact key a0 ha hav
    · rw [contract_count_plain faces it iv a0 b0 hd hivt ha hb hab hav hbv, hpar a0 b0 hab,
        loopEdge_remove M it inx ip a0 b0 hM h3 hh hl hV hab]
      have hface : ¬ ((Face3.mk it ip inx).hasEdge a0 b0 = true) := by
        rw [hasEdge_slots]
        simp only
        rcases hiv with h | h <;> omega
      unfold Xor'
      by_cases h1 : loopEdge H a0 b0 <;> by_cases h2 : loopEdge (it :: M) a0 b0 <;>
        simp [h1, h2, hface]

/-- The merge of the front vertex `t` into a front neighbour `v` and the edge
parity, in terms of the split front: `t` leaves the front and the filling, and the
faces are reindexed. -/
theorem merge_edge_parity (hole F l1 l2 : List Vector3) (faces : List Face3)
    (tp t tn v : Vector3)
    (hnd : (l1 ++ t :: l2).Nodup) (hsub : ∀ u ∈ l1 ++ t :: l2, u ∈ F)
    (h4 : 4 ≤ (l1 ++ t :: l2).length) (hc : IsCorner (l1 ++ t :: l2) tp t tn)
    (hv : v = tp ∨ v = tn) (hF : F.Nodup) (hhole : ∀ u ∈ hole, u ∈ F) (hth : t ∉ hole)
    (hd : ∀ f ∈ faces, f.Distinct)
    (hpar : EdgeParity hole ⟨l1 ++ t :: l2, []⟩ ⟨F, faces⟩) :
    EdgeParity hole ⟨l1 ++ l2, []⟩
      ⟨F.erase t, (faces.map (reindexFace (arrIndexOf F t) (arrIndexOf F v))).filter
        (fun f => decide f.Distinct)⟩ := by
  obtain ⟨hM, hlen, hh, hl, hV, -, -⟩ := corner_indices F l1 l2 tp t tn hnd hsub (by omega) hc
  have htF : t ∈ F := hsub t (List.mem_append_right _ (List.mem_cons_self _ _))
  have hnd1 : (t :: (l1 ++ l2)).Nodup := List.nodup_middle.1 hnd
  have htl : t ∉ l1 ++ l2 := (List.nodup_cons.1 hnd1).1
  have hsub1 : ∀ u ∈ l1 ++ l2, u ∈ F := by
    intro u hu
    apply hsub
    rcases List.mem_append.1 hu with h | h
    · exact List.mem_append_left _ h
    · exact List.mem_append_right _ (List.mem_cons_of_mem _ h)
  have hH : arrIndexOf F t ∉ hole.map (arrIndexOf F) := by
    intro h
    obtain ⟨u, hu, hux⟩ := List.mem_map.1 h
    by_cases hne : u = t
    · exact hth (hne ▸ hu)
    · exact arrIndexOf_inj F u t (hhole u hu) htF hne hux
  have hL : arrIndexOf F t ∉ (l1 ++ l2).map (arrIndexOf F) := by
    intro h
    apply hV
    rw [List.map_append] at h ⊢
    rcases List.mem_append.1 h with h | h
    · exact List.mem_append_right _ h
    · exact List.mem_append_left _ h
  have hiv : arrIndexOf F v = arrIndexOf F tp ∨ arrIndexOf F v = arrIndexOf F tn := by
    rcases hv with h | h
    · exact Or.inl (by rw [h])
    · exact Or.inr (by rw [h])
  have hold : ∀ a b : Int, a ≠ b →
      (edgeCount faces a b % 2 = 1 ↔
        Xor' (loopEdge (hole.map (arrIndexOf F)) a b)
          (loopEdge (arrIndexOf F t :: (l2 ++ l1).map (arrIndexOf F)) a b)) := by
    intro a b hab
    have hp := hpar a b hab
    simp only [indicesOf, List.map_append, List.map_cons] at hp
    rw [loopEdge_split] at hp
    rw [List.map_append]
    exact hp
  intro a b hab
  obtain ⟨a0, ha0, rfl⟩ := shift_surj (arrIndexOf F t) a
  obtain ⟨b0, hb0, rfl⟩ := shift_surj (arrIndexOf F t) b
  have hab0 : a0 ≠ b0 := fun h => hab (by rw [h])
  simp only [indicesOf]
  rw [indices_erase F hole t hF htF hhole hth, indices_erase F (l1 ++ l2) t hF htF hsub1 htl,
    loopEdge_shift _ _ _ _ hH ha0 hb0, loopEdge_shift _ _ _ _ hL ha0 hb0, List.map_append,
    loopEdge_split, ← List.map_append]
  exact contract_loop_parity _ _ faces _ _ _ _ hM (by omega) hh hl hV hH hiv hd hold
    a0 b0 ha0 hb0 hab0

/-- The merge of the front entry at position `j` into its front neighbour `v`, with
the hole loop as the ignore list, keeps the vertices of the hole in the filling and
the equation of the edge parity. -/
theorem mergeNeighbour_parity (E : Env) (v : Vector3) (hole : List Vector3)
    (s s1 : MergeState) (ring : List Nat) (j : Nat)
    (hok : FillOk E s.af s.front s.filling ring) (hn : 4 ≤ s.front.vertices.length)
    (hj : j < s.front.vertices.length)
    (hadj : v = s.front.vertices.getD (cycPrev s.front.vertices.length j) default ∨
      v = s.front.vertices.getD (cycNext s.front.vertices.length j) default)
    (hh : ∀ u ∈ hole, u ∈ s.filling.vertices) (hp : EdgeParity hole s.front s.filling)
    (h : mergeNeighbour E v hole s (some (s.front.vertices.getD j default))
      = Except.ok s1) :
    (∀ u ∈ hole, u ∈ s1.filling.vertices) ∧ EdgeParity hole s1.front s1.filling := by
  rcases mergeNeighbour_fill E v hole s s1 ring j hok (by omega) hj hadj h
    with hs | ⟨hign, hfront, hfill, hfaces, -⟩
  · rw [hs]
    exact ⟨hh, hp⟩
  · obtain ⟨hnd, hsub, hfnd, -, -, -, hvalid⟩ := hok
    have hsplit : s.front.vertices
        = s.front.vertices.take j ++ s.front.vertices.getD j default ::
          s.front.vertices.drop (j + 1) := by
      rw [List.getD_eq_getElem _ _ hj, ← List.drop_eq_getElem_cons hj,
        List.take_append_drop]
    have herase : s.front.vertices.eraseIdx j
        = s.front.vertices.take j ++ s.front.vertices.drop (j + 1) :=
      List.eraseIdx_eq_take_drop_succ _ _
    have hcorner := isCorner_getD s.front.vertices j hj
    generalize s.front.vertices.getD j default = t at *
    generalize s.front.vertices.getD (cycPrev s.front.vertices.length j) default = tp at *
    generalize s.front.vertices.getD (cycNext s.front.vertices.length j) default = tn at *
    generalize s.front.vertices.take j = l1 at *
    generalize s.front.vertices.drop (j + 1) = l2 at *
    refine ⟨?_, ?_⟩
    · intro u hu
      rw [hfill]
      have hne : u ≠ t := by
        intro hc
        rw [hc] at hu
        exact hign hu
      exact (List.mem_erase_of_ne hne).2 (hh u hu)
    · have hp0 : EdgeParity hole ⟨l1 ++ t :: l2, []⟩
          ⟨s.filling.vertices, s.filling.faces⟩ :=
        edgeParity_congr hole s.front _ s.filling _ hsplit rfl hp
      rw [hsplit] at hnd hsub hn hcorner
      have hnew := merge_edge_parity hole s.filling.vertices l1 l2 s.filling.faces tp t tn v
        hnd hsub hn hcorner hadj hfnd hh hign (fun f hf => (hvalid f hf).1) hp0
      refine edgeParity_congr hole _ s1.front _ s1.filling ?_ ?_ hnew
      · rw [hfront, herase]
      · rw [← hfill, ← hfaces]

/-- The merge pass for a front vertex `v`, with the hole loop as the ignore list,
keeps the vertices of the hole in the filling and the equation of the edge
parity. -/
theorem mergeByDistance_parity (E : Env) (s s1 : MergeState) (v : Vector3)
    (hole : List Vector3) (ring : List Nat)
    (hok : FillOk E s.af s.front s.filling ring) (hn : 5 ≤ s.front.vertices.length)
    (hv : v ∈ s.front.vertices)
    (hh : ∀ u ∈ hole, u ∈ s.filling.vertices) (hp : EdgeParity hole s.front s.filling)
    (h : mergeByDistance E s (some v) hole = Except.ok s1) :
    (∀ u ∈ hole, u ∈ s1.filling.vertices) ∧ EdgeParity hole s1.front s1.filling := by
  obtain ⟨i, hi, hvi⟩ := exists_getD_of_mem _ v hv
  obtain ⟨hpl, hnl⟩ := cyc_lt s.front.vertices.length i (by omega) hi
  have hnd := hok.1
  have hvf : v ∈ s.filling.vertices := hok.2.1 v hv
  unfold mergeByDistance at h
  simp only at h
  rw [if_neg (by
    have := (arrIndexOf_nonneg_iff s.filling.vertices v).2 hvf
    omega)] at h
  rw [← hvi, compareNeighbours_eq _ hnd i hi, hvi] at h
  simp only [List.foldlM, bind_eq_ok] at h
  obtain ⟨a, ha, b, hb, h⟩ := h
  cases h
  have hadj1 : v = s.front.vertices.getD
      (cycNext s.front.vertices.length (cycPrev s.front.vertices.length i)) default := by
    rw [cycNext_cycPrev _ _ (by omega) hi, hvi]
  obtain ⟨hha, hpa⟩ := mergeNeighbour_parity E v hole s a ring _ hok (by omega) hpl
    (Or.inr hadj1) hh hp ha
  rcases mergeNeighbour_fill E v hole s a ring _ hok (by omega) hpl (Or.inr hadj1) ha
    with hs | ⟨-, hfront, -, -, hok1⟩
  · rw [hs] at hb
    have hadj2 : v = s.front.vertices.getD
        (cycPrev s.front.vertices.length (cycNext s.front.vertices.length i)) default := by
      rw [cycPrev_cycNext _ _ (by omega) hi, hvi]
    exact mergeNeighbour_parity E v hole s s1 ring _ hok (by omega) hnl (Or.inl hadj2)
      hh hp hb
  · obtain ⟨i1, j1, hi1, hj1, hgi, hgj, hij⟩ :=
      erase_prev_adjacent s.front.vertices i hi (by omega)
    have hlen : a.front.vertices.length = s.front.vertices.length - 1 := by
      rw [hfront, List.length_eraseIdx]
      rw [if_pos hpl]
    rw [← hfront] at hgi hgj
    rw [← hlen] at hi1 hj1 hij
    rw [← hgj] at hb
    have hadj2 : v = a.front.vertices.getD (cycPrev a.front.vertices.length j1) default := by
      rw [← hij, hgi, hvi]
    exact mergeNeighbour_parity E v hole a s1 _ j1 hok1 (by omega) hj1 (Or.inl hadj2)
      hha hpa hb

/-- The equation of the edge parity passes from the head of one round to the head
of the next. -/
theorem loopBody_parity (E : Env) (hole : List Vector3) (s s1 : LoopState) (ring : List Nat)
    (hok : FillOk E s.af s.front s.filling ring) (h3 : 3 ≤ s.front.vertices.length)
    (hh : ∀ u ∈ hole, u ∈ s.filling.vertices) (hp : EdgeParity hole s.front s.filling)
    (h : loopBody E hole s = Except.ok (Outcome.next s1)) :
    (∀ u ∈ hole, u ∈ s1.filling.vertices) ∧ EdgeParity hole s1.front s1.filling := by
  obtain ⟨h5, res, hres, hm⟩ := loopBody_next E hole s s1 h3 h
  obtain ⟨⟨ring1, hok1⟩, hnew, hpar⟩ := applyRules_step E hole (enterRound E s) res ring
    (enterRound_fill E s ring hok) (by rw [enterRound_front]; omega) hres
  rw [enterRound_front, enterRound_filling] at hpar
  obtain ⟨hh1, hp1⟩ := hpar (by omega) hh hp
  rcases hm with hm | ⟨-, -, e2, e3⟩
  · cases hv : res.vNew with
    | none =>
      rw [hv] at hm
      simp only [mergeByDistance, Except.ok.injEq, MergeState.mk.injEq] at hm
      obtain ⟨-, e2, e3⟩ := hm
      rw [← e2, ← e3]
      exact ⟨hh1, hp1⟩
    | some w =>
      rw [hv] at hm
      obtain ⟨hw, hlen⟩ := hnew w hv
      rw [enterRound_front] at hlen
      exact mergeByDistance_parity E ⟨res.af, res.front, res.filling⟩
        ⟨s1.af, s1.front, s1.filling⟩ w hole ring1 hok1 (by simp only; omega) hw hh1 hp1 hm
  · rw [e2, e3]
    exact ⟨hh1, hp1⟩

theorem stateAfter_parity (E : Env) (hole : List Vector3) (k : Nat) :
    ∀ s s1 : LoopState, 3 ≤ s.front.vertices.length →
      (∃ ring, FillOk E s.af s.front s.filling ring) →
      (∀ u ∈ hole, u ∈ s.filling.vertices) → EdgeParity hole s.front s.filling →
      stateAfter E hole k s = some s1 →
      (∀ u ∈ hole, u ∈ s1.filling.vertices) ∧ EdgeParity hole s1.front s1.filling := by
  induction k with
  | zero =>
    intro s s1 _ _ hh hp h
    cases h
    exact ⟨hh, hp⟩
  | succ k ih =>
    intro s s1 h3 hok hh hp h
    rw [stateAfter] at h
    split at h
    · rename_i s2 hb
      obtain ⟨ring, hok⟩ := hok
      obtain ⟨h32, hok2⟩ := loopBody_fill E hole s s2 ring hok h3 hb
      obtain ⟨hh2, hp2⟩ := loopBody_parity E hole s s2 ring hok h3 hh hp hb
      exact ih s2 s1 h32 hok2 hh2 hp2 h
    · cases h

/-- C5, with the hypothesis the code needs: for a hole loop of at least 3 vertices
no two of which share a key of `mergeVertices` (its coordinates rounded to 4
decimals), the initialisation of `afmStart` succeeds, and in the state at the head
of every round of the main loop, in the state a rule application leaves there
before the merge pass, and in the state `afmStart` returns, every face of
`filling.faces` has three pairwise distinct indices, each a valid position of
`filling.vertices`.  For the single operations, on a duplicate-free front whose
vertices are all in `filling.vertices`: a successful `afRule1`, `afRule2`,
`afRule3` at a corner `(vp, v, vn)` of a front of at least 3 vertices appends one,
two, one faces, `closeHole3` on a front of 3 vertices appends one face and
`closeHole4` on a front of 4 vertices two, every appended face with three pairwise
distinct valid indices; and after `updateFaces`, whatever the two indices are, no
face of the filling references the same index twice. -/
theorem fill_faces_valid (E : Env) (hole : List Vector3) (h3 : 3 ≤ hole.length)
    (hkeys : (hole.map E.mergeKey).Nodup) :
    (∃ s0, afmInit E hole = Except.ok s0 ∧
      ∀ k s, stateAfter E hole k s0 = some s →
        (∀ f ∈ s.filling.faces, f.Valid s.filling.vertices.length) ∧
        ∀ res, applyRules E (enterRound E s) = Except.ok res →
          ∀ f ∈ res.filling.faces, f.Valid res.filling.vertices.length) ∧
    (∀ fuel s, afmStart E hole fuel = Except.ok (some s) →
      ∀ f ∈ s.filling.faces, f.Valid s.filling.vertices.length) ∧
    (∀ front filling : Geometry, front.vertices.Nodup →
      (∀ u ∈ front.vertices, u ∈ filling.vertices) →
      (∀ vp v vn, 3 ≤ front.vertices.length → IsCorner front.vertices vp v vn →
        (∀ res, afRule1 E front filling vp v vn = Except.ok res → res.ok = true →
          ∃ f, res.filling.faces = filling.faces ++ [f] ∧
            f.Valid res.filling.vertices.length) ∧
        (∀ ref res, afRule2 E front filling vp v vn ref = Except.ok res →
          res.vNew.isSome →
          ∃ f g, res.filling.faces = filling.faces ++ [f, g] ∧
            f.Valid res.filling.vertices.length ∧ g.Valid res.filling.vertices.length) ∧
        (∀ d ref res, afRule3 E front filling vp v vn d ref = Except.ok res →
          res.vNew.isSome →
          ∃ f, res.filling.faces = filling.faces ++ [f] ∧
            f.Valid res.filling.vertices.length)) ∧
      (front.vertices.length = 3 →
        ∃ f, (closeHole3 front filling).faces = filling.faces ++ [f] ∧
          f.Valid (closeHole3 front filling).vertices.length) ∧
      (front.vertices.length = 4 →
        ∃ f g, (closeHole4 front filling).faces = filling.faces ++ [f, g] ∧
          f.Valid (closeHole4 front filling).vertices.length ∧
          g.Valid (closeHole4 front filling).vertices.length) ∧
      (∀ oldIndex newIndex, ∀ f ∈ (updateFaces filling oldIndex newIndex).faces,
        f.Distinct)) := by
  have hne : hole ≠ [] := by
    intro h
    rw [h] at h3
    cases h3
  obtain ⟨s0, h0, hfront, hfill, hok0⟩ := afmInit_fill E hole hne hkeys
  have hlen0 : 3 ≤ s0.front.vertices.length := by
    rw [hfront]
    exact h3
  have hrun : ∀ k s, stateAfter E hole k s0 = some s →
      3 ≤ s.front.vertices.length ∧ ∃ ring, FillOk E s.af s.front s.filling ring :=
    fun k s hs => stateAfter_fill E hole k s0 s hlen0 ⟨_, hok0⟩ hs
  refine ⟨⟨s0, h0, ?_⟩, ?_, ?_⟩
  · intro k s hs
    obtain ⟨hl, ring, hok⟩ := hrun k s hs
    refine ⟨hok.2.2.2.2.2.2, ?_⟩
    intro res hres
    obtain ⟨⟨ring1, hok1⟩, -⟩ := applyRules_step E hole (enterRound E s) res ring
      (enterRound_fill E s ring hok) (by rw [enterRound_front]; exact hl) hres
    exact hok1.2.2.2.2.2.2
  · intro fuel s h
    unfold afmStart at h
    rw [h0] at h
    obtain ⟨k, s2, hk, hfin⟩ := afmLoop_finished E hole fuel s0 s h
    obtain ⟨hl, ring, hok⟩ := hrun k s2 hk
    have hv := hok.2.2.2.2.2.2
    rcases loopBody_finished E hole s2 s hl hfin with ⟨-, e, -⟩ | ⟨-, e, -⟩
    · rw [e]
      exact hv
    · obtain ⟨-, c3, c4, -⟩ := faces_have_distinct_vertices E s2.front s2.filling hok.1 hok.2.1
      rcases e with ⟨e4, e⟩ | ⟨e3, e⟩
      · obtain ⟨f, g, hfg, hf, hg⟩ := c4 e4
        rw [e, hfg]
        intro x hx
        rcases List.mem_append.1 hx with hx | hx
        · exact hv x hx
        · simp only [List.mem_cons, List.mem_singleton, List.not_mem_nil, or_false] at hx
          rcases hx with hx | hx
          · rw [hx]; exact hf
          · rw [hx]; exact hg
      · obtain ⟨f, hfg, hf⟩ := c3 e3
        rw [e, hfg]
        intro x hx
        rcases List.mem_append.1 hx with hx | hx
        · exact hv x hx
        · rw [List.mem_singleton] at hx
          rw [hx]; exact hf
  · intro front filling hnd hsub
    exact faces_have_distinct_vertices E front filling hnd hsub

/-- An instance of C5: the fill of the loop of five vertices, with the key of
`THREE.Geometry.mergeVertices` and all corners at 60 degrees, returns three faces,
each with three pairwise distinct valid indices. -/
theorem fill_faces_valid_witness :
    ∃ s, afmStart envKeys hole5 2 = Except.ok (some s) ∧ s.filling.faces.length = 3 ∧
      ∀ f ∈ s.filling.faces, f.Valid s.filling.vertices.length :=
  ⟨_, rfl, rfl, (fill_faces_valid envKeys hole5 (by decide) (by decide)).2.1 2 _ rfl⟩

/-- A counterexample to C4 as stated: the fill of the loop `holeNear4` of four
distinct vertices, of which `mergeVertices` leaves three, ends in its first round
by `closeHole3` with the one face `(1, 0, 2)` on the vertices v0, v2, v3.  The edge
between the filling vertices 0 and 1 (v0 and v2) lies in exactly one face, but v0
and v2 are not consecutive in the input loop, whose second vertex v1 is not in
the filling (index -1). -/
theorem afmStart_close_vertices_boundary :
    3 ≤ holeNear4.length ∧ holeNear4.Nodup ∧
    (afmStart envKeys holeNear4 1).toOption.join.map
        (fun s => (s.count, s.filling.faces, indicesOf s.filling holeNear4,
          edgeCount s.filling.faces 0 1,
          decide (loopEdge (indicesOf s.filling holeNear4) 0 1)))
      = some (1, [⟨1, 0, 2⟩], [0, -1, 1, 2], 1, false) := by
  refine ⟨by decide, by decide, by decide⟩

/-- C4, with the hypotheses the code needs and for the parity of the face count:
for a hole loop of at least 3 vertices no two of which share a key of
`mergeVertices` (its coordinates rounded to 4 decimals), if `afmStart` returns and
it was not the debug cap that ended the loop (so `closeHole3` or `closeHole4` did),
then, whatever the rules and the merge pass did on the way, an undirected edge lies
in an odd number of faces of the returned filling exactly if it is an edge between
cyclically consecutive vertices of the input loop; and if no edge lies in more
than two faces, the edges that lie in exactly one face are exactly the edges of
the input loop. -/
theorem fill_boundary_is_hole_loop (E : Env) (hole : List Vector3) (fuel : Nat)
    (s : LoopState) (h3 : 3 ≤ hole.length) (hkeys : (hole.map E.mergeKey).Nodup)
    (h : afmStart E hole fuel = Except.ok (some s))
    (hcap : ∀ stopIter, E.AFM_STOP_AFTER_ITER = some stopIter → s.count ≤ stopIter) :
    HoleParity hole s.filling ∧
    ((∀ a b : Int, a ≠ b → edgeCount s.filling.faces a b ≤ 2) →
      ∀ a b : Int, a ≠ b →
        (edgeCount s.filling.faces a b = 1 ↔ loopEdge (indicesOf s.filling hole) a b)) := by
  have hne : hole ≠ [] := by
    intro h
    rw [h] at h3
    cases h3
  obtain ⟨s0, h0, hfront, hfill, hok0⟩ := afmInit_fill E hole hne hkeys
  have hlen0 : 3 ≤ s0.front.vertices.length := by
    rw [hfront]
    exact h3
  have hpar : HoleParity hole s.filling := by
    unfold afmStart at h
    rw [h0] at h
    obtain ⟨k, s2, hk, hfin⟩ := afmLoop_finished E hole fuel s0 s h
    obtain ⟨hl, ring, hok⟩ := stateAfter_fill E hole k s0 s2 hlen0 ⟨_, hok0⟩ hk
    obtain ⟨-, hp⟩ := stateAfter_parity E hole k s0 s2 hlen0 ⟨_, hok0⟩
      (by rw [hfill]; exact fun u hu => hu)
      (by rw [hfront, hfill]; exact edgeParity_start hole) hk
    rcases loopBody_finished E hole s2 s hl hfin with ⟨hc, -, ec⟩ | ⟨-, e, -⟩
    · exfalso
      cases hst : E.AFM_STOP_AFTER_ITER with
      | none =>
        rw [hst] at hc
        cases hc
      | some n =>
        rw [hst] at hc
        simp only [Option.any_some, decide_eq_true_eq] at hc
        have := hcap n hst
        omega
    · rcases e with ⟨e4, e⟩ | ⟨e3, e⟩
      · rw [e]
        exact closeHole4_edge_parity hole s2.front s2.filling hok.1 hok.2.1 e4 hp
      · rw [e]
        exact closeHole3_edge_parity hole s2.front s2.filling hok.1 hok.2.1 e3 hp
  refine ⟨hpar, ?_⟩
  intro h2 a b hab
  rw [← hpar a b hab]
  have := h2 a b hab
  omega

/-- An instance of C4: the fill of the loop of five vertices, with the key of
`THREE.Geometry.mergeVertices`, all corners at 60 degrees and no merge: Rule 1 and
`closeHole4` leave three faces, and the edges in an odd number of them are the five
edges of the loop. -/
theorem fill_boundary_is_hole_loop_witness :
    ∃ s, afmStart envKeys hole5 2 = Except.ok (some s) ∧ s.filling.faces.length = 3 ∧
      HoleParity hole5 s.filling := by
  refine ⟨_, rfl, rfl, ?_⟩
  exact (fill_boundary_is_hole_loop envKeys hole5 2 _ (by decide) (by decide)
    rfl (by intro n hn; cases hn)).1

end AdvancingFront
